import Mathlib

/-!
# SuperLU: `zfgmr` (flexible GMRES, `EXAMPLE/zfgmr.c`) and `strsv_` (`CBLAS/strsv.c`)

A shallow embedding of the two routines in exact arithmetic over an ordered
field `R`, followed by theorems about the embedding.

Conventions of the embedding.

* A C `double`/`real` is an element of a linearly ordered field `R`; the routines are
  executable over `ℚ` and are reasoned about over any such field (`ℝ` included).
  The quotient `a / b` of two doubles is the field quotient (`a / 0 = 0`): a C
  double division does not trap. Complex division `z_div` is a library routine and
  returns `none` on a zero divisor.
* A C `int` is an `Int`; the two places where `zfgmr` computes with its counter
  (`its++` and `maxits + 10`) wrap to 32 bits through `wrap32`.
* A vector (`doublecomplex *`) is a total map `Nat → doublecomplex R` of which a
  loop `for (k = 0; k < n; k++)` touches the first `n` entries.
* The work buffers of `zfgmr` are total maps. For `im ≥ 1` every index the code
  forms lies inside the allocated extents; the two places where an index can leave
  its buffer (`vv[0]` when `im < 0`, `rs[i]`/`hh[i][i]` after `i--` when `im = 0`)
  are checked and reported as `Fault.index`.
* `while`/`do` loops without a syntactic bound take fuel; running out of fuel is
  reported as `Fault.fuel`.
* Fields marked *ghost* are not program variables: they count events of the run.
-/

namespace SuperLU

/-! ## Loops -/

/-- The loop `for (k = 0; k < cnt; k++) s = body k s`. -/
def forN {σ : Type} (cnt : Nat) (body : Nat → σ → σ) (s : σ) : σ :=
  match cnt with
  | 0 => s
  | k + 1 => body k (forN k body s)

/-- The loop `for (k = 0; k < cnt; k++) s = body k s` whose body may fail. -/
def forNM {σ : Type} (cnt : Nat) (body : Nat → σ → Option σ) (s : σ) : Option σ :=
  match cnt with
  | 0 => some s
  | k + 1 => (forNM k body s).bind (body k)

/-- Two's-complement wrap of an integer to the range of a 32-bit C `int`. -/
def wrap32 (x : Int) : Int := (x + 2147483648) % 4294967296 - 2147483648

/-- Update of entry `[i][j]` of a two-level buffer. -/
def set2 {α : Type} (a : Nat → Nat → α) (i j : Nat) (v : α) : Nat → Nat → α :=
  Function.update a i (Function.update (a i) j v)

/-! ## Complex arithmetic (`slu_dcomplex.h`) -/

/-- Modelled from the spec: the complex value type of `slu_dcomplex.h` (not under
`src/`), "one small value type (real, imaginary parts)". -/
structure doublecomplex (R : Type) where
  r : R
  i : R
deriving DecidableEq

section ComplexOps

variable {R : Type} [LinearOrderedField R]

/-- The constant `zero = {0.0, 0.0}` of `zfgmr`. -/
def czero : doublecomplex R := ⟨0, 0⟩

/-- The constant `one = {1.0, 0.0}` of `zfgmr`. -/
def cone : doublecomplex R := ⟨1, 0⟩

/-- Modelled from the spec: the macro `z_add(c, a, b)` of `slu_dcomplex.h`, complex
addition `c = a + b`. -/
def z_add (a b : doublecomplex R) : doublecomplex R := ⟨a.r + b.r, a.i + b.i⟩

/-- Modelled from the spec: the macro `z_sub(c, a, b)` of `slu_dcomplex.h`, complex
subtraction `c = a - b`. -/
def z_sub (a b : doublecomplex R) : doublecomplex R := ⟨a.r - b.r, a.i - b.i⟩

/-- Modelled from the spec: the macro `zz_mult(c, a, b)` of `slu_dcomplex.h`, complex
multiplication `c = a * b`. -/
def zz_mult (a b : doublecomplex R) : doublecomplex R :=
  ⟨a.r * b.r - a.i * b.i, a.i * b.r + a.r * b.i⟩

/-- Modelled from the spec: the macro `zd_mult(c, a, b)` of `slu_dcomplex.h`, scaling
of a complex number by a double, `c = a * b`. -/
def zd_mult (a : doublecomplex R) (b : R) : doublecomplex R := ⟨a.r * b, a.i * b⟩

/-- Modelled from the spec: the macro `zz_conj(a, b)` of `slu_dcomplex.h`, complex
conjugate `a = conj(b)`. -/
def zz_conj (b : doublecomplex R) : doublecomplex R := ⟨b.r, -b.i⟩

/-- Modelled from the spec: the routine `z_div(c, a, b)` of `dcomplex.c`, complex
division `c = a / b`; a zero-magnitude divisor is a failure (`none`). -/
def z_div (a b : doublecomplex R) : Option (doublecomplex R) :=
  if b.r = 0 ∧ b.i = 0 then none
  else some ⟨(a.r * b.r + a.i * b.i) / (b.r * b.r + b.i * b.i),
             (a.i * b.r - a.r * b.i) / (b.r * b.r + b.i * b.i)⟩

/-- Squared modulus of a complex number. -/
def cnormSq (a : doublecomplex R) : R := a.r * a.r + a.i * a.i

/-- Zero of the complex value type. -/
instance : Zero (doublecomplex R) := ⟨czero⟩

/-- One of the complex value type. -/
instance : One (doublecomplex R) := ⟨cone⟩

/-- Addition of the complex value type is `z_add`. -/
instance : Add (doublecomplex R) := ⟨z_add⟩

/-- Multiplication of the complex value type is `zz_mult`. -/
instance : Mul (doublecomplex R) := ⟨zz_mult⟩

/-- Negation of the complex value type, as in `negt.r = -tt.r; negt.i = -tt.i`. -/
instance : Neg (doublecomplex R) := ⟨fun a => ⟨-a.r, -a.i⟩⟩

/-- The complex numbers over `R` form a commutative ring under `z_add`, `zz_mult`. -/
instance instCommRingDoublecomplex : CommRing (doublecomplex R) :=
  CommRing.ofMinimalAxioms
    (by rintro ⟨a, b⟩ ⟨c, d⟩ ⟨e, f⟩
        show z_add (z_add _ _) _ = z_add _ (z_add _ _)
        simp only [z_add, doublecomplex.mk.injEq]; constructor <;> ring)
    (by rintro ⟨a, b⟩
        show z_add czero _ = _
        simp [z_add, czero])
    (by rintro ⟨a, b⟩
        show z_add ⟨-a, -b⟩ ⟨a, b⟩ = czero
        simp [z_add, czero])
    (by rintro ⟨a, b⟩ ⟨c, d⟩ ⟨e, f⟩
        show zz_mult (zz_mult _ _) _ = zz_mult _ (zz_mult _ _)
        simp only [zz_mult, doublecomplex.mk.injEq]; constructor <;> ring)
    (by rintro ⟨a, b⟩ ⟨c, d⟩
        show zz_mult _ _ = zz_mult _ _
        simp only [zz_mult, doublecomplex.mk.injEq]; constructor <;> ring)
    (by rintro ⟨a, b⟩
        show zz_mult cone _ = _
        simp [zz_mult, cone])
    (by rintro ⟨a, b⟩ ⟨c, d⟩ ⟨e, f⟩
        show zz_mult _ (z_add _ _) = z_add (zz_mult _ _) (zz_mult _ _)
        simp only [zz_mult, z_add, doublecomplex.mk.injEq]; constructor <;> ring)

end ComplexOps

/-! ## Vectors and the BLAS level-1 kernels -/

/-- A `doublecomplex *` vector. -/
abbrev Vec (R : Type) := Nat → doublecomplex R

section Kernels

variable {R : Type} [LinearOrderedField R]

/-- Modelled from the spec: BLAS `zcopy_(&n, x, &1, y, &1)` (not under `src/`),
copy of the first `n` entries of `x` into `y`. -/
def zcopy_ (n : Nat) (x y : Vec R) : Vec R :=
  fun k => if k < n then x k else y k

/-- Modelled from the spec: BLAS `zaxpy_(&n, &a, x, &1, y, &1)` (not under `src/`),
the scaled add `y := y + a * x` on the first `n` entries. -/
def zaxpy_ (n : Nat) (a : doublecomplex R) (x y : Vec R) : Vec R :=
  fun k => if k < n then z_add (y k) (zz_mult a (x k)) else y k

/-- The inlined conjugate inner product of `zfgmr` (lines 188-193 and 212-217):
`tt = zero; for (k = 0; k < n; ++k) tt += conj(x[k]) * y[k]`. -/
def zdotc (n : Nat) (x y : Vec R) : doublecomplex R :=
  forN n (fun k tt => z_add tt (zz_mult (zz_conj (x k)) (y k))) czero

/-- Sum of the squared moduli of the first `n` entries of a vector. -/
def nrmSq (n : Nat) (x : Vec R) : R :=
  forN n (fun k acc => acc + cnormSq (x k)) 0

/-- The numeric routines that `zfgmr` calls and that are not under `src/`: BLAS
`dznrm2_` (Euclidean norm of the first `n` entries, stride 1) and `z_abs1`
(magnitude of a complex number used for the residual estimate). They are parameters
of the embedding. -/
structure Ext (R : Type) where
  dznrm2_ : Nat → Vec R → R
  z_abs1 : doublecomplex R → R

/-- The norm parameter is the Euclidean norm: non-negative with the right square. -/
def ExactNorm (ext : Ext R) : Prop :=
  ∀ (n : Nat) (x : Vec R), 0 ≤ ext.dznrm2_ n x ∧ ext.dznrm2_ n x * ext.dznrm2_ n x = nrmSq n x

end Kernels


/-! ## `zfgmr` -/

section Zfgmr

variable {R : Type} [LinearOrderedField R]

/-- The work buffers of `zfgmr`: `vv` (Arnoldi basis, `im+1` rows), `hh` (Hessenberg
columns, row `i` has `i+2` entries), `z` (preconditioned vectors, `im` rows), the
rotation coefficients `c`, `s` and the rotated right-hand side `rs`. -/
structure Work (R : Type) where
  vv : Nat → Vec R
  hh : Nat → Nat → doublecomplex R
  z : Nat → Vec R
  c : Nat → doublecomplex R
  s : Nat → doublecomplex R
  rs : Nat → doublecomplex R

/-- The operator callback `zmatvec(alpha, x, beta, y)`: the new content of `y`. -/
abbrev MatVec (R : Type) := doublecomplex R → Vec R → doublecomplex R → Vec R → Vec R

/-- The preconditioner callback `zpsolve(n, z, v)`: the new content of `z`. -/
abbrev PSolve (R : Type) := Nat → Vec R → Vec R → Vec R

/-- Body of the first Gram-Schmidt loop, lines 182-199:
`tt = <vv[j], vv[i1]>; hh[i][j] = tt; vv[i1] -= tt * vv[j]`. -/
def gsFirst (n i : Nat) (j : Nat) (w : Work R) : Work R :=
  let tt := zdotc n (w.vv j) (w.vv (i + 1))
  let negt : doublecomplex R := ⟨-tt.r, -tt.i⟩
  { w with
    hh := set2 w.hh i j tt
    vv := Function.update w.vv (i + 1) (zaxpy_ n negt (w.vv j) (w.vv (i + 1))) }

/-- Body of the reorthogonalization loop, lines 206-223:
`tt = <vv[j], vv[i1]>; hh[i][j] += tt; vv[i1] -= tt * vv[j]`. -/
def gsAgain (n i : Nat) (j : Nat) (w : Work R) : Work R :=
  let tt := zdotc n (w.vv j) (w.vv (i + 1))
  let negt : doublecomplex R := ⟨-tt.r, -tt.i⟩
  { w with
    hh := set2 w.hh i j (z_add (w.hh i j) tt)
    vv := Function.update w.vv (i + 1) (zaxpy_ n negt (w.vv j) (w.vv (i + 1))) }

/-- The loop `while (t < 0.5 * t0)` of lines 203-225; one unit of fuel per executed
pass, `none` when the fuel does not suffice. Returns the final `t` and buffers. -/
def reorth (ext : Ext R) (n i : Nat) : Nat → R → R → Work R → Option (R × Work R)
  | 0, t0, t, w => if t < (1 / 2) * t0 then none else some (t, w)
  | f + 1, t0, t, w =>
    if t < (1 / 2) * t0 then
      let w1 := forN (i + 1) (gsAgain n i) w
      reorth ext n i f t (ext.dznrm2_ n (w1.vv (i + 1))) w1
    else some (t, w)

/-- Lines 165-236 of the inner-loop body: preconditioning, operator application,
modified Gram-Schmidt with reorthogonalization, `hh[i][i1] = t`, normalization. -/
def arnoldi (fuel : Nat) (ext : Ext R) (n : Nat) (zmatvec : MatVec R)
    (zpsolve : Option (PSolve R)) (i : Nat) (w : Work R) : Option (Work R) :=
  let zi : Vec R :=
    match zpsolve with
    | some p => p n (w.z i) (w.vv i)
    | none => zcopy_ n (w.vv i) (w.z i)
  let w1 : Work R := { w with z := Function.update w.z i zi }
  let w2 : Work R :=
    { w1 with vv := Function.update w1.vv (i + 1) (zmatvec cone (w1.z i) czero (w1.vv (i + 1))) }
  let t0 := ext.dznrm2_ n (w2.vv (i + 1))
  let w3 := forN (i + 1) (gsFirst n i) w2
  let t := ext.dznrm2_ n (w3.vv (i + 1))
  match reorth ext n i fuel t0 t w3 with
  | none => none
  | some (t, w4) =>
    let w5 : Work R := { w4 with hh := set2 w4.hh i (i + 1) ⟨t, 0⟩ }
    if t ≠ 0 then
      some { w5 with
        vv := Function.update w5.vv (i + 1)
          (fun k => if k < n then zd_mult (w5.vv (i + 1) k) (1 / t) else w5.vv (i + 1) k) }
    else some w5

/-- Body of the loop of lines 245-256 for `k = m + 1`: the rotation `(c[k1], s[k1])`,
`k1 = k - 1`, applied to the pair `hh[i][k1]`, `hh[i][k]`. -/
def rotatePrev (i : Nat) (m : Nat) (w : Work R) : Work R :=
  let k := m + 1
  let k1 := m
  let tt := w.hh i k1
  let h1 := set2 w.hh i k1 (z_add (zz_mult (w.c k1) tt) (zz_mult (w.s k1) (w.hh i k)))
  let h2 := set2 h1 i k (z_sub (zz_mult (w.c k1) (h1 i k)) (zz_mult (w.s k1) tt))
  { w with hh := h2 }

/-- Lines 245-289 of the inner-loop body: previous rotations applied to column `i`,
the new rotation, the update of `rs` and `hh[i][i]`; returns the buffers and the
residual estimate `beta = z_abs1(&rs[i1])`. -/
def givens (ext : Ext R) (i : Nat) (w : Work R) : Work R × R :=
  let w1 := forN i (rotatePrev i) w
  let gam := ext.dznrm2_ 2 (fun k => w1.hh i (i + k))
  let w2 : Work R :=
    if gam = 0 then
      { w1 with c := Function.update w1.c i cone, s := Function.update w1.s i czero }
    else
      let g := 1 / gam
      { w1 with
        c := Function.update w1.c i (zd_mult (w1.hh i i) g)
        s := Function.update w1.s i (zd_mult (w1.hh i (i + 1)) g) }
  let p := zz_mult (w2.s i) (w2.rs i)
  let rs1 := Function.update w2.rs (i + 1) ⟨-p.r, -p.i⟩
  let rs2 := Function.update rs1 i (zz_mult (w2.c i) (rs1 i))
  let w3 : Work R := { w2 with rs := rs2 }
  let w4 : Work R :=
    { w3 with
      hh := set2 w3.hh i i
        (z_add (zz_mult (w3.c i) (w3.hh i i)) (zz_mult (w3.s i) (w3.hh i (i + 1)))) }
  (w4, ext.z_abs1 (w4.rs (i + 1)))

/-- The program state carried around the outer loop. -/
structure State (R : Type) where
  /-- The in/out argument `sol`. -/
  sol : Vec R
  /-- The local `its`. -/
  its : Int
  /-- The local `eps1`. -/
  eps1 : R
  /-- The work buffers. -/
  work : Work R
  /-- Ghost: number of executions of the inner-loop body so far. -/
  inner : Nat
  /-- Ghost: number of calls of `zmatvec` so far. -/
  matvecs : Nat
  /-- Ghost: the index `i` used by the last back-substitution. -/
  lasti : Nat

/-- The inner loop `for (i = 0; i < im; i++)` of lines 160-294, started at index `i`
with `k = im - i` iterations left. Returns the state and the value of `i` at loop
exit (`im` when the loop ran to completion); `none` when fuel ran out. -/
def innerLoop (fuel : Nat) (ext : Ext R) (n : Nat) (zmatvec : MatVec R)
    (zpsolve : Option (PSolve R)) (maxits : Int) :
    Nat → Nat → State R → Option (State R × Nat)
  | 0, i, st => some (st, i)
  | k + 1, i, st =>
    let its := wrap32 (st.its + 1)
    match arnoldi fuel ext n zmatvec zpsolve i st.work with
    | none => none
    | some w =>
      let wb := givens ext i w
      let st1 : State R :=
        { st with its := its, work := wb.1, inner := st.inner + 1, matvecs := st.matvecs + 1 }
      if wb.2 ≤ st.eps1 ∨ its ≥ maxits then some (st1, i)
      else innerLoop fuel ext n zmatvec zpsolve maxits k (i + 1) st1

/-- The inner sum of the back-substitution, lines 304-308:
`tt = rs[k]; for (j = k + 1; j <= i; j++) tt -= hh[j][k] * rs[j]`. -/
def backSum (i k : Nat) (w : Work R) : doublecomplex R :=
  forN (i - k) (fun m tt => z_sub tt (zz_mult (w.hh (k + 1 + m) k) (w.rs (k + 1 + m)))) (w.rs k)

/-- Back-substitution, lines 299-310; `none` when `z_div` meets a zero divisor. -/
def backSolve (i : Nat) (w : Work R) : Option (Work R) :=
  (z_div (w.rs i) (w.hh i i)).bind fun q =>
    forNM i (fun m w1 =>
        let k := i - (m + 1)
        (z_div (backSum i k w1) (w1.hh k k)).map fun q1 =>
          { w1 with rs := Function.update w1.rs k q1 })
      { w with rs := Function.update w.rs i q }

/-- Solution update, lines 313-320: `sol += rs[j] * z[j]` for `j = 0..i`. -/
def updateSol (n i : Nat) (w : Work R) (sol : Vec R) : Vec R :=
  forN (i + 1)
    (fun j sol1 => fun k => if k < n then z_add (sol1 k) (zz_mult (w.rs j) (w.z j k)) else sol1 k)
    sol

/-- The residual computation of lines 137-139 and 323-325:
`zmatvec(one, sol, zero, vv[0]); vv[0][j] = rhs[j] - vv[0][j]`. -/
def residual (n : Nat) (zmatvec : MatVec R) (rhs sol v0 : Vec R) : Vec R :=
  let y := zmatvec cone sol czero v0
  fun j => if j < n then z_sub (rhs j) (y j) else y j

/-- Ghost: the statement through which the outer loop was left. -/
inductive Exit where
  /-- The `break` of line 147 (initial convergence test). -/
  | initial
  /-- The `break` of line 335 (`its = maxits + 10`). -/
  | stagnation
  /-- The `break` of line 338 (`beta <= eps1`). -/
  | converged
  /-- The loop condition `its < maxits` of line 339 failed. -/
  | budget
deriving DecidableEq

/-- What `zfgmr` hands back: the return value, the value stored in `*itmax`, the
content of `sol`; and, as ghosts, the exit taken and the state at that moment. -/
structure Result (R : Type) where
  retval : Int
  itmax : Int
  sol : Vec R
  exit : Exit
  final : State R

/-- Ways in which a run does not return. -/
inductive Fault where
  /-- A buffer is indexed outside its allocated extent. -/
  | index
  /-- The routine `z_div` is called with a zero divisor. -/
  | divZero
  /-- The fuel of the embedding ran out (no statement about the program). -/
  | fuel
deriving DecidableEq

/-- Lines 341-358: `retval = (its >= maxits); ...; *itmax = its; return retval`. -/
def finish (maxits : Int) (e : Exit) (st : State R) : Result R :=
  { retval := if st.its ≥ maxits then 1 else 0, itmax := st.its, sol := st.sol,
    exit := e, final := st }

/-- Lines 137-140: the true residual goes to `vv[0]`, `beta` is its norm. -/
def initResidual (ext : Ext R) (n : Nat) (zmatvec : MatVec R) (rhs : Vec R) (st : State R) :
    State R × R :=
  let v0 := residual n zmatvec rhs st.sol (st.work.vv 0)
  ({ st with work := { st.work with vv := Function.update st.work.vv 0 v0 },
             matvecs := st.matvecs + 1 },
   ext.dznrm2_ n v0)

/-- Lines 148-158: `vv[0]` is normalized, `eps1` is set on the first pass, `rs[0] = beta`. -/
def prepare (n : Nat) (tol beta : R) (st : State R) : State R :=
  let t := 1 / beta
  let v0 := st.work.vv 0
  let v0n : Vec R := fun j => if j < n then zd_mult (v0 j) t else v0 j
  { st with
    eps1 := if st.its = 0 then tol * beta else st.eps1
    work := { st.work with vv := Function.update st.work.vv 0 v0n,
                           rs := Function.update st.work.rs 0 ⟨beta, 0⟩ } }

/-- Line 296, `if (i == im) i--;`, applied to the value of `i` at inner-loop exit. -/
def clampIndex (im : Int) (iend : Nat) : Int :=
  if (iend : Int) = im then (iend : Int) - 1 else iend

/-- Lines 299-328: back-substitution, solution update, true residual in `vv[0]` and
its norm `beta`. -/
def solveUpdate (ext : Ext R) (n : Nat) (zmatvec : MatVec R) (rhs : Vec R) (i : Nat)
    (st : State R) : Option (State R × R) :=
  (backSolve i st.work).map fun w4 =>
    let sol := updateSol n i w4 st.sol
    let r0 := residual n zmatvec rhs sol (w4.vv 0)
    ({ st with sol := sol, work := { w4 with vv := Function.update w4.vv 0 r0 },
               matvecs := st.matvecs + 1, lasti := i },
     ext.dznrm2_ n r0)

/-- How one pass of the outer loop ends: the loop is left through exit `e`, or the
loop condition `its < maxits` held and another pass follows. -/
inductive PassOut (R : Type) where
  | exit (e : Exit) (st : State R)
  | again (st : State R)

/-- Lines 330-339: the checks after the solution update and the loop condition. -/
def restartCheck (tol : R) (maxits : Int) (beta : R) (st : State R) : PassOut R :=
  if ¬ (beta < st.eps1 / tol) then
    .exit .stagnation { st with its := wrap32 (maxits + 10) }
  else if beta ≤ st.eps1 then .exit .converged st
  else if st.its < maxits then .again st
  else .exit .budget st

/-- One pass of the body of the outer loop, lines 135-339. -/
def outerPass (fuel : Nat) (ext : Ext R) (n : Nat) (zmatvec : MatVec R)
    (zpsolve : Option (PSolve R)) (rhs : Vec R) (tol : R) (im : Int) (maxits : Int)
    (st : State R) : Except Fault (PassOut R) :=
  if im < 0 then .error .index
  else
    let sb := initResidual ext n zmatvec rhs st
    if ¬ (sb.2 > tol * ext.dznrm2_ n rhs) then .ok (.exit .initial sb.1)
    else
      match innerLoop fuel ext n zmatvec zpsolve maxits im.toNat 0 (prepare n tol sb.2 sb.1) with
      | none => .error .fuel
      | some (st3, iend) =>
        if clampIndex im iend < 0 then .error .index
        else
          match solveUpdate ext n zmatvec rhs (clampIndex im iend).toNat st3 with
          | none => .error .divZero
          | some (st4, beta1) => .ok (restartCheck tol maxits beta1 st4)

/-- The outer loop `do ... while (its < maxits)` of lines 134-339 followed by the
epilogue of lines 341-358; one unit of fuel per outer pass. -/
def outerLoop (fuel : Nat) (ext : Ext R) (n : Nat) (zmatvec : MatVec R)
    (zpsolve : Option (PSolve R)) (rhs : Vec R) (tol : R) (im : Int) (maxits : Int) :
    Nat → State R → Except Fault (Result R)
  | 0, _ => .error .fuel
  | f + 1, st =>
    match outerPass fuel ext n zmatvec zpsolve rhs tol im maxits st with
    | .error e => .error e
    | .ok (.exit e st1) => .ok (finish maxits e st1)
    | .ok (.again st1) => outerLoop fuel ext n zmatvec zpsolve rhs tol im maxits f st1

/-- Buffers as they are before the first write of `zfgmr`. Every entry is written
before it is read, so the initial content is immaterial. -/
def Work.init : Work R :=
  { vv := fun _ _ => czero, hh := fun _ _ => czero, z := fun _ _ => czero,
    c := fun _ => czero, s := fun _ => czero, rs := fun _ => czero }

/-- The routine `zfgmr(n, zmatvec, zpsolve, rhs, sol, tol, im, itmax, fits)` with
`maxits = *itmax` on entry and `fits = NULL`. -/
def zfgmr (fuel : Nat) (ext : Ext R) (n : Nat) (zmatvec : MatVec R)
    (zpsolve : Option (PSolve R)) (rhs sol : Vec R) (tol : R) (im : Int) (maxits : Int) :
    Except Fault (Result R) :=
  outerLoop fuel ext n zmatvec zpsolve rhs tol im maxits fuel
    { sol := sol, its := 0, eps1 := 0, work := Work.init, inner := 0, matvecs := 0, lasti := 0 }

end Zfgmr

/-! ## `strsv_` -/

section Strsv

variable {R : Type} [LinearOrderedField R]

/-- The macro `X(I)`, `x[(I)-1]`, as a read. -/
def X (x : Int → R) (I : Int) : R := x (I - 1)

/-- The macro `X(I)`, `x[(I)-1]`, as an assignment `X(I) = v`. -/
def setX (x : Int → R) (I : Int) (v : R) : Int → R := Function.update x (I - 1) v

/-- The macro `A(I,J)`, `a[(I)-1 + ((J)-1) * (*lda)]`. -/
def A (a : Int → R) (lda : Int) (I J : Int) : R := a ((I - 1) + (J - 1) * lda)

/-- Lines 179-191 (loop ending at `L20`): `x := inv(A) x`, `A` upper, `incx == 1`. -/
def loop20 (nounit : Bool) (n : Nat) (a : Int → R) (lda : Int) (x : Int → R) : Int → R :=
  forN n (fun m x =>
    let j : Nat := n - m
    if X x j ≠ 0 then
      let x1 := if nounit then setX x j (X x j / A a lda j j) else x
      let temp := X x1 j
      forN (j - 1) (fun q x2 =>
        let i : Nat := j - 1 - q
        setX x2 i (X x2 i - temp * A a lda i j)) x1
    else x) x

/-- Lines 193-209 (loop ending at `L40`): `x := inv(A) x`, `A` upper, general `incx`. -/
def loop40 (nounit : Bool) (n : Nat) (a : Int → R) (lda : Int) (incx kx : Int)
    (x : Int → R) : Int → R :=
  (forN n (fun m (s : (Int → R) × Int) =>
    let x := s.1
    let jx := s.2
    let j : Nat := n - m
    let x3 :=
      if X x jx ≠ 0 then
        let x1 := if nounit then setX x jx (X x jx / A a lda j j) else x
        let temp := X x1 jx
        (forN (j - 1) (fun q (t : (Int → R) × Int) =>
          let i : Nat := j - 1 - q
          let ix := t.2 - incx
          (setX t.1 ix (X t.1 ix - temp * A a lda i j), ix)) (x1, jx)).1
      else x
    (x3, jx - incx)) (x, kx + ((n : Int) - 1) * incx)).1

/-- Lines 213-225 (loop ending at `L60`): `x := inv(A) x`, `A` lower, `incx == 1`. -/
def loop60 (nounit : Bool) (n : Nat) (a : Int → R) (lda : Int) (x : Int → R) : Int → R :=
  forN n (fun m x =>
    let j : Nat := m + 1
    if X x j ≠ 0 then
      let x1 := if nounit then setX x j (X x j / A a lda j j) else x
      let temp := X x1 j
      forN (n - j) (fun q x2 =>
        let i : Nat := j + 1 + q
        setX x2 i (X x2 i - temp * A a lda i j)) x1
    else x) x

/-- Lines 227-243 (loop ending at `L80`): `x := inv(A) x`, `A` lower, general `incx`. -/
def loop80 (nounit : Bool) (n : Nat) (a : Int → R) (lda : Int) (incx kx : Int)
    (x : Int → R) : Int → R :=
  (forN n (fun m (s : (Int → R) × Int) =>
    let x := s.1
    let jx := s.2
    let j : Nat := m + 1
    let x3 :=
      if X x jx ≠ 0 then
        let x1 := if nounit then setX x jx (X x jx / A a lda j j) else x
        let temp := X x1 jx
        (forN (n - j) (fun q (t : (Int → R) × Int) =>
          let i : Nat := j + 1 + q
          let ix := t.2 + incx
          (setX t.1 ix (X t.1 ix - temp * A a lda i j), ix)) (x1, jx)).1
      else x
    (x3, jx + incx)) (x, kx)).1

/-- Lines 252-263 (loop ending at `L100`): `x := inv(A') x`, `A` upper, `incx == 1`. -/
def loop100 (nounit : Bool) (n : Nat) (a : Int → R) (lda : Int) (x : Int → R) : Int → R :=
  forN n (fun m x =>
    let j : Nat := m + 1
    let temp := forN (j - 1) (fun q temp =>
      let i : Nat := q + 1
      temp - A a lda i j * X x i) (X x j)
    let temp1 := if nounit then temp / A a lda j j else temp
    setX x j temp1) x

/-- Lines 265-280 (loop ending at `L120`): `x := inv(A') x`, `A` upper, general `incx`. -/
def loop120 (nounit : Bool) (n : Nat) (a : Int → R) (lda : Int) (incx kx : Int)
    (x : Int → R) : Int → R :=
  (forN n (fun m (s : (Int → R) × Int) =>
    let x := s.1
    let jx := s.2
    let j : Nat := m + 1
    let temp := (forN (j - 1) (fun q (t : R × Int) =>
      let i : Nat := q + 1
      (t.1 - A a lda i j * X x t.2, t.2 + incx)) (X x jx, kx)).1
    let temp1 := if nounit then temp / A a lda j j else temp
    (setX x jx temp1, jx + incx)) (x, kx)).1

/-- Lines 284-295 (loop ending at `L140`): `x := inv(A') x`, `A` lower, `incx == 1`. -/
def loop140 (nounit : Bool) (n : Nat) (a : Int → R) (lda : Int) (x : Int → R) : Int → R :=
  forN n (fun m x =>
    let j : Nat := n - m
    let temp := forN (n - j) (fun q temp =>
      let i : Nat := n - q
      temp - A a lda i j * X x i) (X x j)
    let temp1 := if nounit then temp / A a lda j j else temp
    setX x j temp1) x

/-- Lines 297-313 (loop ending at `L160`): `x := inv(A') x`, `A` lower, general `incx`;
`kx` is the value after `kx += (n - 1) * incx`. -/
def loop160 (nounit : Bool) (n : Nat) (a : Int → R) (lda : Int) (incx kx : Int)
    (x : Int → R) : Int → R :=
  (forN n (fun m (s : (Int → R) × Int) =>
    let x := s.1
    let jx := s.2
    let j : Nat := n - m
    let temp := (forN (n - j) (fun q (t : R × Int) =>
      let i : Nat := n - q
      (t.1 - A a lda i j * X x t.2, t.2 - incx)) (X x jx, kx)).1
    let temp1 := if nounit then temp / A a lda j j else temp
    (setX x jx temp1, jx - incx)) (x, kx)).1

/-- The routine `strsv_(uplo, trans, diag, n, a, lda, x, incx)`. The option arguments
are the first characters of the C strings (`strncmp(.., 1)`); `integer` is taken as an
unbounded integer (its declaration, `f2c.h`, is not under `src/`). The result is the
content of `x` on return, or `.error info` when `input_error` is called (then `x` is
untouched). For `incx == 1` the local `kx` is left unset by the code and never read;
the embedding gives it the value 1. -/
def strsv_ (uplo trans diag : Char) (n : Int) (a : Int → R) (lda : Int) (x : Int → R)
    (incx : Int) : Except Int (Int → R) :=
  let info : Int :=
    if uplo ≠ 'U' ∧ uplo ≠ 'L' then 1
    else if trans ≠ 'N' ∧ trans ≠ 'T' ∧ trans ≠ 'C' then 2
    else if diag ≠ 'U' ∧ diag ≠ 'N' then 3
    else if n < 0 then 4
    else if lda < max 1 n then 6
    else if incx = 0 then 8
    else 0
  if info ≠ 0 then .error info
  else if n = 0 then .ok x
  else
    let nounit : Bool := decide (diag = 'N')
    let kx : Int := if incx ≤ 0 then 1 - (n - 1) * incx else 1
    if trans = 'N' then
      if uplo = 'U' then
        if incx = 1 then .ok (loop20 nounit n.toNat a lda x)
        else .ok (loop40 nounit n.toNat a lda incx kx x)
      else
        if incx = 1 then .ok (loop60 nounit n.toNat a lda x)
        else .ok (loop80 nounit n.toNat a lda incx kx x)
    else
      if uplo = 'U' then
        if incx = 1 then .ok (loop100 nounit n.toNat a lda x)
        else .ok (loop120 nounit n.toNat a lda incx kx x)
      else
        if incx = 1 then .ok (loop140 nounit n.toNat a lda x)
        else .ok (loop160 nounit n.toNat a lda incx (kx + (n - 1) * incx) x)

end Strsv

/-! ## Specification vocabulary -/

section SpecDefs

variable {R : Type} [LinearOrderedField R]

/-- Counter invariant at the head of an inner-loop iteration and of an outer pass. -/
def CountInv (maxits : Int) (st : State R) : Prop :=
  st.its = (st.inner : Int) ∧ (st.its = 0 ∨ st.its < maxits)

/-- Counter invariant at the exit of the inner loop. -/
def CountPost (maxits : Int) (st : State R) : Prop :=
  st.its = (st.inner : Int) ∧ (st.inner : Int) ≤ max maxits 1

/-- What the counters of a returned result satisfy. -/
def CountResult (maxits : Int) (r : Result R) : Prop :=
  (r.exit ≠ Exit.stagnation → r.itmax = (r.final.inner : Int)) ∧
  (r.exit = Exit.stagnation → r.itmax = wrap32 (maxits + 10)) ∧
  (r.final.inner : Int) ≤ max maxits 1 ∧
  r.retval = (if r.itmax ≥ maxits then 1 else 0)

/-- What the counters satisfy at the end of one outer pass. -/
def PassCount (maxits : Int) : PassOut R → Prop
  | .exit e st =>
    (e ≠ Exit.stagnation → st.its = (st.inner : Int)) ∧
    (e = Exit.stagnation → st.its = wrap32 (maxits + 10)) ∧
    (st.inner : Int) ≤ max maxits 1
  | .again st => CountInv maxits st

/-- The external routines instantiated from a square-root function: `dznrm2_` is the
root of the sum of squared moduli. Modelled from the spec: `z_abs1` is the magnitude
`|z|` of the residual estimate. -/
def Ext.ofSqrt (sqrt : R → R) : Ext R :=
  { dznrm2_ := fun n x => sqrt (nrmSq n x), z_abs1 := fun z => sqrt (cnormSq z) }

/-- The identity operator as a `zmatvec` callback: `y := alpha * x + beta * y`. -/
def idOp : MatVec R :=
  fun a x b y k => z_add (zz_mult a (x k)) (zz_mult b (y k))

/-- A real diagonal operator as a `zmatvec` callback: `y := alpha * D x + beta * y`. -/
def diagOp (d : Nat → R) : MatVec R :=
  fun a x b y k => z_add (zz_mult a (zd_mult (x k) (d k))) (zz_mult b (y k))

/-- The exact inverse of `diagOp d` as a `zpsolve` callback: `z := D⁻¹ v`. -/
def diagInv (d : Nat → R) : PSolve R :=
  fun n z v k => if k < n then zd_mult (v k) (1 / d k) else z k

/-- The exchange matrix `[[0, 1], [1, 0]]` as a `zmatvec` callback on vectors of
length 2: `y := alpha * (x[1], x[0]) + beta * y`. -/
def swapOp : MatVec R :=
  fun a x b y k => if k < 2 then z_add (zz_mult a (x (1 - k))) (zz_mult b (y k)) else y k

/-- The first unit vector. -/
def unit0 : Vec R := fun k => if k = 0 then cone else czero

/-- The second unit vector. -/
def unit1 : Vec R := fun k => if k = 1 then cone else czero

/-- The zero vector. -/
def vzero : Vec R := fun _ => czero

/-- The body of either Gram-Schmidt loop: `gsFirst` (`first = true`) or `gsAgain`. -/
def gsStep (first : Bool) (n i j : Nat) (w : Work R) : Work R :=
  if first then gsFirst n i j w else gsAgain n i j w

/-- The vectors `V[0..m-1]` are orthonormal under the conjugate inner product. -/
def OrthoBasis (n : Nat) (V : Nat → Vec R) (m : Nat) : Prop :=
  ∀ a b, a < m → b < m → zdotc n (V a) (V b) = if a = b then 1 else 0

/-- The zero operator as a `zmatvec` callback: `y := alpha * 0 + beta * y`. -/
def zeroOp : MatVec R :=
  fun _ _ b y k => zz_mult b (y k)

/-- Buffers whose basis vectors all equal the first unit vector and whose other entries
are zero: a start state for examples. -/
def unitWork : Work R :=
  { vv := fun _ => unit0, hh := fun _ _ => czero, z := fun _ _ => czero,
    c := fun _ => czero, s := fun _ => czero, rs := fun _ => czero }

/-- One full reorthogonalization pass of lines 206-223 against `vv[0..i]`. -/
def reorthPass (n i : Nat) (w : Work R) : Work R := forN (i + 1) (gsAgain n i) w

/-- The buffers after `p` reorthogonalization passes. -/
def afterPasses (n i : Nat) (w : Work R) : Nat → Work R
  | 0 => w
  | p + 1 => reorthPass n i (afterPasses n i w p)

/-- The value of `t` after `p` reorthogonalization passes, `t` being its value on
entry to the loop. -/
def normAfter (ext : Ext R) (n i : Nat) (t : R) (w : Work R) : Nat → R
  | 0 => t
  | p + 1 => ext.dznrm2_ n ((afterPasses n i w (p + 1)).vv (i + 1))

/-- The value of `t0` at the loop test that follows `p` reorthogonalization passes:
the entry value before any pass, afterwards the value `t` had before the last pass. -/
def normBefore (ext : Ext R) (n i : Nat) (t0 t : R) (w : Work R) : Nat → R
  | 0 => t0
  | p + 1 => normAfter ext n i t w p

/-- The reorthogonalization rule in the words of the specification, for comparison
with `reorth`: a further pass is made while `t < 0.5 * t0` with `t0` fixed at the norm
recorded before the first Gram-Schmidt pass. -/
def reorthAsStated (ext : Ext R) (n i : Nat) : Nat → R → R → Work R → Option (R × Work R)
  | 0, t0, t, w => if t < (1 / 2) * t0 then none else some (t, w)
  | f + 1, t0, t, w =>
    if t < (1 / 2) * t0 then
      let w1 := forN (i + 1) (gsAgain n i) w
      reorthAsStated ext n i f t0 (ext.dznrm2_ n (w1.vv (i + 1))) w1
    else some (t, w)

/-- Buffers with `hh[0][0] = 3i`, `hh[0][1] = 4`, `hh[1][0] = 1`, `hh[1][1] = i`, the
Hessenberg columns that the Arnoldi steps 0 and 1 build for the operator
`[[3i, 1], [4, i]]` and `rhs = e0`; the other entries as in `unitWork`. -/
def rotWork : Work R :=
  { vv := fun _ => unit0,
    hh := fun r l => if r = 0 then (if l = 0 then ⟨0, 3⟩ else ⟨4, 0⟩)
      else (if l = 0 then ⟨1, 0⟩ else ⟨0, 1⟩),
    z := fun _ _ => czero, c := fun _ => czero, s := fun _ => czero, rs := fun _ => czero }

/-- The loop nest ending at `L20`/`L40` with the position of `X(j)` given by `p`:
column sweep `j = n..1` of the upper no-transpose case. -/
def loop20At (p : Nat → Int) (nounit : Bool) (n : Nat) (a : Int → R) (lda : Int)
    (x : Int → R) : Int → R :=
  forN n (fun m x =>
    let j : Nat := n - m
    if X x (p j) ≠ 0 then
      let x1 := if nounit then setX x (p j) (X x (p j) / A a lda j j) else x
      let temp := X x1 (p j)
      forN (j - 1) (fun q x2 =>
        let i : Nat := j - 1 - q
        setX x2 (p i) (X x2 (p i) - temp * A a lda i j)) x1
    else x) x

/-- The loop nest ending at `L60`/`L80` with the position of `X(j)` given by `p`:
column sweep `j = 1..n` of the lower no-transpose case. -/
def loop60At (p : Nat → Int) (nounit : Bool) (n : Nat) (a : Int → R) (lda : Int)
    (x : Int → R) : Int → R :=
  forN n (fun m x =>
    let j : Nat := m + 1
    if X x (p j) ≠ 0 then
      let x1 := if nounit then setX x (p j) (X x (p j) / A a lda j j) else x
      let temp := X x1 (p j)
      forN (n - j) (fun q x2 =>
        let i : Nat := j + 1 + q
        setX x2 (p i) (X x2 (p i) - temp * A a lda i j)) x1
    else x) x

/-- The loop nest ending at `L100`/`L120` with the position of `X(j)` given by `p`:
dot-product sweep `j = 1..n` of the upper transpose case. -/
def loop100At (p : Nat → Int) (nounit : Bool) (n : Nat) (a : Int → R) (lda : Int)
    (x : Int → R) : Int → R :=
  forN n (fun m x =>
    let j : Nat := m + 1
    let temp := forN (j - 1) (fun q temp =>
      let i : Nat := q + 1
      temp - A a lda i j * X x (p i)) (X x (p j))
    let temp1 := if nounit then temp / A a lda j j else temp
    setX x (p j) temp1) x

/-- The loop nest ending at `L140`/`L160` with the position of `X(j)` given by `p`:
dot-product sweep `j = n..1` of the lower transpose case. -/
def loop140At (p : Nat → Int) (nounit : Bool) (n : Nat) (a : Int → R) (lda : Int)
    (x : Int → R) : Int → R :=
  forN n (fun m x =>
    let j : Nat := n - m
    let temp := forN (n - j) (fun q temp =>
      let i : Nat := n - q
      temp - A a lda i j * X x (p i)) (X x (p j))
    let temp1 := if nounit then temp / A a lda j j else temp
    setX x (p j) temp1) x

/-- The index `I` with which `strsv_` addresses the `k`-th element of the vector,
`X(I)`, `k = 1..n`: `kx + (k - 1) * incx` with `kx = 1 - (n - 1) * incx` for
`incx <= 0` and `kx = 1` otherwise. -/
def xpos (n incx : Int) (k : Nat) : Int :=
  (if incx ≤ 0 then 1 - (n - 1) * incx else 1) + ((k : Int) - 1) * incx

/-- Entry `(i, j)` of the triangular matrix that `strsv_` is documented to use: the
stored triangle of `a`, with the diagonal taken as 1 for `DIAG = 'U'` and the other
triangle taken as 0. -/
def triEntry (upper nounit : Bool) (a : Int → R) (lda : Int) (i j : Nat) : R :=
  if i = j then (if nounit then A a lda i i else 1)
  else if (upper = true ∧ i < j) ∨ (upper = false ∧ j < i) then A a lda i j
  else 0

/-- Entry `(i, j)` of `op(A)`: `A` for `TRANS = 'N'`, its transpose otherwise. -/
def opEntry (upper notrans nounit : Bool) (a : Int → R) (lda : Int) (i j : Nat) : R :=
  if notrans then triEntry upper nounit a lda i j else triEntry upper nounit a lda j i

/-- The loop nest that `strsv_` selects for a triangle (`upper`) and an operation
(`notrans`), with the position of `X(j)` given by `p`. -/
def sweepAt (upper notrans : Bool) (p : Nat → Int) (nounit : Bool) (n : Nat) (a : Int → R)
    (lda : Int) (x : Int → R) : Int → R :=
  if notrans then
    (if upper then loop20At p nounit n a lda x else loop60At p nounit n a lda x)
  else
    (if upper then loop100At p nounit n a lda x else loop140At p nounit n a lda x)

/-- A real `n x n` matrix `M` as a `zmatvec` callback: `y := alpha * M x + beta * y` on
the first `n` entries. -/
def matOp (n : Nat) (M : Nat → Nat → R) : MatVec R :=
  fun a x b y k =>
    if k < n then
      z_add (zz_mult a (forN n (fun l acc => z_add acc (zd_mult (x l) (M k l))) czero))
        (zz_mult b (y k))
    else y k

/-- The real matrix `M` is symmetric on its leading `n x n` block. -/
def SymM (n : Nat) (M : Nat → Nat → R) : Prop :=
  ∀ k l, k < n → l < n → M k l = M l k

/-- The real matrix `M` is positive definite on its leading `n x n` block. -/
def PosDefM (n : Nat) (M : Nat → Nat → R) : Prop :=
  ∀ v : Nat → R, (∃ k, k < n ∧ v k ≠ 0) →
    0 < ∑ k in Finset.range n, ∑ l in Finset.range n, v k * M k l * v l

/-- What the convergence proof uses of the operator callback: with `alpha = 1` and
`beta = 0` it ignores the old content of `y`, reads the first `n` entries of `x` only,
is linear, Hermitian under the conjugate inner product, and injective. -/
def HermOp (n : Nat) (mv : MatVec R) : Prop :=
  (∀ (x y y1 : Vec R) k, k < n → mv cone x czero y k = mv cone x czero y1 k) ∧
  (∀ (x x1 y : Vec R) k, (∀ l, l < n → x l = x1 l) → k < n →
    mv cone x czero y k = mv cone x1 czero y k) ∧
  (∀ (x v y : Vec R) (a : doublecomplex R) k, k < n →
    mv cone (fun l => x l + a * v l) czero y k =
      mv cone x czero y k + a * mv cone v czero y k) ∧
  (∀ x y : Vec R, zdotc n x (mv cone y czero vzero) = zz_conj (zdotc n y (mv cone x czero vzero))) ∧
  (∀ x : Vec R, (∀ k, k < n → mv cone x czero vzero k = 0) → ∀ k, k < n → x k = 0)

/-- The direction `U_m` of the rotated residual after `m` rotations: `U_0 = vv[0]`,
`U_{m+1} = -s[m] U_m + c[m] vv[m+1]`. -/
def Uvec (w : Work R) : Nat → Vec R
  | 0 => w.vv 0
  | m + 1 => fun k => -(w.s m) * Uvec w m k + w.c m * w.vv (m + 1) k

/-- The rotated basis vector `W_m = c[m] U_m + s[m] vv[m+1]`. -/
def Wvec (w : Work R) (m : Nat) : Vec R :=
  fun k => w.c m * Uvec w m k + w.s m * w.vv (m + 1) k

/-- The part of the inner-loop invariant of `zfgmr` that also holds at the exit of the
loop after `i` steps, for a Hermitian operator and no preconditioner: the rotations
are real with `c^2 + s^2 = 1`, the stored columns are real with nonzero diagonal and
give `A vv[c]` in the rotated basis, `rs` gives the initial residual `beta * vv[0]` in
the rotated basis, and `z[c] = vv[c]`. -/
def KCore (n : Nat) (mv : MatVec R) (beta : R) (i : Nat) (w : Work R) : Prop :=
  (∀ m, m < i → (w.c m).i = 0 ∧ (w.s m).i = 0 ∧ w.c m * w.c m + w.s m * w.s m = 1) ∧
  (∀ c m, c < i → m ≤ c → (w.hh c m).i = 0) ∧
  (∀ k, k < n → (⟨beta, 0⟩ : doublecomplex R) * w.vv 0 k =
    ∑ m in Finset.range i, w.rs m * Wvec w m k + w.rs i * Uvec w i k) ∧
  (∀ c k, c < i → k < n → mv cone (w.vv c) czero vzero k =
    ∑ m in Finset.range (c + 1), w.hh c m * Wvec w m k) ∧
  (∀ c, c < i → w.hh c c ≠ 0) ∧
  (∀ c k, c < i → k < n → w.z c k = w.vv c k)

/-- Invariant of the inner loop of `zfgmr` at the head of step `i`: `KCore`, the basis
`vv[0..i]` is orthonormal and `U_i` has norm 1. -/
def KInv (n : Nat) (mv : MatVec R) (beta : R) (i : Nat) (w : Work R) : Prop :=
  OrthoBasis n w.vv (i + 1) ∧ nrmSq n (Uvec w i) = 1 ∧ KCore n mv beta i w

/-- The basis after `m` rotations: `W_j` for `j < m`, `U_m`, and `vv[j]` for `j > m`. -/
def mixBasis (w : Work R) (m j : Nat) : Vec R :=
  if j < m then Wvec w j else if j = m then Uvec w m else w.vv j

/-- What the convergence proof uses of the magnitude `z_abs1`: it vanishes at 0, is
non-negative and bounds the modulus from above (as the modulus itself and
`|re| + |im|` both do). -/
def AbsBound (ext : Ext R) : Prop :=
  ext.z_abs1 0 = 0 ∧ ∀ z, 0 ≤ ext.z_abs1 z ∧ cnormSq z ≤ ext.z_abs1 z * ext.z_abs1 z

/-- The vectors `V[0..m-1]` are mutually orthogonal and each of them has norm 1 or is
zero on its first `n` entries (a breakdown `t = 0` leaves a zero vector in `vv[i1]`). -/
def OrthoFam (n : Nat) (V : Nat → Vec R) (m : Nat) : Prop :=
  (∀ a b, a < m → b < m → a ≠ b → zdotc n (V a) (V b) = 0) ∧
  (∀ a, a < m → nrmSq n (V a) = 1 ∨ ∀ k, k < n → V a k = 0)

/-- Lines 165-171 of the inner-loop body: the candidate `w = A z[i]` as it is before the
Gram-Schmidt loop, with `z[i] = M^-1 vv[i]` or a copy of `vv[i]`. -/
def candidate (n : Nat) (zmatvec : MatVec R) (zpsolve : Option (PSolve R)) (i : Nat)
    (w : Work R) : Vec R :=
  let zi : Vec R :=
    match zpsolve with
    | some p => p n (w.z i) (w.vv i)
    | none => zcopy_ n (w.vv i) (w.z i)
  zmatvec cone zi czero (w.vv (i + 1))

/-- The candidate `cand` with its components along `V[0..i]` removed:
`cand - sum_{j <= i} <V[j], cand> V[j]`. -/
def gsResidual (n i : Nat) (V : Nat → Vec R) (cand : Vec R) : Vec R :=
  fun k => cand k - ∑ j in Finset.range (i + 1), zdotc n (V j) cand * V j k

/-- The matrix `[[3/5, -8/15], [4/5, 31/15]]`, an example operator of size two: started
from `sol = 0` with `rhs = e0`, `im = 1` and `tol = 1/2`, `zfgmr` needs two outer passes
(one restart) to solve the system. -/
def restartM : Nat → Nat → R :=
  fun k l => if k = 0 then (if l = 0 then 3 / 5 else -(8 / 15))
    else (if l = 0 then 4 / 5 else 31 / 15)

end SpecDefs

/-! ## Sums, inner products and norms -/

section Algebra

variable {R : Type} [LinearOrderedField R]

theorem forN_congr {σ : Type} (cnt : Nat) (f g : Nat → σ → σ) (s : σ)
    (h : ∀ k, k < cnt → ∀ a, f k a = g k a) : forN cnt f s = forN cnt g s := by
  induction cnt with
  | zero => rfl
  | succ k ih =>
    simp only [forN]
    rw [ih (fun j hj a => h j (Nat.lt_succ_of_lt hj) a), h k (Nat.lt_succ_self k)]

theorem forN_sum (cnt : Nat) (f : Nat → R) (a : R) :
    forN cnt (fun k acc => acc + f k) a = a + ∑ k in Finset.range cnt, f k := by
  induction cnt with
  | zero => simp [forN]
  | succ k ih => simp only [forN, ih, Finset.sum_range_succ]; ring

theorem forN_zadd_r (cnt : Nat) (g : Nat → doublecomplex R) (c : doublecomplex R) :
    (forN cnt (fun k tt => z_add tt (g k)) c).r = c.r + ∑ k in Finset.range cnt, (g k).r := by
  induction cnt with
  | zero => simp [forN]
  | succ k ih => rw [Finset.sum_range_succ, ← add_assoc, ← ih]; rfl

theorem forN_zadd_i (cnt : Nat) (g : Nat → doublecomplex R) (c : doublecomplex R) :
    (forN cnt (fun k tt => z_add tt (g k)) c).i = c.i + ∑ k in Finset.range cnt, (g k).i := by
  induction cnt with
  | zero => simp [forN]
  | succ k ih => rw [Finset.sum_range_succ, ← add_assoc, ← ih]; rfl

theorem nrmSq_eq_sum (n : Nat) (x : Vec R) :
    nrmSq n x = ∑ k in Finset.range n, cnormSq (x k) := by
  unfold nrmSq
  rw [forN_sum]; simp

theorem zdotc_r (n : Nat) (x y : Vec R) :
    (zdotc n x y).r = ∑ k in Finset.range n, ((x k).r * (y k).r + (x k).i * (y k).i) := by
  unfold zdotc
  rw [forN_zadd_r]
  simp only [czero, zz_mult, zz_conj, zero_add]
  apply Finset.sum_congr rfl
  intro k _; ring

theorem zdotc_i (n : Nat) (x y : Vec R) :
    (zdotc n x y).i = ∑ k in Finset.range n, ((x k).r * (y k).i - (x k).i * (y k).r) := by
  unfold zdotc
  rw [forN_zadd_i]
  simp only [czero, zz_mult, zz_conj, zero_add]
  apply Finset.sum_congr rfl
  intro k _; ring

theorem cnormSq_nonneg (a : doublecomplex R) : 0 ≤ cnormSq a := by
  unfold cnormSq
  nlinarith [mul_self_nonneg a.r, mul_self_nonneg a.i]

theorem nrmSq_nonneg (n : Nat) (x : Vec R) : 0 ≤ nrmSq n x := by
  rw [nrmSq_eq_sum]
  exact Finset.sum_nonneg (fun k _ => cnormSq_nonneg (x k))

theorem nrmSq_congr (n : Nat) (x y : Vec R) (h : ∀ k, k < n → x k = y k) :
    nrmSq n x = nrmSq n y := by
  rw [nrmSq_eq_sum, nrmSq_eq_sum]
  apply Finset.sum_congr rfl
  intro k hk
  rw [h k (Finset.mem_range.mp hk)]

theorem zdotc_congr (n : Nat) (x y x1 y1 : Vec R) (hx : ∀ k, k < n → x k = x1 k)
    (hy : ∀ k, k < n → y k = y1 k) : zdotc n x y = zdotc n x1 y1 := by
  unfold zdotc
  apply forN_congr
  intro k hk a
  rw [hx k hk, hy k hk]

theorem zdotc_self (n : Nat) (x : Vec R) : zdotc n x x = ⟨nrmSq n x, 0⟩ := by
  have hr := zdotc_r n x x
  have hi := zdotc_i n x x
  have hi0 : (zdotc n x x).i = 0 := by
    rw [hi]; apply Finset.sum_eq_zero; intro k _; ring
  have hr0 : (zdotc n x x).r = nrmSq n x := by
    rw [hr, nrmSq_eq_sum]; rfl
  cases hz : zdotc n x x with
  | mk a b =>
    rw [hz] at hr0 hi0
    simp only at hr0 hi0
    rw [hr0, hi0]

theorem zdotc_zero_right (n : Nat) (x y : Vec R) (h : ∀ k, k < n → y k = czero) :
    zdotc n x y = czero := by
  have hr : (zdotc n x y).r = 0 := by
    rw [zdotc_r]; apply Finset.sum_eq_zero; intro k hk
    rw [h k (Finset.mem_range.mp hk)]; simp [czero]
  have hi : (zdotc n x y).i = 0 := by
    rw [zdotc_i]; apply Finset.sum_eq_zero; intro k hk
    rw [h k (Finset.mem_range.mp hk)]; simp [czero]
  cases hz : zdotc n x y with
  | mk a b =>
    rw [hz] at hr hi
    simp only at hr hi
    rw [hr, hi]; rfl

/-- A non-negative number is determined by its square. -/
theorem eq_of_mul_self_eq' {a b : R} (ha : 0 ≤ a) (hb : 0 ≤ b) (h : a * a = b * b) : a = b := by
  rcases lt_trichotomy a b with hlt | heq | hgt
  · nlinarith
  · exact heq
  · nlinarith

theorem ExactNorm.nonneg {ext : Ext R} (hex : ExactNorm ext) (n : Nat) (x : Vec R) :
    0 ≤ ext.dznrm2_ n x := (hex n x).1

theorem ExactNorm.eq_of_sq {ext : Ext R} (hex : ExactNorm ext) (n : Nat) (x : Vec R) (b : R)
    (hb : 0 ≤ b) (h : nrmSq n x = b * b) : ext.dznrm2_ n x = b :=
  eq_of_mul_self_eq' (hex n x).1 hb ((hex n x).2.trans h)

theorem ExactNorm.congr {ext : Ext R} (hex : ExactNorm ext) (n : Nat) (x y : Vec R)
    (h : ∀ k, k < n → x k = y k) : ext.dznrm2_ n x = ext.dznrm2_ n y :=
  hex.eq_of_sq n x _ (hex n y).1 ((nrmSq_congr n x y h).trans (hex n y).2.symm)

theorem ExactNorm.eq_zero {ext : Ext R} (hex : ExactNorm ext) (n : Nat) (x : Vec R)
    (h : ∀ k, k < n → x k = czero) : ext.dznrm2_ n x = 0 := by
  apply hex.eq_of_sq n x 0 le_rfl
  rw [nrmSq_eq_sum, mul_zero]
  apply Finset.sum_eq_zero
  intro k hk
  rw [h k (Finset.mem_range.mp hk)]
  simp [cnormSq, czero]

theorem nrmSq_scale (n : Nat) (x y : Vec R) (t : R)
    (h : ∀ k, k < n → y k = zd_mult (x k) t) : nrmSq n y = t * t * nrmSq n x := by
  rw [nrmSq_eq_sum, nrmSq_eq_sum, Finset.mul_sum]
  apply Finset.sum_congr rfl
  intro k hk
  rw [h k (Finset.mem_range.mp hk)]
  simp only [cnormSq, zd_mult]; ring

/-- Normalization: a vector divided by its non-zero norm has norm one. -/
theorem ExactNorm.normalized {ext : Ext R} (hex : ExactNorm ext) (n : Nat) (x y : Vec R)
    (hpos : ext.dznrm2_ n x ≠ 0)
    (h : ∀ k, k < n → y k = zd_mult (x k) (1 / ext.dznrm2_ n x)) :
    ext.dznrm2_ n y = 1 ∧ nrmSq n y = 1 := by
  have hs : nrmSq n y = 1 := by
    rw [nrmSq_scale n x y _ h, ← (hex n x).2]
    field_simp
  exact ⟨hex.eq_of_sq n y 1 zero_le_one (by rw [hs]; ring), hs⟩

end Algebra

/-! ## Control flow of `zfgmr`: counters and exits -/

section Control

variable {R : Type} [LinearOrderedField R]

theorem wrap32_of_range {x : Int} (h0 : -2147483648 ≤ x) (h1 : x < 2147483648) :
    wrap32 x = x := by
  unfold wrap32; omega

theorem innerLoop_count (fuel : Nat) (ext : Ext R) (n : Nat) (zmatvec : MatVec R)
    (zpsolve : Option (PSolve R)) (maxits : Int) (hmax : maxits < 2147483648) :
    ∀ (k i : Nat) (st st1 : State R) (i1 : Nat), CountInv maxits st →
      innerLoop fuel ext n zmatvec zpsolve maxits k i st = some (st1, i1) →
      CountPost maxits st1 ∧ st1.sol = st.sol ∧ st1.eps1 = st.eps1 := by
  intro k
  induction k with
  | zero =>
    intro i st st1 i1 hinv h
    simp only [innerLoop, Option.some.injEq, Prod.mk.injEq] at h
    obtain ⟨rfl, -⟩ := h
    obtain ⟨h1, h2⟩ := hinv
    refine ⟨⟨h1, ?_⟩, rfl, rfl⟩
    rw [← h1]
    rcases h2 with h2 | h2
    · rw [h2]; exact le_max_of_le_right (by norm_num)
    · exact le_max_of_le_left (le_of_lt h2)
  | succ k ih =>
    intro i st st1 i1 hinv h
    obtain ⟨h1, h2⟩ := hinv
    have hnn : (0 : Int) ≤ st.its := by rw [h1]; exact Int.natCast_nonneg _
    have hw : wrap32 (st.its + 1) = st.its + 1 := by
      apply wrap32_of_range <;> omega
    simp only [innerLoop] at h
    cases ha : arnoldi fuel ext n zmatvec zpsolve i st.work with
    | none => simp [ha] at h
    | some w =>
      simp only [ha, hw] at h
      split at h
      · simp only [Option.some.injEq, Prod.mk.injEq] at h
        obtain ⟨rfl, -⟩ := h
        refine ⟨⟨by simp [h1], ?_⟩, rfl, rfl⟩
        simp only [Nat.cast_add, Nat.cast_one]
        rcases h2 with h2 | h2
        · have : (st.inner : Int) = 0 := by rw [← h1]; exact h2
          rw [this]; exact le_max_of_le_right (by norm_num)
        · exact le_max_of_le_left (by omega)
      · rename_i hc
        push_neg at hc
        have := ih (i + 1) _ st1 i1 ⟨by simp [h1], Or.inr hc.2⟩ h
        exact this

omit [LinearOrderedField R] in
theorem CountInv.le_max {maxits : Int} {st : State R} (h : CountInv maxits st) :
    (st.inner : Int) ≤ max maxits 1 := by
  obtain ⟨h1, h2⟩ := h
  rw [← h1]
  rcases h2 with h2 | h2
  · rw [h2]; exact le_max_of_le_right (by norm_num)
  · exact le_max_of_le_left (le_of_lt h2)

theorem restartCheck_count (tol : R) (maxits : Int) (beta : R) (st : State R)
    (h : CountPost maxits st) : PassCount maxits (restartCheck tol maxits beta st) := by
  obtain ⟨h1, h2⟩ := h
  unfold restartCheck
  by_cases c1 : beta < st.eps1 / tol
  · simp only [c1, not_true_eq_false, if_false]
    by_cases c2 : beta ≤ st.eps1
    · simp only [c2, if_true]
      exact ⟨fun _ => h1, (fun he => by cases he), h2⟩
    · simp only [c2, if_false]
      by_cases c3 : st.its < maxits
      · simp only [c3, if_true]
        exact ⟨h1, Or.inr c3⟩
      · simp only [c3, if_false]
        exact ⟨fun _ => h1, (fun he => by cases he), h2⟩
  · simp only [c1, not_false_eq_true, if_true]
    exact ⟨fun hne => absurd rfl hne, fun _ => rfl, h2⟩

theorem solveUpdate_count (ext : Ext R) (n : Nat) (zmatvec : MatVec R) (rhs : Vec R)
    (i : Nat) (st st4 : State R) (beta : R)
    (h : solveUpdate ext n zmatvec rhs i st = some (st4, beta)) :
    st4.its = st.its ∧ st4.inner = st.inner ∧ st4.eps1 = st.eps1 ∧ st4.lasti = i := by
  unfold solveUpdate at h
  cases hb : backSolve i st.work with
  | none => simp [hb] at h
  | some w4 =>
    simp only [hb, Option.map_some', Option.some.injEq, Prod.mk.injEq] at h
    obtain ⟨rfl, -⟩ := h
    exact ⟨rfl, rfl, rfl, rfl⟩

theorem outerPass_count (fuel : Nat) (ext : Ext R) (n : Nat) (zmatvec : MatVec R)
    (zpsolve : Option (PSolve R)) (rhs : Vec R) (tol : R) (im : Int) (maxits : Int)
    (hmax : maxits < 2147483648) (st : State R) (out : PassOut R)
    (hinv : CountInv maxits st)
    (h : outerPass fuel ext n zmatvec zpsolve rhs tol im maxits st = .ok out) :
    PassCount maxits out := by
  unfold outerPass at h
  by_cases him : im < 0
  · simp [him] at h
  simp only [him, if_false] at h
  by_cases hb : (initResidual ext n zmatvec rhs st).2 > tol * ext.dznrm2_ n rhs
  · simp only [hb, not_true_eq_false, if_false] at h
    cases hin : innerLoop fuel ext n zmatvec zpsolve maxits im.toNat 0
        (prepare n tol (initResidual ext n zmatvec rhs st).2 (initResidual ext n zmatvec rhs st).1) with
    | none => simp [hin] at h
    | some p =>
      obtain ⟨st3, iend⟩ := p
      simp only [hin] at h
      have hpost := innerLoop_count fuel ext n zmatvec zpsolve maxits hmax _ _ _ _ _
        (by exact hinv) hin
      by_cases hc : clampIndex im iend < 0
      · simp [hc] at h
      simp only [hc, if_false] at h
      cases hs : solveUpdate ext n zmatvec rhs (clampIndex im iend).toNat st3 with
      | none => simp [hs] at h
      | some q =>
        obtain ⟨st4, beta1⟩ := q
        simp only [hs, Except.ok.injEq] at h
        subst h
        obtain ⟨e1, e2, -, -⟩ := solveUpdate_count _ _ _ _ _ _ _ _ hs
        apply restartCheck_count
        exact ⟨by rw [e1, e2]; exact hpost.1.1, by rw [e2]; exact hpost.1.2⟩
  · simp only [hb, not_false_eq_true, if_true, Except.ok.injEq] at h
    subst h
    exact ⟨fun _ => hinv.1, (fun he => by cases he), hinv.le_max⟩

theorem outerLoop_count (fuel : Nat) (ext : Ext R) (n : Nat) (zmatvec : MatVec R)
    (zpsolve : Option (PSolve R)) (rhs : Vec R) (tol : R) (im : Int) (maxits : Int)
    (hmax : maxits < 2147483648) :
    ∀ (f : Nat) (st : State R) (r : Result R), CountInv maxits st →
      outerLoop fuel ext n zmatvec zpsolve rhs tol im maxits f st = .ok r →
      CountResult maxits r := by
  intro f
  induction f with
  | zero => intro st r _ h; simp [outerLoop] at h
  | succ f ih =>
    intro st r hinv h
    simp only [outerLoop] at h
    cases hp : outerPass fuel ext n zmatvec zpsolve rhs tol im maxits st with
    | error e => simp [hp] at h
    | ok out =>
      have hc := outerPass_count fuel ext n zmatvec zpsolve rhs tol im maxits hmax st out hinv hp
      cases out with
      | exit e st1 =>
        simp only [hp, Except.ok.injEq] at h
        subst h
        obtain ⟨c1, c2, c3⟩ := hc
        exact ⟨c1, c2, c3, rfl⟩
      | again st1 =>
        simp only [hp] at h
        exact ih st1 r hc h

theorem zfgmr_count (fuel : Nat) (ext : Ext R) (n : Nat) (zmatvec : MatVec R)
    (zpsolve : Option (PSolve R)) (rhs sol : Vec R) (tol : R) (im : Int) (maxits : Int)
    (hmax : maxits < 2147483648) (r : Result R)
    (h : zfgmr fuel ext n zmatvec zpsolve rhs sol tol im maxits = .ok r) :
    CountResult maxits r := by
  unfold zfgmr at h
  exact outerLoop_count fuel ext n zmatvec zpsolve rhs tol im maxits hmax fuel _ r
    ⟨rfl, Or.inl rfl⟩ h

end Control

/-! ## One inner step that reproduces the start vector

When the operator maps the first preconditioned vector back to `vv[0]`, the first
inner step ends in a lucky breakdown and solves the system exactly. -/

section OneStep

variable {R : Type} [LinearOrderedField R]

theorem z_add_czero (a : doublecomplex R) : z_add a czero = a := by
  cases a; simp [z_add, czero]

theorem zaxpy_zero (n : Nat) (x y : Vec R) : zaxpy_ n ⟨-0, -0⟩ x y = y := by
  funext k
  unfold zaxpy_
  split_ifs
  · cases hy : y k; simp [z_add, zz_mult]
  · rfl

theorem gsAgain_of_dot_zero (n i j : Nat) (w : Work R)
    (h : zdotc n (w.vv j) (w.vv (i + 1)) = czero) : gsAgain n i j w = w := by
  unfold gsAgain
  simp only [h, z_add_czero]
  have h1 : set2 w.hh i j (w.hh i j) = w.hh := by
    unfold set2; simp
  have h2 : (⟨-(czero : doublecomplex R).r, -(czero : doublecomplex R).i⟩ : doublecomplex R)
      = ⟨-0, -0⟩ := rfl
  rw [h1, h2, zaxpy_zero]
  simp

theorem forN_gsAgain_of_zero (n i : Nat) (w : Work R)
    (h : ∀ k, k < n → w.vv (i + 1) k = czero) (cnt : Nat) :
    forN cnt (gsAgain n i) w = w := by
  induction cnt with
  | zero => rfl
  | succ j ih =>
    simp only [forN, ih]
    exact gsAgain_of_dot_zero n i j w (zdotc_zero_right n _ _ h)

theorem reorth_stop (ext : Ext R) (n i f : Nat) (t0 t : R) (w : Work R)
    (h : ¬ t < 1 / 2 * t0) : reorth ext n i f t0 t w = some (t, w) := by
  cases f with
  | zero => rw [reorth, if_neg h]
  | succ f => rw [reorth, if_neg h]

theorem reorth_zero {ext : Ext R} (hex : ExactNorm ext) (n i : Nat) (w : Work R)
    (h : ∀ k, k < n → w.vv (i + 1) k = czero) (f : Nat) (t0 : R) :
    reorth ext n i (f + 1) t0 0 w = some (0, w) := by
  have hn : ext.dznrm2_ n (w.vv (i + 1)) = 0 := hex.eq_zero n _ h
  by_cases ht : (0 : R) < 1 / 2 * t0
  · rw [reorth, if_pos ht]
    simp only [forN_gsAgain_of_zero n i w h, hn]
    exact reorth_stop ext n i f 0 0 w (by simp)
  · exact reorth_stop ext n i (f + 1) t0 0 w ht

theorem arnoldi_zero_exact {ext : Ext R} (hex : ExactNorm ext) (n : Nat) (mv : MatVec R)
    (ps : Option (PSolve R)) (f : Nat) (w : Work R) (z0 : Vec R)
    (hz0 : z0 = match ps with
      | some p => p n (w.z 0) (w.vv 0)
      | none => zcopy_ n (w.vv 0) (w.z 0))
    (hv : nrmSq n (w.vv 0) = 1)
    (hc : ∀ k, k < n → mv cone z0 czero (w.vv 1) k = w.vv 0 k) :
    ∃ w1, arnoldi (f + 1) ext n mv ps 0 w = some w1 ∧ w1.hh 0 0 = cone ∧ w1.hh 0 1 = czero ∧
      w1.z 0 = z0 ∧ w1.rs = w.rs ∧ w1.c = w.c ∧ w1.s = w.s := by
  unfold arnoldi
  simp only [← hz0, zero_add, forN, Function.update_same]
  generalize hW : gsFirst n 0 0
      { vv := Function.update w.vv 1 (mv cone z0 czero (w.vv 1)), hh := w.hh,
        z := Function.update w.z 0 z0, c := w.c, s := w.s, rs := w.rs } = W3
  have hdot : zdotc n (w.vv 0) (mv cone z0 czero (w.vv 1)) = cone := by
    rw [zdotc_congr n _ _ (w.vv 0) (w.vv 0) (fun _ _ => rfl) hc, zdotc_self, hv]; rfl
  have h1 : ∀ k, k < n → W3.vv 1 k = czero := by
    intro k hk
    rw [← hW]
    simp only [gsFirst, zero_add, Function.update_same, ne_eq, one_ne_zero, not_false_eq_true,
      Function.update_noteq, zero_ne_one, hdot, zaxpy_, hk, if_true, hc k hk]
    cases hx : w.vv 0 k
    simp [z_add, zz_mult, cone, czero]
  have h2 : W3.hh 0 0 = cone := by
    rw [← hW]
    simp only [gsFirst, zero_add, Function.update_same, ne_eq, one_ne_zero, not_false_eq_true,
      Function.update_noteq, zero_ne_one, hdot, set2]
  have h3 : W3.z 0 = z0 ∧ W3.rs = w.rs ∧ W3.c = w.c ∧ W3.s = w.s := by
    rw [← hW]
    simp [gsFirst]
  rw [hex.eq_zero n _ h1, reorth_zero hex n 0 W3 h1]
  refine ⟨{ W3 with hh := set2 W3.hh 0 1 ⟨0, 0⟩ }, ?_, ?_, ?_, h3⟩
  · simp only [ne_eq, not_true_eq_false, if_false]
  · simp [set2, h2]
  · simp [set2, czero]

theorem givens_zero_exact {ext : Ext R} (hex : ExactNorm ext) (w : Work R) (beta : R)
    (h00 : w.hh 0 0 = cone) (h01 : w.hh 0 1 = czero) (hrs : w.rs 0 = ⟨beta, 0⟩) :
    (givens ext 0 w).2 = ext.z_abs1 czero ∧ (givens ext 0 w).1.rs 1 = czero ∧
      (givens ext 0 w).1.rs 0 = ⟨beta, 0⟩ ∧ (givens ext 0 w).1.hh 0 0 = cone ∧
      (givens ext 0 w).1.z = w.z ∧ (givens ext 0 w).1.vv = w.vv := by
  have hg : ext.dznrm2_ 2 (fun k => w.hh 0 (0 + k)) = 1 := by
    apply hex.eq_of_sq _ _ 1 zero_le_one
    simp [nrmSq, forN, h00, h01, cnormSq, cone, czero]
  simp only [zero_add] at hg
  unfold givens
  simp only [forN, zero_add, hg, one_ne_zero, if_false, h00, h01, hrs]
  simp [zd_mult, zz_mult, z_add, cone, czero, set2, hrs]

theorem outerPass_one_step {ext : Ext R} (hex : ExactNorm ext) (habs : ext.z_abs1 czero = 0)
    (n : Nat) (mv : MatVec R) (ps : Option (PSolve R)) (rhs : Vec R) (tol : R) (im maxits : Int)
    (f : Nat) (st : State R) (hits : st.its = 0) (htol : 0 < tol) (him : 1 ≤ im)
    (hb : (initResidual ext n mv rhs st).2 > tol * ext.dznrm2_ n rhs)
    (z0 : Vec R)
    (hz0 : z0 = match ps with
      | some p => p n (st.work.z 0)
          ((prepare n tol (initResidual ext n mv rhs st).2 (initResidual ext n mv rhs st).1).work.vv 0)
      | none => zcopy_ n
          ((prepare n tol (initResidual ext n mv rhs st).2 (initResidual ext n mv rhs st).1).work.vv 0)
          (st.work.z 0))
    (hc : ∀ y k, k < n → mv cone z0 czero y k =
      (prepare n tol (initResidual ext n mv rhs st).2 (initResidual ext n mv rhs st).1).work.vv 0 k)
    (sol1 : Vec R)
    (hs1 : sol1 = fun k => if k < n then
      z_add (st.sol k) (zz_mult ⟨(initResidual ext n mv rhs st).2, 0⟩ (z0 k)) else st.sol k)
    (hsol : ∀ y k, k < n → mv cone sol1 czero y k = rhs k) :
    ∃ st4, outerPass (f + 1) ext n mv ps rhs tol im maxits st = .ok (.exit .converged st4) ∧
      st4.its = 1 ∧ st4.inner = st.inner + 1 ∧ st4.sol = sol1 ∧ st4.work.rs 1 = czero ∧
      st4.lasti = 0 ∧ st4.matvecs = st.matvecs + 3 ∧
      st4.work.rs 0 = ⟨(initResidual ext n mv rhs st).2, 0⟩ ∧ st4.work.z 0 = z0 := by
  obtain ⟨k, hk⟩ : ∃ k, im.toNat = k + 1 := ⟨im.toNat - 1, by omega⟩
  have hnim : ¬ im < 0 := by omega
  generalize hbeta : (initResidual ext n mv rhs st).2 = beta at *
  generalize hst1 : (initResidual ext n mv rhs st).1 = st1 at *
  have hst1p : st1.its = 0 ∧ st1.inner = st.inner ∧ st1.sol = st.sol ∧ st1.work.z = st.work.z ∧
      st1.matvecs = st.matvecs + 1 ∧ st1.work.vv 0 = residual n mv rhs st.sol (st.work.vv 0) := by
    rw [← hst1]; simp [initResidual, hits]
  have hbdef : beta = ext.dznrm2_ n (st1.work.vv 0) := by
    rw [← hbeta, hst1p.2.2.2.2.2]; rfl
  have hbpos : 0 < beta := by
    have h0 : 0 ≤ tol * ext.dznrm2_ n rhs := mul_nonneg htol.le (hex.nonneg n rhs)
    exact lt_of_le_of_lt h0 hb
  generalize hst2 : prepare n tol beta st1 = st2 at *
  have hst2p : st2.its = 0 ∧ st2.inner = st.inner ∧ st2.sol = st.sol ∧ st2.work.z = st.work.z ∧
      st2.matvecs = st.matvecs + 1 ∧ st2.eps1 = tol * beta ∧ st2.work.rs 0 = ⟨beta, 0⟩ := by
    rw [← hst2]
    simp [prepare, hst1p.1, hst1p.2.1, hst1p.2.2.1, hst1p.2.2.2.1, hst1p.2.2.2.2.1]
  have hnorm : nrmSq n (st2.work.vv 0) = 1 := by
    refine (hex.normalized n (st1.work.vv 0) (st2.work.vv 0) (by rw [← hbdef]; exact hbpos.ne') ?_).2
    intro j hj
    rw [← hst2, ← hbdef]
    simp [prepare, hj]
  obtain ⟨w1, ha, a1, a2, a3, a4, -, -⟩ := arnoldi_zero_exact hex n mv ps f st2.work z0
    (by rw [hz0, hst2p.2.2.2.1]) hnorm (fun j hj => hc _ j hj)
  have hrs0 : w1.rs 0 = ⟨beta, 0⟩ := by rw [a4]; exact hst2p.2.2.2.2.2.2
  obtain ⟨g1, g2, g3, g4, g5, g6⟩ := givens_zero_exact hex w1 beta a1 a2 hrs0
  have hin : innerLoop (f + 1) ext n mv ps maxits im.toNat 0 st2 =
      some ({ st2 with its := 1, work := (givens ext 0 w1).1, inner := st2.inner + 1,
                        matvecs := st2.matvecs + 1 }, 0) := by
    rw [hk, innerLoop]
    simp only [ha, hst2p.1, zero_add]
    have hw : wrap32 1 = 1 := by decide
    rw [hw, if_pos]
    left
    rw [g1, habs, hst2p.2.2.2.2.2.1]
    exact mul_nonneg htol.le hbpos.le
  have hcl : clampIndex im 0 = 0 := by
    unfold clampIndex
    rw [if_neg]; rfl
    simp only [Nat.cast_zero]; omega
  have hbs : backSolve 0 (givens ext 0 w1).1 =
      some { (givens ext 0 w1).1 with rs := Function.update (givens ext 0 w1).1.rs 0 ⟨beta, 0⟩ } := by
    unfold backSolve
    rw [g3, g4]
    simp [z_div, cone, forNM]
  unfold outerPass
  simp only [hnim, if_false, hbeta, hst1, hb, not_true_eq_false, hst2, hin, hcl, lt_self_iff_false,
    Int.toNat_zero]
  unfold solveUpdate
  simp only [hbs, Option.map_some']
  have hup : updateSol n 0
      { (givens ext 0 w1).1 with rs := Function.update (givens ext 0 w1).1.rs 0 ⟨beta, 0⟩ }
      st2.sol = sol1 := by
    rw [hs1]
    funext j
    simp [updateSol, forN, g5, a3, hst2p.2.2.1]
  simp only [hup]
  have hres : ext.dznrm2_ n (residual n mv rhs sol1 ((givens ext 0 w1).1.vv 0)) = 0 := by
    apply hex.eq_zero
    intro j hj
    simp only [residual, hj, if_true]
    rw [hsol _ j hj]
    simp [z_sub, czero]
  simp only [hres]
  have hrc : ∀ s : State R, s.eps1 = tol * beta →
      restartCheck tol maxits 0 s = .exit .converged s := by
    intro s hs
    unfold restartCheck
    have e1 : s.eps1 / tol = beta := by rw [hs]; field_simp
    rw [if_neg (by rw [e1]; simpa using hbpos), if_pos (by rw [hs]; exact mul_nonneg htol.le hbpos.le)]
  refine ⟨_, congrArg Except.ok (hrc _ (by exact hst2p.2.2.2.2.2.1)), rfl, ?_, rfl, ?_, rfl, ?_,
    ?_, ?_⟩
  · simp [hst2p.2.1]
  · simp [g2]
  · simp [hst2p.2.2.2.2.1]
  · simp
  · simp [g5, a3]

theorem zfgmr_initial (ext : Ext R) (n : Nat) (mv : MatVec R) (ps : Option (PSolve R))
    (rhs sol : Vec R) (tol : R) (im maxits : Int) (f : Nat) (him : 0 ≤ im)
    (h : ¬ ext.dznrm2_ n (residual n mv rhs sol (fun _ => czero)) > tol * ext.dznrm2_ n rhs) :
    ∃ r, zfgmr (f + 1) ext n mv ps rhs sol tol im maxits = .ok r ∧ r.exit = Exit.initial ∧
      r.itmax = 0 ∧ r.retval = (if (0 : Int) ≥ maxits then 1 else 0) ∧ r.sol = sol ∧
      r.final.inner = 0 ∧ r.final.matvecs = 1 := by
  have hnim : ¬ im < 0 := by omega
  have hb : ¬ (initResidual ext n mv rhs
      { sol := sol, its := 0, eps1 := 0, work := Work.init, inner := 0, matvecs := 0,
        lasti := 0 }).2 > tol * ext.dznrm2_ n rhs := h
  refine ⟨finish maxits .initial (initResidual ext n mv rhs
      { sol := sol, its := 0, eps1 := 0, work := Work.init, inner := 0, matvecs := 0,
        lasti := 0 }).1, ?_, rfl, rfl, rfl, rfl, rfl, rfl⟩
  unfold zfgmr
  rw [outerLoop]
  unfold outerPass
  simp only [hnim, if_false, hb, not_false_eq_true, if_true]

theorem zfgmr_one_step {ext : Ext R} (hex : ExactNorm ext) (habs : ext.z_abs1 czero = 0)
    (n : Nat) (mv : MatVec R) (ps : Option (PSolve R)) (rhs sol : Vec R) (tol : R)
    (im maxits : Int) (f : Nat) (htol : 0 < tol) (him : 1 ≤ im) (beta : R)
    (hbeta : beta = ext.dznrm2_ n (residual n mv rhs sol (fun _ => czero)))
    (hb : beta > tol * ext.dznrm2_ n rhs)
    (v0 : Vec R)
    (hv0 : v0 = fun j => if j < n then zd_mult (residual n mv rhs sol (fun _ => czero) j) (1 / beta)
      else residual n mv rhs sol (fun _ => czero) j)
    (z0 : Vec R)
    (hz0 : z0 = match ps with
      | some p => p n (fun _ => czero) v0
      | none => zcopy_ n v0 (fun _ => czero))
    (hc : ∀ y k, k < n → mv cone z0 czero y k = v0 k)
    (sol1 : Vec R)
    (hs1 : sol1 = fun k => if k < n then z_add (sol k) (zz_mult ⟨beta, 0⟩ (z0 k)) else sol k)
    (hsol : ∀ y k, k < n → mv cone sol1 czero y k = rhs k) :
    ∃ r, zfgmr (f + 1) ext n mv ps rhs sol tol im maxits = .ok r ∧ r.exit = Exit.converged ∧
      r.itmax = 1 ∧ r.retval = (if (1 : Int) ≥ maxits then 1 else 0) ∧ r.sol = sol1 ∧
      r.final.inner = 1 ∧ r.final.lasti = 0 ∧ r.final.work.rs 1 = czero ∧
      r.final.work.rs 0 = ⟨beta, 0⟩ ∧ r.final.work.z 0 = z0 := by
  subst hbeta
  obtain ⟨st4, hp, p1, p2, p3, p4, p5, -, p7, p8⟩ := outerPass_one_step hex habs n mv ps rhs tol im maxits f
    { sol := sol, its := 0, eps1 := 0, work := Work.init, inner := 0, matvecs := 0, lasti := 0 }
    rfl htol him hb z0 (by rw [hz0, hv0]; rfl) (by intro y k hk; rw [hc y k hk, hv0]; rfl)
    sol1 hs1 hsol
  refine ⟨finish maxits .converged st4, ?_, rfl, p1, ?_, p3, ?_, p5, p4, p7, p8⟩
  · unfold zfgmr
    rw [outerLoop, hp]
  · simp only [finish, p1]
  · simp only [finish, p2]

theorem idOp_apply (x y : Vec R) (k : Nat) : idOp cone x czero y k = x k := by
  cases hx : x k
  simp [idOp, z_add, zz_mult, cone, czero, hx]

theorem diagOp_apply (d : Nat → R) (x y : Vec R) (k : Nat) :
    diagOp d cone x czero y k = zd_mult (x k) (d k) := by
  cases hx : x k
  simp [diagOp, z_add, zz_mult, zd_mult, cone, czero, hx]

theorem ExactNorm.pos_of_ne {ext : Ext R} (hex : ExactNorm ext) (n : Nat) (x : Vec R)
    (h : ∃ k, k < n ∧ x k ≠ czero) : 0 < ext.dznrm2_ n x := by
  obtain ⟨k, hk, hx⟩ := h
  have hpos : 0 < nrmSq n x := by
    rw [nrmSq_eq_sum]
    apply Finset.sum_pos' (fun j _ => cnormSq_nonneg (x j))
    refine ⟨k, Finset.mem_range.mpr hk, ?_⟩
    rcases lt_or_eq_of_le (cnormSq_nonneg (x k)) with h1 | h1
    · exact h1
    · exfalso
      apply hx
      have hr : (x k).r = 0 := by
        unfold cnormSq at h1
        nlinarith [mul_self_nonneg (x k).r, mul_self_nonneg (x k).i]
      have hi : (x k).i = 0 := by
        unfold cnormSq at h1
        nlinarith [mul_self_nonneg (x k).r, mul_self_nonneg (x k).i]
      cases hxk : x k with
      | mk a b =>
        rw [hxk] at hr hi
        simp only at hr hi
        rw [hr, hi]; rfl
  rcases lt_or_eq_of_le (hex.nonneg n x) with h1 | h1
  · exact h1
  · exfalso
    have := (hex n x).2
    rw [← h1, mul_zero] at this
    rw [← this] at hpos
    exact lt_irrefl _ hpos

theorem exactNorm_real : ExactNorm (Ext.ofSqrt Real.sqrt) := by
  intro n x
  exact ⟨Real.sqrt_nonneg _, Real.mul_self_sqrt (nrmSq_nonneg n x)⟩

theorem z_abs1_real_zero : (Ext.ofSqrt Real.sqrt).z_abs1 czero = 0 := by
  simp [Ext.ofSqrt, cnormSq, czero]

theorem residual_id (n : Nat) (rhs sol y : Vec R) (k : Nat) (hk : k < n) :
    residual n idOp rhs sol y k = z_sub (rhs k) (sol k) := by
  simp only [residual, hk, if_true, idOp_apply]

theorem residual_diag (n : Nat) (d : Nat → R) (rhs sol y : Vec R) (k : Nat) (hk : k < n) :
    residual n (diagOp d) rhs sol y k = z_sub (rhs k) (zd_mult (sol k) (d k)) := by
  simp only [residual, hk, if_true, diagOp_apply]

theorem update_id_exact (b : R) (hb : b ≠ 0) (s r : doublecomplex R) :
    z_add s (zz_mult ⟨b, 0⟩ (zd_mult (z_sub r s) (1 / b))) = r := by
  cases r; cases s
  simp only [z_add, zz_mult, zd_mult, z_sub, doublecomplex.mk.injEq]
  constructor <;> field_simp

theorem update_diag_exact (b a : R) (hb : b ≠ 0) (ha : a ≠ 0) (s r : doublecomplex R) :
    zd_mult (z_add s (zz_mult ⟨b, 0⟩
      (zd_mult (zd_mult (z_sub r (zd_mult s a)) (1 / b)) (1 / a)))) a = r := by
  cases r; cases s
  simp only [z_add, zz_mult, zd_mult, z_sub, doublecomplex.mk.injEq]
  constructor <;> (field_simp; ring)

theorem zd_mult_inv_cancel (a : R) (ha : a ≠ 0) (x : doublecomplex R) :
    zd_mult (zd_mult x (1 / a)) a = x := by
  cases x
  simp only [zd_mult, doublecomplex.mk.injEq]
  constructor <;> field_simp

/-- Identity operator, no preconditioner: one inner step, `sol = rhs`. -/
theorem zfgmr_id_one_step {ext : Ext R} (hex : ExactNorm ext) (habs : ext.z_abs1 czero = 0)
    (n : Nat) (rhs sol : Vec R) (tol : R) (im maxits : Int) (f : Nat) (htol : 0 < tol)
    (him : 1 ≤ im)
    (hb : ext.dznrm2_ n (residual n idOp rhs sol (fun _ => czero)) > tol * ext.dznrm2_ n rhs) :
    ∃ r, zfgmr (f + 1) ext n idOp none rhs sol tol im maxits = .ok r ∧
      r.exit = Exit.converged ∧ r.itmax = 1 ∧ r.retval = (if (1 : Int) ≥ maxits then 1 else 0) ∧
      (∀ k, k < n → r.sol k = rhs k) ∧ r.final.inner = 1 ∧ r.final.lasti = 0 ∧
      r.final.work.rs 1 = czero := by
  have hbpos : 0 < ext.dznrm2_ n (residual n idOp rhs sol (fun _ => czero)) :=
    lt_of_le_of_lt (mul_nonneg htol.le (hex.nonneg n rhs)) hb
  have key : ∀ k, k < n →
      (fun k => if k < n then z_add (sol k) (zz_mult
        ⟨ext.dznrm2_ n (residual n idOp rhs sol (fun _ => czero)), 0⟩
        (zcopy_ n (fun j => if j < n then
            zd_mult (residual n idOp rhs sol (fun _ => czero) j)
              (1 / ext.dznrm2_ n (residual n idOp rhs sol (fun _ => czero)))
          else residual n idOp rhs sol (fun _ => czero) j) (fun _ => czero) k)) else sol k) k
      = rhs k := by
    intro k hk
    simp only [hk, if_true, zcopy_]
    rw [residual_id n rhs sol _ k hk]
    exact update_id_exact _ hbpos.ne' _ _
  obtain ⟨r, h1, h2, h3, h4, h5, h6, h7, h8, -, -⟩ := zfgmr_one_step hex habs n idOp none rhs sol
    tol im maxits f htol him _ rfl hb _ rfl _ rfl
    (by
      intro y k hk
      rw [idOp_apply]
      simp [zcopy_, hk])
    _ rfl
    (by
      intro y k hk
      rw [idOp_apply]
      exact key k hk)
  refine ⟨r, h1, h2, h3, h4, ?_, h6, h7, h8⟩
  intro k hk
  rw [h5]
  exact key k hk

/-- Diagonal operator with its exact inverse as preconditioner: one inner step,
`A sol = rhs`. -/
theorem zfgmr_diag_one_step {ext : Ext R} (hex : ExactNorm ext) (habs : ext.z_abs1 czero = 0)
    (n : Nat) (d : Nat → R) (hd : ∀ k, k < n → d k ≠ 0) (rhs sol : Vec R) (tol : R)
    (im maxits : Int) (f : Nat) (htol : 0 < tol) (him : 1 ≤ im)
    (hb : ext.dznrm2_ n (residual n (diagOp d) rhs sol (fun _ => czero)) >
      tol * ext.dznrm2_ n rhs) :
    ∃ r, zfgmr (f + 1) ext n (diagOp d) (some (diagInv d)) rhs sol tol im maxits = .ok r ∧
      r.exit = Exit.converged ∧ r.itmax = 1 ∧ r.retval = (if (1 : Int) ≥ maxits then 1 else 0) ∧
      (∀ k, k < n → zd_mult (r.sol k) (d k) = rhs k) ∧ r.final.inner = 1 ∧ r.final.lasti = 0 ∧
      r.final.work.rs 1 = czero ∧
      (∀ k, k < n → r.sol k = z_add (sol k) (zz_mult (r.final.work.rs 0) (r.final.work.z 0 k))) ∧
      (∀ k, k < n → r.final.work.z 0 k =
        zd_mult (zd_mult (residual n (diagOp d) rhs sol (fun _ => czero) k)
          (1 / ext.dznrm2_ n (residual n (diagOp d) rhs sol (fun _ => czero)))) (1 / d k)) := by
  have hbpos : 0 < ext.dznrm2_ n (residual n (diagOp d) rhs sol (fun _ => czero)) :=
    lt_of_le_of_lt (mul_nonneg htol.le (hex.nonneg n rhs)) hb
  have key : ∀ k, k < n →
      zd_mult ((fun k => if k < n then z_add (sol k) (zz_mult
        ⟨ext.dznrm2_ n (residual n (diagOp d) rhs sol (fun _ => czero)), 0⟩
        (diagInv d n (fun _ => czero) (fun j => if j < n then
            zd_mult (residual n (diagOp d) rhs sol (fun _ => czero) j)
              (1 / ext.dznrm2_ n (residual n (diagOp d) rhs sol (fun _ => czero)))
          else residual n (diagOp d) rhs sol (fun _ => czero) j) k)) else sol k) k) (d k)
      = rhs k := by
    intro k hk
    simp only [hk, if_true, diagInv]
    rw [residual_diag n d rhs sol _ k hk]
    exact update_diag_exact _ _ hbpos.ne' (hd k hk) _ _
  obtain ⟨r, h1, h2, h3, h4, h5, h6, h7, h8, h9, h10⟩ := zfgmr_one_step hex habs n (diagOp d)
    (some (diagInv d)) rhs sol tol im maxits f htol him _ rfl hb _ rfl _ rfl
    (by
      intro y k hk
      rw [diagOp_apply]
      simp only [diagInv, hk, if_true]
      exact zd_mult_inv_cancel _ (hd k hk) _)
    _ rfl
    (by
      intro y k hk
      rw [diagOp_apply]
      exact key k hk)
  refine ⟨r, h1, h2, h3, h4, ?_, h6, h7, h8, ?_, ?_⟩
  · intro k hk
    rw [h5]
    exact key k hk
  · intro k hk
    rw [h5, h9, h10]
    simp only [hk, if_true]
  · intro k hk
    rw [h10]
    simp only [diagInv, hk, if_true]

theorem arnoldi_zero_noreorth (ext : Ext R) (n : Nat) (mv : MatVec R)
    (ps : Option (PSolve R)) (f : Nat) (w : Work R) (z0 cand w1 : Vec R) (tt : doublecomplex R)
    (hz0 : z0 = match ps with
      | some p => p n (w.z 0) (w.vv 0)
      | none => zcopy_ n (w.vv 0) (w.z 0))
    (hcand : cand = mv cone z0 czero (w.vv 1))
    (htt : tt = zdotc n (w.vv 0) cand)
    (hw1 : w1 = zaxpy_ n ⟨-tt.r, -tt.i⟩ (w.vv 0) cand)
    (hno : ¬ ext.dznrm2_ n w1 < 1 / 2 * ext.dznrm2_ n cand) (hne : ext.dznrm2_ n w1 ≠ 0) :
    arnoldi f ext n mv ps 0 w = some
      { w with
        z := Function.update w.z 0 z0
        hh := set2 (set2 w.hh 0 0 tt) 0 1 ⟨ext.dznrm2_ n w1, 0⟩
        vv := Function.update w.vv 1
          (fun k => if k < n then zd_mult (w1 k) (1 / ext.dznrm2_ n w1) else w1 k) } := by
  unfold arnoldi
  simp only [← hz0, zero_add, forN, Function.update_same, ← hcand]
  simp only [gsFirst, zero_add, Function.update_same, ne_eq, one_ne_zero, not_false_eq_true,
    Function.update_noteq, zero_ne_one, ← htt, ← hw1]
  rw [reorth_stop ext n 0 f _ _ _ hno]
  simp only [hne, ne_eq, not_false_eq_true, if_true, Function.update_same, Function.update_idem]

theorem unit0_lt2 (k : Nat) (hk : ¬ k < 2) : (unit0 : Vec R) k = czero := by
  unfold unit0; rw [if_neg]; omega

theorem swap_residual0 (y : Vec R) (hy : ∀ k, ¬ k < 2 → y k = czero) :
    residual 2 swapOp (unit0 : Vec R) vzero y = unit0 := by
  funext k
  unfold residual swapOp
  by_cases hk : k < 2
  · simp only [hk, if_true]
    interval_cases k <;> simp [unit0, vzero, z_sub, z_add, zz_mult, cone, czero]
  · simp only [hk, if_false, unit0_lt2 k hk, hy k hk]

theorem nrm_unit0 {ext : Ext R} (hex : ExactNorm ext) : ext.dznrm2_ 2 unit0 = 1 := by
  apply hex.eq_of_sq _ _ 1 zero_le_one
  simp [nrmSq, forN, unit0, cnormSq, cone, czero]

theorem nrm_unit1 {ext : Ext R} (hex : ExactNorm ext) : ext.dznrm2_ 2 unit1 = 1 := by
  apply hex.eq_of_sq _ _ 1 zero_le_one
  simp [nrmSq, forN, unit1, cnormSq, cone, czero]

theorem scale_one (n : Nat) (x : Vec R) :
    (fun k => if k < n then zd_mult (x k) (1 / 1) else x k) = x := by
  funext k
  split_ifs
  · cases h : x k; simp [zd_mult]
  · rfl

theorem swap_unit0 : swapOp cone (unit0 : Vec R) czero vzero = unit1 := by
  funext k
  unfold swapOp
  by_cases hk : k < 2
  · simp only [hk, if_true]
    interval_cases k <;> simp [unit0, unit1, vzero, z_add, zz_mult, cone, czero]
  · simp only [hk, if_false, vzero, unit1]
    rw [if_neg]; omega

theorem zcopy_unit0 : zcopy_ 2 (unit0 : Vec R) vzero = unit0 := by
  funext k
  unfold zcopy_
  by_cases hk : k < 2
  · simp [hk]
  · simp only [hk, if_false, unit0_lt2 k hk]; rfl

theorem dot_unit01 : zdotc 2 (unit0 : Vec R) unit1 = czero := by
  simp [zdotc, forN, unit0, unit1, zz_mult, zz_conj, z_add, cone, czero]

theorem givens_zero_swap {ext : Ext R} (hex : ExactNorm ext) (w : Work R)
    (h00 : w.hh 0 0 = czero) (h01 : w.hh 0 1 = cone) (hrs : w.rs 0 = cone) :
    (givens ext 0 w).2 = ext.z_abs1 ⟨-1, 0⟩ ∧ (givens ext 0 w).1.rs 0 = czero ∧
      (givens ext 0 w).1.hh 0 0 = cone ∧ (givens ext 0 w).1.z = w.z ∧
      (givens ext 0 w).1.vv = w.vv := by
  have hg : ext.dznrm2_ 2 (fun k => w.hh 0 (0 + k)) = 1 := by
    apply hex.eq_of_sq _ _ 1 zero_le_one
    simp [nrmSq, forN, h00, h01, cnormSq, cone, czero]
  simp only [zero_add] at hg
  unfold givens
  simp only [forN, zero_add, hg, one_ne_zero, if_false, h00, h01, hrs]
  simp [zd_mult, zz_mult, z_add, cone, czero, set2, hrs]

theorem zfgmr_swap_stagnation {ext : Ext R} (hex : ExactNorm ext)
    (habs : (1 / 2 : R) < ext.z_abs1 ⟨-1, 0⟩) (maxits : Int) (f : Nat) :
    ∃ r, zfgmr (f + 1) ext 2 swapOp none unit0 vzero (1 / 2) 1 maxits = .ok r ∧
      r.exit = Exit.stagnation ∧ r.itmax = wrap32 (maxits + 10) ∧ r.final.inner = 1 ∧
      r.retval = (if wrap32 (maxits + 10) ≥ maxits then 1 else 0) := by
  have hinit : initResidual ext 2 swapOp unit0
      { sol := vzero, its := 0, eps1 := 0, work := Work.init, inner := 0, matvecs := 0,
        lasti := 0 } =
      ({ sol := vzero, its := 0, eps1 := 0,
         work := ⟨Function.update Work.init.vv 0 unit0, Work.init.hh, Work.init.z, Work.init.c,
           Work.init.s, Work.init.rs⟩,
         inner := 0, matvecs := 1, lasti := 0 }, 1) := by
    unfold initResidual
    have h0 : (Work.init : Work R).vv 0 = vzero := rfl
    simp only [h0, swap_residual0 vzero (fun _ _ => rfl), nrm_unit0 hex, zero_add]
  have hprep : prepare 2 (1 / 2 : R) 1
      { sol := vzero, its := 0, eps1 := 0,
         work := ⟨Function.update Work.init.vv 0 unit0, Work.init.hh, Work.init.z, Work.init.c,
           Work.init.s, Work.init.rs⟩,
         inner := 0, matvecs := 1, lasti := 0 } =
      { sol := vzero, its := 0, eps1 := 1 / 2,
         work := ⟨Function.update Work.init.vv 0 unit0, Work.init.hh, Work.init.z, Work.init.c,
           Work.init.s, Function.update Work.init.rs 0 ⟨1, 0⟩⟩,
         inner := 0, matvecs := 1, lasti := 0 } := by
    unfold prepare
    simp only [Function.update_same, scale_one, Function.update_idem, if_true, mul_one]
  obtain ⟨w1, harn, a1, a2, a3, a4, a5⟩ : ∃ w1, arnoldi (f + 1) ext 2 swapOp none 0
      ⟨Function.update Work.init.vv 0 unit0, Work.init.hh, Work.init.z, Work.init.c,
           Work.init.s, Function.update Work.init.rs 0 ⟨1, 0⟩⟩ = some w1 ∧
      w1.hh 0 0 = czero ∧ w1.hh 0 1 = cone ∧ w1.rs 0 = cone ∧ w1.z 0 = unit0 ∧
      (∀ k, ¬ k < 2 → w1.vv 0 k = czero) := by
    have hz : (Work.init : Work R).z 0 = vzero := rfl
    have hv1 : Function.update (Work.init : Work R).vv 0 unit0 1 = vzero := by
      rw [Function.update_noteq (by decide)]; rfl
    refine ⟨_, arnoldi_zero_noreorth ext 2 swapOp none (f + 1) _ unit0 unit1 unit1 czero
      (by simp only [Function.update_same, hz, zcopy_unit0])
      (by simp only [hv1, swap_unit0])
      (by simp only [Function.update_same, dot_unit01])
      (by simp only [Function.update_same]; exact (zaxpy_zero 2 unit0 unit1).symm)
      (by simp only [nrm_unit1 hex]; norm_num)
      (by rw [nrm_unit1 hex]; exact one_ne_zero), ?_, ?_, ?_, ?_, ?_⟩
    · simp [set2]
    · simp [set2, nrm_unit1 hex, cone]
    · simp [cone]
    · simp
    · intro k hk
      simp [unit0_lt2 k hk]
  obtain ⟨g1, g2, g3, g4, g5⟩ := givens_zero_swap hex w1 a1 a2 a3
  obtain ⟨iend, hin, hcl⟩ : ∃ iend, innerLoop (f + 1) ext 2 swapOp none maxits 1 0
      { sol := vzero, its := 0, eps1 := 1 / 2,
         work := ⟨Function.update Work.init.vv 0 unit0, Work.init.hh, Work.init.z, Work.init.c,
           Work.init.s, Function.update Work.init.rs 0 ⟨1, 0⟩⟩,
         inner := 0, matvecs := 1, lasti := 0 } =
      some ({ sol := vzero, its := 1, eps1 := 1 / 2, work := (givens ext 0 w1).1,
              inner := 1, matvecs := 2, lasti := 0 }, iend) ∧ clampIndex 1 iend = 0 := by
    have hw : wrap32 1 = 1 := by decide
    by_cases hm : (1 : Int) ≥ maxits
    · refine ⟨0, ?_, by decide⟩
      rw [innerLoop]
      simp only [harn, zero_add, hw, g1, not_le.mpr habs, false_or, hm, if_true]
    · refine ⟨1, ?_, by decide⟩
      rw [innerLoop]
      simp only [harn, zero_add, hw, g1, not_le.mpr habs, false_or, hm, if_false, innerLoop]
  have hbs : backSolve 0 (givens ext 0 w1).1 =
      some { (givens ext 0 w1).1 with rs := Function.update (givens ext 0 w1).1.rs 0 czero } := by
    unfold backSolve
    rw [g2, g3]
    simp [z_div, cone, czero, forNM]
  have hup : ∀ w : Work R, updateSol 2 0 { w with rs := Function.update w.rs 0 czero } vzero
      = vzero := by
    intro w
    funext j
    simp [updateSol, forN, vzero, z_add, zz_mult, czero]
  have hv0 : ∀ k, ¬ k < 2 → (givens ext 0 w1).1.vv 0 k = czero := by
    rw [g5]; exact a5
  have key : ∃ st : State R, outerPass (f + 1) ext 2 swapOp none unit0 (1 / 2) 1 maxits
      { sol := vzero, its := 0, eps1 := 0, work := Work.init, inner := 0, matvecs := 0,
        lasti := 0 } = .ok (.exit .stagnation st) ∧
      st.its = wrap32 (maxits + 10) ∧ st.inner = 1 := by
    refine ⟨?w, ?h1, ?h2⟩
    case h1 =>
      unfold outerPass
      have hnim : ¬ (1 : Int) < 0 := by decide
      have hgt : (1 : R) > 1 / 2 * 1 := by norm_num
      simp only [hnim, if_false, hinit, nrm_unit0 hex, hgt, not_true_eq_false, hprep]
      have h1 : (1 : Int).toNat = 1 := rfl
      simp only [h1, hin, hcl, lt_self_iff_false, if_false, Int.toNat_zero]
      unfold solveUpdate
      simp only [hbs, Option.map_some', hup]
      rw [swap_residual0 _ hv0]
      simp only [nrm_unit0 hex]
      unfold restartCheck
      have hst : ¬ ((1 : R) < 1 / 2 / (1 / 2)) := by norm_num
      rw [if_pos hst]
      exact rfl
    case h2 => exact ⟨rfl, rfl⟩
  obtain ⟨st, h1, h2, h3⟩ := key
  refine ⟨finish maxits .stagnation st, ?_, rfl, h2, h3, ?_⟩
  · unfold zfgmr
    rw [outerLoop, h1]
  · simp only [finish, h2]

end OneStep

/-! ## Claims about the control flow and the return value of `zfgmr` -/

section Claims

variable {R : Type} [LinearOrderedField R]

theorem z_abs1_real_neg_one : (1 / 2 : ℝ) < (Ext.ofSqrt Real.sqrt).z_abs1 ⟨-1, 0⟩ := by
  have h : (Ext.ofSqrt Real.sqrt).z_abs1 ⟨-1, 0⟩ = 1 := by
    simp [Ext.ofSqrt, cnormSq]
  rw [h]; norm_num

theorem nrm1_unit0 {ext : Ext R} (hex : ExactNorm ext) : ext.dznrm2_ 1 unit0 = 1 := by
  apply hex.eq_of_sq _ _ 1 zero_le_one
  simp [nrmSq, forN, unit0, cnormSq, cone]

theorem nrm1_residual_unit0 {ext : Ext R} (hex : ExactNorm ext) :
    ext.dznrm2_ 1 (residual 1 idOp unit0 vzero vzero) = 1 := by
  apply hex.eq_of_sq _ _ 1 zero_le_one
  simp [nrmSq, forN, residual, idOp, unit0, vzero, cnormSq, cone, czero, z_sub, z_add, zz_mult]

/-- The identity system `x = 1` of size one, started from `0` with `tol = 1/2` and
`im = 1`, over any exact norm: one inner step solves it. -/
theorem zfgmr_id_unit {ext : Ext R} (hex : ExactNorm ext) (habs : ext.z_abs1 czero = 0)
    (maxits : Int) :
    ∃ r, zfgmr 1 ext 1 idOp none unit0 vzero (1 / 2) 1 maxits = .ok r ∧
      r.exit = Exit.converged ∧ r.itmax = 1 ∧ r.retval = (if (1 : Int) ≥ maxits then 1 else 0) ∧
      r.sol 0 = cone ∧ r.final.inner = 1 := by
  obtain ⟨r, h1, h2, h3, h4, h5, h6, -, -⟩ := zfgmr_id_one_step hex habs 1 unit0 vzero (1 / 2) 1
    maxits 0 (by norm_num) le_rfl
    (by
      show ext.dznrm2_ 1 (residual 1 idOp unit0 vzero vzero) > _
      rw [nrm1_residual_unit0 hex, nrm1_unit0 hex]; norm_num)
  exact ⟨r, h1, h2, h3, h4, by rw [h5 0 Nat.zero_lt_one]; rfl, h6⟩

/-- C1 (amended). The value stored in `*itmax` equals the number of executed inner-loop
bodies on every exit of `zfgmr` other than the stagnation exit; on the stagnation exit
it is `maxits + 10` (for a budget with `maxits + 10` representable as a C `int`). -/
theorem C1_itmax_on_return (fuel : Nat) (ext : Ext R) (n : Nat) (zmatvec : MatVec R)
    (zpsolve : Option (PSolve R)) (rhs sol : Vec R) (tol : R) (im maxits : Int)
    (hmin : -2147483648 ≤ maxits) (hmax : maxits < 2147483648) (r : Result R)
    (h : zfgmr fuel ext n zmatvec zpsolve rhs sol tol im maxits = .ok r) :
    (r.exit ≠ Exit.stagnation → r.itmax = (r.final.inner : Int)) ∧
    (r.exit = Exit.stagnation → maxits + 10 < 2147483648 → r.itmax = maxits + 10) := by
  obtain ⟨c1, c2, -, -⟩ := zfgmr_count fuel ext n zmatvec zpsolve rhs sol tol im maxits hmax r h
  refine ⟨c1, fun he hlt => ?_⟩
  rw [c2 he]
  exact wrap32_of_range (by omega) hlt

/-- Witness of C1: the identity system of size one with budget 5. -/
theorem C1_itmax_on_return_witness :
    (-2147483648 : Int) ≤ 5 ∧ (5 : Int) < 2147483648 ∧
    ∃ r, zfgmr 1 (Ext.ofSqrt Real.sqrt) 1 idOp none unit0 vzero (1 / 2) 1 5 = .ok r ∧
      (r.exit ≠ Exit.stagnation → r.itmax = (r.final.inner : Int)) ∧
      (r.exit = Exit.stagnation → (5 : Int) + 10 < 2147483648 → r.itmax = 5 + 10) := by
  obtain ⟨r, h1, -⟩ := zfgmr_id_unit exactNorm_real z_abs1_real_zero 5
  exact ⟨by norm_num, by norm_num, r, h1,
    C1_itmax_on_return 1 _ 1 idOp none unit0 vzero (1 / 2) 1 5 (by norm_num) (by norm_num) r h1⟩

/-- Counterexample to C1 as stated: on the exchange system `[[0,1],[1,0]] x = e0` with
`im = 1` and budget 5 the run stagnates after one inner iteration and stores 15 in
`*itmax`. -/
theorem C1_counterexample :
    ∃ r, zfgmr 1 (Ext.ofSqrt Real.sqrt) 2 swapOp none unit0 vzero (1 / 2) 1 5 = .ok r ∧
      r.final.inner = 1 ∧ r.itmax = 15 := by
  obtain ⟨r, h1, -, h3, h4, -⟩ := zfgmr_swap_stagnation exactNorm_real z_abs1_real_neg_one 5 0
  exact ⟨r, h1, h4, by rw [h3]; decide⟩

/-- C2 (failing input). The identity system of size one with budget 1: the restart
check finds `beta = 0 <= eps1` after the first inner iteration, `sol` is the exact
solution, and `zfgmr` returns 1. -/
theorem C2_converged_at_budget :
    ∃ r, zfgmr 1 (Ext.ofSqrt Real.sqrt) 1 idOp none unit0 vzero (1 / 2) 1 1 = .ok r ∧
      r.exit = Exit.converged ∧ r.sol 0 = cone ∧ r.final.inner = 1 ∧ r.retval = 1 := by
  obtain ⟨r, h1, h2, -, h4, h5, h6⟩ := zfgmr_id_unit exactNorm_real z_abs1_real_zero 1
  exact ⟨r, h1, h2, h5, h6, by rw [h4]; decide⟩

/-- C3 (failing input). The exchange system with budget `INT_MAX`: the restart check
finds stagnation, `maxits + 10` wraps to a negative value and `zfgmr` returns 0. -/
theorem C3_stagnation_at_int_max :
    ∃ r, zfgmr 1 (Ext.ofSqrt Real.sqrt) 2 swapOp none unit0 vzero (1 / 2) 1 2147483647 = .ok r ∧
      r.exit = Exit.stagnation ∧ r.final.inner = 1 ∧ r.itmax = -2147483639 ∧ r.retval = 0 := by
  obtain ⟨r, h1, h2, h3, h4, h5⟩ :=
    zfgmr_swap_stagnation exactNorm_real z_abs1_real_neg_one 2147483647 0
  exact ⟨r, h1, h2, h4, by rw [h3]; decide, by rw [h5]; decide⟩

/-- C4 (failing input). The empty system (`n = 0`) with budget 0: the initial test
holds, no inner iteration is performed, and `zfgmr` returns 1. -/
theorem C4_initial_exit_budget_zero :
    ∃ r, zfgmr 1 (Ext.ofSqrt Real.sqrt) 0 idOp none vzero vzero (1 / 2) 1 0 = .ok r ∧
      r.exit = Exit.initial ∧ r.final.inner = 0 ∧ r.itmax = 0 ∧ r.sol = vzero ∧ r.retval = 1 := by
  obtain ⟨r, h1, h2, h3, h4, h5, h6, -⟩ := zfgmr_initial (Ext.ofSqrt Real.sqrt) 0 idOp none
    vzero vzero (1 / 2) 1 0 0 (by norm_num)
    (by
      rw [exactNorm_real.eq_zero 0 _ (fun k hk => absurd hk (Nat.not_lt_zero k)),
        exactNorm_real.eq_zero 0 vzero (fun k hk => absurd hk (Nat.not_lt_zero k))]
      norm_num)
  exact ⟨r, h1, h2, h6, h3, h5, by rw [h4]; decide⟩

/-- C6 (amended). For every budget `K` passed in `*itmax` the number of inner
iterations performed over all outer passes never exceeds `max(K, 1)`: the first inner
iteration of the first pass is executed before the budget is looked at, after that the
inner loop stops as soon as the counter reaches the budget and no further outer pass
is started. -/
theorem C6_inner_iterations_bounded (fuel : Nat) (ext : Ext R) (n : Nat) (zmatvec : MatVec R)
    (zpsolve : Option (PSolve R)) (rhs sol : Vec R) (tol : R) (im maxits : Int)
    (hmax : maxits < 2147483648) (r : Result R)
    (h : zfgmr fuel ext n zmatvec zpsolve rhs sol tol im maxits = .ok r) :
    (r.final.inner : Int) ≤ max maxits 1 :=
  (zfgmr_count fuel ext n zmatvec zpsolve rhs sol tol im maxits hmax r h).2.2.1

/-- Witness of C6: the identity system of size one with budget 3. -/
theorem C6_inner_iterations_bounded_witness :
    (3 : Int) < 2147483648 ∧
    ∃ r, zfgmr 1 (Ext.ofSqrt Real.sqrt) 1 idOp none unit0 vzero (1 / 2) 1 3 = .ok r ∧
      (r.final.inner : Int) ≤ max 3 1 := by
  obtain ⟨r, h1, -⟩ := zfgmr_id_unit exactNorm_real z_abs1_real_zero 3
  exact ⟨by norm_num, r, h1,
    C6_inner_iterations_bounded 1 _ 1 idOp none unit0 vzero (1 / 2) 1 3 (by norm_num) r h1⟩

/-- Counterexample to C6 as stated: with budget `K = 0` the identity system of size one
still gets one inner iteration. -/
theorem C6_counterexample :
    ∃ r, zfgmr 1 (Ext.ofSqrt Real.sqrt) 1 idOp none unit0 vzero (1 / 2) 1 0 = .ok r ∧
      r.final.inner = 1 ∧ ¬ (r.final.inner : Int) ≤ 0 := by
  obtain ⟨r, h1, -, -, -, -, h6⟩ := zfgmr_id_unit exactNorm_real z_abs1_real_zero 0
  exact ⟨r, h1, h6, by rw [h6]; decide⟩

/-- C7 (amended). In exact arithmetic, for the identity operator, no preconditioner,
`tol > 0`, `im >= 1` and a budget `>= 2`, `zfgmr` returns 0 after 0 or 1 inner
iterations. After 1 iteration `sol == rhs` and the last residual estimate `rs[i+1]` is
zero; after 0 iterations (the initial residual already satisfies
`||rhs - sol|| <= tol * ||rhs||`) `sol` is returned unchanged. -/
theorem C7_identity_operator {ext : Ext R} (hex : ExactNorm ext)
    (habs : ext.z_abs1 czero = 0) (n : Nat) (rhs sol : Vec R) (tol : R) (im maxits : Int)
    (f : Nat) (htol : 0 < tol) (him : 1 ≤ im) (hbud : 2 ≤ maxits) :
    ∃ r, zfgmr (f + 1) ext n idOp none rhs sol tol im maxits = .ok r ∧ r.retval = 0 ∧
      ((r.final.inner = 0 ∧ r.itmax = 0 ∧ r.sol = sol ∧
          ext.dznrm2_ n (residual n idOp rhs sol vzero) ≤ tol * ext.dznrm2_ n rhs) ∨
       (r.final.inner = 1 ∧ r.itmax = 1 ∧ (∀ k, k < n → r.sol k = rhs k) ∧
          r.final.work.rs (r.final.lasti + 1) = czero)) := by
  by_cases hb : ext.dznrm2_ n (residual n idOp rhs sol vzero) > tol * ext.dznrm2_ n rhs
  · obtain ⟨r, h1, -, h3, h4, h5, h6, h7, h8⟩ :=
      zfgmr_id_one_step hex habs n rhs sol tol im maxits f htol him hb
    refine ⟨r, h1, ?_, Or.inr ⟨h6, h3, h5, by rw [h7]; exact h8⟩⟩
    rw [h4, if_neg (by omega)]
  · obtain ⟨r, h1, -, h3, h4, h5, h6, -⟩ :=
      zfgmr_initial ext n idOp none rhs sol tol im maxits f (by omega) hb
    refine ⟨r, h1, ?_, Or.inl ⟨h6, h3, h5, not_lt.mp hb⟩⟩
    rw [h4, if_neg (by omega)]

/-- Witness of C7: the identity system of size one, `tol = 1/2`, budget 2. -/
theorem C7_identity_operator_witness :
    ExactNorm (Ext.ofSqrt Real.sqrt) ∧ (Ext.ofSqrt Real.sqrt).z_abs1 czero = 0 ∧
    (0 : ℝ) < 1 / 2 ∧ (1 : Int) ≤ 1 ∧ (2 : Int) ≤ 2 ∧
    ∃ r, zfgmr 1 (Ext.ofSqrt Real.sqrt) 1 idOp none unit0 vzero (1 / 2) 1 2 = .ok r ∧
      r.retval = 0 ∧
      ((r.final.inner = 0 ∧ r.itmax = 0 ∧ r.sol = vzero ∧
          (Ext.ofSqrt Real.sqrt).dznrm2_ 1 (residual 1 idOp unit0 vzero vzero) ≤
            1 / 2 * (Ext.ofSqrt Real.sqrt).dznrm2_ 1 unit0) ∨
       (r.final.inner = 1 ∧ r.itmax = 1 ∧ (∀ k, k < 1 → r.sol k = unit0 k) ∧
          r.final.work.rs (r.final.lasti + 1) = czero)) :=
  ⟨exactNorm_real, z_abs1_real_zero, by norm_num, le_rfl, le_rfl,
    C7_identity_operator exactNorm_real z_abs1_real_zero 1 unit0 vzero (1 / 2) 1 2 0
      (by norm_num) le_rfl le_rfl⟩

/-- Counterexample to C7 as stated: identity system of size one with `rhs = 1`, initial
guess `1/2` and `tol = 1`: the initial test holds, `zfgmr` returns after 0 inner
iterations and `sol` is still `1/2`, not `rhs`. -/
theorem C7_counterexample :
    ∃ r, zfgmr 1 (Ext.ofSqrt Real.sqrt) 1 idOp none unit0
        (fun _ => (⟨1 / 2, 0⟩ : doublecomplex ℝ)) 1 1 2 = .ok r ∧
      r.retval = 0 ∧ r.final.inner = 0 ∧ r.sol 0 = ⟨1 / 2, 0⟩ ∧ r.sol 0 ≠ unit0 0 := by
  have hn : (Ext.ofSqrt Real.sqrt).dznrm2_ 1
      (residual 1 idOp unit0 (fun _ => (⟨1 / 2, 0⟩ : doublecomplex ℝ)) (fun _ => czero)) = 1 / 2 := by
    apply exactNorm_real.eq_of_sq _ _ (1 / 2) (by norm_num)
    simp [nrmSq, forN, residual, idOp, unit0, cnormSq, cone, czero, z_sub, z_add, zz_mult]
    norm_num
  obtain ⟨r, h1, -, -, h4, h5, h6, -⟩ := zfgmr_initial (Ext.ofSqrt Real.sqrt) 1 idOp none unit0
    (fun _ => (⟨1 / 2, 0⟩ : doublecomplex ℝ)) 1 1 2 0 (by norm_num)
    (by rw [hn, nrm1_unit0 exactNorm_real]; norm_num)
  refine ⟨r, h1, by rw [h4]; decide, h6, by rw [h5], ?_⟩
  rw [h5]
  simp [unit0, cone]

/-- C8. In exact arithmetic, for a diagonal positive-definite operator with its exact
inverse as preconditioner, zero initial guess, `rhs != 0`, `0 < tol < 1`, `im >= 1` and
a budget `>= 2`: `zfgmr` returns 0 having performed exactly one inner iteration
(`*itmax == 1`), the final `sol` satisfies `rhs - A sol == 0`, and
`sol = x0 + y[0] * Z[0]` with `Z[0] = A^-1 V[0]` the preconditioned vector,
`V[0] = rhs / ||rhs||`. -/
theorem C8_diagonal_exact_preconditioner {ext : Ext R} (hex : ExactNorm ext)
    (habs : ext.z_abs1 czero = 0) (n : Nat) (d : Nat → R) (hd : ∀ k, k < n → 0 < d k)
    (rhs : Vec R) (hrhs : ∃ k, k < n ∧ rhs k ≠ czero) (tol : R) (im maxits : Int) (f : Nat)
    (htol : 0 < tol) (htol1 : tol < 1) (him : 1 ≤ im) (hbud : 2 ≤ maxits) :
    ∃ r, zfgmr (f + 1) ext n (diagOp d) (some (diagInv d)) rhs vzero tol im maxits = .ok r ∧
      r.retval = 0 ∧ r.itmax = 1 ∧ r.final.inner = 1 ∧
      (∀ k, k < n → z_sub (rhs k) (zd_mult (r.sol k) (d k)) = czero) ∧
      (∀ k, k < n → r.sol k = z_add (vzero k) (zz_mult (r.final.work.rs 0) (r.final.work.z 0 k))) ∧
      (∀ k, k < n → r.final.work.z 0 k =
        zd_mult (zd_mult (rhs k) (1 / ext.dznrm2_ n rhs)) (1 / d k)) := by
  have hres : ext.dznrm2_ n (residual n (diagOp d) rhs vzero (fun _ => czero)) =
      ext.dznrm2_ n rhs := by
    apply hex.congr
    intro k hk
    rw [residual_diag n d rhs vzero _ k hk]
    cases hr : rhs k
    simp [z_sub, zd_mult, vzero, czero]
  have hpos : 0 < ext.dznrm2_ n rhs := hex.pos_of_ne n rhs hrhs
  have hb : ext.dznrm2_ n (residual n (diagOp d) rhs vzero (fun _ => czero)) >
      tol * ext.dznrm2_ n rhs := by
    rw [hres]; nlinarith
  obtain ⟨r, h1, -, h3, h4, h5, h6, -, -, h9, h10⟩ := zfgmr_diag_one_step hex habs n d
    (fun k hk => (hd k hk).ne') rhs vzero tol im maxits f htol him hb
  refine ⟨r, h1, by rw [h4, if_neg (by omega)], h3, h6, ?_, h9, ?_⟩
  · intro k hk
    rw [h5 k hk]
    simp [z_sub, czero]
  · intro k hk
    rw [h10 k hk, hres, residual_diag n d rhs vzero _ k hk]
    cases hr : rhs k
    simp [z_sub, zd_mult, vzero, czero]

/-- Witness of C8: the 2x2 system `diag(1, 2) x = (1, 0)`, `tol = 1/2`, budget 2. -/
theorem C8_diagonal_exact_preconditioner_witness :
    ExactNorm (Ext.ofSqrt Real.sqrt) ∧ (Ext.ofSqrt Real.sqrt).z_abs1 czero = 0 ∧
    (∀ k : Nat, k < 2 → (0 : ℝ) < (k : ℝ) + 1) ∧ (∃ k, k < 2 ∧ (unit0 : Vec ℝ) k ≠ czero) ∧
    (0 : ℝ) < 1 / 2 ∧ (1 / 2 : ℝ) < 1 ∧ (1 : Int) ≤ 1 ∧ (2 : Int) ≤ 2 ∧
    ∃ r, zfgmr 1 (Ext.ofSqrt Real.sqrt) 2 (diagOp fun k : Nat => (k : ℝ) + 1)
        (some (diagInv fun k : Nat => (k : ℝ) + 1)) unit0 vzero (1 / 2) 1 2 = .ok r ∧
      r.retval = 0 ∧ r.itmax = 1 ∧ r.final.inner = 1 ∧
      (∀ k : Nat, k < 2 → z_sub (unit0 k) (zd_mult (r.sol k) ((k : ℝ) + 1)) = czero) ∧
      (∀ k, k < 2 → r.sol k = z_add (vzero k) (zz_mult (r.final.work.rs 0) (r.final.work.z 0 k))) ∧
      (∀ k : Nat, k < 2 → r.final.work.z 0 k =
        zd_mult (zd_mult (unit0 k) (1 / (Ext.ofSqrt Real.sqrt).dznrm2_ 2 unit0)) (1 / ((k : ℝ) + 1))) :=
  have hd : ∀ k : Nat, k < 2 → (0 : ℝ) < (k : ℝ) + 1 := fun k _ => by positivity
  have hr : ∃ k, k < 2 ∧ (unit0 : Vec ℝ) k ≠ czero :=
    ⟨0, by norm_num, by simp [unit0, cone, czero]⟩
  ⟨exactNorm_real, z_abs1_real_zero, hd, hr, by norm_num, by norm_num, le_rfl, le_rfl,
    C8_diagonal_exact_preconditioner exactNorm_real z_abs1_real_zero 2 (fun k : Nat => (k : ℝ) + 1) hd
      unit0 hr (1 / 2) 1 2 0 (by norm_num) (by norm_num) le_rfl le_rfl⟩

end Claims

/-! ## Claims about `strsv_` -/

section StrsvClaims

variable {R : Type} [LinearOrderedField R]

/-- C11 (failing input). The documented lowercase option `UPLO = 'u'` is rejected: with
`n = 1`, `lda = 1`, `incx = 1` the call with `'u'` ends in `input_error` with `info = 1`
and leaves `x` untouched, while the same call with `'U'` is accepted and solves the
system; likewise `TRANS = 'n'` gives `info = 2` and `DIAG = 'n'` gives `info = 3`. -/
theorem C11_lowercase_rejected (a x : Int → R) :
    strsv_ 'u' 'N' 'N' 1 a 1 x 1 = .error 1 ∧
    strsv_ 'U' 'n' 'N' 1 a 1 x 1 = .error 2 ∧
    strsv_ 'U' 'N' 'n' 1 a 1 x 1 = .error 3 ∧
    strsv_ 'U' 'N' 'N' 1 a 1 x 1 = .ok (loop20 true 1 a 1 x) := by
  refine ⟨?_, ?_, ?_, ?_⟩ <;> simp [strsv_]

end StrsvClaims

/-! ## Ring structure of the complex value type -/

section ComplexAlg

variable {R : Type} [LinearOrderedField R]

theorem z_add_eq (a b : doublecomplex R) : z_add a b = a + b := rfl

theorem zz_mult_eq (a b : doublecomplex R) : zz_mult a b = a * b := rfl

theorem czero_eq : (czero : doublecomplex R) = 0 := rfl

theorem cone_eq : (cone : doublecomplex R) = 1 := rfl

theorem neg_mk (a : doublecomplex R) : (⟨-a.r, -a.i⟩ : doublecomplex R) = -a := rfl

theorem z_sub_eq (a b : doublecomplex R) : z_sub a b = a - b := by
  rw [sub_eq_add_neg]
  exact congrArg₂ doublecomplex.mk (sub_eq_add_neg _ _) (sub_eq_add_neg _ _)

omit [LinearOrderedField R] in
theorem dc_ext {a b : doublecomplex R} (hr : a.r = b.r) (hi : a.i = b.i) : a = b := by
  cases a; cases b; simp only at hr hi; rw [hr, hi]

theorem dc_add_r (a b : doublecomplex R) : (a + b).r = a.r + b.r := rfl

theorem dc_add_i (a b : doublecomplex R) : (a + b).i = a.i + b.i := rfl

theorem dc_mul_r (a b : doublecomplex R) : (a * b).r = a.r * b.r - a.i * b.i := rfl

theorem dc_mul_i (a b : doublecomplex R) : (a * b).i = a.i * b.r + a.r * b.i := rfl

theorem dc_neg_r (a : doublecomplex R) : (-a).r = -a.r := rfl

theorem dc_neg_i (a : doublecomplex R) : (-a).i = -a.i := rfl

theorem dc_sub_r (a b : doublecomplex R) : (a - b).r = a.r - b.r := by
  rw [← z_sub_eq]; rfl

theorem dc_sub_i (a b : doublecomplex R) : (a - b).i = a.i - b.i := by
  rw [← z_sub_eq]; rfl

theorem dc_zero_r : (0 : doublecomplex R).r = 0 := rfl

theorem dc_zero_i : (0 : doublecomplex R).i = 0 := rfl

theorem dc_one_r : (1 : doublecomplex R).r = 1 := rfl

theorem dc_one_i : (1 : doublecomplex R).i = 0 := rfl

theorem dc_sum_r (cnt : Nat) (f : Nat → doublecomplex R) :
    (∑ j in Finset.range cnt, f j).r = ∑ j in Finset.range cnt, (f j).r := by
  induction cnt with
  | zero => simp [dc_zero_r]
  | succ k ih => rw [Finset.sum_range_succ, Finset.sum_range_succ, dc_add_r, ih]

theorem dc_sum_i (cnt : Nat) (f : Nat → doublecomplex R) :
    (∑ j in Finset.range cnt, f j).i = ∑ j in Finset.range cnt, (f j).i := by
  induction cnt with
  | zero => simp [dc_zero_i]
  | succ k ih => rw [Finset.sum_range_succ, Finset.sum_range_succ, dc_add_i, ih]

theorem forN_zadd (cnt : Nat) (g : Nat → doublecomplex R) (c : doublecomplex R) :
    forN cnt (fun k tt => z_add tt (g k)) c = c + ∑ k in Finset.range cnt, g k := by
  induction cnt with
  | zero => simp [forN]
  | succ k ih =>
    rw [Finset.sum_range_succ, ← add_assoc, ← ih]; rfl

theorem zdotc_eq_sum (n : Nat) (x y : Vec R) :
    zdotc n x y = ∑ k in Finset.range n, zz_conj (x k) * y k := by
  unfold zdotc
  rw [forN_zadd, czero_eq, zero_add]
  rfl

theorem zz_conj_conj (a : doublecomplex R) : zz_conj (zz_conj a) = a := by
  cases a; simp [zz_conj]

theorem zz_conj_add (a b : doublecomplex R) : zz_conj (a + b) = zz_conj a + zz_conj b := by
  apply dc_ext
  · simp only [zz_conj, dc_add_r]
  · simp only [zz_conj, dc_add_i]; ring

theorem zz_conj_mul (a b : doublecomplex R) : zz_conj (a * b) = zz_conj a * zz_conj b := by
  apply dc_ext <;> simp only [zz_conj, dc_mul_r, dc_mul_i] <;> ring

theorem zz_conj_zero : zz_conj (0 : doublecomplex R) = 0 := by
  apply dc_ext <;> simp [zz_conj, dc_zero_r, dc_zero_i]

theorem zz_conj_sum (cnt : Nat) (f : Nat → doublecomplex R) :
    zz_conj (∑ j in Finset.range cnt, f j) = ∑ j in Finset.range cnt, zz_conj (f j) := by
  induction cnt with
  | zero => simp [zz_conj_zero]
  | succ k ih => rw [Finset.sum_range_succ, Finset.sum_range_succ, zz_conj_add, ih]

theorem zdotc_conj_symm (n : Nat) (x y : Vec R) : zdotc n y x = zz_conj (zdotc n x y) := by
  rw [zdotc_eq_sum, zdotc_eq_sum, zz_conj_sum]
  apply Finset.sum_congr rfl
  intro k _
  rw [zz_conj_mul, zz_conj_conj, mul_comm]

theorem zd_mult_eq (a : doublecomplex R) (t : R) : zd_mult a t = a * ⟨t, 0⟩ := by
  apply dc_ext <;> simp [zd_mult, dc_mul_r, dc_mul_i]

theorem zaxpy_apply (n : Nat) (a : doublecomplex R) (x y : Vec R) (k : Nat) (hk : k < n) :
    zaxpy_ n a x y k = y k + a * x k := by
  simp only [zaxpy_, hk, if_true]; rfl

/-- The inner product is additive and homogeneous in its second argument. -/
theorem zdotc_axpy (n : Nat) (x v y y1 : Vec R) (a : doublecomplex R)
    (h : ∀ k, k < n → y1 k = y k + a * v k) :
    zdotc n x y1 = zdotc n x y + a * zdotc n x v := by
  rw [zdotc_eq_sum, zdotc_eq_sum, zdotc_eq_sum, Finset.mul_sum, ← Finset.sum_add_distrib]
  apply Finset.sum_congr rfl
  intro k hk
  rw [h k (Finset.mem_range.mp hk)]; ring

theorem zdotc_scale (n : Nat) (x y y1 : Vec R) (a : doublecomplex R)
    (h : ∀ k, k < n → y1 k = y k * a) : zdotc n x y1 = zdotc n x y * a := by
  rw [zdotc_eq_sum, zdotc_eq_sum, Finset.sum_mul]
  apply Finset.sum_congr rfl
  intro k hk
  rw [h k (Finset.mem_range.mp hk)]; ring

theorem cnormSq_mul (a b : doublecomplex R) : cnormSq (a * b) = cnormSq a * cnormSq b := by
  simp only [cnormSq, dc_mul_r, dc_mul_i]; ring

theorem cnormSq_neg (a : doublecomplex R) : cnormSq (-a) = cnormSq a := by
  simp only [cnormSq, dc_neg_r, dc_neg_i]; ring

theorem cnormSq_eq_zero {a : doublecomplex R} (h : cnormSq a = 0) : a = 0 := by
  unfold cnormSq at h
  apply dc_ext
  · rw [dc_zero_r]; nlinarith [mul_self_nonneg a.r, mul_self_nonneg a.i]
  · rw [dc_zero_i]; nlinarith [mul_self_nonneg a.r, mul_self_nonneg a.i]

/-- A vector of norm zero vanishes on its first `n` entries. -/
theorem ExactNorm.zero_of_nrm {ext : Ext R} (hex : ExactNorm ext) (n : Nat) (x : Vec R)
    (h : ext.dznrm2_ n x = 0) : ∀ k, k < n → x k = 0 := by
  intro k hk
  have hs : nrmSq n x = 0 := by rw [← (hex n x).2, h, mul_zero]
  rw [nrmSq_eq_sum] at hs
  have := (Finset.sum_eq_zero_iff_of_nonneg (fun j _ => cnormSq_nonneg (x j))).mp hs k
    (Finset.mem_range.mpr hk)
  exact cnormSq_eq_zero this

end ComplexAlg

/-! ## The Arnoldi step -/

section ArnoldiStep

variable {R : Type} [LinearOrderedField R]

theorem gsStep_vv (f : Bool) (n i j : Nat) (w : Work R) :
    (gsStep f n i j w).vv = Function.update w.vv (i + 1)
      (zaxpy_ n (-(zdotc n (w.vv j) (w.vv (i + 1)))) (w.vv j) (w.vv (i + 1))) := by
  cases f <;> rfl

theorem gsStep_hh (f : Bool) (n i j : Nat) (w : Work R) :
    (gsStep f n i j w).hh = set2 w.hh i j
      ((if f then 0 else w.hh i j) + zdotc n (w.vv j) (w.vv (i + 1))) := by
  cases f
  · rfl
  · simp only [gsStep, gsFirst, if_true, zero_add]

theorem gsStep_frame (f : Bool) (n i j : Nat) (w : Work R) :
    (gsStep f n i j w).z = w.z ∧ (gsStep f n i j w).c = w.c ∧ (gsStep f n i j w).s = w.s ∧
      (gsStep f n i j w).rs = w.rs := by
  cases f <;> exact ⟨rfl, rfl, rfl, rfl⟩

theorem forN_gsStep_frame (f : Bool) (n i : Nat) (w : Work R) (cnt : Nat) :
    (forN cnt (gsStep f n i) w).z = w.z ∧ (forN cnt (gsStep f n i) w).c = w.c ∧
      (forN cnt (gsStep f n i) w).s = w.s ∧ (forN cnt (gsStep f n i) w).rs = w.rs ∧
      (∀ k, k ≠ i + 1 → (forN cnt (gsStep f n i) w).vv k = w.vv k) ∧
      (∀ r l, r ≠ i ∨ cnt ≤ l → (forN cnt (gsStep f n i) w).hh r l = w.hh r l) := by
  induction cnt with
  | zero => exact ⟨rfl, rfl, rfl, rfl, fun _ _ => rfl, fun _ _ _ => rfl⟩
  | succ j ih =>
    obtain ⟨h1, h2, h3, h4, h5, h6⟩ := ih
    obtain ⟨g1, g2, g3, g4⟩ := gsStep_frame f n i j (forN j (gsStep f n i) w)
    simp only [forN]
    refine ⟨g1.trans h1, g2.trans h2, g3.trans h3, g4.trans h4, ?_, ?_⟩
    · intro k hk
      rw [gsStep_vv, Function.update_noteq hk, h5 k hk]
    · intro r l hrl
      rw [gsStep_hh]
      unfold set2
      by_cases hr : r = i
      · subst hr
        have hl : j + 1 ≤ l := by
          rcases hrl with h | h
          · exact absurd rfl h
          · exact h
        rw [Function.update_same, Function.update_noteq (by omega)]
        exact h6 r l (Or.inr (by omega))
      · rw [Function.update_noteq hr]
        exact h6 r l (Or.inl hr)

end ArnoldiStep

/-! ## The Arnoldi step: orthogonality and the Arnoldi relation -/

section ArnoldiRel
variable {R : Type} [LinearOrderedField R]

theorem forN_gs_orth (f : Bool) (n i : Nat) (w : Work R) (hV : OrthoBasis n w.vv (i + 1))
    (cnt : Nat) (hc : cnt ≤ i + 1) :
    ∀ l, l < cnt → zdotc n (w.vv l) ((forN cnt (gsStep f n i) w).vv (i + 1)) = 0 := by
  induction cnt with
  | zero => intro l hl; exact absurd hl (Nat.not_lt_zero l)
  | succ j ih =>
    intro l hl
    have hj : j < i + 1 := hc
    obtain ⟨-, -, -, -, hvv, -⟩ := forN_gsStep_frame f n i w j
    simp only [forN]
    rw [gsStep_vv, Function.update_same, hvv j (by omega)]
    rw [zdotc_axpy n (w.vv l) (w.vv j) ((forN j (gsStep f n i) w).vv (i + 1)) _ _
      (fun k hk => zaxpy_apply n _ _ _ k hk)]
    rw [hV l j (by omega) hj]
    by_cases hlj : l = j
    · subst hlj
      simp
    · rw [if_neg hlj, ih (by omega) l (by omega)]
      simp

/-- The candidate is preserved by the first Gram-Schmidt pass as
`w + sum_{j < cnt} hh[i][j] * vv[j]`. -/
theorem forN_gsFirst_rel (n i : Nat) (w : Work R) (cnt : Nat) (hc : cnt ≤ i + 1) (k : Nat)
    (hk : k < n) :
    (forN cnt (gsStep true n i) w).vv (i + 1) k +
      ∑ j in Finset.range cnt, (forN cnt (gsStep true n i) w).hh i j *
        (forN cnt (gsStep true n i) w).vv j k = w.vv (i + 1) k := by
  induction cnt with
  | zero => simp [forN]
  | succ j ih =>
    have hj : j < i + 1 := hc
    obtain ⟨-, -, -, -, hvv, -⟩ := forN_gsStep_frame true n i w j
    have ih1 := ih (by omega)
    simp only [forN]
    set W := forN j (gsStep true n i) w with hW
    rw [Finset.sum_range_succ]
    have hsum : ∑ x in Finset.range j, (gsStep true n i j W).hh i x * (gsStep true n i j W).vv x k
        = ∑ x in Finset.range j, W.hh i x * W.vv x k := by
      apply Finset.sum_congr rfl
      intro x hx
      have hxj : x < j := Finset.mem_range.mp hx
      rw [gsStep_hh, gsStep_vv, Function.update_noteq (by omega)]
      unfold set2
      rw [Function.update_same, Function.update_noteq (by omega)]
    rw [hsum, gsStep_hh, gsStep_vv, Function.update_same, Function.update_noteq (by omega)]
    unfold set2
    rw [Function.update_same, Function.update_same, zaxpy_apply n _ _ _ k hk, ← ih1]
    simp only [if_true]
    ring

/-- The sum `w + sum_{j <= i} hh[i][j] * vv[j]` is preserved by a reorthogonalization
pass. -/
theorem forN_gsAgain_rel (n i : Nat) (w : Work R) (cnt : Nat) (hc : cnt ≤ i + 1) (k : Nat)
    (hk : k < n) :
    (forN cnt (gsStep false n i) w).vv (i + 1) k +
      ∑ j in Finset.range (i + 1), (forN cnt (gsStep false n i) w).hh i j *
        (forN cnt (gsStep false n i) w).vv j k =
    w.vv (i + 1) k + ∑ j in Finset.range (i + 1), w.hh i j * w.vv j k := by
  induction cnt with
  | zero => simp [forN]
  | succ j ih =>
    have hj : j < i + 1 := hc
    have ih1 := ih (by omega)
    simp only [forN]
    set W := forN j (gsStep false n i) w with hW
    rw [← ih1]
    have hsum : ∑ x in Finset.range (i + 1),
          (gsStep false n i j W).hh i x * (gsStep false n i j W).vv x k
        = ∑ x in Finset.range (i + 1), (W.hh i x * W.vv x k +
            if x = j then zdotc n (W.vv j) (W.vv (i + 1)) * W.vv j k else 0) := by
      apply Finset.sum_congr rfl
      intro x hx
      have hxi : x < i + 1 := Finset.mem_range.mp hx
      rw [gsStep_hh, gsStep_vv, Function.update_noteq (by omega)]
      unfold set2
      rw [Function.update_same]
      by_cases hxj : x = j
      · subst hxj
        rw [Function.update_same]
        simp only [if_true, Bool.false_eq_true, if_false]
        ring
      · rw [Function.update_noteq hxj, if_neg hxj, add_zero]
    rw [hsum, Finset.sum_add_distrib, Finset.sum_ite_eq' (Finset.range (i + 1)) j,
      if_pos (Finset.mem_range.mpr hj), gsStep_vv, Function.update_same,
      zaxpy_apply n _ _ _ k hk]
    ring


theorem gsStep_true (n i : Nat) : gsStep true n i = (gsFirst n i : Nat → Work R → Work R) := by
  funext j w; rfl

theorem gsStep_false (n i : Nat) : gsStep false n i = (gsAgain n i : Nat → Work R → Work R) := by
  funext j w; rfl

theorem forN_gsAgain_of_orth (n i : Nat) (w : Work R) (cnt : Nat)
    (h : ∀ l, l < cnt → zdotc n (w.vv l) (w.vv (i + 1)) = 0) :
    forN cnt (gsAgain n i) w = w := by
  induction cnt with
  | zero => rfl
  | succ j ih =>
    simp only [forN, ih (fun l hl => h l (Nat.lt_succ_of_lt hl))]
    exact gsAgain_of_dot_zero n i j w (h j (Nat.lt_succ_self j))

/-- With the candidate already orthogonal to `vv[0..i]` the loop `while (t < 0.5 * t0)`
makes at most one pass, which changes nothing. -/
theorem reorth_orth {ext : Ext R} (hex : ExactNorm ext) (n i : Nat) (w : Work R)
    (h : ∀ l, l < i + 1 → zdotc n (w.vv l) (w.vv (i + 1)) = 0) (f : Nat) (t0 : R) :
    reorth ext n i (f + 1) t0 (ext.dznrm2_ n (w.vv (i + 1))) w =
      some (ext.dznrm2_ n (w.vv (i + 1)), w) := by
  by_cases ht : ext.dznrm2_ n (w.vv (i + 1)) < 1 / 2 * t0
  · rw [reorth, if_pos ht]
    simp only [forN_gsAgain_of_orth n i w (i + 1) h]
    apply reorth_stop
    have := hex.nonneg n (w.vv (i + 1))
    intro hlt
    linarith
  · exact reorth_stop ext n i (f + 1) t0 _ w ht

/-- What the loop `while (t < 0.5 * t0)` keeps: every buffer but `vv[i1]` and row `i` of
`hh`, the sum `vv[i1] + sum_j hh[i][j] * vv[j]`, and `t = ||vv[i1]||`. -/
theorem reorth_spec (ext : Ext R) (n i : Nat) :
    ∀ (fuel : Nat) (t0 t : R) (w : Work R) (t1 : R) (w1 : Work R),
      reorth ext n i fuel t0 t w = some (t1, w1) → t = ext.dznrm2_ n (w.vv (i + 1)) →
      t1 = ext.dznrm2_ n (w1.vv (i + 1)) ∧ w1.z = w.z ∧ w1.c = w.c ∧ w1.s = w.s ∧
        w1.rs = w.rs ∧ (∀ k, k ≠ i + 1 → w1.vv k = w.vv k) ∧
        (∀ r l, r ≠ i ∨ i + 1 ≤ l → w1.hh r l = w.hh r l) ∧
        (∀ k, k < n → w1.vv (i + 1) k + ∑ j in Finset.range (i + 1), w1.hh i j * w1.vv j k =
          w.vv (i + 1) k + ∑ j in Finset.range (i + 1), w.hh i j * w.vv j k) := by
  intro fuel
  induction fuel with
  | zero =>
    intro t0 t w t1 w1 h ht
    rw [reorth] at h
    split at h
    · cases h
    · simp only [Option.some.injEq, Prod.mk.injEq] at h
      obtain ⟨rfl, rfl⟩ := h
      exact ⟨ht, rfl, rfl, rfl, rfl, fun _ _ => rfl, fun _ _ _ => rfl, fun _ _ => rfl⟩
  | succ f ih =>
    intro t0 t w t1 w1 h ht
    rw [reorth] at h
    split at h
    · obtain ⟨e1, e2, e3, e4, e5, e6, e7, e8⟩ := ih _ _ _ _ _ h rfl
      obtain ⟨f1, f2, f3, f4, f5, f6⟩ := forN_gsStep_frame false n i w (i + 1)
      rw [gsStep_false] at f1 f2 f3 f4 f5 f6
      refine ⟨e1, e2.trans f1, e3.trans f2, e4.trans f3, e5.trans f4,
        fun k hk => (e6 k hk).trans (f5 k hk), fun r l hrl => (e7 r l hrl).trans (f6 r l hrl),
        fun k hk => ?_⟩
      rw [e8 k hk]
      have := forN_gsAgain_rel n i w (i + 1) le_rfl k hk
      rw [gsStep_false] at this
      exact this
    · simp only [Option.some.injEq, Prod.mk.injEq] at h
      obtain ⟨rfl, rfl⟩ := h
      exact ⟨ht, rfl, rfl, rfl, rfl, fun _ _ => rfl, fun _ _ _ => rfl, fun _ _ => rfl⟩


/-- The state of the buffers after lines 165-236 of inner step `i`, for any content of
`vv[0..i]`: which buffers are untouched, and the Arnoldi relation
`A z[i] = sum_{j <= i} hh[i][j] * vv[j] + hh[i][i1] * vv[i1]` with `hh[i][i1] = t >= 0`. -/
theorem arnoldi_spec {ext : Ext R} (hex : ExactNorm ext) (fuel n : Nat) (mv : MatVec R)
    (ps : Option (PSolve R)) (i : Nat) (w w1 : Work R) (zi cand : Vec R)
    (hzi : zi = match ps with
      | some p => p n (w.z i) (w.vv i)
      | none => zcopy_ n (w.vv i) (w.z i))
    (hcand : cand = mv cone zi czero (w.vv (i + 1)))
    (h : arnoldi fuel ext n mv ps i w = some w1) :
    w1.z = Function.update w.z i zi ∧ w1.c = w.c ∧ w1.s = w.s ∧ w1.rs = w.rs ∧
      (∀ k, k ≠ i + 1 → w1.vv k = w.vv k) ∧ (∀ r l, r ≠ i → w1.hh r l = w.hh r l) ∧
      (∃ t : R, 0 ≤ t ∧ w1.hh i (i + 1) = ⟨t, 0⟩ ∧
        (t = 0 → ∀ k, k < n → w1.vv (i + 1) k = 0) ∧
        (t ≠ 0 → ext.dznrm2_ n (w1.vv (i + 1)) = 1)) ∧
      (∀ k, k < n → cand k = ∑ j in Finset.range (i + 1), w1.hh i j * w1.vv j k +
        w1.hh i (i + 1) * w1.vv (i + 1) k) := by
  have hm : arnoldi.match_1 (fun _ => Vec R) ps (fun p => p n (w.z i) (w.vv i))
      (fun _ => zcopy_ n (w.vv i) (w.z i)) = zi := by
    subst hzi; cases ps <;> rfl
  unfold arnoldi at h
  simp only [hm, Function.update_same, ← hcand] at h
  generalize hW2 : (⟨Function.update w.vv (i + 1) cand, w.hh,
    Function.update w.z i zi, w.c, w.s, w.rs⟩ : Work R) = W2 at h
  have hW2p : W2.z = Function.update w.z i zi ∧ W2.c = w.c ∧ W2.s = w.s ∧ W2.rs = w.rs ∧
      W2.vv (i + 1) = cand ∧ (∀ k, k ≠ i + 1 → W2.vv k = w.vv k) ∧ W2.hh = w.hh := by
    rw [← hW2]
    exact ⟨rfl, rfl, rfl, rfl, Function.update_same _ _ _,
      fun k hk => Function.update_noteq hk _ _, rfl⟩
  rw [← gsStep_true] at h
  obtain ⟨f1, f2, f3, f4, f5, f6⟩ := forN_gsStep_frame true n i W2 (i + 1)
  have frel := forN_gsFirst_rel n i W2 (i + 1) le_rfl
  generalize forN (i + 1) (gsStep true n i) W2 = W3 at h f1 f2 f3 f4 f5 f6 frel
  cases hre : reorth ext n i fuel (ext.dznrm2_ n cand) (ext.dznrm2_ n (W3.vv (i + 1))) W3 with
  | none => rw [hre] at h; cases h
  | some p =>
    obtain ⟨t, W4⟩ := p
    rw [hre] at h
    obtain ⟨e1, e2, e3, e4, e5, e6, e7, e8⟩ := reorth_spec ext n i _ _ _ _ _ _ hre rfl
    have ht0 : 0 ≤ t := by rw [e1]; exact hex.nonneg _ _
    have hrel4 : ∀ k, k < n → W4.vv (i + 1) k +
        ∑ j in Finset.range (i + 1), W4.hh i j * W4.vv j k = cand k := by
      intro k hk
      rw [e8 k hk, frel k hk, hW2p.2.2.2.2.1]
    have hz : W4.z = Function.update w.z i zi := e2.trans (f1.trans hW2p.1)
    have hc : W4.c = w.c := e3.trans (f2.trans hW2p.2.1)
    have hs : W4.s = w.s := e4.trans (f3.trans hW2p.2.2.1)
    have hrs : W4.rs = w.rs := e5.trans (f4.trans hW2p.2.2.2.1)
    have hvv : ∀ k, k ≠ i + 1 → W4.vv k = w.vv k :=
      fun k hk => (e6 k hk).trans ((f5 k hk).trans (hW2p.2.2.2.2.2.1 k hk))
    have hhh : ∀ r l, r ≠ i → W4.hh r l = w.hh r l := fun r l hr =>
      (e7 r l (Or.inl hr)).trans ((f6 r l (Or.inl hr)).trans (by rw [hW2p.2.2.2.2.2.2]))
    have hset : ∀ (l : Nat), l < i + 1 → set2 W4.hh i (i + 1) ⟨t, 0⟩ i l = W4.hh i l := by
      intro l hl
      unfold set2
      rw [Function.update_same, Function.update_noteq (by omega)]
    have hset1 : set2 W4.hh i (i + 1) ⟨t, 0⟩ i (i + 1) = ⟨t, 0⟩ := by
      unfold set2
      rw [Function.update_same, Function.update_same]
    have hsetr : ∀ r l, r ≠ i → set2 W4.hh i (i + 1) ⟨t, 0⟩ r l = W4.hh r l := by
      intro r l hr
      unfold set2
      rw [Function.update_noteq hr]
    by_cases htz : t = 0
    · subst htz
      simp only [ne_eq, not_true_eq_false, if_false, Option.some.injEq] at h
      subst h
      have hzero : ∀ k, k < n → W4.vv (i + 1) k = 0 :=
        hex.zero_of_nrm n _ e1.symm
      refine ⟨hz, hc, hs, hrs, hvv, fun r l hr => (hsetr r l hr).trans (hhh r l hr),
        ⟨0, le_rfl, hset1, fun _ => hzero, fun hne => absurd rfl hne⟩, fun k hk => ?_⟩
      have hsum : ∑ j in Finset.range (i + 1),
          set2 W4.hh i (i + 1) ⟨0, 0⟩ i j * W4.vv j k =
          ∑ j in Finset.range (i + 1), W4.hh i j * W4.vv j k :=
        Finset.sum_congr rfl (fun j hj => by rw [hset j (Finset.mem_range.mp hj)])
      simp only
      rw [hsum, ← hrel4 k hk, hzero k hk, hset1]
      simp
    · simp only [htz, ne_eq, not_false_eq_true, if_true, Option.some.injEq] at h
      subst h
      have hnorm := hex.normalized n (W4.vv (i + 1))
        (fun k => if k < n then zd_mult (W4.vv (i + 1) k) (1 / t) else W4.vv (i + 1) k)
        (by rw [← e1]; exact htz) (fun k hk => by simp only [hk, if_true]; rw [e1])
      refine ⟨hz, hc, hs, hrs, ?_, fun r l hr => (hsetr r l hr).trans (hhh r l hr),
        ⟨t, ht0, hset1, fun h0 => absurd h0 htz, fun _ => ?_⟩, fun k hk => ?_⟩
      · intro k hk
        simp only
        rw [Function.update_noteq hk]
        exact hvv k hk
      · simp only [Function.update_same]
        exact hnorm.1
      · have hsum : ∑ j in Finset.range (i + 1), set2 W4.hh i (i + 1) ⟨t, 0⟩ i j *
            Function.update W4.vv (i + 1)
              (fun k => if k < n then zd_mult (W4.vv (i + 1) k) (1 / t)
                else W4.vv (i + 1) k) j k =
            ∑ j in Finset.range (i + 1), W4.hh i j * W4.vv j k :=
          Finset.sum_congr rfl (fun j hj => by
            rw [hset j (Finset.mem_range.mp hj),
              Function.update_noteq (by have := Finset.mem_range.mp hj; omega)])
        simp only
        rw [hsum]
        simp only [Function.update_same, hk, if_true]
        rw [← hrel4 k hk, hset1, zd_mult_eq]
        have hmul : (⟨t, 0⟩ : doublecomplex R) * (W4.vv (i + 1) k * ⟨1 / t, 0⟩) =
            W4.vv (i + 1) k := by
          apply dc_ext
          · simp only [dc_mul_r, dc_mul_i]; field_simp
          · simp only [dc_mul_r, dc_mul_i]; field_simp
        rw [hmul]; ring


/-- With `vv[0..i]` orthonormal the Arnoldi step returns (one unit of fuel suffices), its
result is orthogonal to `vv[0..i]`, and when `t != 0` the basis `vv[0..i+1]` is
orthonormal. -/
theorem arnoldi_orth {ext : Ext R} (hex : ExactNorm ext) (f n : Nat) (mv : MatVec R)
    (ps : Option (PSolve R)) (i : Nat) (w : Work R) (hV : OrthoBasis n w.vv (i + 1)) :
    ∃ w1, arnoldi (f + 1) ext n mv ps i w = some w1 ∧
      (∀ l, l < i + 1 → zdotc n (w1.vv l) (w1.vv (i + 1)) = 0) ∧
      (w1.hh i (i + 1) ≠ 0 → OrthoBasis n w1.vv (i + 2)) := by
  unfold arnoldi
  simp only [Function.update_same]
  generalize arnoldi.match_1 (fun _ => Vec R) ps (fun p => p n (w.z i) (w.vv i))
      (fun _ => zcopy_ n (w.vv i) (w.z i)) = zi
  generalize mv cone zi czero (w.vv (i + 1)) = cand
  generalize hW2 : (⟨Function.update w.vv (i + 1) cand, w.hh,
    Function.update w.z i zi, w.c, w.s, w.rs⟩ : Work R) = W2
  have hW2v : ∀ k, k ≠ i + 1 → W2.vv k = w.vv k := by
    intro k hk; rw [← hW2]; exact Function.update_noteq hk _ _
  have hV2 : OrthoBasis n W2.vv (i + 1) := by
    intro a b ha hb
    rw [hW2v a (by omega), hW2v b (by omega)]
    exact hV a b ha hb
  rw [← gsStep_true]
  have horth := forN_gs_orth true n i W2 hV2 (i + 1) le_rfl
  obtain ⟨-, -, -, -, f5, -⟩ := forN_gsStep_frame true n i W2 (i + 1)
  generalize forN (i + 1) (gsStep true n i) W2 = W3 at horth f5
  have horth3 : ∀ l, l < i + 1 → zdotc n (W3.vv l) (W3.vv (i + 1)) = 0 := by
    intro l hl
    rw [f5 l (by omega)]
    exact horth l hl
  rw [reorth_orth hex n i W3 horth3]
  have hV3 : OrthoBasis n W3.vv (i + 1) := by
    intro a b ha hb
    rw [f5 a (by omega), f5 b (by omega)]
    exact hV2 a b ha hb
  by_cases htz : ext.dznrm2_ n (W3.vv (i + 1)) = 0
  · simp only [htz, ne_eq, not_true_eq_false, if_false]
    refine ⟨_, rfl, horth3, fun hne => ?_⟩
    exfalso
    apply hne
    simp only [set2, Function.update_same]
    rfl
  · simp only [htz, ne_eq, not_false_eq_true, if_true]
    generalize ht : ext.dznrm2_ n (W3.vv (i + 1)) = t at htz
    have hnorm := hex.normalized n (W3.vv (i + 1))
      (fun k => if k < n then zd_mult (W3.vv (i + 1) k) (1 / t) else W3.vv (i + 1) k)
      (by rw [ht]; exact htz) (fun k hk => by simp only [hk, if_true]; rw [ht])
    have hdot : ∀ l, l < i + 1 → zdotc n (W3.vv l)
        (fun k => if k < n then zd_mult (W3.vv (i + 1) k) (1 / t) else W3.vv (i + 1) k) = 0 := by
      intro l hl
      rw [zdotc_scale n (W3.vv l) (W3.vv (i + 1)) _ ⟨1 / t, 0⟩
        (fun k hk => by simp only [hk, if_true]; exact zd_mult_eq _ _), horth3 l hl, zero_mul]
    refine ⟨_, rfl, ?_, fun _ => ?_⟩
    · intro l hl
      simp only [Function.update_same, Function.update_noteq (show l ≠ i + 1 by omega)]
      exact hdot l hl
    · intro a b ha hb
      simp only
      by_cases ha1 : a = i + 1
      · by_cases hb1 : b = i + 1
        · subst ha1; subst hb1
          simp only [Function.update_same, if_true]
          rw [zdotc_self, hnorm.2]; rfl
        · subst ha1
          rw [Function.update_same, Function.update_noteq hb1, if_neg (Ne.symm hb1),
            zdotc_conj_symm, hdot b (by omega), zz_conj_zero]
      · by_cases hb1 : b = i + 1
        · subst hb1
          rw [Function.update_same, Function.update_noteq ha1, if_neg ha1]
          exact hdot a (by omega)
        · rw [Function.update_noteq ha1, Function.update_noteq hb1]
          exact hV3 a b (by omega) (by omega)

end ArnoldiRel

/-! ## The rotation step -/

section GivensStep

variable {R : Type} [LinearOrderedField R]

theorem rotatePrev_frame (i m : Nat) (w : Work R) :
    (rotatePrev i m w).vv = w.vv ∧ (rotatePrev i m w).z = w.z ∧ (rotatePrev i m w).c = w.c ∧
      (rotatePrev i m w).s = w.s ∧ (rotatePrev i m w).rs = w.rs ∧
      (∀ r l, r ≠ i ∨ m + 1 < l → (rotatePrev i m w).hh r l = w.hh r l) := by
  refine ⟨rfl, rfl, rfl, rfl, rfl, ?_⟩
  intro r l hrl
  simp only [rotatePrev, set2]
  by_cases hr : r = i
  · subst hr
    have hl : m + 1 < l := by
      rcases hrl with h | h
      · exact absurd rfl h
      · exact h
    rw [Function.update_same, Function.update_noteq (by omega), Function.update_same,
      Function.update_noteq (by omega)]
  · rw [Function.update_noteq hr, Function.update_noteq hr]

theorem forN_rotatePrev_frame (i : Nat) (w : Work R) (cnt : Nat) :
    (forN cnt (rotatePrev i) w).vv = w.vv ∧ (forN cnt (rotatePrev i) w).z = w.z ∧
      (forN cnt (rotatePrev i) w).c = w.c ∧ (forN cnt (rotatePrev i) w).s = w.s ∧
      (forN cnt (rotatePrev i) w).rs = w.rs ∧
      (∀ r l, r ≠ i ∨ cnt < l → (forN cnt (rotatePrev i) w).hh r l = w.hh r l) := by
  induction cnt with
  | zero => exact ⟨rfl, rfl, rfl, rfl, rfl, fun _ _ _ => rfl⟩
  | succ j ih =>
    obtain ⟨h1, h2, h3, h4, h5, h6⟩ := ih
    obtain ⟨g1, g2, g3, g4, g5, g6⟩ := rotatePrev_frame i j (forN j (rotatePrev i) w)
    simp only [forN]
    refine ⟨g1.trans h1, g2.trans h2, g3.trans h3, g4.trans h4, g5.trans h5, ?_⟩
    intro r l hrl
    rw [g6 r l (by omega), h6 r l (by omega)]

theorem nrmSq_two (f : Vec R) : nrmSq 2 f = cnormSq (f 0) + cnormSq (f 1) := by
  simp [nrmSq, forN]

/-- What the rotation step `givens` leaves alone. -/
theorem givens_frame (ext : Ext R) (i : Nat) (w : Work R) :
    (givens ext i w).1.vv = w.vv ∧ (givens ext i w).1.z = w.z ∧
      (∀ k, k ≠ i → (givens ext i w).1.c k = w.c k) ∧
      (∀ k, k ≠ i → (givens ext i w).1.s k = w.s k) ∧
      (∀ k, k ≠ i → k ≠ i + 1 → (givens ext i w).1.rs k = w.rs k) ∧
      (∀ r l, r ≠ i → (givens ext i w).1.hh r l = w.hh r l) ∧
      (givens ext i w).2 = ext.z_abs1 ((givens ext i w).1.rs (i + 1)) := by
  obtain ⟨h1, h2, h3, h4, h5, h6⟩ := forN_rotatePrev_frame i w i
  unfold givens
  generalize forN i (rotatePrev i) w = W1 at h1 h2 h3 h4 h5 h6
  by_cases hg : ext.dznrm2_ 2 (fun k => W1.hh i (i + k)) = 0
  · simp only [if_pos hg]
    refine ⟨h1, h2, ?_, ?_, ?_, ?_, trivial⟩
    · intro k hk; rw [Function.update_noteq hk, h3]
    · intro k hk; rw [Function.update_noteq hk, h4]
    · intro k hk hk1; rw [Function.update_noteq hk, Function.update_noteq hk1, h5]
    · intro r l hr; simp only [set2]; rw [Function.update_noteq hr]; exact h6 r l (Or.inl hr)
  · simp only [if_neg hg]
    refine ⟨h1, h2, ?_, ?_, ?_, ?_, trivial⟩
    · intro k hk; rw [Function.update_noteq hk, h3]
    · intro k hk; rw [Function.update_noteq hk, h4]
    · intro k hk hk1; rw [Function.update_noteq hk, Function.update_noteq hk1, h5]
    · intro r l hr; simp only [set2]; rw [Function.update_noteq hr]; exact h6 r l (Or.inl hr)

/-- The rotation computed by `givens` and its effect on `rs`, with `x`, `y` the pair
`hh[i][i]`, `hh[i][i+1]` after the previous rotations and `gam` its norm. -/
theorem givens_values (ext : Ext R) (i : Nat) (w : Work R) :
    ∃ c s : doublecomplex R,
      (givens ext i w).1.c i = c ∧ (givens ext i w).1.s i = s ∧
      (givens ext i w).1.rs (i + 1) = -(s * w.rs i) ∧
      (givens ext i w).1.rs i = c * w.rs i ∧
      (givens ext i w).1.hh i (i + 1) = (forN i (rotatePrev i) w).hh i (i + 1) ∧
      (givens ext i w).1.hh i i = c * (forN i (rotatePrev i) w).hh i i +
        s * (forN i (rotatePrev i) w).hh i (i + 1) ∧
      (ext.dznrm2_ 2 (fun k => (forN i (rotatePrev i) w).hh i (i + k)) = 0 → c = 1 ∧ s = 0) ∧
      (ext.dznrm2_ 2 (fun k => (forN i (rotatePrev i) w).hh i (i + k)) ≠ 0 →
        c = zd_mult ((forN i (rotatePrev i) w).hh i i)
          (1 / ext.dznrm2_ 2 (fun k => (forN i (rotatePrev i) w).hh i (i + k))) ∧
        s = zd_mult ((forN i (rotatePrev i) w).hh i (i + 1))
          (1 / ext.dznrm2_ 2 (fun k => (forN i (rotatePrev i) w).hh i (i + k)))) := by
  obtain ⟨h1, h2, h3, h4, h5, h6⟩ := forN_rotatePrev_frame i w i
  unfold givens
  generalize forN i (rotatePrev i) w = W1 at h1 h2 h3 h4 h5 h6
  have hne : i + 1 ≠ i := by omega
  by_cases hg : ext.dznrm2_ 2 (fun k => W1.hh i (i + k)) = 0
  · simp only [if_pos hg]
    refine ⟨1, 0, ?_, ?_, ?_, ?_, ?_, ?_, fun _ => ⟨rfl, rfl⟩, fun h => absurd hg h⟩
    · rw [Function.update_same]; rfl
    · rw [Function.update_same]; rfl
    · rw [Function.update_noteq hne, Function.update_same, Function.update_same, h5]; rfl
    · simp only [Function.update_same, Function.update_noteq hne.symm, h5]; rfl
    · simp only [set2, Function.update_same, Function.update_noteq hne]
    · simp only [set2, Function.update_same]; rfl
  · simp only [if_neg hg]
    refine ⟨_, _, ?_, ?_, ?_, ?_, ?_, ?_, fun h => absurd h hg, fun _ => ⟨rfl, rfl⟩⟩
    · rw [Function.update_same]
    · rw [Function.update_same]
    · rw [Function.update_noteq hne, Function.update_same, Function.update_same, h5]; rfl
    · simp only [Function.update_same, Function.update_noteq hne.symm, h5]; rfl
    · simp only [set2, Function.update_same, Function.update_noteq hne]
    · simp only [set2, Function.update_same]; rfl


theorem cnormSq_zd_mult (a : doublecomplex R) (t : R) :
    cnormSq (zd_mult a t) = t * t * cnormSq a := by
  simp only [cnormSq, zd_mult]; ring

theorem cnormSq_one : cnormSq (1 : doublecomplex R) = 1 := by
  simp [cnormSq, dc_one_r, dc_one_i]

theorem cnormSq_zero : cnormSq (0 : doublecomplex R) = 0 := by
  simp [cnormSq, dc_zero_r, dc_zero_i]

/-- The rotation of `givens` has `|c|^2 + |s|^2 = 1` in both branches. -/
theorem givens_unit {ext : Ext R} (hex : ExactNorm ext) (i : Nat) (w : Work R) :
    cnormSq ((givens ext i w).1.c i) + cnormSq ((givens ext i w).1.s i) = 1 := by
  obtain ⟨c, s, hc, hs, -, -, -, -, hz, hnz⟩ := givens_values ext i w
  rw [hc, hs]
  generalize forN i (rotatePrev i) w = W1 at hz hnz
  by_cases hg : ext.dznrm2_ 2 (fun k => W1.hh i (i + k)) = 0
  · obtain ⟨h1, h2⟩ := hz hg
    rw [h1, h2, cnormSq_one, cnormSq_zero, add_zero]
  · obtain ⟨h1, h2⟩ := hnz hg
    have hsq := (hex 2 (fun k => W1.hh i (i + k))).2
    rw [nrmSq_two] at hsq
    simp only [Nat.add_zero] at hsq
    generalize ext.dznrm2_ 2 (fun k => W1.hh i (i + k)) = g at hg hsq h1 h2
    rw [h1, h2, cnormSq_zd_mult, cnormSq_zd_mult, ← mul_add, ← hsq]
    field_simp

/-- The update of `rs` by `givens` preserves the squared norm of the pair. -/
theorem givens_rs {ext : Ext R} (hex : ExactNorm ext) (i : Nat) (w : Work R) :
    cnormSq ((givens ext i w).1.rs i) + cnormSq ((givens ext i w).1.rs (i + 1)) =
      cnormSq (w.rs i) := by
  have hu := givens_unit hex i w
  obtain ⟨c, s, hc, hs, hr1, hr0, -⟩ := givens_values ext i w
  rw [hr1, hr0, cnormSq_neg, cnormSq_mul, cnormSq_mul, ← add_mul, ← hc, ← hs, hu, one_mul]

theorem givens_rs_sum {ext : Ext R} (hex : ExactNorm ext) (i : Nat) (w : Work R) :
    ∑ j in Finset.range (i + 2), cnormSq ((givens ext i w).1.rs j) =
      ∑ j in Finset.range (i + 1), cnormSq (w.rs j) := by
  obtain ⟨-, -, -, -, f5, -⟩ := givens_frame ext i w
  rw [Finset.sum_range_succ, Finset.sum_range_succ, Finset.sum_range_succ, add_assoc,
    givens_rs hex i w]
  congr 1
  apply Finset.sum_congr rfl
  intro j hj
  have := Finset.mem_range.mp hj
  rw [f5 j (by omega) (by omega)]

/-- With a real non-negative subdiagonal entry the new estimate entry is the old one
scaled by a real factor of modulus at most 1. -/
theorem givens_real_scale {ext : Ext R} (hex : ExactNorm ext) (i : Nat) (w : Work R) (t : R)
    (ht : 0 ≤ t) (hh : w.hh i (i + 1) = ⟨t, 0⟩) :
    ∃ σ : R, 0 ≤ σ ∧ σ ≤ 1 ∧ (givens ext i w).1.rs (i + 1) = zd_mult (w.rs i) (-σ) := by
  obtain ⟨c, s, -, -, hr1, -, -, -, hz, hnz⟩ := givens_values ext i w
  obtain ⟨-, -, -, -, -, h6⟩ := forN_rotatePrev_frame i w i
  rw [hr1]
  have hW : (forN i (rotatePrev i) w).hh i (i + 1) = ⟨t, 0⟩ := by
    rw [h6 i (i + 1) (Or.inr (by omega)), hh]
  generalize forN i (rotatePrev i) w = W1 at hz hnz hW
  by_cases hg : ext.dznrm2_ 2 (fun k => W1.hh i (i + k)) = 0
  · obtain ⟨-, h2⟩ := hz hg
    refine ⟨0, le_rfl, zero_le_one, ?_⟩
    rw [h2]
    apply dc_ext <;> simp [zd_mult, dc_neg_r, dc_neg_i, dc_mul_r, dc_mul_i, dc_zero_r, dc_zero_i]
  · obtain ⟨-, h2⟩ := hnz hg
    have hsq := (hex 2 (fun k => W1.hh i (i + k))).2
    have hpos := (hex 2 (fun k => W1.hh i (i + k))).1
    rw [nrmSq_two] at hsq
    simp only [Nat.add_zero] at hsq
    rw [hW] at hsq h2
    generalize ext.dznrm2_ 2 (fun k => W1.hh i (i + k)) = g at hg hsq h2 hpos
    have hgpos : 0 < g := lt_of_le_of_ne hpos (Ne.symm hg)
    have htg : t ≤ g := by
      have h0 := cnormSq_nonneg (W1.hh i i)
      have : t * t ≤ g * g := by
        rw [hsq]; simp only [cnormSq]; nlinarith
      nlinarith
    refine ⟨t / g, div_nonneg ht hpos, (div_le_one hgpos).mpr htg, ?_⟩
    rw [h2]
    apply dc_ext
    · simp only [zd_mult, dc_neg_r, dc_mul_r]; rw [div_eq_mul_one_div t g]; ring
    · simp only [zd_mult, dc_neg_i, dc_mul_i]; rw [div_eq_mul_one_div t g]; ring

/-- Lucky breakdown: with `hh[i][i+1] = 0` the new estimate entry `rs[i+1]` is zero. -/
theorem givens_lucky (ext : Ext R) (i : Nat) (w : Work R) (hh : w.hh i (i + 1) = 0) :
    (givens ext i w).1.rs (i + 1) = 0 ∧ (givens ext i w).2 = ext.z_abs1 0 := by
  obtain ⟨c, s, -, -, hr1, -, -, -, hz, hnz⟩ := givens_values ext i w
  obtain ⟨-, -, -, -, -, h6⟩ := forN_rotatePrev_frame i w i
  obtain ⟨-, -, -, -, -, -, g7⟩ := givens_frame ext i w
  have hW : (forN i (rotatePrev i) w).hh i (i + 1) = 0 := by
    rw [h6 i (i + 1) (Or.inr (by omega)), hh]
  have hs : s = 0 := by
    by_cases hg : ext.dznrm2_ 2 (fun k => (forN i (rotatePrev i) w).hh i (i + k)) = 0
    · exact (hz hg).2
    · rw [(hnz hg).2, hW]
      apply dc_ext <;> simp [zd_mult, dc_zero_r, dc_zero_i]
  have h0 : (givens ext i w).1.rs (i + 1) = 0 := by rw [hr1, hs, zero_mul, neg_zero]
  exact ⟨h0, by rw [g7, h0]⟩


end GivensStep

/-! ## Invariants of the inner loop -/

section InnerSteps

variable {R : Type} [LinearOrderedField R]

/-- The inner loop keeps `eps1`, `sol` and `lasti`. -/
theorem innerLoop_keeps (fuel : Nat) (ext : Ext R) (n : Nat) (mv : MatVec R)
    (ps : Option (PSolve R)) (maxits : Int) :
    ∀ (k i : Nat) (st st1 : State R) (iend : Nat),
      innerLoop fuel ext n mv ps maxits k i st = some (st1, iend) →
      st1.eps1 = st.eps1 ∧ st1.sol = st.sol ∧ st1.lasti = st.lasti := by
  intro k
  induction k with
  | zero =>
    intro i st st1 iend h
    simp only [innerLoop, Option.some.injEq, Prod.mk.injEq] at h
    rw [← h.1]; exact ⟨rfl, rfl, rfl⟩
  | succ k ih =>
    intro i st st1 iend h
    unfold innerLoop at h
    cases ha : arnoldi fuel ext n mv ps i st.work with
    | none => simp [ha] at h
    | some w =>
      simp only [ha] at h
      split at h
      · simp only [Option.some.injEq, Prod.mk.injEq] at h
        rw [← h.1]; exact ⟨rfl, rfl, rfl⟩
      · obtain ⟨e1, e2, e3⟩ := ih _ _ _ _ h
        exact ⟨e1, e2, e3⟩

/-- Along the inner loop the squared moduli of `rs` keep their sum: after `m` executed
steps from index `i` the entries `rs[0..i+m]` carry what `rs[0..i]` carried. -/
theorem innerLoop_rs_sum {ext : Ext R} (hex : ExactNorm ext) (fuel n : Nat) (mv : MatVec R)
    (ps : Option (PSolve R)) (maxits : Int) :
    ∀ (k i : Nat) (st st1 : State R) (iend : Nat),
      innerLoop fuel ext n mv ps maxits k i st = some (st1, iend) →
      ∃ m, st1.inner = st.inner + m ∧
        ∑ j in Finset.range (i + 1 + m), cnormSq (st1.work.rs j) =
          ∑ j in Finset.range (i + 1), cnormSq (st.work.rs j) := by
  intro k
  induction k with
  | zero =>
    intro i st st1 iend h
    simp only [innerLoop, Option.some.injEq, Prod.mk.injEq] at h
    rw [← h.1]; exact ⟨0, rfl, rfl⟩
  | succ k ih =>
    intro i st st1 iend h
    unfold innerLoop at h
    cases ha : arnoldi fuel ext n mv ps i st.work with
    | none => simp [ha] at h
    | some w =>
      simp only [ha] at h
      obtain ⟨-, -, -, hrs, -⟩ := arnoldi_spec hex fuel n mv ps i st.work w _ _ rfl rfl ha
      have hsum := givens_rs_sum hex i w
      rw [hrs] at hsum
      split at h
      · simp only [Option.some.injEq, Prod.mk.injEq] at h
        rw [← h.1]
        exact ⟨1, rfl, hsum⟩
      · obtain ⟨m, hm1, hm2⟩ := ih _ _ _ _ h
        refine ⟨m + 1, ?_, ?_⟩
        · rw [hm1]; simp only; omega
        · rw [show i + 1 + (m + 1) = i + 1 + 1 + m by omega, hm2]
          exact hsum

/-- Lucky breakdown ends the inner loop: when the Arnoldi step at index `i` gives
`hh[i][i+1] = 0`, the estimate is `z_abs1(0)`, and with `z_abs1(0) <= eps1` the loop is
left at index `i` right after the rotation step. -/
theorem innerLoop_lucky (fuel : Nat) (ext : Ext R) (n : Nat) (mv : MatVec R)
    (ps : Option (PSolve R)) (maxits : Int) (k i : Nat) (st : State R) (w : Work R)
    (ha : arnoldi fuel ext n mv ps i st.work = some w) (ht : w.hh i (i + 1) = 0)
    (he : ext.z_abs1 0 ≤ st.eps1) :
    innerLoop fuel ext n mv ps maxits (k + 1) i st =
      some ({ st with its := wrap32 (st.its + 1), work := (givens ext i w).1,
                      inner := st.inner + 1, matvecs := st.matvecs + 1 }, i) := by
  unfold innerLoop
  simp only [ha]
  rw [if_pos (Or.inl (by rw [(givens_lucky ext i w ht).2]; exact he))]

/-- With `vv[0..i]` orthonormal at the start, a non-negative `eps1` and `z_abs1(0) = 0`,
the inner loop returns (one unit of fuel per step suffices for the reorthogonalization)
and `vv[0..iend]` is orthonormal at its exit. -/
theorem innerLoop_orth {ext : Ext R} (hex : ExactNorm ext) (habs : ext.z_abs1 0 = 0)
    (fuel n : Nat) (mv : MatVec R) (ps : Option (PSolve R)) (maxits : Int) :
    ∀ (k i : Nat) (st : State R), 0 ≤ st.eps1 → OrthoBasis n st.work.vv (i + 1) →
      ∃ st1 iend, innerLoop (fuel + 1) ext n mv ps maxits k i st = some (st1, iend) ∧
        i ≤ iend ∧ iend ≤ i + k ∧ OrthoBasis n st1.work.vv (iend + 1) := by
  intro k
  induction k with
  | zero =>
    intro i st _ hV
    exact ⟨st, i, rfl, le_rfl, le_rfl, hV⟩
  | succ k ih =>
    intro i st he hV
    obtain ⟨w, ha, -, hO⟩ := arnoldi_orth hex fuel n mv ps i st.work hV
    obtain ⟨-, -, -, -, hvv, -⟩ := arnoldi_spec hex (fuel + 1) n mv ps i st.work w _ _ rfl rfl ha
    obtain ⟨gv, -⟩ := givens_frame ext i w
    have hV1 : OrthoBasis n (givens ext i w).1.vv (i + 1) := by
      intro a b hla hlb
      rw [gv, hvv a (by omega), hvv b (by omega)]
      exact hV a b hla hlb
    by_cases ht : w.hh i (i + 1) = 0
    · refine ⟨_, i, innerLoop_lucky (fuel + 1) ext n mv ps maxits k i st w ha ht
        (by rw [habs]; exact he), le_rfl, by omega, hV1⟩
    · have hV2 : OrthoBasis n (givens ext i w).1.vv (i + 2) := by rw [gv]; exact hO ht
      unfold innerLoop
      simp only [ha]
      split
      · exact ⟨_, i, rfl, le_rfl, by omega, hV1⟩
      · obtain ⟨st1, iend, h1, h2, h3, h4⟩ := ih (i + 1)
          { st with its := wrap32 (st.its + 1), work := (givens ext i w).1,
                    inner := st.inner + 1, matvecs := st.matvecs + 1 } he hV2
        exact ⟨st1, iend, h1, by omega, by omega, h4⟩

/-- The start vector `vv[0] = r / beta` of an outer pass has norm 1. -/
theorem prepare_orth {ext : Ext R} (hex : ExactNorm ext) (n : Nat) (tol : R) (st : State R)
    (hb : ext.dznrm2_ n (st.work.vv 0) ≠ 0) :
    OrthoBasis n (prepare n tol (ext.dznrm2_ n (st.work.vv 0)) st).work.vv 1 := by
  intro a b ha hb1
  have ha0 : a = 0 := by omega
  have hb0 : b = 0 := by omega
  subst ha0; subst hb0
  simp only [prepare, Function.update_same, if_true]
  rw [zdotc_self, (hex.normalized n (st.work.vv 0) _ hb (fun k hk => by simp only [hk, if_true])).2]
  rfl


end InnerSteps

/-! ## Claims about the Krylov basis and the rotations -/

section KrylovClaims

variable {R : Type} [LinearOrderedField R]

theorem unitWork_orth : OrthoBasis 1 (unitWork : Work R).vv 1 := by
  intro a b ha hb
  have ha0 : a = 0 := by omega
  have hb0 : b = 0 := by omega
  subst ha0; subst hb0
  rw [if_pos rfl, zdotc_self]
  apply dc_ext <;> simp [nrmSq, forN, unitWork, unit0, cnormSq, cone, dc_one_r, dc_one_i]

/-- C20. In exact arithmetic, for every inner step `i` and every content of `V[0..i]`:
whenever the Arnoldi step of `zfgmr` (Gram-Schmidt pass, reorthogonalization passes,
normalization) completes, `Z[i] = M^-1 V[i]` (`Z[i] = V[i]` without a preconditioner),
`V[0..i]` is untouched, `H[i][i+1] = t` is real and non-negative, and
`A Z[i] = sum_{j <= i} H[i][j] V[j] + H[i][i+1] V[i+1]` when `t != 0`, while
`A Z[i] = sum_{j <= i} H[i][j] V[j]` with `H[i][i+1] = 0` when `t == 0`. The step does
complete, with one reorthogonalization pass allowed, when `V[0..i]` is orthonormal. -/
theorem C20_arnoldi_relation {ext : Ext R} (hex : ExactNorm ext) (n : Nat) (mv : MatVec R)
    (ps : Option (PSolve R)) (i : Nat) (w : Work R) :
    (∀ fuel w1, arnoldi fuel ext n mv ps i w = some w1 →
      ∃ t : R, 0 ≤ t ∧ w1.hh i (i + 1) = ⟨t, 0⟩ ∧
        (∀ p, ps = some p → w1.z i = p n (w.z i) (w.vv i)) ∧
        (ps = none → w1.z i = zcopy_ n (w.vv i) (w.z i)) ∧
        (∀ j, j < i + 1 → w1.vv j = w.vv j) ∧
        (t ≠ 0 → ∀ k, k < n → mv cone (w1.z i) czero (w.vv (i + 1)) k =
          ∑ j in Finset.range (i + 1), w1.hh i j * w1.vv j k +
            w1.hh i (i + 1) * w1.vv (i + 1) k) ∧
        (t = 0 → w1.hh i (i + 1) = 0 ∧ ∀ k, k < n → mv cone (w1.z i) czero (w.vv (i + 1)) k =
          ∑ j in Finset.range (i + 1), w1.hh i j * w1.vv j k)) ∧
    (OrthoBasis n w.vv (i + 1) → ∃ w1, arnoldi 1 ext n mv ps i w = some w1) := by
  refine ⟨fun fuel w1 h => ?_, fun hV => ?_⟩
  · obtain ⟨hz, -, -, -, hvv, -, ⟨t, ht0, hht, htz, -⟩, hrel⟩ :=
      arnoldi_spec hex fuel n mv ps i w w1 _ _ rfl rfl h
    have hzi := congrFun hz i
    rw [Function.update_same] at hzi
    rw [← hzi] at hrel
    refine ⟨t, ht0, hht, fun p hp => ?_, fun hp => ?_, fun j hj => hvv j (by omega),
      fun _ k hk => hrel k hk, fun ht => ⟨?_, ?_⟩⟩
    · rw [hzi, hp]
    · rw [hzi, hp]
    · rw [hht, ht]; rfl
    · intro k hk
      rw [hrel k hk, htz ht k hk, mul_zero, add_zero]
  · obtain ⟨w1, h1, -⟩ := arnoldi_orth hex 0 n mv ps i w hV
    exact ⟨w1, h1⟩

/-- Witness of C20: identity operator of size one on the buffers `unitWork`. -/
theorem C20_arnoldi_relation_witness :
    ExactNorm (Ext.ofSqrt Real.sqrt) ∧
    ∃ w1, arnoldi 1 (Ext.ofSqrt Real.sqrt) 1 idOp none 0 (unitWork : Work ℝ) = some w1 ∧
      ∃ t : ℝ, 0 ≤ t ∧ w1.hh 0 (0 + 1) = ⟨t, 0⟩ := by
  obtain ⟨h1, h2⟩ := C20_arnoldi_relation exactNorm_real 1 idOp none 0 (unitWork : Work ℝ)
  obtain ⟨w1, hw⟩ := h2 unitWork_orth
  obtain ⟨t, ht, hh, -⟩ := h1 1 w1 hw
  exact ⟨exactNorm_real, w1, hw, t, ht, hh⟩

/-- C14. In exact arithmetic, for every inner step `i` of `zfgmr` (both branches of the
test `gam == 0`): `|c[i]|^2 + |s[i]|^2 = 1`; with `rs[i+1] = -s[i] rs_old[i]` and
`rs[i] = c[i] rs_old[i]`, `|rs[i]|^2 + |rs[i+1]|^2 = |rs_old[i]|^2`; the squared estimate
`|rs[i+1]|^2` is at most `|rs_old[i]|^2`, the squared estimate of the step before (the
Arnoldi step does not touch `rs`); and along the inner loop, after `m` executed steps
from index `i`, `sum_{k <= i+m} |rs[k]|^2` is what `sum_{k <= i} |rs[k]|^2` was, which at
the start of an outer pass is `beta^2`. -/
theorem C14_rotation_preserves_norm {ext : Ext R} (hex : ExactNorm ext) :
    (∀ (i : Nat) (w : Work R),
      cnormSq ((givens ext i w).1.c i) + cnormSq ((givens ext i w).1.s i) = 1 ∧
      (givens ext i w).1.rs (i + 1) = -((givens ext i w).1.s i * w.rs i) ∧
      (givens ext i w).1.rs i = (givens ext i w).1.c i * w.rs i ∧
      cnormSq ((givens ext i w).1.rs i) + cnormSq ((givens ext i w).1.rs (i + 1)) =
        cnormSq (w.rs i) ∧
      cnormSq ((givens ext i w).1.rs (i + 1)) ≤ cnormSq (w.rs i)) ∧
    (∀ (fuel n : Nat) (mv : MatVec R) (ps : Option (PSolve R)) (i : Nat) (w w1 : Work R),
      arnoldi fuel ext n mv ps i w = some w1 →
      cnormSq ((givens ext i w1).1.rs (i + 1)) ≤ cnormSq (w.rs i)) ∧
    (∀ (fuel n : Nat) (mv : MatVec R) (ps : Option (PSolve R)) (maxits : Int) (k i : Nat)
      (st st1 : State R) (iend : Nat),
      innerLoop fuel ext n mv ps maxits k i st = some (st1, iend) →
      ∃ m, st1.inner = st.inner + m ∧
        ∑ j in Finset.range (i + 1 + m), cnormSq (st1.work.rs j) =
          ∑ j in Finset.range (i + 1), cnormSq (st.work.rs j)) ∧
    (∀ (n : Nat) (tol beta : R) (st : State R),
      ∑ j in Finset.range (0 + 1), cnormSq ((prepare n tol beta st).work.rs j) = beta * beta) := by
  have hle : ∀ (i : Nat) (w : Work R),
      cnormSq ((givens ext i w).1.rs (i + 1)) ≤ cnormSq (w.rs i) := by
    intro i w
    have h := givens_rs hex i w
    have h0 := cnormSq_nonneg ((givens ext i w).1.rs i)
    linarith
  refine ⟨fun i w => ?_, fun fuel n mv ps i w w1 h => ?_,
    fun fuel n mv ps maxits k i st st1 iend h =>
      innerLoop_rs_sum hex fuel n mv ps maxits k i st st1 iend h, fun n tol beta st => ?_⟩
  · obtain ⟨c, s, hc, hs, hr1, hr0, -⟩ := givens_values ext i w
    exact ⟨givens_unit hex i w, by rw [hs]; exact hr1, by rw [hc]; exact hr0,
      givens_rs hex i w, hle i w⟩
  · obtain ⟨-, -, -, hrs, -⟩ := arnoldi_spec hex fuel n mv ps i w w1 _ _ rfl rfl h
    rw [← hrs]; exact hle i w1
  · simp [prepare, cnormSq]

/-- Witness of C14: the rotation step at index 0 on the buffers `unitWork`. -/
theorem C14_rotation_preserves_norm_witness :
    ExactNorm (Ext.ofSqrt Real.sqrt) ∧
    cnormSq ((givens (Ext.ofSqrt Real.sqrt) 0 (unitWork : Work ℝ)).1.c 0) +
      cnormSq ((givens (Ext.ofSqrt Real.sqrt) 0 (unitWork : Work ℝ)).1.s 0) = 1 :=
  ⟨exactNorm_real, ((C14_rotation_preserves_norm exactNorm_real).1 0 unitWork).1⟩


end KrylovClaims

/-! ## The back-substitution -/

section BackSolve

variable {R : Type} [LinearOrderedField R]

theorem z_div_spec (a b : doublecomplex R) (hb : b ≠ 0) :
    ∃ q, z_div a b = some q ∧ b * q = a := by
  have hne : ¬ (b.r = 0 ∧ b.i = 0) := by
    intro h
    apply hb
    exact dc_ext (by rw [h.1]; rfl) (by rw [h.2]; rfl)
  have hd : b.r * b.r + b.i * b.i ≠ 0 := by
    intro h
    apply hne
    constructor <;> nlinarith [mul_self_nonneg b.r, mul_self_nonneg b.i]
  refine ⟨_, by unfold z_div; rw [if_neg hne], ?_⟩
  apply dc_ext
  · simp only [dc_mul_r]; field_simp; ring
  · simp only [dc_mul_i]; field_simp; ring

theorem forN_zsub (cnt : Nat) (g : Nat → doublecomplex R) (c : doublecomplex R) :
    forN cnt (fun k tt => z_sub tt (g k)) c = c - ∑ k in Finset.range cnt, g k := by
  induction cnt with
  | zero => simp [forN]
  | succ k ih =>
    rw [Finset.sum_range_succ, ← sub_sub, ← ih, ← z_sub_eq]; rfl

theorem backSum_eq (i k : Nat) (w : Work R) :
    backSum i k w = w.rs k -
      ∑ m in Finset.range (i - k), w.hh (k + 1 + m) k * w.rs (k + 1 + m) := by
  unfold backSum
  rw [forN_zsub]; rfl

theorem sum_Icc_split (f : Nat → doublecomplex R) (k i : Nat) (hk : k ≤ i) :
    ∑ j in Finset.Icc k i, f j = f k + ∑ m in Finset.range (i - k), f (k + 1 + m) := by
  rw [← Nat.Ico_succ_right, Finset.sum_Ico_eq_sum_range, show i + 1 - k = (i - k) + 1 by omega,
    Finset.sum_range_succ', add_comm]
  congr 1
  apply Finset.sum_congr rfl
  intro m _
  rw [show k + (m + 1) = k + 1 + m by omega]

/-- Invariant of the back-substitution loop after `m` executed iterations. -/
theorem backSolve_loop (i : Nat) (w : Work R) (hd : ∀ k, k ≤ i → w.hh k k ≠ 0)
    (W0 : Work R) (h0 : W0.hh = w.hh) (hr0 : ∀ k, k ≠ i → W0.rs k = w.rs k)
    (hi : w.hh i i * W0.rs i = w.rs i) :
    ∀ m, m ≤ i → ∃ W, forNM m (fun m w1 =>
        (z_div (backSum i (i - (m + 1)) w1) (w1.hh (i - (m + 1)) (i - (m + 1)))).map fun q1 =>
          ({ w1 with rs := Function.update w1.rs (i - (m + 1)) q1 } : Work R)) W0 = some W ∧
      W.hh = w.hh ∧ W.vv = W0.vv ∧ W.z = W0.z ∧ W.c = W0.c ∧ W.s = W0.s ∧
      (∀ k, k + m < i → W.rs k = w.rs k) ∧ (∀ k, i < k → W.rs k = w.rs k) ∧
      (∀ k, i ≤ k + m → k ≤ i → ∑ j in Finset.Icc k i, w.hh j k * W.rs j = w.rs k) := by
  intro m
  induction m with
  | zero =>
    intro _
    refine ⟨W0, rfl, h0, rfl, rfl, rfl, rfl, fun k hk => hr0 k (by omega),
      fun k hk => hr0 k (by omega), fun k hk1 hk2 => ?_⟩
    have hki : k = i := by omega
    subst hki
    rw [Finset.Icc_self, Finset.sum_singleton]; exact hi
  | succ m ih =>
    intro hm
    obtain ⟨W, hW, e1, e2, e3, e4, e5, e6, e7, e8⟩ := ih (by omega)
    simp only [forNM, hW, Option.some_bind]
    have hkk : i - (m + 1) ≤ i := by omega
    obtain ⟨q, hq1, hq2⟩ := z_div_spec (backSum i (i - (m + 1)) W)
      (W.hh (i - (m + 1)) (i - (m + 1))) (by rw [e1]; exact hd _ hkk)
    rw [hq1]
    simp only [Option.map_some']
    refine ⟨_, rfl, e1, e2, e3, e4, e5, ?_, ?_, ?_⟩
    · intro k hk
      simp only
      rw [Function.update_noteq (by omega)]
      exact e6 k (by omega)
    · intro k hk
      simp only
      rw [Function.update_noteq (by omega)]
      exact e7 k hk
    · intro k hk1 hk2
      simp only
      by_cases hk : k = i - (m + 1)
      · rw [sum_Icc_split _ k i hk2, ← hk, Function.update_same]
        rw [← hk, e1, backSum_eq, e6 k (by omega)] at hq2
        have hs : ∑ x in Finset.range (i - k),
            w.hh (k + 1 + x) k * Function.update W.rs k q (k + 1 + x) =
            ∑ x in Finset.range (i - k), W.hh (k + 1 + x) k * W.rs (k + 1 + x) := by
          apply Finset.sum_congr rfl
          intro x _
          rw [Function.update_noteq (by omega), e1]
        rw [hs, hq2]; ring
      · have hs : ∑ j in Finset.Icc k i, w.hh j k * Function.update W.rs (i - (m + 1)) q j =
            ∑ j in Finset.Icc k i, w.hh j k * W.rs j := by
          apply Finset.sum_congr rfl
          intro j hj
          have := (Finset.mem_Icc.mp hj).1
          rw [Function.update_noteq (by omega)]
        rw [hs]
        exact e8 k (by omega) hk2

/-- C13. In exact arithmetic, for every final index `i` (the inner-loop exit index,
lowered to `im - 1` when the loop ran to completion) and every buffer `hh` whose
diagonal entries `hh[k][k]`, `k = 0..i`, are nonzero: the back-substitution of `zfgmr`
returns and overwrites `rs[0..i]` with the vector `y` with
`sum_{j = k..i} hh[j][k] * y[j] = rs[k]` (the value before) for every `k` in `0..i`;
`hh` and the other buffers are not modified and `rs[k]`, `k > i`, is not touched. -/
theorem C13_back_substitution (i : Nat) (w : Work R) (hd : ∀ k, k ≤ i → w.hh k k ≠ 0) :
    (∃ w1, backSolve i w = some w1 ∧ w1.hh = w.hh ∧ w1.vv = w.vv ∧ w1.z = w.z ∧
      w1.c = w.c ∧ w1.s = w.s ∧ (∀ k, i < k → w1.rs k = w.rs k) ∧
      (∀ k, k ≤ i → ∑ j in Finset.Icc k i, w.hh j k * w1.rs j = w.rs k)) ∧
    (∀ (im : Int) (iend : Nat), clampIndex im iend = if (iend : Int) = im then im - 1 else iend) := by
  refine ⟨?_, fun im iend => ?_⟩
  · obtain ⟨q, hq1, hq2⟩ := z_div_spec (w.rs i) (w.hh i i) (hd i le_rfl)
    unfold backSolve
    rw [hq1, Option.some_bind]
    obtain ⟨W, hW, e1, e2, e3, e4, e5, -, e7, e8⟩ := backSolve_loop i w hd
      ({ w with rs := Function.update w.rs i q } : Work R) rfl
      (fun k hk => Function.update_noteq hk _ _)
      (by simp only [Function.update_same]; exact hq2) i le_rfl
    exact ⟨W, hW, e1, e2, e3, e4, e5, e7, fun k hk => e8 k (by omega) hk⟩
  · unfold clampIndex
    split
    · rename_i h; rw [h]
    · rfl

/-- Witness of C13: index 0 with `hh[0][0] = 1` over the rationals. -/
theorem C13_back_substitution_witness :
    (∀ k, k ≤ 0 → ({ (unitWork : Work ℚ) with hh := fun _ _ => cone }).hh k k ≠ 0) ∧
    ∃ w1, backSolve 0 ({ (unitWork : Work ℚ) with hh := fun _ _ => cone }) = some w1 := by
  have hd : ∀ k, k ≤ 0 → ({ (unitWork : Work ℚ) with hh := fun _ _ => cone }).hh k k ≠ 0 := by
    intro k _ h
    have := congrArg doublecomplex.r h
    simp [cone, dc_zero_r] at this
  obtain ⟨⟨w1, h1, -⟩, -⟩ := C13_back_substitution 0 _ hd
  exact ⟨hd, w1, h1⟩


end BackSolve

/-! ## The reorthogonalization loop -/

section ReorthRule

variable {R : Type} [LinearOrderedField R]

theorem afterPasses_shift (n i : Nat) (w : Work R) (p : Nat) :
    afterPasses n i (reorthPass n i w) p = afterPasses n i w (p + 1) := by
  induction p with
  | zero => rfl
  | succ p ih => show reorthPass n i _ = reorthPass n i _; rw [ih]

theorem normAfter_shift (ext : Ext R) (n i : Nat) (t : R) (w : Work R) (p : Nat) :
    normAfter ext n i (ext.dznrm2_ n ((reorthPass n i w).vv (i + 1))) (reorthPass n i w) p =
      normAfter ext n i t w (p + 1) := by
  cases p with
  | zero => rfl
  | succ p =>
    show ext.dznrm2_ n ((afterPasses n i (reorthPass n i w) (p + 1)).vv (i + 1)) = _
    rw [afterPasses_shift]; rfl

theorem normBefore_shift (ext : Ext R) (n i : Nat) (t0 t : R) (w : Work R) (p : Nat) :
    normBefore ext n i t (ext.dznrm2_ n ((reorthPass n i w).vv (i + 1))) (reorthPass n i w) p =
      normBefore ext n i t0 t w (p + 1) := by
  cases p with
  | zero => rfl
  | succ p => exact normAfter_shift ext n i t w p

theorem reorth_iff (ext : Ext R) (n i : Nat) :
    ∀ (fuel : Nat) (t0 t : R) (w : Work R) (t1 : R) (w1 : Work R),
      reorth ext n i fuel t0 t w = some (t1, w1) ↔
        ∃ p, p ≤ fuel ∧
          (∀ q, q < p → normAfter ext n i t w q < 1 / 2 * normBefore ext n i t0 t w q) ∧
          ¬ (normAfter ext n i t w p < 1 / 2 * normBefore ext n i t0 t w p) ∧
          t1 = normAfter ext n i t w p ∧ w1 = afterPasses n i w p := by
  intro fuel
  induction fuel with
  | zero =>
    intro t0 t w t1 w1
    rw [reorth]
    constructor
    · intro h
      by_cases ht : t < 1 / 2 * t0
      · rw [if_pos ht] at h; cases h
      · rw [if_neg ht] at h
        simp only [Option.some.injEq, Prod.mk.injEq] at h
        exact ⟨0, le_rfl, fun q hq => absurd hq (Nat.not_lt_zero q), ht, h.1.symm, h.2.symm⟩
    · rintro ⟨p, hp, -, hn, e1, e2⟩
      have hp0 : p = 0 := by omega
      subst hp0
      have hn1 : ¬ t < 1 / 2 * t0 := hn
      rw [if_neg hn1, e1, e2]; rfl
  | succ f ih =>
    intro t0 t w t1 w1
    rw [reorth]
    by_cases ht : t < 1 / 2 * t0
    · rw [if_pos ht]
      show reorth ext n i f t (ext.dznrm2_ n ((reorthPass n i w).vv (i + 1))) (reorthPass n i w) =
        some (t1, w1) ↔ _
      rw [ih]
      constructor
      · rintro ⟨p, hp, hq, hn, e1, e2⟩
        refine ⟨p + 1, by omega, ?_, ?_, ?_, ?_⟩
        · intro q hq1
          cases q with
          | zero => exact ht
          | succ q =>
            have := hq q (by omega)
            rw [normAfter_shift ext n i t, normBefore_shift ext n i t0] at this
            exact this
        · rw [normAfter_shift ext n i t, normBefore_shift ext n i t0] at hn; exact hn
        · rw [e1, normAfter_shift ext n i t]
        · rw [e2, afterPasses_shift]
      · rintro ⟨p, hp, hq, hn, e1, e2⟩
        cases p with
        | zero => exact absurd ht hn
        | succ p =>
          refine ⟨p, by omega, ?_, ?_, ?_, ?_⟩
          · intro q hq1
            rw [normAfter_shift ext n i t, normBefore_shift ext n i t0]
            exact hq (q + 1) (by omega)
          · rw [normAfter_shift ext n i t, normBefore_shift ext n i t0]; exact hn
          · rw [e1, normAfter_shift ext n i t]
          · rw [e2, afterPasses_shift]
    · rw [if_neg ht]
      constructor
      · intro h
        simp only [Option.some.injEq, Prod.mk.injEq] at h
        exact ⟨0, by omega, fun q hq => absurd hq (Nat.not_lt_zero q), ht, h.1.symm, h.2.symm⟩
      · rintro ⟨p, hp, hq, hn, e1, e2⟩
        cases p with
        | zero => rw [e1, e2]; rfl
        | succ p => exact absurd (hq 0 (by omega)) ht

theorem reorthAsStated_zero {ext : Ext R} (hex : ExactNorm ext) (n i : Nat) (w : Work R)
    (h : ∀ k, k < n → w.vv (i + 1) k = czero) (t0 : R) (ht0 : 0 < t0) :
    ∀ f, reorthAsStated ext n i f t0 0 w = none := by
  have hn : ext.dznrm2_ n (w.vv (i + 1)) = 0 := hex.eq_zero n _ h
  have ht : (0 : R) < 1 / 2 * t0 := by positivity
  intro f
  induction f with
  | zero => rw [reorthAsStated, if_pos ht]
  | succ f ih =>
    rw [reorthAsStated, if_pos ht]
    simp only [forN_gsAgain_of_zero n i w h, hn]
    exact ih

/-- C18 (amended). At every inner step `i` the reorthogonalization loop of `zfgmr`
returns `(t1, w1)` exactly when, for some number `p` of passes, the test
`t < 0.5 * t0` held before each of the `p` passes and fails after the last, with `t` the
norm of the candidate after the most recent pass and `t0` the norm it had before that
pass (before the first Gram-Schmidt pass only at the first test); `t1` and `w1` are the
norm and buffers after `p` passes. Each pass runs over all `vv[0..i]`, adds
`<vv[j], w>` to `hh[i][j]` and subtracts it times `vv[j]` from `w = vv[i+1]` at once. -/
theorem C18_reorthogonalization_rule (ext : Ext R) (n i : Nat) :
    (∀ (fuel : Nat) (t0 t : R) (w : Work R) (t1 : R) (w1 : Work R),
      reorth ext n i fuel t0 t w = some (t1, w1) ↔
        ∃ p, p ≤ fuel ∧
          (∀ q, q < p → normAfter ext n i t w q < 1 / 2 * normBefore ext n i t0 t w q) ∧
          ¬ (normAfter ext n i t w p < 1 / 2 * normBefore ext n i t0 t w p) ∧
          t1 = normAfter ext n i t w p ∧ w1 = afterPasses n i w p) ∧
    (∀ (w : Work R) (p : Nat),
      afterPasses n i w (p + 1) = forN (i + 1) (gsAgain n i) (afterPasses n i w p)) ∧
    (∀ (j : Nat) (w : Work R),
      (gsAgain n i j w).hh = set2 w.hh i j (w.hh i j + zdotc n (w.vv j) (w.vv (i + 1))) ∧
      (gsAgain n i j w).vv = Function.update w.vv (i + 1)
        (zaxpy_ n (-(zdotc n (w.vv j) (w.vv (i + 1)))) (w.vv j) (w.vv (i + 1)))) :=
  ⟨reorth_iff ext n i, fun _ _ => rfl, fun _ _ => ⟨rfl, rfl⟩⟩

/-- Counterexample to C18 as stated: candidate of norm `t0 = 1` before the first pass
and `t = 0` after it (identity operator, step 0). The loop of `zfgmr` makes exactly one
further pass and stops, because it then compares `0` with `0.5 * 0`; under the stated
rule, which keeps comparing with `0.5 * 1`, the loop would never stop. -/
theorem C18_counterexample :
    reorth (Ext.ofSqrt Real.sqrt) 1 0 1 1 0 (Work.init : Work ℝ) = some (0, Work.init) ∧
    reorth (Ext.ofSqrt Real.sqrt) 1 0 0 1 0 (Work.init : Work ℝ) = none ∧
    reorthAsStated (Ext.ofSqrt Real.sqrt) 1 0 1 1 0 (Work.init : Work ℝ) = none ∧
    reorthAsStated (Ext.ofSqrt Real.sqrt) 1 0 7 1 0 (Work.init : Work ℝ) = none := by
  refine ⟨reorth_zero exactNorm_real 1 0 _ (fun _ _ => rfl) 0 1, ?_,
    reorthAsStated_zero exactNorm_real 1 0 _ (fun _ _ => rfl) 1 one_pos 1,
    reorthAsStated_zero exactNorm_real 1 0 _ (fun _ _ => rfl) 1 one_pos 7⟩
  rw [reorth, if_pos (by norm_num)]


end ReorthRule

/-! ## The convergence threshold -/

section Threshold

variable {R : Type} [LinearOrderedField R]

theorem innerLoop_inner_mono (fuel : Nat) (ext : Ext R) (n : Nat) (mv : MatVec R)
    (ps : Option (PSolve R)) (maxits : Int) :
    ∀ (k i : Nat) (st st1 : State R) (iend : Nat),
      innerLoop fuel ext n mv ps maxits k i st = some (st1, iend) →
      st.inner + (if k = 0 then 0 else 1) ≤ st1.inner ∧ (k = 0 → iend = i) := by
  intro k
  induction k with
  | zero =>
    intro i st st1 iend h
    simp only [innerLoop, Option.some.injEq, Prod.mk.injEq] at h
    rw [← h.1, ← h.2]; exact ⟨le_rfl, fun _ => rfl⟩
  | succ k ih =>
    intro i st st1 iend h
    unfold innerLoop at h
    cases ha : arnoldi fuel ext n mv ps i st.work with
    | none => simp [ha] at h
    | some w =>
      simp only [ha] at h
      split at h
      · simp only [Option.some.injEq, Prod.mk.injEq] at h
        rw [← h.1]
        exact ⟨by simp, fun hk => by omega⟩
      · obtain ⟨e1, -⟩ := ih _ _ _ _ h
        simp only at e1
        refine ⟨?_, fun hk => by omega⟩
        rw [if_neg (by omega)]
        omega

theorem restartCheck_keeps (tol : R) (maxits : Int) (beta : R) (st : State R) :
    (∀ e st1, restartCheck tol maxits beta st = .exit e st1 →
      e ≠ Exit.initial ∧ st1.eps1 = st.eps1 ∧ st1.inner = st.inner) ∧
    (∀ st1, restartCheck tol maxits beta st = .again st1 → st1 = st) := by
  unfold restartCheck
  by_cases c1 : beta < st.eps1 / tol
  · rw [if_neg (not_not.mpr c1)]
    by_cases c2 : beta ≤ st.eps1
    · rw [if_pos c2]
      refine ⟨fun e st1 h => ?_, fun st1 h => by cases h⟩
      simp only [PassOut.exit.injEq] at h
      rw [← h.1, ← h.2]
      exact ⟨(fun he => by cases he), rfl, rfl⟩
    · rw [if_neg c2]
      by_cases c3 : st.its < maxits
      · rw [if_pos c3]
        refine ⟨(fun e st1 h => by cases h), fun st1 h => ?_⟩
        simp only [PassOut.again.injEq] at h
        exact h.symm
      · rw [if_neg c3]
        refine ⟨fun e st1 h => ?_, fun st1 h => by cases h⟩
        simp only [PassOut.exit.injEq] at h
        rw [← h.1, ← h.2]
        exact ⟨(fun he => by cases he), rfl, rfl⟩
  · rw [if_pos c1]
    refine ⟨fun e st1 h => ?_, fun st1 h => by cases h⟩
    simp only [PassOut.exit.injEq] at h
    rw [← h.1, ← h.2]
    exact ⟨(fun he => by cases he), rfl, rfl⟩

/-- What one outer pass does to `eps1`: the initial exit leaves it alone; every other
outcome has executed an inner step and carries `tol * beta` when the pass started with
`its == 0` and the old value otherwise. -/
theorem outerPass_eps1 (fuel : Nat) (ext : Ext R) (n : Nat) (mv : MatVec R)
    (ps : Option (PSolve R)) (rhs : Vec R) (tol : R) (im maxits : Int) (st : State R)
    (out : PassOut R) (h : outerPass fuel ext n mv ps rhs tol im maxits st = .ok out) :
    (∀ st1, out = .exit .initial st1 → st1.eps1 = st.eps1 ∧ st1.inner = st.inner) ∧
    (∀ e st1, out = .exit e st1 → e ≠ Exit.initial →
      st1.eps1 = (if st.its = 0 then
        tol * ext.dznrm2_ n (residual n mv rhs st.sol (st.work.vv 0)) else st.eps1) ∧
      st.inner + 1 ≤ st1.inner) ∧
    (∀ st1, out = .again st1 →
      st1.eps1 = (if st.its = 0 then
        tol * ext.dznrm2_ n (residual n mv rhs st.sol (st.work.vv 0)) else st.eps1) ∧
      st.inner + 1 ≤ st1.inner) := by
  unfold outerPass at h
  by_cases him : im < 0
  · simp [him] at h
  simp only [him, if_false] at h
  by_cases hb : (initResidual ext n mv rhs st).2 > tol * ext.dznrm2_ n rhs
  · simp only [hb, not_true_eq_false, if_false] at h
    cases hin : innerLoop fuel ext n mv ps maxits im.toNat 0
        (prepare n tol (initResidual ext n mv rhs st).2 (initResidual ext n mv rhs st).1) with
    | none => simp [hin] at h
    | some p =>
      obtain ⟨st3, iend⟩ := p
      simp only [hin] at h
      by_cases hcl : clampIndex im iend < 0
      · simp [hcl] at h
      simp only [hcl, if_false] at h
      cases hsu : solveUpdate ext n mv rhs (clampIndex im iend).toNat st3 with
      | none => simp [hsu] at h
      | some q =>
        obtain ⟨st4, beta1⟩ := q
        simp only [hsu, Except.ok.injEq] at h
        obtain ⟨k1, k2, k3⟩ := innerLoop_keeps fuel ext n mv ps maxits _ _ _ _ _ hin
        obtain ⟨m1, m2⟩ := innerLoop_inner_mono fuel ext n mv ps maxits _ _ _ _ _ hin
        obtain ⟨s1, s2, s3, s4⟩ := solveUpdate_count ext n mv rhs _ st3 st4 beta1 hsu
        obtain ⟨r1, r2⟩ := restartCheck_keeps tol maxits beta1 st4
        have him1 : im.toNat ≠ 0 := by
          intro h0
          have hi0 := m2 h0
          apply hcl
          unfold clampIndex
          rw [hi0]
          have : im = 0 := by omega
          rw [this]; decide
        rw [if_neg him1] at m1
        have hE : st4.eps1 = (if st.its = 0 then
            tol * ext.dznrm2_ n (residual n mv rhs st.sol (st.work.vv 0)) else st.eps1) := by
          rw [s3, k1]; rfl
        have hI : st.inner + 1 ≤ st4.inner := by
          rw [s2]; exact m1
        refine ⟨fun st1 ho => ?_, fun e st1 ho hne => ?_, fun st1 ho => ?_⟩
        · rw [ho] at h
          exact absurd rfl (r1 _ _ h).1
        · rw [ho] at h
          obtain ⟨-, a2, a3⟩ := r1 _ _ h
          exact ⟨a2.trans hE, by rw [a3]; exact hI⟩
        · rw [ho] at h
          rw [r2 _ h]
          exact ⟨hE, hI⟩
  · simp only [hb, not_false_eq_true, if_true, Except.ok.injEq] at h
    refine ⟨fun st1 ho => ?_, fun e st1 ho hne => ?_, fun st1 ho => ?_⟩
    · rw [ho] at h
      simp only [PassOut.exit.injEq, true_and] at h
      rw [← h]; exact ⟨rfl, rfl⟩
    · rw [ho] at h
      simp only [PassOut.exit.injEq] at h
      exact absurd h.1.symm hne
    · rw [ho] at h; cases h

theorem outerLoop_eps1 (fuel : Nat) (ext : Ext R) (n : Nat) (mv : MatVec R)
    (ps : Option (PSolve R)) (rhs : Vec R) (tol : R) (im maxits : Int)
    (hmax : maxits < 2147483648) (E : R) :
    ∀ (f : Nat) (st : State R) (r : Result R), CountInv maxits st → 1 ≤ st.inner →
      st.eps1 = E → outerLoop fuel ext n mv ps rhs tol im maxits f st = .ok r →
      r.final.eps1 = E ∧ 1 ≤ r.final.inner := by
  intro f
  induction f with
  | zero => intro st r _ _ _ h; simp [outerLoop] at h
  | succ f ih =>
    intro st r hinv hin he h
    simp only [outerLoop] at h
    have hits : st.its ≠ 0 := by
      rw [hinv.1]; omega
    cases hp : outerPass fuel ext n mv ps rhs tol im maxits st with
    | error e => simp [hp] at h
    | ok out =>
      obtain ⟨p1, p2, p3⟩ := outerPass_eps1 fuel ext n mv ps rhs tol im maxits st out hp
      have hcnt := outerPass_count fuel ext n mv ps rhs tol im maxits hmax st out hinv hp
      cases out with
      | exit e st1 =>
        simp only [hp, Except.ok.injEq] at h
        rw [← h]
        by_cases hei : e = Exit.initial
        · subst hei
          obtain ⟨a1, a2⟩ := p1 st1 rfl
          exact ⟨a1.trans he, by show 1 ≤ st1.inner; omega⟩
        · obtain ⟨a1, a2⟩ := p2 e st1 rfl hei
          rw [if_neg hits] at a1
          exact ⟨a1.trans he, by show 1 ≤ st1.inner; omega⟩
      | again st1 =>
        simp only [hp] at h
        obtain ⟨a1, a2⟩ := p3 st1 rfl
        rw [if_neg hits] at a1
        exact ih st1 r hcnt (by omega) (a1.trans he) h

/-- C19 (amended). For every solve with a budget representable as a C `int`: `eps1` is
assigned at most once, on the first outer pass, as `tol * ||rhs - A sol_initial||`. An
outer pass that starts with `its == 0` and gets past the initial test sets it to
`tol * beta`, a pass that starts with `its != 0` leaves it unchanged, and a pass that
is followed by another one ends with `its != 0`; the inner loop, whose test reads it,
and the restart checks leave it unchanged. On return it holds
`tol * ||rhs - A sol_initial||` whenever an inner iteration was executed; when none was
executed the run left through the initial test of the first pass, `eps1` was never
assigned and still holds its initialiser 0. -/
theorem C19_eps1_assigned_once (fuel : Nat) (ext : Ext R) (n : Nat) (mv : MatVec R)
    (ps : Option (PSolve R)) (rhs sol : Vec R) (tol : R) (im maxits : Int)
    (hmax : maxits < 2147483648) :
    (∀ r, zfgmr fuel ext n mv ps rhs sol tol im maxits = .ok r →
      (r.final.inner ≠ 0 →
        r.final.eps1 = tol * ext.dznrm2_ n (residual n mv rhs sol (fun _ => czero))) ∧
      (r.final.inner = 0 → r.exit = Exit.initial ∧ r.final.eps1 = 0)) ∧
    (∀ (st : State R) (out : PassOut R),
      outerPass fuel ext n mv ps rhs tol im maxits st = .ok out →
      (∀ st1, out = .exit .initial st1 → st1.eps1 = st.eps1) ∧
      (∀ e st1, out = .exit e st1 → e ≠ Exit.initial →
        st1.eps1 = (if st.its = 0 then
          tol * ext.dznrm2_ n (residual n mv rhs st.sol (st.work.vv 0)) else st.eps1)) ∧
      (∀ st1, out = .again st1 →
        st1.eps1 = (if st.its = 0 then
          tol * ext.dznrm2_ n (residual n mv rhs st.sol (st.work.vv 0)) else st.eps1) ∧
        (CountInv maxits st → st1.its ≠ 0))) ∧
    (∀ (k i : Nat) (st st1 : State R) (iend : Nat),
      innerLoop fuel ext n mv ps maxits k i st = some (st1, iend) → st1.eps1 = st.eps1) ∧
    (∀ (beta : R) (st : State R),
      (∀ e st1, restartCheck tol maxits beta st = .exit e st1 → st1.eps1 = st.eps1) ∧
      (∀ st1, restartCheck tol maxits beta st = .again st1 → st1.eps1 = st.eps1)) := by
  refine ⟨fun r h => ?_, fun st out h => ?_,
    fun k i st st1 iend h => (innerLoop_keeps fuel ext n mv ps maxits k i st st1 iend h).1,
    fun beta st => ⟨fun e st1 h => ((restartCheck_keeps tol maxits beta st).1 e st1 h).2.1,
      fun st1 h => by rw [(restartCheck_keeps tol maxits beta st).2 st1 h]⟩⟩
  · unfold zfgmr at h
    cases fuel with
    | zero => simp [outerLoop] at h
    | succ f =>
      simp only [outerLoop] at h
      generalize hst0 : (⟨sol, 0, 0, Work.init, 0, 0, 0⟩ : State R) = st0 at h
      have hinv : CountInv maxits st0 := by rw [← hst0]; exact ⟨rfl, Or.inl rfl⟩
      have hE : (if st0.its = 0 then
          tol * ext.dznrm2_ n (residual n mv rhs st0.sol (st0.work.vv 0)) else st0.eps1) =
          tol * ext.dznrm2_ n (residual n mv rhs sol (fun _ => czero)) := by
        rw [← hst0]; rfl
      have hi0 : st0.inner = 0 := by rw [← hst0]
      have he0 : st0.eps1 = 0 := by rw [← hst0]
      cases hp : outerPass (f + 1) ext n mv ps rhs tol im maxits st0 with
      | error e => simp [hp] at h
      | ok out =>
        obtain ⟨p1, p2, p3⟩ := outerPass_eps1 (f + 1) ext n mv ps rhs tol im maxits st0 out hp
        have hcnt := outerPass_count (f + 1) ext n mv ps rhs tol im maxits hmax st0 out hinv hp
        cases out with
        | exit e st1 =>
          simp only [hp, Except.ok.injEq] at h
          rw [← h]
          by_cases hei : e = Exit.initial
          · subst hei
            obtain ⟨a1, a2⟩ := p1 st1 rfl
            refine ⟨fun hne => absurd (a2.trans hi0) hne, fun _ => ⟨rfl, a1.trans he0⟩⟩
          · obtain ⟨a1, a2⟩ := p2 e st1 rfl hei
            refine ⟨fun _ => a1.trans hE, fun h0 => ?_⟩
            exfalso
            have : st1.inner = 0 := h0
            omega
        | again st1 =>
          simp only [hp] at h
          obtain ⟨a1, a2⟩ := p3 st1 rfl
          obtain ⟨b1, b2⟩ := outerLoop_eps1 (f + 1) ext n mv ps rhs tol im maxits hmax _ f st1 r
            hcnt (by omega) (a1.trans hE) h
          exact ⟨fun _ => b1, fun h0 => by omega⟩
  · obtain ⟨p1, p2, p3⟩ := outerPass_eps1 fuel ext n mv ps rhs tol im maxits st out h
    refine ⟨fun st1 ho => (p1 st1 ho).1, fun e st1 ho hne => (p2 e st1 ho hne).1,
      fun st1 ho => ⟨(p3 st1 ho).1, fun hinv => ?_⟩⟩
    have hcnt := outerPass_count fuel ext n mv ps rhs tol im maxits hmax st out hinv h
    rw [ho] at hcnt
    have h1 : st1.its = (st1.inner : Int) := hcnt.1
    have h2 := (p3 st1 ho).2
    rw [h1]; omega

end Threshold

/-! ## Lucky breakdown -/

section Breakdown

variable {R : Type} [LinearOrderedField R]

/-- A zero candidate vector ends the Arnoldi step without reorthogonalization. -/
theorem arnoldi_zero_cand {ext : Ext R} (hex : ExactNorm ext) (fuel n : Nat) (mv : MatVec R)
    (i : Nat) (w : Work R)
    (hc : ∀ k, k < n → mv cone (zcopy_ n (w.vv i) (w.z i)) czero (w.vv (i + 1)) k = czero) :
    ∃ w1, arnoldi fuel ext n mv none i w = some w1 := by
  unfold arnoldi
  simp only [Function.update_same]
  have h0 : ext.dznrm2_ n (mv cone (zcopy_ n (w.vv i) (w.z i)) czero (w.vv (i + 1))) = 0 :=
    hex.eq_zero n _ hc
  rw [h0]
  rw [reorth_stop ext n i fuel 0 _ _ (by
    rw [mul_zero]; exact not_lt.mpr (hex.nonneg _ _))]
  simp only
  split
  · exact ⟨_, rfl⟩
  · exact ⟨_, rfl⟩

/-- A step with `hh[i][i+1] = 0` has skipped the normalization: its result is the
output of the reorthogonalization loop with only `hh[i][i+1]` written. -/
theorem arnoldi_skip (fuel : Nat) (ext : Ext R) (n : Nat) (mv : MatVec R)
    (ps : Option (PSolve R)) (i : Nat) (w w1 : Work R)
    (h : arnoldi fuel ext n mv ps i w = some w1) (ht : w1.hh i (i + 1) = 0) :
    ∃ (t0 t : R) (W3 W4 : Work R), reorth ext n i fuel t0 t W3 = some (0, W4) ∧
      w1 = { W4 with hh := set2 W4.hh i (i + 1) ⟨0, 0⟩ } := by
  unfold arnoldi at h
  simp only at h
  split at h
  · cases h
  · rename_i t W4 hre
    by_cases htz : t = 0
    · subst htz
      rw [if_neg (by simp)] at h
      simp only [Option.some.injEq] at h
      exact ⟨_, _, _, W4, hre, h.symm⟩
    · rw [if_pos htz] at h
      simp only [Option.some.injEq] at h
      exfalso
      apply htz
      rw [← h] at ht
      simp only [set2, Function.update_same] at ht
      exact congrArg doublecomplex.r ht

end Breakdown

/-! ## The degenerate rotation -/

section GammaZero

variable {R : Type} [LinearOrderedField R]

theorem gsFirst_of_dot_zero (n i j : Nat) (w : Work R)
    (h : zdotc n (w.vv j) (w.vv (i + 1)) = czero) :
    gsFirst n i j w = { w with hh := set2 w.hh i j czero } := by
  unfold gsFirst
  simp only [h]
  have h2 : (⟨-(czero : doublecomplex R).r, -(czero : doublecomplex R).i⟩ : doublecomplex R)
      = ⟨-0, -0⟩ := rfl
  rw [h2, zaxpy_zero]
  simp

theorem forN_gsFirst_of_zero (n i : Nat) (w : Work R)
    (h : ∀ k, k < n → w.vv (i + 1) k = czero) (cnt : Nat) :
    (forN cnt (gsFirst n i) w).vv = w.vv ∧
      (∀ j, j < cnt → (forN cnt (gsFirst n i) w).hh i j = czero) := by
  induction cnt with
  | zero => exact ⟨rfl, fun j hj => absurd hj (Nat.not_lt_zero j)⟩
  | succ c ih =>
    obtain ⟨h1, h2⟩ := ih
    simp only [forN]
    rw [gsFirst_of_dot_zero n i c _ (zdotc_zero_right n _ _ (by rw [h1]; exact h))]
    refine ⟨h1, fun j hj => ?_⟩
    simp only [set2, Function.update_same]
    by_cases hjc : j = c
    · rw [hjc, Function.update_same]
    · rw [Function.update_noteq hjc]
      exact h2 j (by omega)

/-- A zero candidate vector: the Arnoldi step returns with the whole column
`hh[i][0..i+1]` zero and `rs` untouched. -/
theorem arnoldi_zero_cand_hh {ext : Ext R} (hex : ExactNorm ext) (fuel n : Nat) (mv : MatVec R)
    (i : Nat) (w : Work R)
    (hc : ∀ k, k < n → mv cone (zcopy_ n (w.vv i) (w.z i)) czero (w.vv (i + 1)) k = czero) :
    ∃ w1, arnoldi fuel ext n mv none i w = some w1 ∧ (∀ j, j ≤ i + 1 → w1.hh i j = 0) ∧
      w1.rs = w.rs := by
  unfold arnoldi
  simp only [Function.update_same]
  have h0 : ext.dznrm2_ n (mv cone (zcopy_ n (w.vv i) (w.z i)) czero (w.vv (i + 1))) = 0 :=
    hex.eq_zero n _ hc
  rw [h0]
  rw [reorth_stop ext n i fuel 0 _ _ (by
    rw [mul_zero]; exact not_lt.mpr (hex.nonneg _ _))]
  simp only
  generalize hW2 : (⟨Function.update w.vv (i + 1)
    (mv cone (zcopy_ n (w.vv i) (w.z i)) czero (w.vv (i + 1))), w.hh,
    Function.update w.z i (zcopy_ n (w.vv i) (w.z i)), w.c, w.s, w.rs⟩ : Work R) = W2
  have hW2z : ∀ k, k < n → W2.vv (i + 1) k = czero := by
    intro k hk; rw [← hW2]; simp only [Function.update_same]; exact hc k hk
  obtain ⟨g1, g2⟩ := forN_gsFirst_of_zero n i W2 hW2z (i + 1)
  obtain ⟨-, -, -, f4, -, -⟩ := forN_gsStep_frame true n i W2 (i + 1)
  rw [gsStep_true] at f4
  have hn : ext.dznrm2_ n ((forN (i + 1) (gsFirst n i) W2).vv (i + 1)) = 0 := by
    rw [g1]; exact hex.eq_zero n _ hW2z
  rw [hn, if_neg (by simp)]
  refine ⟨_, rfl, fun j hj => ?_, ?_⟩
  · simp only [set2, Function.update_same]
    by_cases hji : j = i + 1
    · rw [hji, Function.update_same]; rfl
    · rw [Function.update_noteq hji]
      exact g2 j (by omega)
  · show (forN (i + 1) (gsFirst n i) W2).rs = w.rs
    rw [f4, ← hW2]

/-- The branch `gam == 0` of the rotation step: `(c, s) = (1, 0)` without a division,
`rs[i+1] = 0`, and the diagonal entry `hh[i][i]` is left at zero. -/
theorem givens_gamma_zero {ext : Ext R} (hex : ExactNorm ext) (i : Nat) (w : Work R)
    (hg : ext.dznrm2_ 2 (fun k => (forN i (rotatePrev i) w).hh i (i + k)) = 0) :
    (givens ext i w).1.c i = 1 ∧ (givens ext i w).1.s i = 0 ∧
      (givens ext i w).1.hh i i = 0 ∧ (givens ext i w).1.rs (i + 1) = 0 ∧
      (givens ext i w).1.rs i = w.rs i ∧ (givens ext i w).2 = ext.z_abs1 0 := by
  obtain ⟨c, s, hc, hs, hr1, hr0, -, hii, hz, -⟩ := givens_values ext i w
  obtain ⟨-, -, -, -, -, -, g7⟩ := givens_frame ext i w
  obtain ⟨h1, h2⟩ := hz hg
  have hz0 := hex.zero_of_nrm 2 _ hg 0 (by norm_num)
  have hz1 := hex.zero_of_nrm 2 _ hg 1 (by norm_num)
  simp only [Nat.add_zero] at hz0
  have hrs : (givens ext i w).1.rs (i + 1) = 0 := by rw [hr1, h2, zero_mul, neg_zero]
  refine ⟨hc.trans h1, hs.trans h2, ?_, hrs, ?_, by rw [g7, hrs]⟩
  · rw [hii, hz0, hz1, mul_zero, mul_zero, add_zero]
  · rw [hr0, h1, one_mul]

theorem backSolve_zero_diag (i : Nat) (w : Work R) (h : w.hh i i = 0) :
    backSolve i w = none := by
  unfold backSolve
  have : z_div (w.rs i) (w.hh i i) = none := by
    unfold z_div
    rw [h, if_pos ⟨rfl, rfl⟩]
  rw [this]; rfl

/-- The zero operator on a system of size one: the first rotation has `gam == 0`, the
inner loop is left at index 0 and the back-substitution divides by `hh[0][0] = 0`. -/
theorem zfgmr_zero_op {ext : Ext R} (hex : ExactNorm ext) (habs : ext.z_abs1 0 = 0)
    (f : Nat) (maxits : Int) :
    zfgmr (f + 1) ext 1 zeroOp none unit0 vzero (1 / 2) 1 maxits = .error .divZero := by
  have hb : ext.dznrm2_ 1 (residual 1 zeroOp unit0 vzero (fun _ => czero)) = 1 := by
    apply hex.eq_of_sq _ _ 1 zero_le_one
    simp [nrmSq, forN, residual, zeroOp, unit0, vzero, cnormSq, cone, czero, z_sub, zz_mult]
  unfold zfgmr
  simp only [outerLoop]
  have hp : outerPass (f + 1) ext 1 zeroOp none unit0 (1 / 2) 1 maxits
      ⟨vzero, 0, 0, Work.init, 0, 0, 0⟩ = .error .divZero := by
    unfold outerPass
    rw [if_neg (by decide)]
    have hb2 : (initResidual ext 1 zeroOp unit0 ⟨vzero, 0, 0, Work.init, 0, 0, 0⟩).2 = 1 := hb
    simp only [hb2]
    rw [nrm1_unit0 hex, if_neg (by norm_num)]
    generalize hst : prepare 1 (1 / 2) 1
      (initResidual ext 1 zeroOp unit0 ⟨vzero, 0, 0, Work.init, 0, 0, 0⟩).1 = st
    have he : st.eps1 = 1 / 2 := by
      rw [← hst]; simp [prepare, initResidual]
    obtain ⟨w1, ha, hh0, hrs⟩ := arnoldi_zero_cand_hh hex (f + 1) 1 zeroOp 0 st.work
      (fun k hk => by
        rw [← hst]
        simp [zeroOp, prepare, initResidual, Work.init, zz_mult, czero])
    have hg : ext.dznrm2_ 2 (fun k => (forN 0 (rotatePrev 0) w1).hh 0 (0 + k)) = 0 := by
      apply hex.eq_zero
      intro k hk
      exact hh0 (0 + k) (by omega)
    obtain ⟨-, -, g3, -, -, g6⟩ := givens_gamma_zero hex 0 w1 hg
    have hin : innerLoop (f + 1) ext 1 zeroOp none maxits (Int.toNat 1) 0 st =
        some ({ st with its := wrap32 (st.its + 1), work := (givens ext 0 w1).1,
                        inner := st.inner + 1, matvecs := st.matvecs + 1 }, 0) := by
      show innerLoop (f + 1) ext 1 zeroOp none maxits (0 + 1) 0 st = _
      unfold innerLoop
      simp only [ha]
      rw [if_pos (Or.inl (by rw [g6, habs, he]; norm_num))]
    rw [hin]
    simp only
    rw [if_neg (by decide)]
    have hci : (clampIndex 1 0).toNat = 0 := by decide
    rw [hci]
    unfold solveUpdate
    simp only [backSolve_zero_diag 0 (givens ext 0 w1).1 g3, Option.map_none']
  rw [hp]


/-- C16 (refuted at a failing input). In exact arithmetic over the reals: whenever
`gam == 0` at inner step `i`, the rotation is `(1, 0)` without a division but the
diagonal entry `hh[i][i]` is left at 0, so a back-substitution from index `i` calls
`z_div` with a zero divisor. On the zero operator of size one (`rhs = 1`, `sol = 0`,
`tol = 1/2`, `im = 1`, budget 5) this happens at step 0, and the run ends in that
division instead of returning. -/
theorem C16_gamma_zero_divides :
    (∀ (i : Nat) (w : Work ℝ),
      (Ext.ofSqrt Real.sqrt).dznrm2_ 2 (fun k => (forN i (rotatePrev i) w).hh i (i + k)) = 0 →
      (givens (Ext.ofSqrt Real.sqrt) i w).1.c i = 1 ∧
      (givens (Ext.ofSqrt Real.sqrt) i w).1.s i = 0 ∧
      (givens (Ext.ofSqrt Real.sqrt) i w).1.hh i i = 0 ∧
      backSolve i (givens (Ext.ofSqrt Real.sqrt) i w).1 = none) ∧
    zfgmr 1 (Ext.ofSqrt Real.sqrt) 1 zeroOp none unit0 vzero (1 / 2) 1 5 = .error .divZero := by
  refine ⟨fun i w hg => ?_, zfgmr_zero_op exactNorm_real z_abs1_real_zero 0 5⟩
  obtain ⟨g1, g2, g3, -⟩ := givens_gamma_zero exactNorm_real i w hg
  exact ⟨g1, g2, g3, backSolve_zero_diag i _ g3⟩


end GammaZero

/-! ## The rotation applied to a later column -/

section RotationClaims

variable {R : Type} [LinearOrderedField R]

theorem rotWork_gam {ext : Ext R} (hex : ExactNorm ext) :
    ext.dznrm2_ 2 (fun k => (forN 0 (rotatePrev 0) (rotWork : Work R)).hh 0 (0 + k)) = 5 := by
  apply hex.eq_of_sq _ _ 5 (by norm_num)
  rw [nrmSq_two]
  simp only [forN, rotWork, cnormSq]
  norm_num

/-- The rotation computed from `hh[0][0] = 3i`, `hh[0][1] = 4` and what the loop of
lines 245-256 makes of the pair `(1, i)` in the next column. -/
theorem rotWork_rotation {ext : Ext R} (hex : ExactNorm ext) :
    (givens ext 0 (rotWork : Work R)).1.c 0 = ⟨0, 3 / 5⟩ ∧
    (givens ext 0 (rotWork : Work R)).1.s 0 = ⟨4 / 5, 0⟩ ∧
    (givens ext 0 (rotWork : Work R)).1.hh 1 0 = ⟨1, 0⟩ ∧
    (givens ext 0 (rotWork : Work R)).1.hh 1 1 = ⟨0, 1⟩ ∧
    (forN 1 (rotatePrev 1) (givens ext 0 (rotWork : Work R)).1).hh 1 0 = ⟨0, 7 / 5⟩ ∧
    (forN 1 (rotatePrev 1) (givens ext 0 (rotWork : Work R)).1).hh 1 1 = ⟨-(7 / 5), 0⟩ := by
  obtain ⟨c, s, hc, hs, -, -, -, -, -, hnz⟩ := givens_values ext 0 (rotWork : Work R)
  obtain ⟨-, -, -, -, -, g6, -⟩ := givens_frame ext 0 (rotWork : Work R)
  have hg := rotWork_gam hex
  obtain ⟨h1, h2⟩ := hnz (by rw [hg]; try norm_num)
  rw [hg] at h1 h2
  have hc0 : (givens ext 0 (rotWork : Work R)).1.c 0 = ⟨0, 3 / 5⟩ := by
    rw [hc, h1]
    apply dc_ext <;> (simp [forN, rotWork, zd_mult]; try norm_num)
  have hs0 : (givens ext 0 (rotWork : Work R)).1.s 0 = ⟨4 / 5, 0⟩ := by
    rw [hs, h2]
    apply dc_ext <;> (simp [forN, rotWork, zd_mult]; try norm_num)
  have hh10 : (givens ext 0 (rotWork : Work R)).1.hh 1 0 = ⟨1, 0⟩ := by
    rw [g6 1 0 (by decide)]; rfl
  have hh11 : (givens ext 0 (rotWork : Work R)).1.hh 1 1 = ⟨0, 1⟩ := by
    rw [g6 1 1 (by decide)]; rfl
  refine ⟨hc0, hs0, hh10, hh11, ?_, ?_⟩
  · simp only [forN, rotatePrev, set2, Function.update_same, zero_add]
    rw [Function.update_noteq (by decide), Function.update_same, hc0, hs0, hh10, hh11]
    apply dc_ext <;> (simp [z_add, zz_mult]; try norm_num)
  · simp only [forN, rotatePrev, set2, Function.update_same, zero_add]
    rw [hc0, hs0, hh10]
    apply dc_ext <;> (simp [z_sub, zz_mult, hh11]; try norm_num)

/-- C15 (refuted at a failing input). Over the reals: from `hh[0][0] = 3i`,
`hh[0][1] = 4` the rotation step computes `c[0] = 3i/5`, `s[0] = 4/5`; applied by the
loop of lines 245-256 to the pair `(hh[1][0], hh[1][1]) = (1, i)` of the next column
it gives `(7i/5, -7/5)`, of squared norm `98/25`, while the pair had squared norm 2.
The transform `(x, y) -> (c x + s y, -s x + c y)` is not unitary for this `c`. -/
theorem C15_rotation_not_unitary :
    (givens (Ext.ofSqrt Real.sqrt) 0 (rotWork : Work ℝ)).1.c 0 = ⟨0, 3 / 5⟩ ∧
    (givens (Ext.ofSqrt Real.sqrt) 0 (rotWork : Work ℝ)).1.s 0 = ⟨4 / 5, 0⟩ ∧
    cnormSq ((givens (Ext.ofSqrt Real.sqrt) 0 (rotWork : Work ℝ)).1.hh 1 0) +
      cnormSq ((givens (Ext.ofSqrt Real.sqrt) 0 (rotWork : Work ℝ)).1.hh 1 1) = 2 ∧
    cnormSq ((forN 1 (rotatePrev 1)
        (givens (Ext.ofSqrt Real.sqrt) 0 (rotWork : Work ℝ)).1).hh 1 0) +
      cnormSq ((forN 1 (rotatePrev 1)
        (givens (Ext.ofSqrt Real.sqrt) 0 (rotWork : Work ℝ)).1).hh 1 1) = 98 / 25 := by
  obtain ⟨h1, h2, h3, h4, h5, h6⟩ := rotWork_rotation (exactNorm_real)
  refine ⟨h1, h2, ?_, ?_⟩
  · rw [h3, h4]; simp only [cnormSq]; norm_num
  · rw [h5, h6]; simp only [cnormSq]; norm_num


end RotationClaims

/-! ## The loop nests of `strsv_` by position -/

section StrsvLoops

variable {R : Type} [LinearOrderedField R]

theorem forN_pair_add {σ : Type} (cnt : Nat) (f : Nat → σ → Int → σ) (d k : Int) (s : σ) :
    forN cnt (fun m (t : σ × Int) => (f m t.1 t.2, t.2 + d)) (s, k) =
      (forN cnt (fun m s => f m s (k + m * d)) s, k + cnt * d) := by
  induction cnt with
  | zero => simp [forN]
  | succ c ih =>
    simp only [forN, ih]
    refine Prod.ext rfl ?_
    simp only; push_cast; ring

theorem forN_pair_sub {σ : Type} (cnt : Nat) (f : Nat → σ → Int → σ) (d k : Int) (s : σ) :
    forN cnt (fun m (t : σ × Int) => (f m t.1 t.2, t.2 - d)) (s, k) =
      (forN cnt (fun m s => f m s (k - m * d)) s, k - cnt * d) := by
  induction cnt with
  | zero => simp [forN]
  | succ c ih =>
    simp only [forN, ih]
    refine Prod.ext rfl ?_
    simp only; push_cast; ring

theorem loop20_eq (nounit : Bool) (n : Nat) (a : Int → R) (lda : Int) (x : Int → R) :
    loop20 nounit n a lda x = loop20At (fun j => (j : Int)) nounit n a lda x := rfl

theorem loop60_eq (nounit : Bool) (n : Nat) (a : Int → R) (lda : Int) (x : Int → R) :
    loop60 nounit n a lda x = loop60At (fun j => (j : Int)) nounit n a lda x := rfl

theorem loop100_eq (nounit : Bool) (n : Nat) (a : Int → R) (lda : Int) (x : Int → R) :
    loop100 nounit n a lda x = loop100At (fun j => (j : Int)) nounit n a lda x := rfl

theorem loop140_eq (nounit : Bool) (n : Nat) (a : Int → R) (lda : Int) (x : Int → R) :
    loop140 nounit n a lda x = loop140At (fun j => (j : Int)) nounit n a lda x := rfl

theorem loop40_eq (nounit : Bool) (n : Nat) (a : Int → R) (lda : Int) (incx kx : Int)
    (x : Int → R) :
    loop40 nounit n a lda incx kx x =
      loop20At (fun j => kx + ((j : Int) - 1) * incx) nounit n a lda x := by
  unfold loop40 loop20At
  have h := forN_pair_sub n (fun m (x : Int → R) (jx : Int) =>
      if X x jx ≠ 0 then
        (forN (n - m - 1) (fun q (t : (Int → R) × Int) =>
          (setX t.1 (t.2 - incx) (X t.1 (t.2 - incx) -
            X (if nounit then setX x jx (X x jx / A a lda (n - m : Nat) (n - m : Nat)) else x) jx *
              A a lda (n - m - 1 - q : Nat) (n - m : Nat)), t.2 - incx))
          (if nounit then setX x jx (X x jx / A a lda (n - m : Nat) (n - m : Nat)) else x, jx)).1
      else x) incx (kx + ((n : Int) - 1) * incx) x
  simp only at h ⊢
  rw [h]
  simp only
  apply forN_congr
  intro m hm x1
  have hj : kx + ((n : Int) - 1) * incx - (m : Int) * incx = kx + (((n - m : Nat) : Int) - 1) * incx := by
    rw [Nat.cast_sub (le_of_lt hm)]; ring
  rw [hj]
  split
  · have h2 := forN_pair_sub (n - m - 1) (fun q (x2 : Int → R) (ix : Int) =>
        setX x2 (ix - incx) (X x2 (ix - incx) -
          X (if nounit then setX x1 (kx + (((n - m : Nat) : Int) - 1) * incx)
              (X x1 (kx + (((n - m : Nat) : Int) - 1) * incx) /
                A a lda (n - m : Nat) (n - m : Nat)) else x1)
            (kx + (((n - m : Nat) : Int) - 1) * incx) *
            A a lda (n - m - 1 - q : Nat) (n - m : Nat))) incx
      (kx + (((n - m : Nat) : Int) - 1) * incx)
      (if nounit then setX x1 (kx + (((n - m : Nat) : Int) - 1) * incx)
              (X x1 (kx + (((n - m : Nat) : Int) - 1) * incx) /
                A a lda (n - m : Nat) (n - m : Nat)) else x1)
    simp only at h2
    rw [h2]
    simp only
    apply forN_congr
    intro q hq x2
    have hi : kx + (((n - m : Nat) : Int) - 1) * incx - (q : Int) * incx - incx =
        kx + (((n - m - 1 - q : Nat) : Int) - 1) * incx := by
      have e1 : ((n - m - 1 - q : Nat) : Int) = (n : Int) - m - 1 - q := by omega
      have e2 : ((n - m : Nat) : Int) = (n : Int) - m := by omega
      rw [e1, e2]; ring
    rw [hi]
  · rfl


theorem loop80_eq (nounit : Bool) (n : Nat) (a : Int → R) (lda : Int) (incx kx : Int)
    (x : Int → R) :
    loop80 nounit n a lda incx kx x =
      loop60At (fun j => kx + ((j : Int) - 1) * incx) nounit n a lda x := by
  unfold loop80 loop60At
  have h := forN_pair_add n (fun m (x : Int → R) (jx : Int) =>
      if X x jx ≠ 0 then
        (forN (n - (m + 1)) (fun q (t : (Int → R) × Int) =>
          (setX t.1 (t.2 + incx) (X t.1 (t.2 + incx) -
            X (if nounit then setX x jx (X x jx / A a lda (m + 1 : Nat) (m + 1 : Nat)) else x) jx *
              A a lda (m + 1 + 1 + q : Nat) (m + 1 : Nat)), t.2 + incx))
          (if nounit then setX x jx (X x jx / A a lda (m + 1 : Nat) (m + 1 : Nat)) else x, jx)).1
      else x) incx kx x
  simp only at h ⊢
  rw [h]
  simp only
  apply forN_congr
  intro m hm x1
  have hj : kx + (m : Int) * incx = kx + (((m + 1 : Nat) : Int) - 1) * incx := by
    push_cast; ring
  rw [hj]
  split
  · have h2 := forN_pair_add (n - (m + 1)) (fun q (x2 : Int → R) (ix : Int) =>
        setX x2 (ix + incx) (X x2 (ix + incx) -
          X (if nounit then setX x1 (kx + (((m + 1 : Nat) : Int) - 1) * incx)
              (X x1 (kx + (((m + 1 : Nat) : Int) - 1) * incx) /
                A a lda (m + 1 : Nat) (m + 1 : Nat)) else x1)
            (kx + (((m + 1 : Nat) : Int) - 1) * incx) *
            A a lda (m + 1 + 1 + q : Nat) (m + 1 : Nat))) incx
      (kx + (((m + 1 : Nat) : Int) - 1) * incx)
      (if nounit then setX x1 (kx + (((m + 1 : Nat) : Int) - 1) * incx)
              (X x1 (kx + (((m + 1 : Nat) : Int) - 1) * incx) /
                A a lda (m + 1 : Nat) (m + 1 : Nat)) else x1)
    simp only at h2
    rw [h2]
    simp only
    apply forN_congr
    intro q hq x2
    have hi : kx + (((m + 1 : Nat) : Int) - 1) * incx + (q : Int) * incx + incx =
        kx + (((m + 1 + 1 + q : Nat) : Int) - 1) * incx := by
      push_cast; ring
    rw [hi]
  · rfl

theorem loop120_eq (nounit : Bool) (n : Nat) (a : Int → R) (lda : Int) (incx kx : Int)
    (x : Int → R) :
    loop120 nounit n a lda incx kx x =
      loop100At (fun j => kx + ((j : Int) - 1) * incx) nounit n a lda x := by
  unfold loop120 loop100At
  have h := forN_pair_add n (fun m (x : Int → R) (jx : Int) =>
      setX x jx (if nounit then
        (forN (m + 1 - 1) (fun q (t : R × Int) =>
          (t.1 - A a lda (q + 1 : Nat) (m + 1 : Nat) * X x t.2, t.2 + incx)) (X x jx, kx)).1 /
          A a lda (m + 1 : Nat) (m + 1 : Nat)
        else (forN (m + 1 - 1) (fun q (t : R × Int) =>
          (t.1 - A a lda (q + 1 : Nat) (m + 1 : Nat) * X x t.2, t.2 + incx)) (X x jx, kx)).1))
      incx kx x
  simp only at h ⊢
  rw [h]
  simp only
  apply forN_congr
  intro m hm x1
  have hj : kx + (m : Int) * incx = kx + (((m + 1 : Nat) : Int) - 1) * incx := by
    push_cast; ring
  rw [hj]
  have h2 := forN_pair_add (m + 1 - 1) (fun q (temp : R) (ix : Int) =>
      temp - A a lda (q + 1 : Nat) (m + 1 : Nat) * X x1 ix) incx kx
      (X x1 (kx + (((m + 1 : Nat) : Int) - 1) * incx))
  simp only at h2
  rw [h2]
  simp only
  have h3 : forN (m + 1 - 1) (fun q (temp : R) =>
      temp - A a lda (q + 1 : Nat) (m + 1 : Nat) * X x1 (kx + (q : Int) * incx))
      (X x1 (kx + (((m + 1 : Nat) : Int) - 1) * incx)) =
      forN (m + 1 - 1) (fun q (temp : R) =>
      temp - A a lda (q + 1 : Nat) (m + 1 : Nat) * X x1 (kx + (((q + 1 : Nat) : Int) - 1) * incx))
      (X x1 (kx + (((m + 1 : Nat) : Int) - 1) * incx)) := by
    apply forN_congr
    intro q hq t
    have hi : kx + (q : Int) * incx = kx + (((q + 1 : Nat) : Int) - 1) * incx := by
      push_cast; ring
    rw [hi]
  rw [h3]

theorem loop160_eq (nounit : Bool) (n : Nat) (a : Int → R) (lda : Int) (incx kx : Int)
    (x : Int → R) :
    loop160 nounit n a lda incx kx x =
      loop140At (fun j => kx - ((n : Int) - (j : Int)) * incx) nounit n a lda x := by
  unfold loop160 loop140At
  have h := forN_pair_sub n (fun m (x : Int → R) (jx : Int) =>
      setX x jx (if nounit then
        (forN (n - (n - m)) (fun q (t : R × Int) =>
          (t.1 - A a lda (n - q : Nat) (n - m : Nat) * X x t.2, t.2 - incx)) (X x jx, kx)).1 /
          A a lda (n - m : Nat) (n - m : Nat)
        else (forN (n - (n - m)) (fun q (t : R × Int) =>
          (t.1 - A a lda (n - q : Nat) (n - m : Nat) * X x t.2, t.2 - incx)) (X x jx, kx)).1))
      incx kx x
  simp only at h ⊢
  rw [h]
  simp only
  apply forN_congr
  intro m hm x1
  have hj : kx - (m : Int) * incx = kx - ((n : Int) - ((n - m : Nat) : Int)) * incx := by
    have e2 : ((n - m : Nat) : Int) = (n : Int) - m := by omega
    rw [e2]; ring
  rw [hj]
  have h2 := forN_pair_sub (n - (n - m)) (fun q (temp : R) (ix : Int) =>
      temp - A a lda (n - q : Nat) (n - m : Nat) * X x1 ix) incx kx
      (X x1 (kx - ((n : Int) - ((n - m : Nat) : Int)) * incx))
  simp only at h2
  rw [h2]
  simp only
  have h3 : forN (n - (n - m)) (fun q (temp : R) =>
      temp - A a lda (n - q : Nat) (n - m : Nat) * X x1 (kx - (q : Int) * incx))
      (X x1 (kx - ((n : Int) - ((n - m : Nat) : Int)) * incx)) =
      forN (n - (n - m)) (fun q (temp : R) =>
      temp - A a lda (n - q : Nat) (n - m : Nat) *
        X x1 (kx - ((n : Int) - ((n - q : Nat) : Int)) * incx))
      (X x1 (kx - ((n : Int) - ((n - m : Nat) : Int)) * incx)) := by
    apply forN_congr
    intro q hq t
    have hi : kx - (q : Int) * incx = kx - ((n : Int) - ((n - q : Nat) : Int)) * incx := by
      have e2 : ((n - q : Nat) : Int) = (n : Int) - q := by omega
      rw [e2]; ring
    rw [hi]
  rw [h3]


end StrsvLoops

/-! ## The four sweeps of `strsv_` solve their triangular systems -/

section StrsvSolve

variable {R : Type} [LinearOrderedField R]

omit [LinearOrderedField R] in
theorem X_setX_same (x : Int → R) (I : Int) (v : R) : X (setX x I v) I = v := by
  simp [X, setX]

omit [LinearOrderedField R] in
theorem X_setX_ne (x : Int → R) (I J : Int) (v : R) (h : J ≠ I) :
    X (setX x I v) J = X x J := by
  unfold X setX
  rw [Function.update_noteq]
  intro e; apply h; omega

theorem sum_split {ι : Type} (s : Finset ι) (f g h : ι → R)
    (hpt : ∀ l, l ∈ s → f l = g l + h l) :
    ∑ l in s, f l = ∑ l in s, g l + ∑ l in s, h l := by
  rw [← Finset.sum_add_distrib]; exact Finset.sum_congr rfl hpt

/-- Effect of an inner loop `X(e q) -= temp * c q`, `q = 0..cnt-1`, on distinct
positions. -/
theorem col_axpy (p : Nat → Int) (e : Nat → Nat) (c : Nat → R) (temp : R) (x1 : Int → R) :
    ∀ cnt, (∀ q q1, q < cnt → q1 < cnt → p (e q) = p (e q1) → q = q1) →
      (∀ q, q < cnt →
        X (forN cnt (fun q x2 => setX x2 (p (e q)) (X x2 (p (e q)) - temp * c q)) x1) (p (e q)) =
          X x1 (p (e q)) - temp * c q) ∧
      (∀ I, (∀ q, q < cnt → I ≠ p (e q)) →
        X (forN cnt (fun q x2 => setX x2 (p (e q)) (X x2 (p (e q)) - temp * c q)) x1) I =
          X x1 I) := by
  intro cnt
  induction cnt with
  | zero =>
    intro _
    exact ⟨fun q hq => absurd hq (Nat.not_lt_zero q), fun I _ => rfl⟩
  | succ k ih =>
    intro he
    obtain ⟨h1, h2⟩ := ih (fun q q1 hq hq1 h => he q q1 (by omega) (by omega) h)
    simp only [forN]
    refine ⟨fun q hq => ?_, fun I hI => ?_⟩
    · by_cases hqk : q = k
      · subst hqk
        rw [X_setX_same, h2 _ (fun q1 hq1 h => by
          have := he q q1 (by omega) (by omega) h; omega)]
      · have hne : p (e q) ≠ p (e k) := fun h => hqk (he q k (by omega) (by omega) h)
        rw [X_setX_ne _ _ _ _ hne]
        exact h1 q (by omega)
    · rw [X_setX_ne _ _ _ _ (hI k (by omega))]
      exact h2 I (fun q hq => hI q (by omega))

/-- One column of the no-transpose sweeps: what the body does with column `j` whose
inner loop runs over the rows `e 0, .., e (cnt-1)`. -/
theorem col_step (p : Nat → Int) (nounit : Bool) (a : Int → R) (lda : Int) (j : Nat)
    (e : Nat → Nat) (cnt : Nat) (x x1 : Int → R)
    (he : ∀ q q1, q < cnt → q1 < cnt → p (e q) = p (e q1) → q = q1)
    (hej : ∀ q, q < cnt → p (e q) ≠ p j)
    (hd : nounit = true → A a lda j j ≠ 0)
    (hx : x1 = if X x (p j) ≠ 0 then
        forN cnt (fun q x2 => setX x2 (p (e q)) (X x2 (p (e q)) -
          X (if nounit then setX x (p j) (X x (p j) / A a lda j j) else x) (p j) *
            A a lda (e q) j))
          (if nounit then setX x (p j) (X x (p j) / A a lda j j) else x)
      else x) :
    ∃ y, (if nounit then A a lda j j else 1) * y = X x (p j) ∧ X x1 (p j) = y ∧
      (∀ q, q < cnt → X x1 (p (e q)) = X x (p (e q)) - y * A a lda (e q) j) ∧
      (∀ I, I ≠ p j → (∀ q, q < cnt → I ≠ p (e q)) → X x1 I = X x I) := by
  by_cases hz : X x (p j) ≠ 0
  · rw [if_pos hz] at hx
    obtain ⟨h1, h2⟩ := col_axpy p e (fun q => A a lda (e q) j)
      (X (if nounit then setX x (p j) (X x (p j) / A a lda j j) else x) (p j))
      (if nounit then setX x (p j) (X x (p j) / A a lda j j) else x) cnt he
    rw [← hx] at h1 h2
    cases nounit with
    | true =>
      simp only [if_true] at h1 h2 ⊢
      have hne := hd rfl
      rw [X_setX_same] at h1
      refine ⟨X x (p j) / A a lda j j, by field_simp, ?_, fun q hq => ?_, fun I hI hq => ?_⟩
      · rw [h2 _ (fun q hq => (hej q hq).symm), X_setX_same]
      · rw [h1 q hq, X_setX_ne _ _ _ _ (hej q hq)]
      · rw [h2 I hq, X_setX_ne _ _ _ _ hI]
    | false =>
      simp only [Bool.false_eq_true, if_false] at h1 h2 ⊢
      refine ⟨X x (p j), one_mul _, ?_, fun q hq => h1 q hq, fun I _ hq => h2 I hq⟩
      exact h2 _ (fun q hq => (hej q hq).symm)
  · rw [if_neg hz] at hx
    have h0 : X x (p j) = 0 := not_not.mp hz
    refine ⟨0, by rw [mul_zero, h0], by rw [hx, h0], fun q _ => by rw [hx, zero_mul, sub_zero],
      fun I _ _ => by rw [hx]⟩


/-- The upper no-transpose sweep solves `U y = b`. -/
theorem loop20At_solves (p : Nat → Int) (nounit : Bool) (n : Nat) (a : Int → R) (lda : Int)
    (x0 : Int → R)
    (hp : ∀ i j, 1 ≤ i → i ≤ n → 1 ≤ j → j ≤ n → p i = p j → i = j)
    (hd : nounit = true → ∀ j, 1 ≤ j → j ≤ n → A a lda j j ≠ 0) :
    (∀ k, 1 ≤ k → k ≤ n →
      ∑ l in Finset.Icc 1 n,
        triEntry true nounit a lda k l * X (loop20At p nounit n a lda x0) (p l) = X x0 (p k)) ∧
    (∀ I, (∀ k, 1 ≤ k → k ≤ n → I ≠ p k) → X (loop20At p nounit n a lda x0) I = X x0 I) := by
  unfold loop20At
  generalize hbody : (fun (m : Nat) (x : Int → R) =>
    let j : Nat := n - m
    if X x (p j) ≠ 0 then
      let x1 := if nounit then setX x (p j) (X x (p j) / A a lda j j) else x
      let temp := X x1 (p j)
      forN (j - 1) (fun q x2 =>
        let i : Nat := j - 1 - q
        setX x2 (p i) (X x2 (p i) - temp * A a lda i j)) x1
    else x) = body
  have key : ∀ cnt, cnt ≤ n →
      (∀ k, n - cnt < k → k ≤ n →
        ∑ l in Finset.Icc 1 n, triEntry true nounit a lda k l * X (forN cnt body x0) (p l) =
          X x0 (p k)) ∧
      (∀ k, 1 ≤ k → k ≤ n - cnt →
        X (forN cnt body x0) (p k) + ∑ l in Finset.Icc 1 n,
          (if n - cnt < l then A a lda k l * X (forN cnt body x0) (p l) else 0) = X x0 (p k)) ∧
      (∀ I, (∀ k, 1 ≤ k → k ≤ n → I ≠ p k) → X (forN cnt body x0) I = X x0 I) := by
    intro cnt
    induction cnt with
    | zero =>
      intro _
      refine ⟨fun k hk1 hk2 => by omega, fun k _ _ => ?_, fun I _ => rfl⟩
      simp only [forN]
      rw [Finset.sum_eq_zero, add_zero]
      intro l hl
      have := (Finset.mem_Icc.mp hl).2
      rw [if_neg (by omega)]
    | succ c ih =>
      intro hc
      obtain ⟨ia, ib, ic⟩ := ih (by omega)
      simp only [forN]
      generalize forN c body x0 = x at ia ib ic
      have hbc : body c x = if X x (p (n - c)) ≠ 0 then
          forN (n - c - 1) (fun q x2 => setX x2 (p (n - c - 1 - q)) (X x2 (p (n - c - 1 - q)) -
            X (if nounit then setX x (p (n - c)) (X x (p (n - c)) /
                A a lda (n - c : Nat) (n - c : Nat)) else x) (p (n - c)) *
              A a lda (n - c - 1 - q : Nat) (n - c : Nat)))
            (if nounit then setX x (p (n - c)) (X x (p (n - c)) /
                A a lda (n - c : Nat) (n - c : Nat)) else x)
        else x := by rw [← hbody]
      rw [show n - (c + 1) = n - c - 1 from rfl]
      have hj1 : 1 ≤ n - c := by omega
      have hjn : n - c ≤ n := by omega
      generalize n - c = j at ia ib hbc hj1 hjn ⊢
      obtain ⟨y, hy1, hy2, hy3, hy4⟩ := col_step p nounit a lda j
        (fun q => j - 1 - q) (j - 1) x (body c x)
        (fun q q1 hq hq1 h => by
          have := hp (j - 1 - q) (j - 1 - q1) (by omega) (by omega) (by omega)
            (by omega) h
          omega)
        (fun q hq h => by
          have := hp (j - 1 - q) j (by omega) (by omega) (by omega) (by omega) h
          omega)
        (fun hn => hd hn _ hj1 hjn)
        hbc
      generalize body c x = x1 at hy2 hy3 hy4
      have hlow : ∀ i, 1 ≤ i → i < j → X x1 (p i) = X x (p i) - y * A a lda i j := by
        intro i hi1 hi2
        have := hy3 (j - 1 - i) (by omega)
        simp only at this
        rw [show j - 1 - (j - 1 - i) = i by omega] at this
        exact this
      have hup : ∀ l, j < l → l ≤ n → X x1 (p l) = X x (p l) := by
        intro l hl1 hl2
        apply hy4
        · intro h
          have := hp _ _ (by omega) hl2 hj1 hjn h
          omega
        · intro q hq h
          have := hp l (j - 1 - q) (by omega) hl2 (by omega) (by omega) h
          omega
      have hsum : ∀ k, 1 ≤ k → k ≤ j →
          X x (p k) + ∑ l in Finset.Icc 1 n,
            (if j < l then A a lda k l * X x1 (p l) else 0) = X x0 (p k) := by
        intro k hk1 hk2
        rw [← ib k hk1 hk2]
        congr 1
        apply Finset.sum_congr rfl
        intro l hl
        have := (Finset.mem_Icc.mp hl).2
        by_cases hlt : j < l
        · rw [if_pos hlt, if_pos hlt, hup l hlt this]
        · rw [if_neg hlt, if_neg hlt]
      refine ⟨fun k hk1 hk2 => ?_, fun k hk1 hk2 => ?_, fun I hI => ?_⟩
      · by_cases hkj : k = j
        · subst hkj
          rw [sum_split _ _ (fun l => if l = k then
              (if nounit then A a lda k k else 1) * y else 0)
            (fun l => if k < l then A a lda k l * X x1 (p l) else 0)
            (fun l hl => by
              beta_reduce
              unfold triEntry
              by_cases h1 : k = l
              · rw [if_pos h1, if_pos h1.symm, if_neg (show ¬ k < l by omega), add_zero,
                  ← h1, hy2]
              · rw [if_neg h1, if_neg (Ne.symm h1)]
                by_cases h2 : k < l
                · rw [if_pos (show (true = true ∧ k < l) ∨ (true = false ∧ l < k) from
                    Or.inl ⟨rfl, h2⟩), if_pos h2, zero_add]
                · rw [if_neg (show ¬ ((true = true ∧ k < l) ∨ (true = false ∧ l < k)) by
                    intro h; rcases h with h | h
                    · exact h2 h.2
                    · exact absurd h.1 (by decide)), if_neg h2, add_zero, zero_mul]),
            Finset.sum_ite_eq', if_pos (Finset.mem_Icc.mpr ⟨hj1, hjn⟩), hy1]
          exact hsum k hj1 le_rfl
        · rw [← ia k (by omega) hk2]
          apply Finset.sum_congr rfl
          intro l hl
          have hl2 := (Finset.mem_Icc.mp hl).2
          have hl1 := (Finset.mem_Icc.mp hl).1
          by_cases hlt : j < l
          · rw [hup l hlt hl2]
          · have h0 : triEntry true nounit a lda k l = 0 := by
              unfold triEntry
              rw [if_neg (show ¬ k = l by omega),
                if_neg (show ¬ ((true = true ∧ k < l) ∨ (true = false ∧ l < k)) by
                intro h; rcases h with h | h
                · omega
                · exact absurd h.1 (by decide))]
            rw [h0, zero_mul, zero_mul]
      · have hk3 : k < j := by omega
        rw [hlow k hk1 hk3]
        rw [sum_split _ _ (fun l => if j < l then A a lda k l * X x1 (p l) else 0)
            (fun l => if l = j then A a lda k j * y else 0)
            (fun l hl => by
              beta_reduce
              by_cases h1 : l = j
              · rw [if_pos (show j - 1 < l by omega), if_neg (show ¬ j < l by omega),
                  if_pos h1, zero_add, h1, hy2]
              · rw [if_neg h1, add_zero]
                by_cases h2 : j < l
                · rw [if_pos (show j - 1 < l by omega), if_pos h2]
                · rw [if_neg (show ¬ j - 1 < l by omega), if_neg h2]),
          Finset.sum_ite_eq', if_pos (Finset.mem_Icc.mpr ⟨hj1, hjn⟩)]
        have := hsum k hk1 (by omega)
        linear_combination this
      · rw [hy4 I (hI _ hj1 hjn) (fun q hq => hI _ (by omega) (by omega))]
        exact ic I hI
  obtain ⟨ka, -, kc⟩ := key n le_rfl
  exact ⟨fun k hk1 hk2 => ka k (by omega) hk2, kc⟩


/-- The lower no-transpose sweep solves `L y = b`. -/
theorem loop60At_solves (p : Nat → Int) (nounit : Bool) (n : Nat) (a : Int → R) (lda : Int)
    (x0 : Int → R)
    (hp : ∀ i j, 1 ≤ i → i ≤ n → 1 ≤ j → j ≤ n → p i = p j → i = j)
    (hd : nounit = true → ∀ j, 1 ≤ j → j ≤ n → A a lda j j ≠ 0) :
    (∀ k, 1 ≤ k → k ≤ n →
      ∑ l in Finset.Icc 1 n,
        triEntry false nounit a lda k l * X (loop60At p nounit n a lda x0) (p l) = X x0 (p k)) ∧
    (∀ I, (∀ k, 1 ≤ k → k ≤ n → I ≠ p k) → X (loop60At p nounit n a lda x0) I = X x0 I) := by
  unfold loop60At
  generalize hbody : (fun (m : Nat) (x : Int → R) =>
    let j : Nat := m + 1
    if X x (p j) ≠ 0 then
      let x1 := if nounit then setX x (p j) (X x (p j) / A a lda j j) else x
      let temp := X x1 (p j)
      forN (n - j) (fun q x2 =>
        let i : Nat := j + 1 + q
        setX x2 (p i) (X x2 (p i) - temp * A a lda i j)) x1
    else x) = body
  have key : ∀ cnt, cnt ≤ n →
      (∀ k, 1 ≤ k → k ≤ cnt →
        ∑ l in Finset.Icc 1 n, triEntry false nounit a lda k l * X (forN cnt body x0) (p l) =
          X x0 (p k)) ∧
      (∀ k, cnt < k → k ≤ n →
        X (forN cnt body x0) (p k) + ∑ l in Finset.Icc 1 n,
          (if l ≤ cnt then A a lda k l * X (forN cnt body x0) (p l) else 0) = X x0 (p k)) ∧
      (∀ I, (∀ k, 1 ≤ k → k ≤ n → I ≠ p k) → X (forN cnt body x0) I = X x0 I) := by
    intro cnt
    induction cnt with
    | zero =>
      intro _
      refine ⟨fun k hk1 hk2 => by omega, fun k _ _ => ?_, fun I _ => rfl⟩
      simp only [forN]
      rw [Finset.sum_eq_zero, add_zero]
      intro l hl
      have := (Finset.mem_Icc.mp hl).1
      rw [if_neg (by omega)]
    | succ c ih =>
      intro hc
      obtain ⟨ia, ib, ic⟩ := ih (by omega)
      simp only [forN]
      generalize forN c body x0 = x at ia ib ic
      have hbc : body c x = if X x (p (c + 1)) ≠ 0 then
          forN (n - (c + 1)) (fun q x2 => setX x2 (p (c + 1 + 1 + q))
            (X x2 (p (c + 1 + 1 + q)) -
            X (if nounit then setX x (p (c + 1)) (X x (p (c + 1)) /
                A a lda (c + 1 : Nat) (c + 1 : Nat)) else x) (p (c + 1)) *
              A a lda (c + 1 + 1 + q : Nat) (c + 1 : Nat)))
            (if nounit then setX x (p (c + 1)) (X x (p (c + 1)) /
                A a lda (c + 1 : Nat) (c + 1 : Nat)) else x)
        else x := by rw [← hbody]
      have hj1 : 1 ≤ c + 1 := by omega
      obtain ⟨y, hy1, hy2, hy3, hy4⟩ := col_step p nounit a lda (c + 1)
        (fun q => c + 1 + 1 + q) (n - (c + 1)) x (body c x)
        (fun q q1 hq hq1 h => by
          have := hp (c + 1 + 1 + q) (c + 1 + 1 + q1) (by omega) (by omega) (by omega)
            (by omega) h
          omega)
        (fun q hq h => by
          have := hp (c + 1 + 1 + q) (c + 1) (by omega) (by omega) (by omega) (by omega) h
          omega)
        (fun hn => hd hn _ hj1 hc)
        hbc
      generalize body c x = x1 at hy2 hy3 hy4
      have hhigh : ∀ i, c + 1 < i → i ≤ n →
          X x1 (p i) = X x (p i) - y * A a lda i (c + 1 : Nat) := by
        intro i hi1 hi2
        have := hy3 (i - (c + 1 + 1)) (by omega)
        simp only at this
        rw [show c + 1 + 1 + (i - (c + 1 + 1)) = i by omega] at this
        exact this
      have hdown : ∀ l, 1 ≤ l → l < c + 1 → X x1 (p l) = X x (p l) := by
        intro l hl1 hl2
        apply hy4
        · intro h
          have := hp _ _ hl1 (by omega) hj1 hc h
          omega
        · intro q hq h
          have := hp l (c + 1 + 1 + q) hl1 (by omega) (by omega) (by omega) h
          omega
      have hsum : ∀ k, c < k → k ≤ n →
          X x (p k) + ∑ l in Finset.Icc 1 n,
            (if l ≤ c then A a lda k l * X x1 (p l) else 0) = X x0 (p k) := by
        intro k hk1 hk2
        rw [← ib k hk1 hk2]
        congr 1
        apply Finset.sum_congr rfl
        intro l hl
        have := (Finset.mem_Icc.mp hl).1
        by_cases hlt : l ≤ c
        · rw [if_pos hlt, if_pos hlt, hdown l this (by omega)]
        · rw [if_neg hlt, if_neg hlt]
      refine ⟨fun k hk1 hk2 => ?_, fun k hk1 hk2 => ?_, fun I hI => ?_⟩
      · by_cases hkj : k = c + 1
        · subst hkj
          rw [sum_split _ _ (fun l => if l = c + 1 then
              (if nounit then A a lda (c + 1 : Nat) (c + 1 : Nat) else 1) * y else 0)
            (fun l => if l ≤ c then A a lda (c + 1 : Nat) l * X x1 (p l) else 0)
            (fun l hl => by
              beta_reduce
              unfold triEntry
              by_cases h1 : c + 1 = l
              · rw [if_pos h1, if_pos h1.symm, if_neg (show ¬ l ≤ c by omega), add_zero,
                  ← h1, hy2]
              · rw [if_neg h1, if_neg (Ne.symm h1)]
                by_cases h2 : l ≤ c
                · rw [if_pos (show (false = true ∧ c + 1 < l) ∨ (false = false ∧ l < c + 1) from
                    Or.inr ⟨rfl, by omega⟩), if_pos h2, zero_add]
                · rw [if_neg (show ¬ ((false = true ∧ c + 1 < l) ∨
                      (false = false ∧ l < c + 1)) by
                    intro h; rcases h with h | h
                    · exact absurd h.1 (by decide)
                    · omega), if_neg h2, add_zero, zero_mul]),
            Finset.sum_ite_eq', if_pos (Finset.mem_Icc.mpr ⟨hj1, hc⟩), hy1]
          exact hsum (c + 1) (by omega) hc
        · rw [← ia k hk1 (by omega)]
          apply Finset.sum_congr rfl
          intro l hl
          have hl2 := (Finset.mem_Icc.mp hl).2
          have hl1 := (Finset.mem_Icc.mp hl).1
          by_cases hlt : l < c + 1
          · rw [hdown l hl1 hlt]
          · have h0 : triEntry false nounit a lda k l = 0 := by
              unfold triEntry
              rw [if_neg (show ¬ k = l by omega),
                if_neg (show ¬ ((false = true ∧ k < l) ∨ (false = false ∧ l < k)) by
                intro h; rcases h with h | h
                · exact absurd h.1 (by decide)
                · omega)]
            rw [h0, zero_mul, zero_mul]
      · rw [hhigh k hk1 hk2]
        rw [sum_split _ _ (fun l => if l ≤ c then A a lda k l * X x1 (p l) else 0)
            (fun l => if l = c + 1 then A a lda k (c + 1 : Nat) * y else 0)
            (fun l hl => by
              beta_reduce
              by_cases h1 : l = c + 1
              · rw [if_pos (show l ≤ c + 1 by omega), if_neg (show ¬ l ≤ c by omega),
                  if_pos h1, zero_add, h1, hy2]
              · rw [if_neg h1, add_zero]
                by_cases h2 : l ≤ c
                · rw [if_pos (show l ≤ c + 1 by omega), if_pos h2]
                · rw [if_neg (show ¬ l ≤ c + 1 by omega), if_neg h2]),
          Finset.sum_ite_eq', if_pos (Finset.mem_Icc.mpr ⟨hj1, hc⟩)]
        have := hsum k (by omega) hk2
        linear_combination this
      · rw [hy4 I (hI _ hj1 hc) (fun q hq => hI _ (by omega) (by omega))]
        exact ic I hI
  obtain ⟨ka, -, kc⟩ := key n le_rfl
  exact ⟨fun k hk1 hk2 => ka k hk1 hk2, kc⟩


theorem forN_sub_sum (cnt : Nat) (f : Nat → R) (t0 : R) :
    forN cnt (fun q t => t - f q) t0 = t0 - ∑ q in Finset.range cnt, f q := by
  induction cnt with
  | zero => simp [forN]
  | succ k ih => simp only [forN, ih, Finset.sum_range_succ]; ring

theorem sum_mask_lt (n : Nat) (g : Nat → R) :
    ∀ c, c ≤ n → ∑ q in Finset.range c, g (q + 1) =
      ∑ l in Finset.Icc 1 n, (if l < c + 1 then g l else 0) := by
  intro c
  induction c with
  | zero =>
    intro _
    rw [Finset.sum_range_zero, Finset.sum_eq_zero]
    intro l hl
    have := (Finset.mem_Icc.mp hl).1
    rw [if_neg (by omega)]
  | succ c ih =>
    intro hc
    rw [Finset.sum_range_succ, ih (by omega),
      sum_split _ (fun l => if l < c + 1 + 1 then g l else 0)
        (fun l => if l < c + 1 then g l else 0) (fun l => if l = c + 1 then g l else 0)
        (fun l _ => by
          beta_reduce
          by_cases h1 : l = c + 1
          · rw [if_pos (show l < c + 1 + 1 by omega), if_neg (show ¬ l < c + 1 by omega),
              if_pos h1, zero_add]
          · rw [if_neg h1, add_zero]
            by_cases h2 : l < c + 1
            · rw [if_pos (show l < c + 1 + 1 by omega), if_pos h2]
            · rw [if_neg (show ¬ l < c + 1 + 1 by omega), if_neg h2]),
      Finset.sum_ite_eq', if_pos (Finset.mem_Icc.mpr ⟨by omega, hc⟩)]

theorem sum_mask_gt (n : Nat) (g : Nat → R) :
    ∀ c, c ≤ n → ∑ q in Finset.range c, g (n - q) =
      ∑ l in Finset.Icc 1 n, (if n - c < l then g l else 0) := by
  intro c
  induction c with
  | zero =>
    intro _
    rw [Finset.sum_range_zero, Finset.sum_eq_zero]
    intro l hl
    have := (Finset.mem_Icc.mp hl).2
    rw [if_neg (by omega)]
  | succ c ih =>
    intro hc
    rw [Finset.sum_range_succ, ih (by omega),
      sum_split _ (fun l => if n - (c + 1) < l then g l else 0)
        (fun l => if n - c < l then g l else 0) (fun l => if l = n - c then g l else 0)
        (fun l _ => by
          beta_reduce
          by_cases h1 : l = n - c
          · rw [if_pos (show n - (c + 1) < l by omega), if_neg (show ¬ n - c < l by omega),
              if_pos h1, zero_add]
          · rw [if_neg h1, add_zero]
            by_cases h2 : n - c < l
            · rw [if_pos (show n - (c + 1) < l by omega), if_pos h2]
            · rw [if_neg (show ¬ n - (c + 1) < l by omega), if_neg h2]),
      Finset.sum_ite_eq', if_pos (Finset.mem_Icc.mpr ⟨by omega, by omega⟩)]

/-- The upper transpose sweep solves `U' y = b`. -/
theorem loop100At_solves (p : Nat → Int) (nounit : Bool) (n : Nat) (a : Int → R) (lda : Int)
    (x0 : Int → R)
    (hp : ∀ i j, 1 ≤ i → i ≤ n → 1 ≤ j → j ≤ n → p i = p j → i = j)
    (hd : nounit = true → ∀ j, 1 ≤ j → j ≤ n → A a lda j j ≠ 0) :
    (∀ k, 1 ≤ k → k ≤ n →
      ∑ l in Finset.Icc 1 n,
        triEntry true nounit a lda l k * X (loop100At p nounit n a lda x0) (p l) = X x0 (p k)) ∧
    (∀ I, (∀ k, 1 ≤ k → k ≤ n → I ≠ p k) → X (loop100At p nounit n a lda x0) I = X x0 I) := by
  unfold loop100At
  generalize hbody : (fun (m : Nat) (x : Int → R) =>
    let j : Nat := m + 1
    let temp := forN (j - 1) (fun q temp =>
      let i : Nat := q + 1
      temp - A a lda i j * X x (p i)) (X x (p j))
    let temp1 := if nounit then temp / A a lda j j else temp
    setX x (p j) temp1) = body
  have key : ∀ cnt, cnt ≤ n →
      (∀ k, 1 ≤ k → k ≤ cnt →
        ∑ l in Finset.Icc 1 n, triEntry true nounit a lda l k * X (forN cnt body x0) (p l) =
          X x0 (p k)) ∧
      (∀ k, cnt < k → k ≤ n → X (forN cnt body x0) (p k) = X x0 (p k)) ∧
      (∀ I, (∀ k, 1 ≤ k → k ≤ n → I ≠ p k) → X (forN cnt body x0) I = X x0 I) := by
    intro cnt
    induction cnt with
    | zero =>
      intro _
      exact ⟨fun k hk1 hk2 => by omega, fun k _ _ => rfl, fun I _ => rfl⟩
    | succ c ih =>
      intro hc
      obtain ⟨ia, ib, ic⟩ := ih (by omega)
      simp only [forN]
      generalize forN c body x0 = x at ia ib ic
      have hj1 : 1 ≤ c + 1 := by omega
      have htemp : forN (c + 1 - 1) (fun q temp =>
          temp - A a lda (q + 1 : Nat) (c + 1 : Nat) * X x (p (q + 1))) (X x (p (c + 1))) =
          X x0 (p (c + 1)) - ∑ l in Finset.Icc 1 n,
            (if l < c + 1 then A a lda l (c + 1 : Nat) * X x (p l) else 0) := by
        rw [forN_sub_sum, Nat.add_sub_cancel,
          sum_mask_lt n (fun l => A a lda l (c + 1 : Nat) * X x (p l)) c (by omega),
          ib (c + 1) (by omega) hc]
      have hbc : body c x = setX x (p (c + 1)) (if nounit then
          forN (c + 1 - 1) (fun q temp =>
            temp - A a lda (q + 1 : Nat) (c + 1 : Nat) * X x (p (q + 1))) (X x (p (c + 1))) /
            A a lda (c + 1 : Nat) (c + 1 : Nat)
          else forN (c + 1 - 1) (fun q temp =>
            temp - A a lda (q + 1 : Nat) (c + 1 : Nat) * X x (p (q + 1))) (X x (p (c + 1)))) := by
        rw [← hbody]
      rw [htemp] at hbc
      generalize hS : ∑ l in Finset.Icc 1 n,
        (if l < c + 1 then A a lda l (c + 1 : Nat) * X x (p l) else 0) = S at hbc
      have hy : ∃ y, (if nounit then A a lda (c + 1 : Nat) (c + 1 : Nat) else 1) * y =
          X x0 (p (c + 1)) - S ∧ body c x = setX x (p (c + 1)) y := by
        cases nounit with
        | true =>
          have hne := hd rfl (c + 1) hj1 hc
          refine ⟨_, ?_, hbc⟩
          rw [if_pos rfl, if_pos rfl, ← mul_div_assoc, mul_div_cancel_left₀ _ hne]
        | false =>
          refine ⟨_, ?_, hbc⟩
          simp only [Bool.false_eq_true, if_false, one_mul]
      obtain ⟨y, hy1, hy2⟩ := hy
      rw [hy2]
      have hoth : ∀ l, 1 ≤ l → l ≤ n → l ≠ c + 1 →
          X (setX x (p (c + 1)) y) (p l) = X x (p l) := by
        intro l hl1 hl2 hne
        apply X_setX_ne
        intro h
        exact hne (hp _ _ hl1 hl2 hj1 hc h)
      refine ⟨fun k hk1 hk2 => ?_, fun k hk1 hk2 => ?_, fun I hI => ?_⟩
      · by_cases hkj : k = c + 1
        · subst hkj
          rw [sum_split _ _ (fun l => if l = c + 1 then
              (if nounit then A a lda (c + 1 : Nat) (c + 1 : Nat) else 1) * y else 0)
            (fun l => if l < c + 1 then A a lda l (c + 1 : Nat) * X x (p l) else 0)
            (fun l hl => by
              beta_reduce
              have hl1 := (Finset.mem_Icc.mp hl).1
              have hl2 := (Finset.mem_Icc.mp hl).2
              unfold triEntry
              by_cases h1 : l = c + 1
              · rw [if_pos h1, if_pos h1, if_neg (show ¬ l < c + 1 by omega), add_zero,
                  h1, X_setX_same]
              · rw [if_neg h1, if_neg h1, hoth l hl1 hl2 h1]
                by_cases h2 : l < c + 1
                · rw [if_pos (show (true = true ∧ l < c + 1) ∨ (true = false ∧ c + 1 < l) from
                    Or.inl ⟨rfl, h2⟩), if_pos h2, zero_add]
                · rw [if_neg (show ¬ ((true = true ∧ l < c + 1) ∨
                      (true = false ∧ c + 1 < l)) by
                    intro h; rcases h with h | h
                    · exact h2 h.2
                    · exact absurd h.1 (by decide)), if_neg h2, add_zero, zero_mul]),
            Finset.sum_ite_eq', if_pos (Finset.mem_Icc.mpr ⟨hj1, hc⟩), hy1, hS]
          ring
        · rw [← ia k hk1 (by omega)]
          apply Finset.sum_congr rfl
          intro l hl
          have hl2 := (Finset.mem_Icc.mp hl).2
          have hl1 := (Finset.mem_Icc.mp hl).1
          by_cases hlt : l = c + 1
          · have h0 : triEntry true nounit a lda l k = 0 := by
              unfold triEntry
              rw [if_neg (show ¬ l = k by omega),
                if_neg (show ¬ ((true = true ∧ l < k) ∨ (true = false ∧ k < l)) by
                intro h; rcases h with h | h
                · omega
                · exact absurd h.1 (by decide))]
            rw [h0, zero_mul, zero_mul]
          · rw [hoth l hl1 hl2 hlt]
      · rw [hoth k (by omega) hk2 (by omega)]
        exact ib k (by omega) hk2
      · rw [X_setX_ne _ _ _ _ (hI _ hj1 hc)]
        exact ic I hI
  obtain ⟨ka, -, kc⟩ := key n le_rfl
  exact ⟨fun k hk1 hk2 => ka k hk1 hk2, kc⟩


/-- The lower transpose sweep solves `L' y = b`. -/
theorem loop140At_solves (p : Nat → Int) (nounit : Bool) (n : Nat) (a : Int → R) (lda : Int)
    (x0 : Int → R)
    (hp : ∀ i j, 1 ≤ i → i ≤ n → 1 ≤ j → j ≤ n → p i = p j → i = j)
    (hd : nounit = true → ∀ j, 1 ≤ j → j ≤ n → A a lda j j ≠ 0) :
    (∀ k, 1 ≤ k → k ≤ n →
      ∑ l in Finset.Icc 1 n,
        triEntry false nounit a lda l k * X (loop140At p nounit n a lda x0) (p l) = X x0 (p k)) ∧
    (∀ I, (∀ k, 1 ≤ k → k ≤ n → I ≠ p k) → X (loop140At p nounit n a lda x0) I = X x0 I) := by
  unfold loop140At
  generalize hbody : (fun (m : Nat) (x : Int → R) =>
    let j : Nat := n - m
    let temp := forN (n - j) (fun q temp =>
      let i : Nat := n - q
      temp - A a lda i j * X x (p i)) (X x (p j))
    let temp1 := if nounit then temp / A a lda j j else temp
    setX x (p j) temp1) = body
  have key : ∀ cnt, cnt ≤ n →
      (∀ k, n - cnt < k → k ≤ n →
        ∑ l in Finset.Icc 1 n, triEntry false nounit a lda l k * X (forN cnt body x0) (p l) =
          X x0 (p k)) ∧
      (∀ k, 1 ≤ k → k ≤ n - cnt → X (forN cnt body x0) (p k) = X x0 (p k)) ∧
      (∀ I, (∀ k, 1 ≤ k → k ≤ n → I ≠ p k) → X (forN cnt body x0) I = X x0 I) := by
    intro cnt
    induction cnt with
    | zero =>
      intro _
      exact ⟨fun k hk1 hk2 => by omega, fun k _ _ => rfl, fun I _ => rfl⟩
    | succ c ih =>
      intro hc
      obtain ⟨ia, ib, ic⟩ := ih (by omega)
      simp only [forN]
      generalize forN c body x0 = x at ia ib ic
      have hbc : body c x = setX x (p (n - c)) (if nounit then
          forN (n - (n - c)) (fun q temp =>
            temp - A a lda (n - q : Nat) (n - c : Nat) * X x (p (n - q))) (X x (p (n - c))) /
            A a lda (n - c : Nat) (n - c : Nat)
          else forN (n - (n - c)) (fun q temp =>
            temp - A a lda (n - q : Nat) (n - c : Nat) * X x (p (n - q))) (X x (p (n - c)))) := by
        rw [← hbody]
      rw [show n - (c + 1) = n - c - 1 from rfl]
      have hj1 : 1 ≤ n - c := by omega
      have hjn : n - c ≤ n := by omega
      generalize n - c = j at ia ib hbc hj1 hjn ⊢
      have htemp : forN (n - j) (fun q temp =>
          temp - A a lda (n - q : Nat) j * X x (p (n - q))) (X x (p j)) =
          X x0 (p j) - ∑ l in Finset.Icc 1 n,
            (if j < l then A a lda l j * X x (p l) else 0) := by
        rw [forN_sub_sum, sum_mask_gt n (fun l => A a lda l j * X x (p l)) (n - j) (by omega),
          ib j hj1 le_rfl, show n - (n - j) = j by omega]
      rw [htemp] at hbc
      generalize hS : ∑ l in Finset.Icc 1 n,
        (if j < l then A a lda l j * X x (p l) else 0) = S at hbc
      have hy : ∃ y, (if nounit then A a lda j j else 1) * y =
          X x0 (p j) - S ∧ body c x = setX x (p j) y := by
        cases nounit with
        | true =>
          have hne := hd rfl j hj1 hjn
          refine ⟨_, ?_, hbc⟩
          rw [if_pos rfl, if_pos rfl, ← mul_div_assoc, mul_div_cancel_left₀ _ hne]
        | false =>
          refine ⟨_, ?_, hbc⟩
          simp only [Bool.false_eq_true, if_false, one_mul]
      obtain ⟨y, hy1, hy2⟩ := hy
      rw [hy2]
      have hoth : ∀ l, 1 ≤ l → l ≤ n → l ≠ j →
          X (setX x (p j) y) (p l) = X x (p l) := by
        intro l hl1 hl2 hne
        apply X_setX_ne
        intro h
        exact hne (hp _ _ hl1 hl2 hj1 hjn h)
      refine ⟨fun k hk1 hk2 => ?_, fun k hk1 hk2 => ?_, fun I hI => ?_⟩
      · by_cases hkj : k = j
        · subst hkj
          rw [sum_split _ _ (fun l => if l = k then
              (if nounit then A a lda k k else 1) * y else 0)
            (fun l => if k < l then A a lda l k * X x (p l) else 0)
            (fun l hl => by
              beta_reduce
              have hl1 := (Finset.mem_Icc.mp hl).1
              have hl2 := (Finset.mem_Icc.mp hl).2
              unfold triEntry
              by_cases h1 : l = k
              · rw [if_pos h1, if_pos h1, if_neg (show ¬ k < l by omega), add_zero,
                  h1, X_setX_same]
              · rw [if_neg h1, if_neg h1, hoth l hl1 hl2 h1]
                by_cases h2 : k < l
                · rw [if_pos (show (false = true ∧ l < k) ∨ (false = false ∧ k < l) from
                    Or.inr ⟨rfl, h2⟩), if_pos h2, zero_add]
                · rw [if_neg (show ¬ ((false = true ∧ l < k) ∨
                      (false = false ∧ k < l)) by
                    intro h; rcases h with h | h
                    · exact absurd h.1 (by decide)
                    · exact h2 h.2), if_neg h2, add_zero, zero_mul]),
            Finset.sum_ite_eq', if_pos (Finset.mem_Icc.mpr ⟨hj1, hjn⟩), hy1, hS]
          ring
        · rw [← ia k (by omega) hk2]
          apply Finset.sum_congr rfl
          intro l hl
          have hl2 := (Finset.mem_Icc.mp hl).2
          have hl1 := (Finset.mem_Icc.mp hl).1
          by_cases hlt : l = j
          · have h0 : triEntry false nounit a lda l k = 0 := by
              unfold triEntry
              rw [if_neg (show ¬ l = k by omega),
                if_neg (show ¬ ((false = true ∧ l < k) ∨ (false = false ∧ k < l)) by
                intro h; rcases h with h | h
                · exact absurd h.1 (by decide)
                · omega)]
            rw [h0, zero_mul, zero_mul]
          · rw [hoth l hl1 hl2 hlt]
      · rw [hoth k hk1 (by omega) (by omega)]
        exact ib k hk1 (by omega)
      · rw [X_setX_ne _ _ _ _ (hI _ hj1 hjn)]
        exact ic I hI
  obtain ⟨ka, -, kc⟩ := key n le_rfl
  exact ⟨fun k hk1 hk2 => ka k (by omega) hk2, kc⟩


end StrsvSolve

/-! ## The sweep selected by `strsv_` -/

section StrsvFinal

variable {R : Type} [LinearOrderedField R]

theorem triEntry_diag (upper : Bool) (a : Int → R) (lda : Int) (j : Nat) :
    triEntry upper true a lda j j = A a lda j j := by
  unfold triEntry; rw [if_pos rfl, if_pos rfl]

theorem triEntry_upper (nounit : Bool) (a : Int → R) (lda : Int) (i j : Nat) (h : i < j) :
    triEntry true nounit a lda i j = A a lda i j := by
  unfold triEntry
  rw [if_neg (show ¬ i = j by omega), if_pos (Or.inl ⟨rfl, h⟩)]

theorem triEntry_lower (nounit : Bool) (a : Int → R) (lda : Int) (i j : Nat) (h : j < i) :
    triEntry false nounit a lda i j = A a lda i j := by
  unfold triEntry
  rw [if_neg (show ¬ i = j by omega), if_pos (Or.inr ⟨rfl, h⟩)]

theorem ite_setX_congr (nounit : Bool) (x : Int → R) (I : Int) (u v : R)
    (h : nounit = true → u = v) :
    (if nounit then setX x I (X x I / u) else x) = (if nounit then setX x I (X x I / v) else x) := by
  cases nounit with
  | true => rw [h rfl]
  | false => rfl

theorem ite_div_congr (nounit : Bool) (t u v : R) (h : nounit = true → u = v) :
    (if nounit then t / u else t) = (if nounit then t / v else t) := by
  cases nounit with
  | true => rw [h rfl]
  | false => rfl

/-- The sweeps read only the stored triangle, and the diagonal only for `nounit`. -/
theorem sweepAt_congr (upper notrans : Bool) (p : Nat → Int) (nounit : Bool) (n : Nat)
    (a a1 : Int → R) (lda : Int) (x : Int → R)
    (h : ∀ i j, 1 ≤ i → i ≤ n → 1 ≤ j → j ≤ n →
      triEntry upper nounit a lda i j = triEntry upper nounit a1 lda i j) :
    sweepAt upper notrans p nounit n a lda x = sweepAt upper notrans p nounit n a1 lda x := by
  have hdiag : nounit = true → ∀ j : Nat, 1 ≤ j → j ≤ n → A a lda j j = A a1 lda j j := by
    intro hn j h1 h2
    have := h j j h1 h2 h1 h2
    rw [hn, triEntry_diag, triEntry_diag] at this
    exact this
  unfold sweepAt
  cases notrans <;> cases upper
  · -- lower, transpose
    have hoff : ∀ i j : Nat, 1 ≤ j → j < i → i ≤ n → A a lda i j = A a1 lda i j := by
      intro i j h1 h2 h3
      have := h i j (by omega) h3 h1 (by omega)
      rw [triEntry_lower _ _ _ _ _ h2, triEntry_lower _ _ _ _ _ h2] at this
      exact this
    simp only [Bool.false_eq_true, if_false]
    unfold loop140At
    apply forN_congr
    intro m hm x1
    simp only
    have e1 : forN (n - (n - m)) (fun q temp => temp - A a lda (n - q : Nat) (n - m : Nat) *
        X x1 (p (n - q))) (X x1 (p (n - m))) =
        forN (n - (n - m)) (fun q temp => temp - A a1 lda (n - q : Nat) (n - m : Nat) *
        X x1 (p (n - q))) (X x1 (p (n - m))) := by
      apply forN_congr
      intro q hq t
      rw [hoff (n - q) (n - m) (by omega) (by omega) (by omega)]
    rw [e1, ite_div_congr nounit _ _ _ (fun hn => hdiag hn (n - m) (by omega) (by omega))]
  · -- upper, transpose
    have hoff : ∀ i j : Nat, 1 ≤ i → i < j → j ≤ n → A a lda i j = A a1 lda i j := by
      intro i j h1 h2 h3
      have := h i j h1 (by omega) (by omega) h3
      rw [triEntry_upper _ _ _ _ _ h2, triEntry_upper _ _ _ _ _ h2] at this
      exact this
    simp only [Bool.false_eq_true, if_false, if_true]
    unfold loop100At
    apply forN_congr
    intro m hm x1
    simp only
    have e1 : forN (m + 1 - 1) (fun q temp => temp - A a lda (q + 1 : Nat) (m + 1 : Nat) *
        X x1 (p (q + 1))) (X x1 (p (m + 1))) =
        forN (m + 1 - 1) (fun q temp => temp - A a1 lda (q + 1 : Nat) (m + 1 : Nat) *
        X x1 (p (q + 1))) (X x1 (p (m + 1))) := by
      apply forN_congr
      intro q hq t
      rw [hoff (q + 1) (m + 1) (by omega) (by omega) (by omega)]
    rw [e1, ite_div_congr nounit _ _ _ (fun hn => hdiag hn (m + 1) (by omega) (by omega))]
  · -- lower, no transpose
    have hoff : ∀ i j : Nat, 1 ≤ j → j < i → i ≤ n → A a lda i j = A a1 lda i j := by
      intro i j h1 h2 h3
      have := h i j (by omega) h3 h1 (by omega)
      rw [triEntry_lower _ _ _ _ _ h2, triEntry_lower _ _ _ _ _ h2] at this
      exact this
    simp only [Bool.false_eq_true, if_false, if_true]
    unfold loop60At
    apply forN_congr
    intro m hm x1
    simp only
    rw [ite_setX_congr nounit x1 _ _ _ (fun hn => hdiag hn (m + 1) (by omega) (by omega))]
    split
    · apply forN_congr
      intro q hq x2
      rw [hoff (m + 1 + 1 + q) (m + 1) (by omega) (by omega) (by omega)]
    · rfl
  · -- upper, no transpose
    have hoff : ∀ i j : Nat, 1 ≤ i → i < j → j ≤ n → A a lda i j = A a1 lda i j := by
      intro i j h1 h2 h3
      have := h i j h1 (by omega) (by omega) h3
      rw [triEntry_upper _ _ _ _ _ h2, triEntry_upper _ _ _ _ _ h2] at this
      exact this
    simp only [if_true]
    unfold loop20At
    apply forN_congr
    intro m hm x1
    simp only
    rw [ite_setX_congr nounit x1 _ _ _ (fun hn => hdiag hn (n - m) (by omega) (by omega))]
    split
    · apply forN_congr
      intro q hq x2
      rw [hoff (n - m - 1 - q) (n - m) (by omega) (by omega) (by omega)]
    · rfl

/-- Each sweep solves `op(A) y = b` on the positions `p 1, .., p n` and leaves the rest
of the array alone. -/
theorem sweepAt_solves (upper notrans : Bool) (p : Nat → Int) (nounit : Bool) (n : Nat)
    (a : Int → R) (lda : Int) (x0 : Int → R)
    (hp : ∀ i j, 1 ≤ i → i ≤ n → 1 ≤ j → j ≤ n → p i = p j → i = j)
    (hd : nounit = true → ∀ j : Nat, 1 ≤ j → j ≤ n → A a lda j j ≠ 0) :
    (∀ k, 1 ≤ k → k ≤ n →
      ∑ l in Finset.Icc 1 n, opEntry upper notrans nounit a lda k l *
        X (sweepAt upper notrans p nounit n a lda x0) (p l) = X x0 (p k)) ∧
    (∀ I, (∀ k, 1 ≤ k → k ≤ n → I ≠ p k) →
      X (sweepAt upper notrans p nounit n a lda x0) I = X x0 I) := by
  unfold sweepAt opEntry
  cases notrans <;> cases upper
  · simp only [Bool.false_eq_true, if_false]
    exact loop140At_solves p nounit n a lda x0 hp hd
  · simp only [Bool.false_eq_true, if_false, if_true]
    exact loop100At_solves p nounit n a lda x0 hp hd
  · simp only [Bool.false_eq_true, if_false, if_true]
    exact loop60At_solves p nounit n a lda x0 hp hd
  · simp only [if_true]
    exact loop20At_solves p nounit n a lda x0 hp hd


end StrsvFinal

/-! ## Claim about the result of `strsv_` -/

section StrsvClaim

variable {R : Type} [LinearOrderedField R]

theorem xpos_inj (n incx : Int) (hincx : incx ≠ 0) (i j : Nat) (h : xpos n incx i = xpos n incx j) :
    i = j := by
  unfold xpos at h
  have h1 : ((i : Int) - 1) * incx = ((j : Int) - 1) * incx := by linarith
  have h2 := mul_right_cancel₀ hincx h1
  omega

/-- With valid arguments and `n > 0`, `strsv_` returns the result of the sweep selected
by `uplo` and `trans`, run on the positions `xpos`. -/
theorem strsv_eq_sweep (uplo trans diag : Char) (n : Nat) (a : Int → R) (lda : Int)
    (x : Int → R) (incx : Int)
    (hu : uplo = 'U' ∨ uplo = 'L') (ht : trans = 'N' ∨ trans = 'T' ∨ trans = 'C')
    (hdg : diag = 'U' ∨ diag = 'N') (hlda : max 1 (n : Int) ≤ lda) (hincx : incx ≠ 0)
    (hn : 0 < n) :
    strsv_ uplo trans diag (n : Int) a lda x incx =
      .ok (sweepAt (decide (uplo = 'U')) (decide (trans = 'N')) (xpos n incx)
        (decide (diag = 'N')) n a lda x) := by
  have c1 : ¬ (uplo ≠ 'U' ∧ uplo ≠ 'L') := by
    rcases hu with h | h <;> simp [h]
  have c2 : ¬ (trans ≠ 'N' ∧ trans ≠ 'T' ∧ trans ≠ 'C') := by
    rcases ht with h | h | h <;> simp [h]
  have c3 : ¬ (diag ≠ 'U' ∧ diag ≠ 'N') := by
    rcases hdg with h | h <;> simp [h]
  have c4 : ¬ ((n : Int) < 0) := by omega
  have c5 : ¬ (lda < max 1 (n : Int)) := not_lt.mpr hlda
  have c7 : ¬ ((n : Int) = 0) := by omega
  unfold strsv_
  simp only [if_neg c1, if_neg c2, if_neg c3, if_neg c4, if_neg c5, if_neg hincx, ne_eq,
    not_true_eq_false, if_false, if_neg c7, Int.toNat_ofNat]
  unfold sweepAt
  by_cases htN : trans = 'N'
  · rw [if_pos htN, if_pos (decide_eq_true htN)]
    by_cases huU : uplo = 'U'
    · rw [if_pos huU, if_pos (decide_eq_true huU)]
      by_cases hi1 : incx = 1
      · rw [if_pos hi1, loop20_eq]
        congr 2
        funext j
        rw [hi1]; unfold xpos; simp
      · rw [if_neg hi1, loop40_eq]
        rfl
    · rw [if_neg huU, if_neg (show ¬ decide (uplo = 'U') = true by simp [huU])]
      by_cases hi1 : incx = 1
      · rw [if_pos hi1, loop60_eq]
        congr 2
        funext j
        rw [hi1]; unfold xpos; simp
      · rw [if_neg hi1, loop80_eq]
        rfl
  · rw [if_neg htN, if_neg (show ¬ decide (trans = 'N') = true by simp [htN])]
    by_cases huU : uplo = 'U'
    · rw [if_pos huU, if_pos (decide_eq_true huU)]
      by_cases hi1 : incx = 1
      · rw [if_pos hi1, loop100_eq]
        congr 2
        funext j
        rw [hi1]; unfold xpos; simp
      · rw [if_neg hi1, loop120_eq]
        rfl
    · rw [if_neg huU, if_neg (show ¬ decide (uplo = 'U') = true by simp [huU])]
      by_cases hi1 : incx = 1
      · rw [if_pos hi1, loop140_eq]
        congr 2
        funext j
        rw [hi1]; unfold xpos; simp
      · have hpf : (fun j : Nat => (if incx ≤ 0 then 1 - ((n : Int) - 1) * incx else 1) +
            ((n : Int) - 1) * incx - ((n : Int) - (j : Int)) * incx) = xpos n incx := by
          funext j
          unfold xpos; ring
        rw [if_neg hi1, loop160_eq, hpf]


omit [LinearOrderedField R] in
theorem X_succ (x : Int → R) (pos : Int) : X x (pos + 1) = x pos := by
  unfold X; rw [add_sub_cancel_right]

/-- C10. In exact arithmetic, for every `n >= 0`, `lda >= max(1, n)`, `incx != 0`, every
valid `UPLO`, `TRANS`, `DIAG` and every `a` whose diagonal entries `A(j,j)`, `j = 1..n`,
are nonzero when `DIAG = 'N'`: `strsv_` returns, and the `n` elements of `x` at the
positions `xpos` hold `y` with `sum_j op(A)(i,j) * y(j) = b(i)` for `i = 1..n`, where `b`
is the content of these positions on entry, `op(A)` is the stored triangle (unit
diagonal for `DIAG = 'U'`, other triangle taken as 0) for `TRANS = 'N'` and its
transpose otherwise. The other elements of the array `x` are untouched, and the result
is the same for every `a1` that agrees with `a` on the stored triangle (and on the
diagonal for `DIAG = 'N'`): the other entries of `a` are not read. The result does not
depend on whether a column with `X(j) == 0` is skipped: it is the solution either way. -/
theorem C10_strsv_solves (uplo trans diag : Char) (n : Nat) (a : Int → R) (lda : Int)
    (x : Int → R) (incx : Int)
    (hu : uplo = 'U' ∨ uplo = 'L') (ht : trans = 'N' ∨ trans = 'T' ∨ trans = 'C')
    (hdg : diag = 'U' ∨ diag = 'N') (hlda : max 1 (n : Int) ≤ lda) (hincx : incx ≠ 0)
    (hd : diag = 'N' → ∀ j : Nat, 1 ≤ j → j ≤ n → A a lda j j ≠ 0) :
    ∃ x1, strsv_ uplo trans diag (n : Int) a lda x incx = .ok x1 ∧
      (∀ i : Nat, 1 ≤ i → i ≤ n →
        ∑ j in Finset.Icc 1 n,
          opEntry (decide (uplo = 'U')) (decide (trans = 'N')) (decide (diag = 'N')) a lda i j *
            X x1 (xpos n incx j) = X x (xpos n incx i)) ∧
      (∀ pos : Int, (∀ k : Nat, 1 ≤ k → k ≤ n → pos ≠ xpos n incx k - 1) → x1 pos = x pos) ∧
      (∀ a1 : Int → R,
        (∀ i j : Nat, 1 ≤ i → i ≤ n → 1 ≤ j → j ≤ n →
          triEntry (decide (uplo = 'U')) (decide (diag = 'N')) a lda i j =
            triEntry (decide (uplo = 'U')) (decide (diag = 'N')) a1 lda i j) →
        strsv_ uplo trans diag (n : Int) a1 lda x incx = .ok x1) := by
  by_cases hn : n = 0
  · subst hn
    have h0 : ∀ a2 : Int → R, strsv_ uplo trans diag ((0 : Nat) : Int) a2 lda x incx = .ok x := by
      intro a2
      have c1 : ¬ (uplo ≠ 'U' ∧ uplo ≠ 'L') := by
        rcases hu with h | h <;> simp [h]
      have c2 : ¬ (trans ≠ 'N' ∧ trans ≠ 'T' ∧ trans ≠ 'C') := by
        rcases ht with h | h | h <;> simp [h]
      have c3 : ¬ (diag ≠ 'U' ∧ diag ≠ 'N') := by
        rcases hdg with h | h <;> simp [h]
      have c4 : ¬ (((0 : Nat) : Int) < 0) := by omega
      have c5 : ¬ (lda < max 1 ((0 : Nat) : Int)) := not_lt.mpr hlda
      unfold strsv_
      simp only [if_neg c1, if_neg c2, if_neg c3, if_neg c4, if_neg c5, if_neg hincx, ne_eq,
        not_true_eq_false, if_false]
      rw [if_pos (by rfl)]
    exact ⟨x, h0 a, fun i h1 h2 => by omega, fun _ _ => rfl, fun a1 _ => h0 a1⟩
  · have hpos : 0 < n := Nat.pos_of_ne_zero hn
    have hdd : decide (diag = 'N') = true → ∀ j : Nat, 1 ≤ j → j ≤ n → A a lda j j ≠ 0 :=
      fun h => hd (of_decide_eq_true h)
    obtain ⟨s1, s2⟩ := sweepAt_solves (decide (uplo = 'U')) (decide (trans = 'N'))
      (xpos n incx) (decide (diag = 'N')) n a lda x
      (fun i j _ _ _ _ h => xpos_inj n incx hincx i j h) hdd
    refine ⟨_, strsv_eq_sweep uplo trans diag n a lda x incx hu ht hdg hlda hincx hpos, s1,
      fun pos hp => ?_, fun a1 ha => ?_⟩
    · have := s2 (pos + 1) (fun k h1 h2 h => hp k h1 h2 (by omega))
      rw [X_succ, X_succ] at this
      exact this
    · rw [strsv_eq_sweep uplo trans diag n a1 lda x incx hu ht hdg hlda hincx hpos,
        sweepAt_congr _ _ _ _ n a a1 lda x ha]

/-- Witness of C10: the upper triangular system `[[1, 1], [0, 1]] y = (1, 1)` with
`incx = 1` over the rationals. -/
theorem C10_strsv_solves_witness :
    ('U' = 'U' ∨ 'U' = 'L') ∧ ('N' = 'N' ∨ 'N' = 'T' ∨ 'N' = 'C') ∧ ('N' = 'U' ∨ 'N' = 'N') ∧
    max 1 ((2 : Nat) : Int) ≤ 2 ∧ (1 : Int) ≠ 0 ∧
    ('N' = 'N' → ∀ j : Nat, 1 ≤ j → j ≤ 2 → A (fun _ => (1 : ℚ)) 2 j j ≠ 0) ∧
    ∃ x1, strsv_ 'U' 'N' 'N' ((2 : Nat) : Int) (fun _ => (1 : ℚ)) 2 (fun _ => 1) 1 = .ok x1 ∧
      (∀ i : Nat, 1 ≤ i → i ≤ 2 →
        ∑ j in Finset.Icc 1 2,
          opEntry (decide ('U' = 'U')) (decide ('N' = 'N')) (decide ('N' = 'N'))
            (fun _ => (1 : ℚ)) 2 i j * X x1 (xpos 2 1 j) = X (fun _ => (1 : ℚ)) (xpos 2 1 i)) := by
  have hd : 'N' = 'N' → ∀ j : Nat, 1 ≤ j → j ≤ 2 → A (fun _ => (1 : ℚ)) 2 j j ≠ 0 :=
    fun _ _ _ _ => one_ne_zero
  obtain ⟨x1, h1, h2, -⟩ := C10_strsv_solves 'U' 'N' 'N' 2 (fun _ => (1 : ℚ)) 2 (fun _ => 1) 1
    (Or.inl rfl) (Or.inl rfl) (Or.inr rfl) (by decide) (by decide) hd
  exact ⟨Or.inl rfl, Or.inl rfl, Or.inr rfl, by decide, by decide, hd, x1, h1, h2⟩


end StrsvClaim

/-! ## Inner products, real values and the dimension argument -/

section InnerAlg

variable {R : Type} [LinearOrderedField R]

theorem zdotc_comb_right (n : Nat) (x u v y : Vec R) (a b : doublecomplex R)
    (h : ∀ k, k < n → y k = a * u k + b * v k) :
    zdotc n x y = a * zdotc n x u + b * zdotc n x v := by
  rw [zdotc_eq_sum, zdotc_eq_sum, zdotc_eq_sum, Finset.mul_sum, Finset.mul_sum,
    ← Finset.sum_add_distrib]
  apply Finset.sum_congr rfl
  intro k hk
  rw [h k (Finset.mem_range.mp hk)]; ring

theorem zdotc_comb_left (n : Nat) (x u v y : Vec R) (a b : doublecomplex R)
    (h : ∀ k, k < n → y k = a * u k + b * v k) :
    zdotc n y x = zz_conj a * zdotc n u x + zz_conj b * zdotc n v x := by
  rw [zdotc_conj_symm n x y, zdotc_comb_right n x u v y a b h, zz_conj_add, zz_conj_mul,
    zz_conj_mul, ← zdotc_conj_symm, ← zdotc_conj_symm]

theorem zdotc_sum_right (n : Nat) (x : Vec R) (cnt : Nat) (a : Nat → doublecomplex R)
    (v : Nat → Vec R) (y : Vec R)
    (h : ∀ k, k < n → y k = ∑ j in Finset.range cnt, a j * v j k) :
    zdotc n x y = ∑ j in Finset.range cnt, a j * zdotc n x (v j) := by
  rw [zdotc_eq_sum]
  have : ∀ j, a j * zdotc n x (v j) = ∑ k in Finset.range n, a j * (zz_conj (x k) * v j k) := by
    intro j; rw [zdotc_eq_sum, Finset.mul_sum]
  simp only [this]
  rw [Finset.sum_comm]
  apply Finset.sum_congr rfl
  intro k hk
  rw [h k (Finset.mem_range.mp hk), Finset.mul_sum]
  apply Finset.sum_congr rfl
  intro j _
  ring

theorem zdotc_zero_right0 (n : Nat) (x y : Vec R) (h : ∀ k, k < n → y k = 0) :
    zdotc n x y = 0 := zdotc_zero_right n x y h

theorem re_mul {a b : doublecomplex R} (ha : a.i = 0) (hb : b.i = 0) : (a * b).i = 0 := by
  rw [dc_mul_i, ha, hb]; ring

theorem re_add {a b : doublecomplex R} (ha : a.i = 0) (hb : b.i = 0) : (a + b).i = 0 := by
  rw [dc_add_i, ha, hb]; ring

theorem re_sub {a b : doublecomplex R} (ha : a.i = 0) (hb : b.i = 0) : (a - b).i = 0 := by
  rw [dc_sub_i, ha, hb]; ring

theorem re_neg {a : doublecomplex R} (ha : a.i = 0) : (-a).i = 0 := by
  rw [dc_neg_i, ha]; ring

theorem re_conj {a : doublecomplex R} (ha : a.i = 0) : (zz_conj a).i = 0 := by
  simp only [zz_conj, ha, neg_zero]

theorem re_sum (cnt : Nat) (f : Nat → doublecomplex R) (h : ∀ j, j < cnt → (f j).i = 0) :
    (∑ j in Finset.range cnt, f j).i = 0 := by
  rw [dc_sum_i]
  apply Finset.sum_eq_zero
  intro j hj
  exact h j (Finset.mem_range.mp hj)

theorem re_of_conj_eq {a : doublecomplex R} (h : a = zz_conj a) : a.i = 0 := by
  have := congrArg doublecomplex.i h
  simp only [zz_conj] at this
  linarith

theorem re_conj_eq {a : doublecomplex R} (ha : a.i = 0) : zz_conj a = a := by
  apply dc_ext
  · rfl
  · simp only [zz_conj, ha, neg_zero]

theorem re_sq_eq {a : doublecomplex R} (ha : a.i = 0) : a * a = ⟨cnormSq a, 0⟩ := by
  apply dc_ext
  · rw [dc_mul_r, ha]; simp [cnormSq, ha]
  · rw [dc_mul_i, ha]; ring

theorem nrmSq_eq_dot_r (n : Nat) (x : Vec R) : nrmSq n x = (zdotc n x x).r := by
  rw [zdotc_self]

/-- In dimension `n` a vector orthogonal to `n` orthonormal vectors vanishes. -/
theorem ortho_complete (n : Nat) (V : Nat → Vec R) (hV : OrthoBasis n V n) (x : Vec R)
    (hx : ∀ j, j < n → zdotc n (V j) x = 0) : ∀ k, k < n → x k = 0 := by
  have h1 : (Matrix.of fun (a : Fin n) (k : Fin n) => zz_conj (V a k)) *
      (Matrix.of fun (k : Fin n) (b : Fin n) => V b k) = 1 := by
    ext a b
    rw [Matrix.mul_apply, Matrix.one_apply]
    have := hV a b a.2 b.2
    rw [zdotc_eq_sum, Finset.sum_range] at this
    simp only [Matrix.of_apply]
    rw [this]
    by_cases hab : a = b
    · rw [if_pos hab, if_pos (by rw [hab])]
    · rw [if_neg hab, if_neg (fun h => hab (Fin.ext h))]
  have h2 := Matrix.mul_eq_one_comm.mp h1
  have h3 : Matrix.mulVec (Matrix.of fun (a : Fin n) (k : Fin n) => zz_conj (V a k))
      (fun k : Fin n => x k) = 0 := by
    funext a
    rw [Matrix.mulVec, Matrix.dotProduct]
    have := hx a a.2
    rw [zdotc_eq_sum, Finset.sum_range] at this
    simp only [Matrix.of_apply, Pi.zero_apply]
    exact this
  have h4 : Matrix.mulVec (1 : Matrix (Fin n) (Fin n) (doublecomplex R)) (fun k : Fin n => x k) = 0 := by
    rw [← h2, ← Matrix.mulVec_mulVec, h3, Matrix.mulVec_zero]
  rw [Matrix.one_mulVec] at h4
  intro k hk
  exact congrFun h4 ⟨k, hk⟩

theorem ortho_overfull (n : Nat) (V : Nat → Vec R) (hV : OrthoBasis n V (n + 1)) : False := by
  have h1 : OrthoBasis n V n := fun a b ha hb => hV a b (by omega) (by omega)
  have h2 := ortho_complete n V h1 (V n) (fun j hj => by
    rw [hV j n (by omega) (by omega), if_neg (by omega)])
  have h3 := hV n n (by omega) (by omega)
  rw [if_pos rfl, zdotc_zero_right n _ _ h2] at h3
  have := congrArg doublecomplex.r h3
  simp [czero, dc_one_r] at this


end InnerAlg

/-! ## The rotated basis -/

section RotBasis

variable {R : Type} [LinearOrderedField R]

theorem Uvec_congr (w w1 : Work R) :
    ∀ m, (∀ j, j < m → w1.c j = w.c j ∧ w1.s j = w.s j) → (∀ j, j ≤ m → w1.vv j = w.vv j) →
      Uvec w1 m = Uvec w m := by
  intro m
  induction m with
  | zero => intro _ hv; exact hv 0 le_rfl
  | succ m ih =>
    intro hc hv
    funext k
    simp only [Uvec]
    rw [ih (fun j hj => hc j (by omega)) (fun j hj => hv j (by omega)), (hc m (by omega)).1,
      (hc m (by omega)).2, hv (m + 1) le_rfl]

theorem Wvec_congr (w w1 : Work R) (m : Nat)
    (hc : ∀ j, j ≤ m → w1.c j = w.c j ∧ w1.s j = w.s j) (hv : ∀ j, j ≤ m + 1 → w1.vv j = w.vv j) :
    Wvec w1 m = Wvec w m := by
  funext k
  simp only [Wvec]
  rw [Uvec_congr w w1 m (fun j hj => hc j (by omega)) (fun j hj => hv j (by omega)),
    (hc m le_rfl).1, (hc m le_rfl).2, hv (m + 1) le_rfl]

/-- `U_m` lies in the span of `vv[0..m]`: it is orthogonal to whatever they are
orthogonal to. -/
theorem Uvec_orth (n : Nat) (w : Work R) (x : Vec R) :
    ∀ m, (∀ j, j ≤ m → zdotc n (w.vv j) x = 0) → zdotc n (Uvec w m) x = 0 := by
  intro m
  induction m with
  | zero => intro h; exact h 0 le_rfl
  | succ m ih =>
    intro h
    rw [zdotc_comb_left n x (Uvec w m) (w.vv (m + 1)) (Uvec w (m + 1)) (-(w.s m)) (w.c m)
      (fun k _ => rfl), ih (fun j hj => h j (by omega)), h (m + 1) le_rfl, mul_zero, mul_zero,
      add_zero]

theorem Wvec_orth (n : Nat) (w : Work R) (x : Vec R) (m : Nat)
    (h : ∀ j, j ≤ m + 1 → zdotc n (w.vv j) x = 0) : zdotc n (Wvec w m) x = 0 := by
  rw [zdotc_comb_left n x (Uvec w m) (w.vv (m + 1)) (Wvec w m) (w.c m) (w.s m)
    (fun k _ => rfl), Uvec_orth n w x m (fun j hj => h j (by omega)), h (m + 1) le_rfl,
    mul_zero, mul_zero, add_zero]

/-- The rotation undone: `U_m = c W_m - s U_{m+1}` when `c^2 + s^2 = 1`. -/
theorem Uvec_unrot (w : Work R) (m k : Nat) (h : w.c m * w.c m + w.s m * w.s m = 1) :
    Uvec w m k = w.c m * Wvec w m k - w.s m * Uvec w (m + 1) k := by
  simp only [Wvec, Uvec]
  linear_combination (-(Uvec w m k)) * h

/-- The rotation undone: `vv[m+1] = s W_m + c U_{m+1}` when `c^2 + s^2 = 1`. -/
theorem vv_unrot (w : Work R) (m k : Nat) (h : w.c m * w.c m + w.s m * w.s m = 1) :
    w.vv (m + 1) k = w.s m * Wvec w m k + w.c m * Uvec w (m + 1) k := by
  simp only [Wvec, Uvec]
  linear_combination (-(w.vv (m + 1) k)) * h

/-- A real rotation of the orthonormal pair `U_m`, `vv[m+1]` keeps norm 1. -/
theorem Uvec_norm_succ (n : Nat) (w : Work R) (m : Nat) (hc : (w.c m).i = 0)
    (hs : (w.s m).i = 0) (h : w.c m * w.c m + w.s m * w.s m = 1)
    (hU : nrmSq n (Uvec w m) = 1) (hV : nrmSq n (w.vv (m + 1)) = 1)
    (hUV : zdotc n (Uvec w m) (w.vv (m + 1)) = 0) :
    nrmSq n (Uvec w (m + 1)) = 1 := by
  have hVU : zdotc n (w.vv (m + 1)) (Uvec w m) = 0 := by
    rw [zdotc_conj_symm, hUV, zz_conj_zero]
  have h1 : zdotc n (Uvec w (m + 1)) (Uvec w (m + 1)) = 1 := by
    rw [zdotc_comb_right n (Uvec w (m + 1)) (Uvec w m) (w.vv (m + 1)) (Uvec w (m + 1))
        (-(w.s m)) (w.c m) (fun k _ => rfl),
      zdotc_comb_left n (Uvec w m) (Uvec w m) (w.vv (m + 1)) (Uvec w (m + 1))
        (-(w.s m)) (w.c m) (fun k _ => rfl),
      zdotc_comb_left n (w.vv (m + 1)) (Uvec w m) (w.vv (m + 1)) (Uvec w (m + 1))
        (-(w.s m)) (w.c m) (fun k _ => rfl),
      hUV, hVU, zdotc_self, zdotc_self, hU, hV, re_conj_eq hc, re_conj_eq (re_neg hs)]
    have e1 : (⟨1, 0⟩ : doublecomplex R) = 1 := rfl
    rw [e1]
    linear_combination h
  rw [nrmSq_eq_dot_r, h1]; rfl


end RotBasis

/-! ## The Arnoldi step for a Hermitian operator -/

section HermStep

variable {R : Type} [LinearOrderedField R]

/-- What the Arnoldi step gives for a Hermitian operator without preconditioner, from
an orthonormal basis `vv[0..i]`. -/
theorem arnoldi_facts {ext : Ext R} (hex : ExactNorm ext) {n : Nat} {mv : MatVec R}
    (hop : HermOp n mv) (f i : Nat) (w w1 : Work R) (hV : OrthoBasis n w.vv (i + 1))
    (ha : arnoldi (f + 1) ext n mv none i w = some w1) :
    w1.c = w.c ∧ w1.s = w.s ∧ w1.rs = w.rs ∧
    (∀ k, k ≠ i + 1 → w1.vv k = w.vv k) ∧ (∀ r l, r ≠ i → w1.hh r l = w.hh r l) ∧
    (∀ c k, c < i → w1.z c k = w.z c k) ∧ (∀ k, k < n → w1.z i k = w.vv i k) ∧
    (∃ t : R, 0 ≤ t ∧ w1.hh i (i + 1) = ⟨t, 0⟩ ∧
      (t = 0 → ∀ k, k < n → w1.vv (i + 1) k = 0) ∧
      (t ≠ 0 → nrmSq n (w1.vv (i + 1)) = 1 ∧ OrthoBasis n w1.vv (i + 2))) ∧
    (∀ l, l < i + 1 → zdotc n (w.vv l) (w1.vv (i + 1)) = 0) ∧
    (∀ k, k < n → mv cone (w.vv i) czero vzero k =
      ∑ j in Finset.range (i + 1), w1.hh i j * w.vv j k + w1.hh i (i + 1) * w1.vv (i + 1) k) ∧
    (∀ j, j ≤ i → w1.hh i j = zdotc n (w.vv j) (mv cone (w.vv i) czero vzero)) := by
  obtain ⟨o1, o2, o3, o4, o5⟩ := hop
  obtain ⟨hz, hc, hs, hrs, hvv, hhh, ⟨t, ht0, hht, htz, htn⟩, hrel⟩ :=
    arnoldi_spec hex (f + 1) n mv none i w w1 (zcopy_ n (w.vv i) (w.z i)) _ rfl rfl ha
  obtain ⟨w1', ha', horth, hOB⟩ := arnoldi_orth hex f n mv none i w hV
  rw [ha] at ha'
  have hw : w1' = w1 := (Option.some.inj ha').symm
  subst hw
  have horth1 : ∀ l, l < i + 1 → zdotc n (w.vv l) (w1'.vv (i + 1)) = 0 := by
    intro l hl
    rw [← hvv l (by omega)]
    exact horth l hl
  have hrel1 : ∀ k, k < n → mv cone (w.vv i) czero vzero k =
      ∑ j in Finset.range (i + 1), w1'.hh i j * w.vv j k +
        w1'.hh i (i + 1) * w1'.vv (i + 1) k := by
    intro k hk
    rw [o1 (w.vv i) vzero (w.vv (i + 1)) k hk,
      ← o2 (zcopy_ n (w.vv i) (w.z i)) (w.vv i) (w.vv (i + 1)) k
        (fun l hl => by simp only [zcopy_, hl, if_true]) hk,
      hrel k hk]
    congr 1
    apply Finset.sum_congr rfl
    intro j hj
    rw [hvv j (by have := Finset.mem_range.mp hj; omega)]
  have htne : t ≠ 0 → w1'.hh i (i + 1) ≠ 0 := by
    intro h h0
    rw [hht] at h0
    exact h (congrArg doublecomplex.r h0)
  refine ⟨hc, hs, hrs, hvv, hhh, ?_, ?_, ⟨t, ht0, hht, htz, fun h => ⟨?_, hOB (htne h)⟩⟩,
    horth1, hrel1, ?_⟩
  · intro c k hci
    rw [hz, Function.update_noteq (by omega)]
  · intro k hk
    rw [hz, Function.update_same]
    simp only [zcopy_, hk, if_true]
  · have := (hex n (w1'.vv (i + 1))).2
    rw [htn h, one_mul] at this
    exact this.symm
  · intro j hj
    rw [zdotc_comb_right n (w.vv j)
      (fun k => ∑ l in Finset.range (i + 1), w1'.hh i l * w.vv l k) (w1'.vv (i + 1))
      (mv cone (w.vv i) czero vzero) 1 (w1'.hh i (i + 1))
      (fun k hk => by rw [hrel1 k hk, one_mul]),
      zdotc_sum_right n (w.vv j) (i + 1) (fun l => w1'.hh i l) (fun l => w.vv l) _
        (fun k _ => rfl),
      horth1 j (by omega), mul_zero, add_zero, one_mul]
    have : ∀ l, l ∈ Finset.range (i + 1) →
        w1'.hh i l * zdotc n (w.vv j) (w.vv l) = if l = j then w1'.hh i l else 0 := by
      intro l hl
      have hl1 := Finset.mem_range.mp hl
      rw [hV j l (by omega) hl1]
      by_cases h : l = j
      · rw [if_pos h, if_pos h.symm, mul_one]
      · rw [if_neg h, if_neg (Ne.symm h), mul_zero]
    rw [Finset.sum_congr rfl this, Finset.sum_ite_eq', if_pos (Finset.mem_range.mpr (by omega))]


/-- For a Hermitian operator the new column `hh[i][0..i]` of the Arnoldi step is real. -/
theorem arnoldi_col_real {n : Nat} {mv : MatVec R} (hop : HermOp n mv) (beta : R) (i : Nat)
    (w w1 : Work R) (hV : OrthoBasis n w.vv (i + 1)) (hcore : KCore n mv beta i w)
    (hhd : ∀ j, j ≤ i → w1.hh i j = zdotc n (w.vv j) (mv cone (w.vv i) czero vzero)) :
    ∀ j, j ≤ i → (w1.hh i j).i = 0 := by
  obtain ⟨o1, o2, o3, o4, o5⟩ := hop
  obtain ⟨k2, k2r, k3, k4, k5, k7⟩ := hcore
  intro j hj
  rw [hhd j hj]
  by_cases hji : j = i
  · subst hji
    exact re_of_conj_eq (o4 (w.vv j) (w.vv j))
  · have hlt : j < i := by omega
    rw [o4 (w.vv j) (w.vv i)]
    apply re_conj
    rw [zdotc_sum_right n (w.vv i) (j + 1) (fun m => w.hh j m) (fun m => Wvec w m) _
      (fun k hk => k4 j k hlt hk)]
    apply re_sum
    intro m hm
    apply re_mul (k2r j m hlt (by omega))
    rw [zdotc_comb_right n (w.vv i) (Uvec w m) (w.vv (m + 1)) (Wvec w m) (w.c m) (w.s m)
      (fun k _ => rfl)]
    have hU : zdotc n (w.vv i) (Uvec w m) = 0 := by
      rw [zdotc_conj_symm, Uvec_orth n w (w.vv i) m (fun l hl => by
        rw [hV l i (by omega) (by omega), if_neg (by omega)]), zz_conj_zero]
    rw [hU, mul_zero, zero_add]
    apply re_mul (k2 m (by omega)).2.1
    rw [hV i (m + 1) (by omega) (by omega)]
    split
    · rfl
    · rfl


end HermStep

/-! ## The loop of the previous rotations -/

section RotLoop

variable {R : Type} [LinearOrderedField R]

theorem sum_two_change (i m : Nat) (hm : m + 1 ≤ i) (f g : Nat → doublecomplex R)
    (hoth : ∀ j, j ≠ m → j ≠ m + 1 → f j = g j) (hpair : f m + f (m + 1) = g m + g (m + 1)) :
    ∑ j in Finset.range (i + 1), f j = ∑ j in Finset.range (i + 1), g j := by
  have h1 : ∀ j, j ∈ Finset.range (i + 1) → f j = g j + ((if j = m then f m - g m else 0) +
      (if j = m + 1 then f (m + 1) - g (m + 1) else 0)) := by
    intro j _
    by_cases h1 : j = m
    · rw [if_pos h1, if_neg (by omega), h1]; ring
    · by_cases h2 : j = m + 1
      · rw [if_neg h1, if_pos h2, h2]; ring
      · rw [if_neg h1, if_neg h2, hoth j h1 h2]; ring
  rw [Finset.sum_congr rfl h1, Finset.sum_add_distrib, Finset.sum_add_distrib,
    Finset.sum_ite_eq', Finset.sum_ite_eq', if_pos (Finset.mem_range.mpr (by omega)),
    if_pos (Finset.mem_range.mpr (by omega))]
  linear_combination hpair

theorem rotatePrev_hh (i m : Nat) (w : Work R) (j : Nat) :
    (rotatePrev i m w).hh i j =
      if j = m then w.c m * w.hh i m + w.s m * w.hh i (m + 1)
      else if j = m + 1 then w.c m * w.hh i (m + 1) - w.s m * w.hh i m
      else w.hh i j := by
  simp only [rotatePrev, set2, Function.update_same]
  by_cases h1 : j = m
  · subst h1
    rw [if_pos rfl, Function.update_noteq (by omega), Function.update_same]; rfl
  · rw [if_neg h1]
    by_cases h2 : j = m + 1
    · subst h2
      rw [if_pos rfl, Function.update_same, Function.update_noteq (by omega), z_sub_eq]; rfl
    · rw [if_neg h2, Function.update_noteq h2, Function.update_noteq h1]

/-- The loop of lines 245-256 with real rotations: the column stays real and its
combination with the basis is unchanged when the basis is rotated along. -/
theorem rotatePrev_loop (i : Nat) (w1 : Work R)
    (hcs : ∀ m, m < i → (w1.c m).i = 0 ∧ (w1.s m).i = 0 ∧
      w1.c m * w1.c m + w1.s m * w1.s m = 1)
    (hre : ∀ j, j ≤ i → (w1.hh i j).i = 0) :
    ∀ m, m ≤ i →
      (∀ j, j ≤ i → ((forN m (rotatePrev i) w1).hh i j).i = 0) ∧
      (∀ k, ∑ j in Finset.range (i + 1), (forN m (rotatePrev i) w1).hh i j * mixBasis w1 m j k =
        ∑ j in Finset.range (i + 1), w1.hh i j * w1.vv j k) := by
  intro m
  induction m with
  | zero =>
    intro _
    refine ⟨hre, fun k => ?_⟩
    apply Finset.sum_congr rfl
    intro j _
    unfold mixBasis
    rw [if_neg (Nat.not_lt_zero j)]
    simp only [forN]
    split
    · rename_i h; rw [h]; rfl
    · rfl
  | succ m ih =>
    intro hm
    obtain ⟨ih1, ih2⟩ := ih (by omega)
    obtain ⟨-, -, f3, f4, -, -⟩ := forN_rotatePrev_frame i w1 m
    obtain ⟨hc, hs, hcs1⟩ := hcs m (by omega)
    simp only [forN]
    generalize forN m (rotatePrev i) w1 = F at ih1 ih2 f3 f4
    have hcF : F.c m = w1.c m := by rw [f3]
    have hsF : F.s m = w1.s m := by rw [f4]
    refine ⟨fun j hj => ?_, fun k => ?_⟩
    · rw [rotatePrev_hh, hcF, hsF]
      split
      · exact re_add (re_mul hc (ih1 m (by omega))) (re_mul hs (ih1 (m + 1) (by omega)))
      · split
        · exact re_sub (re_mul hc (ih1 (m + 1) (by omega))) (re_mul hs (ih1 m (by omega)))
        · exact ih1 j hj
    · rw [← ih2 k]
      apply sum_two_change i m hm
      · intro j h1 h2
        rw [rotatePrev_hh, if_neg h1, if_neg h2]
        congr 1
        unfold mixBasis
        by_cases h3 : j < m
        · rw [if_pos h3, if_pos (show j < m + 1 by omega)]
        · rw [if_neg h3, if_neg (show ¬ j < m + 1 by omega), if_neg h1, if_neg h2]
      · rw [rotatePrev_hh, rotatePrev_hh, if_pos rfl, if_neg (by omega), if_pos rfl, hcF, hsF]
        have e1 : mixBasis w1 (m + 1) m k = Wvec w1 m k := by
          unfold mixBasis; rw [if_pos (show m < m + 1 by omega)]
        have e2 : mixBasis w1 (m + 1) (m + 1) k = Uvec w1 (m + 1) k := by
          unfold mixBasis; rw [if_neg (show ¬ m + 1 < m + 1 by omega), if_pos rfl]
        have e3 : mixBasis w1 m m k = Uvec w1 m k := by
          unfold mixBasis; rw [if_neg (show ¬ m < m by omega), if_pos rfl]
        have e4 : mixBasis w1 m (m + 1) k = w1.vv (m + 1) k := by
          unfold mixBasis
          rw [if_neg (show ¬ m + 1 < m by omega), if_neg (show ¬ m + 1 = m by omega)]
        rw [e1, e2, e3, e4, Uvec_unrot w1 m k hcs1, vv_unrot w1 m k hcs1]
        ring


end RotLoop

/-! ## Triangular systems and combinations of columns -/

section TriSolve

variable {R : Type} [LinearOrderedField R]

theorem sum_range_mask (I c : Nat) (hc : c < I) (g : Nat → doublecomplex R) :
    ∑ m in Finset.range (c + 1), g m = ∑ m in Finset.range I, (if m ≤ c then g m else 0) := by
  rw [← Finset.sum_filter]
  apply Finset.sum_congr
  · ext m
    simp only [Finset.mem_range, Finset.mem_filter]
    omega
  · intro _ _; rfl

theorem sum_Icc_mask (m i : Nat) (g : Nat → doublecomplex R) :
    ∑ j in Finset.Icc m i, g j = ∑ j in Finset.range (i + 1), (if m ≤ j then g j else 0) := by
  rw [← Finset.sum_filter]
  apply Finset.sum_congr
  · ext j
    simp only [Finset.mem_range, Finset.mem_filter, Finset.mem_Icc]
    omega
  · intro _ _; rfl

/-- A combination of columns given in a triangular way by a basis, regrouped by basis
vector. -/
theorem combo_cols (n I : Nat) (Rm : Nat → Nat → doublecomplex R) (y : Nat → doublecomplex R)
    (B AV : Nat → Vec R)
    (h4 : ∀ c k, c < I → k < n → AV c k = ∑ m in Finset.range (c + 1), Rm c m * B m k)
    (k : Nat) (hk : k < n) :
    ∑ c in Finset.range I, y c * AV c k =
      ∑ m in Finset.range I,
        (∑ c in Finset.range I, (if m ≤ c then Rm c m * y c else 0)) * B m k := by
  have h1 : ∀ c, c ∈ Finset.range I → y c * AV c k =
      ∑ m in Finset.range I, (if m ≤ c then Rm c m * y c else 0) * B m k := by
    intro c hc
    have hc1 := Finset.mem_range.mp hc
    rw [h4 c k hc1 hk, sum_range_mask I c hc1, Finset.mul_sum]
    apply Finset.sum_congr rfl
    intro m _
    by_cases h : m ≤ c
    · rw [if_pos h, if_pos h]; ring
    · rw [if_neg h, if_neg h]; ring
  rw [Finset.sum_congr rfl h1, Finset.sum_comm]
  apply Finset.sum_congr rfl
  intro m _
  rw [Finset.sum_mul]

/-- The back-substitution of `zfgmr` returns and solves the triangular system when the
diagonal entries are nonzero. -/
theorem backSolve_spec (i : Nat) (w : Work R) (hd : ∀ k, k ≤ i → w.hh k k ≠ 0) :
    ∃ w1, backSolve i w = some w1 ∧ w1.hh = w.hh ∧ w1.vv = w.vv ∧ w1.z = w.z ∧
      w1.c = w.c ∧ w1.s = w.s ∧ (∀ k, i < k → w1.rs k = w.rs k) ∧
      (∀ k, k ≤ i → ∑ j in Finset.Icc k i, w.hh j k * w1.rs j = w.rs k) := by
  obtain ⟨q, hq1, hq2⟩ := z_div_spec (w.rs i) (w.hh i i) (hd i le_rfl)
  unfold backSolve
  rw [hq1, Option.some_bind]
  obtain ⟨W, hW, e1, e2, e3, e4, e5, -, e7, e8⟩ := backSolve_loop i w hd
    ({ w with rs := Function.update w.rs i q } : Work R) rfl
    (fun k hk => Function.update_noteq hk _ _)
    (by simp only [Function.update_same]; exact hq2) i le_rfl
  exact ⟨W, hW, e1, e2, e3, e4, e5, e7, fun k hk => e8 k (by omega) hk⟩

/-- An upper-triangular system with nonzero diagonal has a solution. -/
theorem tri_solve_exists (i : Nat) (Rm : Nat → Nat → doublecomplex R)
    (g : Nat → doublecomplex R) (hd : ∀ c, c < i → Rm c c ≠ 0) :
    ∃ y : Nat → doublecomplex R, ∀ m, m < i →
      ∑ c in Finset.range i, (if m ≤ c then Rm c m * y c else 0) = g m := by
  cases i with
  | zero => exact ⟨fun _ => 0, fun m hm => absurd hm (Nat.not_lt_zero m)⟩
  | succ i =>
    obtain ⟨w1, -, -, -, -, -, -, -, h⟩ := backSolve_spec i
      (⟨fun _ => vzero, Rm, fun _ => vzero, fun _ => 0, fun _ => 0, g⟩ : Work R)
      (fun k hk => hd k (by omega))
    refine ⟨w1.rs, fun m hm => ?_⟩
    rw [← sum_Icc_mask]
    exact h m (by omega)

/-- Linearity of the operator over a finite combination. -/
theorem op_lin_sum {n : Nat} {mv : MatVec R} (hop : HermOp n mv) (a : Nat → doublecomplex R)
    (v : Nat → Vec R) (x : Vec R) (k : Nat) (hk : k < n) :
    ∀ cnt, mv cone (fun l => x l + ∑ j in Finset.range cnt, a j * v j l) czero vzero k =
      mv cone x czero vzero k + ∑ j in Finset.range cnt, a j * mv cone (v j) czero vzero k := by
  obtain ⟨o1, o2, o3, o4, o5⟩ := hop
  intro cnt
  induction cnt with
  | zero =>
    rw [Finset.sum_range_zero, add_zero]
    apply o2 _ _ _ _ _ hk
    intro l _
    rw [Finset.sum_range_zero, add_zero]
  | succ c ih =>
    rw [Finset.sum_range_succ, ← add_assoc, ← ih,
      ← o3 (fun l => x l + ∑ j in Finset.range c, a j * v j l) (v c) vzero (a c) k hk]
    apply o2 _ _ _ _ _ hk
    intro l _
    rw [Finset.sum_range_succ, ← add_assoc]


/-- For an injective operator `A vv[i]` is not a combination of `W_0, .., W_{i-1}`:
otherwise a nonzero combination of `vv[0..i]` would be mapped to zero. -/
theorem diag_nonzero {n : Nat} {mv : MatVec R} (hop : HermOp n mv) (beta : R) (i : Nat)
    (w : Work R) (hV : OrthoBasis n w.vv (i + 1)) (hcore : KCore n mv beta i w)
    (h1 : Nat → doublecomplex R)
    (hrel : ∀ k, k < n → mv cone (w.vv i) czero vzero k =
      ∑ m in Finset.range i, h1 m * Wvec w m k) : False := by
  obtain ⟨k2, k2r, k3, k4, k5, k7⟩ := hcore
  obtain ⟨y, hy⟩ := tri_solve_exists i w.hh h1 k5
  have hx : ∀ k, k < n →
      mv cone (fun l => w.vv i l + ∑ c in Finset.range i, (-(y c)) * w.vv c l) czero vzero k = 0 := by
    intro k hk
    rw [op_lin_sum hop (fun c => -(y c)) (fun c => w.vv c) (w.vv i) k hk i, hrel k hk]
    have := combo_cols n i w.hh y (Wvec w) (fun c => mv cone (w.vv c) czero vzero) k4 k hk
    have e1 : ∑ m in Finset.range i,
        (∑ c in Finset.range i, (if m ≤ c then w.hh c m * y c else 0)) * Wvec w m k =
        ∑ m in Finset.range i, h1 m * Wvec w m k := by
      apply Finset.sum_congr rfl
      intro m hm
      rw [hy m (Finset.mem_range.mp hm)]
    rw [e1] at this
    rw [← this, ← Finset.sum_add_distrib]
    apply Finset.sum_eq_zero
    intro c _
    ring
  have hx0 := hop.2.2.2.2 _ hx
  have h0 : zdotc n (w.vv i)
      (fun l => w.vv i l + ∑ c in Finset.range i, (-(y c)) * w.vv c l) = 0 :=
    zdotc_zero_right n _ _ hx0
  rw [zdotc_comb_right n (w.vv i) (w.vv i)
      (fun l => ∑ c in Finset.range i, (-(y c)) * w.vv c l) _ 1 1
      (fun k _ => by rw [one_mul, one_mul]),
    zdotc_sum_right n (w.vv i) i (fun c => -(y c)) (fun c => w.vv c) _ (fun k _ => rfl),
    hV i i (by omega) (by omega), if_pos rfl, Finset.sum_eq_zero (fun c hc => by
      have := Finset.mem_range.mp hc
      rw [hV i c (by omega) (by omega), if_neg (by omega), mul_zero]), mul_zero, add_zero,
    one_mul] at h0
  have := congrArg doublecomplex.r h0
  rw [dc_one_r, dc_zero_r] at this
  exact one_ne_zero this


end TriSolve

/-! ## One inner step keeps the invariant -/

section KStep

variable {R : Type} [LinearOrderedField R]

theorem givens_hh_row (ext : Ext R) (i : Nat) (w : Work R) (l : Nat) (hl : l ≠ i) :
    (givens ext i w).1.hh i l = (forN i (rotatePrev i) w).hh i l := by
  unfold givens
  simp only [set2, Function.update_same]
  rw [Function.update_noteq hl]
  split <;> rfl

theorem zd_mult_i (a : doublecomplex R) (t : R) (ha : a.i = 0) : (zd_mult a t).i = 0 := by
  simp only [zd_mult, ha, zero_mul]

theorem csq_of_real {c s : doublecomplex R} (hc : c.i = 0) (hs : s.i = 0)
    (h : cnormSq c + cnormSq s = 1) : c * c + s * s = 1 := by
  rw [re_sq_eq hc, re_sq_eq hs]
  apply dc_ext
  · rw [dc_add_r, dc_one_r]; exact h
  · rw [dc_add_i, dc_one_i]; simp

/-- The new rotation for a real pair `(h, t)` with nonzero norm `gam`: it is real,
`gam * c = h`, `gam * s = t`. -/
theorem givens_real {ext : Ext R} (i : Nat) (w : Work R)
    (hg : ext.dznrm2_ 2 (fun k => (forN i (rotatePrev i) w).hh i (i + k)) ≠ 0)
    (hh : ((forN i (rotatePrev i) w).hh i i).i = 0)
    (ht : ((forN i (rotatePrev i) w).hh i (i + 1)).i = 0) :
    ((givens ext i w).1.c i).i = 0 ∧ ((givens ext i w).1.s i).i = 0 ∧
    (⟨ext.dznrm2_ 2 (fun k => (forN i (rotatePrev i) w).hh i (i + k)), 0⟩ : doublecomplex R) *
      (givens ext i w).1.c i = (forN i (rotatePrev i) w).hh i i ∧
    (⟨ext.dznrm2_ 2 (fun k => (forN i (rotatePrev i) w).hh i (i + k)), 0⟩ : doublecomplex R) *
      (givens ext i w).1.s i = (forN i (rotatePrev i) w).hh i (i + 1) := by
  obtain ⟨c, s, hc, hs, -, -, -, -, -, hnz⟩ := givens_values ext i w
  obtain ⟨h1, h2⟩ := hnz hg
  rw [hc, hs, h1, h2]
  generalize ext.dznrm2_ 2 (fun k => (forN i (rotatePrev i) w).hh i (i + k)) = g at hg
  refine ⟨zd_mult_i _ _ hh, zd_mult_i _ _ ht, ?_, ?_⟩
  · apply dc_ext
    · simp only [dc_mul_r, zd_mult]; field_simp
    · simp only [dc_mul_i, zd_mult, hh]; ring
  · apply dc_ext
    · simp only [dc_mul_r, zd_mult]; field_simp
    · simp only [dc_mul_i, zd_mult, ht]; ring


/-- One inner step of `zfgmr` (Arnoldi step and rotation step) for a Hermitian
injective operator without preconditioner keeps the invariant. -/
theorem KInv_step {ext : Ext R} (hex : ExactNorm ext) {n : Nat} {mv : MatVec R}
    (hop : HermOp n mv) (beta : R) (f i : Nat) (w w1 : Work R) (hK : KInv n mv beta i w)
    (ha : arnoldi (f + 1) ext n mv none i w = some w1) :
    KCore n mv beta (i + 1) (givens ext i w1).1 ∧
    (w1.hh i (i + 1) ≠ 0 → OrthoBasis n (givens ext i w1).1.vv (i + 2) ∧
      nrmSq n (Uvec (givens ext i w1).1 (i + 1)) = 1) ∧
    (w1.hh i (i + 1) = 0 → (givens ext i w1).1.rs (i + 1) = 0) := by
  obtain ⟨hV, hU, hcore⟩ := hK
  obtain ⟨k2, k2r, k3, k4, k5, k7⟩ := hcore
  obtain ⟨a_c, a_s, a_rs, a_vv, a_hh, a_z, a_zi, ⟨t, ht0, hht, htz, htn⟩, a_orth, a_rel, a_dot⟩ :=
    arnoldi_facts hex hop f i w w1 hV ha
  have hre := arnoldi_col_real hop beta i w w1 hV ⟨k2, k2r, k3, k4, k5, k7⟩ a_dot
  have hcs1 : ∀ m, m < i → (w1.c m).i = 0 ∧ (w1.s m).i = 0 ∧
      w1.c m * w1.c m + w1.s m * w1.s m = 1 := by
    intro m hm; rw [a_c, a_s]; exact k2 m hm
  obtain ⟨r_re, r_rel⟩ := rotatePrev_loop i w1 hcs1 hre i le_rfl
  obtain ⟨-, -, -, -, -, p6⟩ := forN_rotatePrev_frame i w1 i
  obtain ⟨g_vv, g_z, g_c, g_s, g_rs, g_hh, -⟩ := givens_frame ext i w1
  obtain ⟨c, s, hc, hs, hr1, hr0, -, hii, -, -⟩ := givens_values ext i w1
  have g_row := givens_hh_row ext i w1
  -- the rotated basis is the same in `w`, `w1` and the result
  have eU1 : ∀ m, m ≤ i → Uvec w1 m = Uvec w m := fun m hm =>
    Uvec_congr w w1 m (fun j _ => by rw [a_c, a_s]; exact ⟨rfl, rfl⟩)
      (fun j hj => a_vv j (by omega))
  have eW1 : ∀ m, m < i → Wvec w1 m = Wvec w m := fun m hm =>
    Wvec_congr w w1 m (fun j _ => by rw [a_c, a_s]; exact ⟨rfl, rfl⟩)
      (fun j hj => a_vv j (by omega))
  have eU2 : ∀ m, m ≤ i → Uvec (givens ext i w1).1 m = Uvec w m := fun m hm =>
    Uvec_congr w _ m (fun j hj => by
        rw [g_c j (by omega), g_s j (by omega), a_c, a_s]; exact ⟨rfl, rfl⟩)
      (fun j hj => by rw [g_vv]; exact a_vv j (by omega))
  have eW2 : ∀ m, m < i → Wvec (givens ext i w1).1 m = Wvec w m := fun m hm =>
    Wvec_congr w _ m (fun j hj => by
        rw [g_c j (by omega), g_s j (by omega), a_c, a_s]; exact ⟨rfl, rfl⟩)
      (fun j hj => by rw [g_vv]; exact a_vv j (by omega))
  -- the new column in the rotated basis, before the new rotation
  have hcol : ∀ k, k < n → mv cone (w.vv i) czero vzero k =
      ∑ m in Finset.range i, (forN i (rotatePrev i) w1).hh i m * Wvec w m k +
        (forN i (rotatePrev i) w1).hh i i * Uvec w i k +
        (forN i (rotatePrev i) w1).hh i (i + 1) * w1.vv (i + 1) k := by
    intro k hk
    rw [a_rel k hk, p6 i (i + 1) (Or.inr (by omega))]
    congr 1
    have e1 : ∑ j in Finset.range (i + 1), w1.hh i j * w.vv j k =
        ∑ j in Finset.range (i + 1), w1.hh i j * w1.vv j k := by
      apply Finset.sum_congr rfl
      intro j hj
      rw [a_vv j (by have := Finset.mem_range.mp hj; omega)]
    rw [e1, ← r_rel k, Finset.sum_range_succ]
    congr 1
    · apply Finset.sum_congr rfl
      intro j hj
      have hj1 := Finset.mem_range.mp hj
      unfold mixBasis
      rw [if_pos hj1, eW1 j hj1]
    · unfold mixBasis
      rw [if_neg (show ¬ i < i by omega), if_pos rfl, eU1 i le_rfl]
  have hti : ((forN i (rotatePrev i) w1).hh i (i + 1)).i = 0 := by
    rw [p6 i (i + 1) (Or.inr (by omega)), hht]
  -- the norm of the pair is not zero
  have hg : ext.dznrm2_ 2 (fun k => (forN i (rotatePrev i) w1).hh i (i + k)) ≠ 0 := by
    intro hg0
    have z0 := hex.zero_of_nrm 2 _ hg0 0 (by norm_num)
    have z1 := hex.zero_of_nrm 2 _ hg0 1 (by norm_num)
    simp only [Nat.add_zero] at z0
    apply diag_nonzero hop beta i w hV ⟨k2, k2r, k3, k4, k5, k7⟩
      (fun m => (forN i (rotatePrev i) w1).hh i m)
    intro k hk
    rw [hcol k hk, z0, z1, zero_mul, zero_mul, add_zero, add_zero]
  obtain ⟨rc, rs, gc, gs⟩ := givens_real i w1 hg (r_re i le_rfl) hti
  have hunit := csq_of_real rc rs (givens_unit hex i w1)
  generalize hgam : ext.dznrm2_ 2 (fun k => (forN i (rotatePrev i) w1).hh i (i + k)) = gam
    at hg gc gs
  have hdiag : (givens ext i w1).1.hh i i = ⟨gam, 0⟩ := by
    rw [hii, ← hc, ← hs, ← gc, ← gs]
    linear_combination (⟨gam, 0⟩ : doublecomplex R) * hunit
  generalize hw2 : (givens ext i w1).1 = w2 at *
  have hcore2 : KCore n mv beta (i + 1) w2 := by
    refine ⟨?_, ?_, ?_, ?_, ?_, ?_⟩
    · intro m hm
      by_cases hmi : m = i
      · subst hmi; exact ⟨rc, rs, hunit⟩
      · rw [g_c m hmi, g_s m hmi, a_c, a_s]; exact k2 m (by omega)
    · intro c1 m hc1 hm
      by_cases hci : c1 = i
      · subst hci
        by_cases hmi : m = c1
        · subst hmi; rw [hdiag]
        · rw [g_row m hmi]; exact r_re m hm
      · rw [g_hh c1 m hci, a_hh c1 m hci]; exact k2r c1 m (by omega) hm
    · intro k hk
      rw [g_vv, a_vv 0 (by omega), k3 k hk, Finset.sum_range_succ, hr0, hr1, a_rs]
      have e1 : ∑ m in Finset.range i, w2.rs m * Wvec w2 m k =
          ∑ m in Finset.range i, w.rs m * Wvec w m k := by
        apply Finset.sum_congr rfl
        intro m hm
        have hm1 := Finset.mem_range.mp hm
        rw [g_rs m (by omega) (by omega), a_rs, eW2 m hm1]
      rw [e1, ← eU2 i le_rfl, Uvec_unrot w2 i k hunit, hc, hs]
      ring
    · intro c1 k hc1 hk
      by_cases hci : c1 = i
      · subst hci
        rw [g_vv, a_vv c1 (by omega), hcol k hk, Finset.sum_range_succ, hdiag]
        have e1 : ∑ m in Finset.range c1, w2.hh c1 m * Wvec w2 m k =
            ∑ m in Finset.range c1, (forN c1 (rotatePrev c1) w1).hh c1 m * Wvec w m k := by
          apply Finset.sum_congr rfl
          intro m hm
          have hm1 := Finset.mem_range.mp hm
          rw [g_row m (by omega), eW2 m hm1]
        rw [e1, ← gc, ← gs]
        simp only [Wvec]
        rw [eU2 c1 le_rfl, g_vv]
        ring
      · have hlt : c1 < i := by omega
        rw [g_vv, a_vv c1 (by omega), k4 c1 k hlt hk]
        apply Finset.sum_congr rfl
        intro m hm
        have hm1 := Finset.mem_range.mp hm
        rw [g_hh c1 m hci, a_hh c1 m hci, eW2 m (by omega)]
    · intro c1 hc1
      by_cases hci : c1 = i
      · subst hci
        rw [hdiag]
        intro h0
        exact hg (congrArg doublecomplex.r h0)
      · rw [g_hh c1 c1 hci, a_hh c1 c1 hci]; exact k5 c1 (by omega)
    · intro c1 k hc1 hk
      rw [g_z, g_vv, a_vv c1 (by omega)]
      by_cases hci : c1 = i
      · subst hci; exact a_zi k hk
      · rw [a_z c1 k (by omega)]; exact k7 c1 k (by omega) hk
  refine ⟨hcore2, fun hne => ?_, fun h0 => ?_⟩
  · have htne : t ≠ 0 := by
      intro h; apply hne; rw [hht, h]; rfl
    obtain ⟨hn1, hOB⟩ := htn htne
    refine ⟨by rw [g_vv]; exact hOB, ?_⟩
    apply Uvec_norm_succ n w2 i rc rs hunit
    · rw [eU2 i le_rfl]; exact hU
    · rw [g_vv]; exact hn1
    · apply Uvec_orth
      intro j hj
      rw [g_vv, a_vv j (by omega)]
      exact a_orth j (by omega)
  · rw [← hw2]
    exact (givens_lucky ext i w1 h0).1


end KStep

/-! ## The inner loop reaches the tolerance -/

section KLoop

variable {R : Type} [LinearOrderedField R]

/-- The inner loop of `zfgmr` for a Hermitian injective operator of size `n` without
preconditioner, `im = n` and a budget above `n`: from the invariant at step `i` it
returns, leaves at an index `iend < n` through the test of the estimate, and at the
exit the rotated relations hold and the rotated residual is at most `eps1`. -/
theorem innerLoop_gmres {ext : Ext R} (hex : ExactNorm ext) (habs : AbsBound ext) {n : Nat}
    {mv : MatVec R} (hop : HermOp n mv) (beta : R) (f : Nat) (maxits : Int)
    (hmax : maxits < 2147483648) (hn : (n : Int) < maxits) :
    ∀ (k i : Nat) (st : State R), i + k = n → KInv n mv beta i st.work → 0 ≤ st.eps1 →
      st.its = (i : Int) →
      ∃ st1 iend, innerLoop (f + 1) ext n mv none maxits k i st = some (st1, iend) ∧
        iend < n ∧ i ≤ iend ∧ KCore n mv beta (iend + 1) st1.work ∧
        cnormSq (st1.work.rs (iend + 1)) * nrmSq n (Uvec st1.work (iend + 1)) ≤
          st1.eps1 * st1.eps1 ∧
        st1.its = (iend : Int) + 1 ∧ st1.inner = st.inner + (iend + 1 - i) ∧
        st1.eps1 = st.eps1 ∧ st1.sol = st.sol ∧ st1.matvecs = st.matvecs + (iend + 1 - i) ∧
        st1.work.vv 0 = st.work.vv 0 := by
  intro k
  induction k with
  | zero =>
    intro i st hik hK _ _
    exfalso
    have hin : i = n := by omega
    subst hin
    exact ortho_overfull i _ hK.1
  | succ k ih =>
    intro i st hik hK he hits
    obtain ⟨w1, ha, -, -⟩ := arnoldi_orth hex f n mv none i st.work hK.1
    obtain ⟨hcore2, hcont, hlucky⟩ := KInv_step hex hop beta f i st.work w1 hK ha
    obtain ⟨gvv, -, -, -, -, -, gest⟩ := givens_frame ext i w1
    obtain ⟨-, -, -, avv, -⟩ := arnoldi_facts hex hop f i st.work w1 hK.1 ha
    have hv0 : (givens ext i w1).1.vv 0 = st.work.vv 0 := by
      rw [gvv]; exact avv 0 (by omega)
    have hw : wrap32 (st.its + 1) = (i : Int) + 1 := by
      rw [hits]; exact wrap32_of_range (by omega) (by omega)
    unfold innerLoop
    simp only [ha]
    by_cases htest : (givens ext i w1).2 ≤ st.eps1 ∨ wrap32 (st.its + 1) ≥ maxits
    · rw [if_pos htest]
      have hest : (givens ext i w1).2 ≤ st.eps1 := by
        rcases htest with h | h
        · exact h
        · rw [hw] at h; omega
      refine ⟨_, i, rfl, by omega, le_rfl, hcore2, ?_, hw, by simp, rfl, rfl, by simp, hv0⟩
      show cnormSq ((givens ext i w1).1.rs (i + 1)) *
        nrmSq n (Uvec (givens ext i w1).1 (i + 1)) ≤ st.eps1 * st.eps1
      by_cases ht : w1.hh i (i + 1) = 0
      · rw [hlucky ht, cnormSq_zero, zero_mul]
        exact mul_self_nonneg _
      · rw [(hcont ht).2, mul_one]
        obtain ⟨b1, b2⟩ := habs.2 ((givens ext i w1).1.rs (i + 1))
        rw [← gest] at b1 b2
        calc cnormSq ((givens ext i w1).1.rs (i + 1))
            ≤ (givens ext i w1).2 * (givens ext i w1).2 := b2
          _ ≤ st.eps1 * st.eps1 := mul_le_mul hest hest b1 he
    · rw [if_neg htest]
      have ht : w1.hh i (i + 1) ≠ 0 := by
        intro h0
        apply htest
        left
        rw [(givens_lucky ext i w1 h0).2, habs.1]
        exact he
      obtain ⟨hOB, hUn⟩ := hcont ht
      obtain ⟨st1, iend, h1, h2, h3, h4, h5, h6, h7, h8, h9, h10, h11⟩ := ih (i + 1)
        { st with its := wrap32 (st.its + 1), work := (givens ext i w1).1,
                  inner := st.inner + 1, matvecs := st.matvecs + 1 }
        (by omega) ⟨hOB, hUn, hcore2⟩ he (by rw [hw]; push_cast; ring)
      refine ⟨st1, iend, h1, h2, by omega, h4, h5, h6, ?_, h8, h9, ?_, h11.trans hv0⟩
      · rw [h7]; simp only; omega
      · rw [h10]; simp only; omega


end KLoop

/-! ## Symmetric positive-definite operators -/

section SpdOp

variable {R : Type} [LinearOrderedField R]

theorem matOp_apply (n : Nat) (M : Nat → Nat → R) (x y : Vec R) (k : Nat) (hk : k < n) :
    matOp n M cone x czero y k = ∑ l in Finset.range n, x l * ⟨M k l, 0⟩ := by
  unfold matOp
  rw [if_pos hk, forN_zadd, z_add_eq, zz_mult_eq, zz_mult_eq, czero_eq, cone_eq, zero_mul,
    add_zero, one_mul, zero_add]
  apply Finset.sum_congr rfl
  intro l _
  exact zd_mult_eq _ _

theorem matOp_apply_r (n : Nat) (M : Nat → Nat → R) (x y : Vec R) (k : Nat) (hk : k < n) :
    (matOp n M cone x czero y k).r = ∑ l in Finset.range n, M k l * (x l).r := by
  rw [matOp_apply n M x y k hk, dc_sum_r]
  apply Finset.sum_congr rfl
  intro l _
  rw [dc_mul_r]; ring

theorem matOp_apply_i (n : Nat) (M : Nat → Nat → R) (x y : Vec R) (k : Nat) (hk : k < n) :
    (matOp n M cone x czero y k).i = ∑ l in Finset.range n, M k l * (x l).i := by
  rw [matOp_apply n M x y k hk, dc_sum_i]
  apply Finset.sum_congr rfl
  intro l _
  rw [dc_mul_i]; ring

theorem posDef_kernel (n : Nat) (M : Nat → Nat → R) (hp : PosDefM n M) (v : Nat → R)
    (h : ∀ k, k < n → ∑ l in Finset.range n, M k l * v l = 0) : ∀ k, k < n → v k = 0 := by
  by_contra hc
  push_neg at hc
  obtain ⟨k, hk, hne⟩ := hc
  have hpos := hp v ⟨k, hk, hne⟩
  have hz : ∑ k in Finset.range n, ∑ l in Finset.range n, v k * M k l * v l = 0 := by
    apply Finset.sum_eq_zero
    intro a ha
    have : ∑ l in Finset.range n, v a * M a l * v l =
        v a * ∑ l in Finset.range n, M a l * v l := by
      rw [Finset.mul_sum]
      apply Finset.sum_congr rfl
      intro l _
      ring
    rw [this, h a (Finset.mem_range.mp ha), mul_zero]
  rw [hz] at hpos
  exact lt_irrefl _ hpos

/-- A real symmetric positive-definite matrix gives a Hermitian injective operator. -/
theorem matOp_hermOp (n : Nat) (M : Nat → Nat → R) (hs : SymM n M) (hp : PosDefM n M) :
    HermOp n (matOp n M) := by
  refine ⟨?_, ?_, ?_, ?_, ?_⟩
  · intro x y y1 k hk
    rw [matOp_apply n M x y k hk, matOp_apply n M x y1 k hk]
  · intro x x1 y k hx hk
    rw [matOp_apply n M x y k hk, matOp_apply n M x1 y k hk]
    apply Finset.sum_congr rfl
    intro l hl
    rw [hx l (Finset.mem_range.mp hl)]
  · intro x v y a k hk
    rw [matOp_apply n M _ y k hk, matOp_apply n M x y k hk, matOp_apply n M v y k hk,
      Finset.mul_sum, ← Finset.sum_add_distrib]
    apply Finset.sum_congr rfl
    intro l _
    ring
  · intro x y
    rw [zdotc_eq_sum, zdotc_eq_sum, zz_conj_sum]
    have e1 : ∑ k in Finset.range n, zz_conj (x k) * matOp n M cone y czero vzero k =
        ∑ k in Finset.range n, ∑ l in Finset.range n,
          zz_conj (x k) * y l * (⟨M k l, 0⟩ : doublecomplex R) := by
      apply Finset.sum_congr rfl
      intro k hk
      rw [matOp_apply n M y vzero k (Finset.mem_range.mp hk), Finset.mul_sum]
      apply Finset.sum_congr rfl
      intro l _
      ring
    have e2 : ∑ k in Finset.range n, zz_conj (zz_conj (y k) * matOp n M cone x czero vzero k) =
        ∑ k in Finset.range n, ∑ l in Finset.range n,
          zz_conj (x l) * y k * (⟨M l k, 0⟩ : doublecomplex R) := by
      apply Finset.sum_congr rfl
      intro k hk
      rw [matOp_apply n M x vzero k (Finset.mem_range.mp hk), zz_conj_mul, zz_conj_conj,
        zz_conj_sum, Finset.mul_sum]
      apply Finset.sum_congr rfl
      intro l hl
      rw [zz_conj_mul, hs k l (Finset.mem_range.mp hk) (Finset.mem_range.mp hl)]
      have : zz_conj (⟨M l k, 0⟩ : doublecomplex R) = ⟨M l k, 0⟩ := re_conj_eq rfl
      rw [this]
      ring
    rw [e1, e2, Finset.sum_comm]
  · intro x hx
    have hr := posDef_kernel n M hp (fun l => (x l).r) (fun k hk => by
      rw [← matOp_apply_r n M x vzero k hk, hx k hk]; rfl)
    have hi := posDef_kernel n M hp (fun l => (x l).i) (fun k hk => by
      rw [← matOp_apply_i n M x vzero k hk, hx k hk]; rfl)
    intro k hk
    exact dc_ext (hr k hk) (hi k hk)

theorem updateSol_eq (n i : Nat) (w : Work R) (sol : Vec R) (k : Nat) (hk : k < n) :
    updateSol n i w sol k = sol k + ∑ j in Finset.range (i + 1), w.rs j * w.z j k := by
  unfold updateSol
  generalize i + 1 = cnt
  induction cnt with
  | zero => simp [forN]
  | succ c ih =>
    rw [Finset.sum_range_succ, ← add_assoc, ← ih]
    simp only [forN]
    rw [if_pos hk]
    rfl

theorem nrmSq_cscale (n : Nat) (a : doublecomplex R) (x y : Vec R)
    (h : ∀ k, k < n → y k = a * x k) : nrmSq n y = cnormSq a * nrmSq n x := by
  rw [nrmSq_eq_sum, nrmSq_eq_sum, Finset.mul_sum]
  apply Finset.sum_congr rfl
  intro k hk
  rw [h k (Finset.mem_range.mp hk), cnormSq_mul]

theorem absBound_real : AbsBound (Ext.ofSqrt Real.sqrt) := by
  refine ⟨?_, ?_⟩
  · show Real.sqrt (cnormSq (0 : doublecomplex ℝ)) = 0
    rw [cnormSq_zero, Real.sqrt_zero]
  · intro z
    refine ⟨Real.sqrt_nonneg _, ?_⟩
    show cnormSq z ≤ Real.sqrt (cnormSq z) * Real.sqrt (cnormSq z)
    rw [Real.mul_self_sqrt (cnormSq_nonneg z)]


end SpdOp

/-! ## Solution update and convergence of the restarted solver -/

section Update

variable {R : Type} [LinearOrderedField R]

/-- After the back-substitution and the solution update the true residual is the last
rotated basis vector scaled by the last entry of the rotated right-hand side. -/
theorem gmres_residual {n : Nat} {mv : MatVec R} (hop : HermOp n mv) (beta : R) (i : Nat)
    (w w4 : Work R) (hcore : KCore n mv beta (i + 1) w) (hz : w4.z = w.z)
    (hsolve : ∀ k, k ≤ i → ∑ j in Finset.Icc k i, w.hh j k * w4.rs j = w.rs k)
    (rhs sol : Vec R)
    (hv0 : ∀ k, k < n →
      (⟨beta, 0⟩ : doublecomplex R) * w.vv 0 k = rhs k - mv cone sol czero vzero k)
    (v : Vec R) (k : Nat) (hk : k < n) :
    residual n mv rhs (updateSol n i w4 sol) v k = w.rs (i + 1) * Uvec w (i + 1) k := by
  obtain ⟨-, -, h3, h4, -, h6⟩ := hcore
  have hy := hop.1
  have hx := hop.2.1
  have e1 : mv cone (updateSol n i w4 sol) czero v k =
      mv cone (fun l => sol l + ∑ j in Finset.range (i + 1), w4.rs j * w.vv j l) czero vzero k := by
    rw [hy _ v vzero k hk]
    apply hx _ _ _ _ _ hk
    intro l hl
    rw [updateSol_eq n i w4 sol l hl]
    congr 1
    apply Finset.sum_congr rfl
    intro j hj
    rw [hz, h6 j l (Finset.mem_range.mp hj) hl]
  have e2 := op_lin_sum hop w4.rs w.vv sol k hk (i + 1)
  have e3 := combo_cols n (i + 1) w.hh w4.rs (Wvec w)
    (fun c => mv cone (w.vv c) czero vzero) (fun c k hc hk => h4 c k hc hk) k hk
  have e4 : ∀ m, m ∈ Finset.range (i + 1) →
      (∑ c in Finset.range (i + 1), (if m ≤ c then w.hh c m * w4.rs c else 0)) * Wvec w m k =
        w.rs m * Wvec w m k := by
    intro m hm
    rw [← sum_Icc_mask m i (fun c => w.hh c m * w4.rs c),
      hsolve m (Nat.lt_succ_iff.mp (Finset.mem_range.mp hm))]
  rw [Finset.sum_congr rfl e4] at e3
  have e5 := h3 k hk
  rw [hv0 k hk] at e5
  unfold residual
  simp only [if_pos hk]
  rw [z_sub_eq, e1, e2, e3]
  have e6 : rhs k - mv cone sol czero vzero k - ∑ m in Finset.range (i + 1), w.rs m * Wvec w m k =
      w.rs (i + 1) * Uvec w (i + 1) k := by
    rw [e5]; ring
  rw [← e6]; ring

/-- One outer pass of `zfgmr` for a Hermitian injective operator of size `n` with
`im = n`, no preconditioner and a budget above `n`, entered with `its = 0` and an
initial residual that fails the initial test: the pass leaves through the convergence
exit after at most `n` inner steps with a true residual of at most `tol` times the
initial one. -/
theorem outerPass_gmres {ext : Ext R} (hex : ExactNorm ext) (habs : AbsBound ext) {n : Nat}
    {mv : MatVec R} (hop : HermOp n mv) (rhs : Vec R) (tol : R) (ht0 : 0 < tol) (ht1 : tol < 1)
    (maxits : Int) (hmax : maxits < 2147483648) (hn : (n : Int) < maxits) (f : Nat)
    (st : State R) (hits : st.its = 0)
    (hb : (initResidual ext n mv rhs st).2 > tol * ext.dznrm2_ n rhs) :
    ∃ st4, outerPass (f + 1) ext n mv none rhs tol n maxits st = .ok (.exit .converged st4) ∧
      0 ≤ st4.its ∧ st4.its ≤ n ∧ st4.its = (st4.inner : Int) - st.inner ∧
      st.inner + 1 ≤ st4.inner ∧ st4.inner ≤ st.inner + n ∧
      ext.dznrm2_ n (residual n mv rhs st4.sol vzero) ≤
        tol * (initResidual ext n mv rhs st).2 := by
  have hnim : ¬ ((n : Int) < 0) := by omega
  generalize hbeta : (initResidual ext n mv rhs st).2 = beta at *
  generalize hst1 : (initResidual ext n mv rhs st).1 = st1 at *
  have hst1p : st1.its = 0 ∧ st1.inner = st.inner ∧ st1.sol = st.sol ∧
      st1.work.vv 0 = residual n mv rhs st.sol (st.work.vv 0) := by
    rw [← hst1]; simp [initResidual, hits]
  have hbdef : beta = ext.dznrm2_ n (st1.work.vv 0) := by
    rw [← hbeta, hst1p.2.2.2]; rfl
  have hbpos : 0 < beta := by
    have h0 : 0 ≤ tol * ext.dznrm2_ n rhs := mul_nonneg ht0.le (hex.nonneg n rhs)
    exact lt_of_le_of_lt h0 hb
  have hOB := prepare_orth hex n tol st1 (by rw [← hbdef]; exact hbpos.ne')
  rw [← hbdef] at hOB
  generalize hst2 : prepare n tol beta st1 = st2 at *
  have hst2p : st2.its = 0 ∧ st2.inner = st.inner ∧ st2.sol = st.sol ∧
      st2.eps1 = tol * beta ∧ st2.work.rs 0 = ⟨beta, 0⟩ := by
    rw [← hst2]
    simp [prepare, hst1p.1, hst1p.2.1, hst1p.2.2.1]
  have hv2 : ∀ k, k < n → st2.work.vv 0 k = zd_mult (st1.work.vv 0 k) (1 / beta) := by
    intro k hk
    rw [← hst2]
    simp [prepare, hk]
  have hnorm : nrmSq n (st2.work.vv 0) = 1 := by
    have := hOB 0 0 (by omega) (by omega)
    rw [zdotc_self, if_pos rfl] at this
    exact congrArg doublecomplex.r this
  have hK : KInv n mv beta 0 st2.work := by
    refine ⟨hOB, hnorm, ?_, ?_, ?_, ?_, ?_, ?_⟩
    · intro m hm; omega
    · intro c m hc; omega
    · intro k _
      rw [Finset.sum_range_zero, zero_add, hst2p.2.2.2.2]
      rfl
    · intro c k hc; omega
    · intro c hc; omega
    · intro c k hc; omega
  obtain ⟨st3, iend, hin, hlt, -, hcore, hbound, hits3, hinner3, heps3, hsol3, -, hvv3⟩ :=
    innerLoop_gmres hex habs hop beta f maxits hmax hn n 0 st2 (by omega) hK
      (by rw [hst2p.2.2.2.1]; exact mul_nonneg ht0.le hbpos.le) (by rw [hst2p.1]; rfl)
  have hcl : clampIndex (n : Int) iend = (iend : Int) := by
    unfold clampIndex
    rw [if_neg]
    omega
  obtain ⟨w4, hbs, -, b2, b3, -, -, -, b7⟩ := backSolve_spec iend st3.work
    (fun k hk => hcore.2.2.2.2.1 k (by omega))
  have hv0 : ∀ k, k < n → (⟨beta, 0⟩ : doublecomplex R) * st3.work.vv 0 k =
      rhs k - mv cone st.sol czero vzero k := by
    intro k hk
    rw [hvv3, hv2 k hk, mul_comm, ← zd_mult_eq, zd_mult_inv_cancel beta hbpos.ne', hst1p.2.2.2]
    unfold residual
    simp only [if_pos hk]
    rw [z_sub_eq, hop.1 _ (st.work.vv 0) vzero k hk]
  have hpt : ∀ (v : Vec R) k, k < n →
      residual n mv rhs (updateSol n iend w4 st3.sol) v k =
        st3.work.rs (iend + 1) * Uvec st3.work (iend + 1) k := by
    intro v k hk
    rw [hsol3, hst2p.2.2.1]
    exact gmres_residual hop beta iend st3.work w4 hcore b3 b7 rhs st.sol hv0 v k hk
  have hres : ∀ v : Vec R,
      ext.dznrm2_ n (residual n mv rhs (updateSol n iend w4 st3.sol) v) ≤ st3.eps1 := by
    intro v
    have he3 : 0 ≤ st3.eps1 := by
      rw [heps3, hst2p.2.2.2.1]; exact mul_nonneg ht0.le hbpos.le
    rw [mul_self_le_mul_self_iff (hex.nonneg n _) he3, (hex n _).2,
      nrmSq_cscale n _ _ _ (hpt v)]
    exact hbound
  have he3 : st3.eps1 = tol * beta := by rw [heps3, hst2p.2.2.2.1]
  have hrc : ∀ (b : R) (s : State R), s.eps1 = tol * beta → b ≤ tol * beta →
      restartCheck tol maxits b s = .exit .converged s := by
    intro b s hs hle
    unfold restartCheck
    have e1 : s.eps1 / tol = beta := by rw [hs]; field_simp
    have e2 : tol * beta < beta := by nlinarith
    rw [if_neg (by rw [e1]; exact not_not.mpr (lt_of_le_of_lt hle e2)), if_pos (by rw [hs]; exact hle)]
  unfold outerPass
  simp only [hnim, if_false, hbeta, hst1, hb, not_true_eq_false, hst2, Int.toNat_ofNat, hin, hcl]
  rw [if_neg (by omega)]
  unfold solveUpdate
  simp only [hbs, Option.map_some']
  refine ⟨_, congrArg Except.ok (hrc _ _ he3 (by rw [← he3]; exact hres _)), ?_, ?_, ?_, ?_, ?_, ?_⟩
  · show 0 ≤ st3.its
    omega
  · show st3.its ≤ n
    omega
  · show st3.its = (st3.inner : Int) - st.inner
    rw [hits3, hinner3, hst2p.2.1]; push_cast; omega
  · show st.inner + 1 ≤ st3.inner
    rw [hinner3, hst2p.2.1]; omega
  · show st3.inner ≤ st.inner + n
    rw [hinner3, hst2p.2.1]; omega
  · show ext.dznrm2_ n (residual n mv rhs (updateSol n iend w4 st3.sol) vzero) ≤ tol * beta
    rw [← he3]; exact hres _

/-- GMRES convergence: for a Hermitian injective operator of size `n`, no
preconditioner, `im = n`, `0 < tol < 1` and a budget above `n`, `zfgmr` returns 0
after at most `n` inner iterations; it leaves either at the initial test with `sol`
untouched and a residual of at most `tol * ||rhs||`, or at the convergence test with a
residual of at most `tol` times the initial residual. -/
theorem zfgmr_gmres {ext : Ext R} (hex : ExactNorm ext) (habs : AbsBound ext) {n : Nat}
    {mv : MatVec R} (hop : HermOp n mv) (rhs sol : Vec R) (tol : R) (ht0 : 0 < tol)
    (ht1 : tol < 1) (maxits : Int) (hmax : maxits < 2147483648) (hn : (n : Int) < maxits)
    (f : Nat) :
    ∃ r, zfgmr (f + 1) ext n mv none rhs sol tol n maxits = .ok r ∧ r.retval = 0 ∧
      r.final.inner ≤ n ∧ r.itmax = r.final.inner ∧
      ((r.exit = Exit.initial ∧ r.final.inner = 0 ∧ r.sol = sol ∧
          ext.dznrm2_ n (residual n mv rhs sol vzero) ≤ tol * ext.dznrm2_ n rhs) ∨
       (r.exit = Exit.converged ∧ 1 ≤ r.final.inner ∧
          ext.dznrm2_ n (residual n mv rhs r.sol vzero) ≤
            tol * ext.dznrm2_ n (residual n mv rhs sol vzero))) := by
  by_cases hb : ext.dznrm2_ n (residual n mv rhs sol (fun _ => czero)) > tol * ext.dznrm2_ n rhs
  · obtain ⟨st4, hp, h0, h1, h2, h3, h4, h5⟩ := outerPass_gmres hex habs hop rhs tol ht0 ht1
      maxits hmax hn f
      { sol := sol, its := 0, eps1 := 0, work := Work.init, inner := 0, matvecs := 0, lasti := 0 }
      rfl hb
    refine ⟨finish maxits .converged st4, ?_, ?_, ?_, ?_, Or.inr ⟨rfl, ?_, h5⟩⟩
    · unfold zfgmr
      rw [outerLoop]
      simp only [hp]
    · show (if st4.its ≥ maxits then (1 : Int) else 0) = 0
      rw [if_neg (by omega)]
    · show st4.inner ≤ n
      simpa using h4
    · show st4.its = (st4.inner : Int)
      rw [h2]; simp
    · show 1 ≤ st4.inner
      simpa using h3
  · obtain ⟨r, h1, h2, h3, h4, h5, h6, -⟩ := zfgmr_initial ext n mv none rhs sol tol n maxits f
      (by omega) hb
    refine ⟨r, h1, ?_, by omega, by rw [h3, h6]; rfl, Or.inl ⟨h2, h6, h5, not_lt.mp hb⟩⟩
    rw [h4, if_neg (by omega)]


end Update

/-! ## Convergence for symmetric positive-definite systems -/

section SpdClaim

variable {R : Type} [LinearOrderedField R]

/-- C9 (amended). In exact arithmetic, for every real symmetric positive-definite
`n x n` matrix `M` as operator, no preconditioner, `im = n`, `0 < tol < 1`, a budget
`maxits > n` and every `rhs` and initial guess: `zfgmr` returns 0 after at most `n`
inner iterations, and either it left at the initial test with `sol` untouched and
`||rhs - A sol|| <= tol * ||rhs||`, or it left at the convergence test after at least
one inner iteration with `||rhs - A sol|| <= tol * ||rhs - A sol_initial||`. -/
theorem C9_spd_convergence {ext : Ext R} (hex : ExactNorm ext) (habs : AbsBound ext) (n : Nat)
    (M : Nat → Nat → R) (hs : SymM n M) (hp : PosDefM n M) (rhs sol : Vec R) (tol : R)
    (ht0 : 0 < tol) (ht1 : tol < 1) (maxits : Int) (hn : (n : Int) < maxits)
    (hmax : maxits < 2147483648) (f : Nat) :
    ∃ r, zfgmr (f + 1) ext n (matOp n M) none rhs sol tol n maxits = .ok r ∧ r.retval = 0 ∧
      r.final.inner ≤ n ∧ r.itmax = r.final.inner ∧
      ((r.exit = Exit.initial ∧ r.final.inner = 0 ∧ r.sol = sol ∧
          ext.dznrm2_ n (residual n (matOp n M) rhs sol vzero) ≤ tol * ext.dznrm2_ n rhs) ∨
       (r.exit = Exit.converged ∧ 1 ≤ r.final.inner ∧
          ext.dznrm2_ n (residual n (matOp n M) rhs r.sol vzero) ≤
            tol * ext.dznrm2_ n (residual n (matOp n M) rhs sol vzero))) :=
  zfgmr_gmres hex habs (matOp_hermOp n M hs hp) rhs sol tol ht0 ht1 maxits hmax hn f


theorem symM_two_one (n : Nat) : SymM n (fun k l => if k = l then (2 : ℝ) else 1) := by
  intro k l _ _
  show (if k = l then (2 : ℝ) else 1) = if l = k then (2 : ℝ) else 1
  by_cases h : k = l
  · rw [if_pos h, if_pos h.symm]
  · rw [if_neg h, if_neg (fun e => h e.symm)]

theorem posDefM_two_one : PosDefM 3 (fun k l => if k = l then (2 : ℝ) else 1) := by
  intro v hv
  obtain ⟨k, hk, hne⟩ := hv
  have hq : v 0 * v 0 + v 1 * v 1 + v 2 * v 2 ≠ 0 := by
    intro h0
    have h1 := mul_self_nonneg (v 0)
    have h2 := mul_self_nonneg (v 1)
    have h3 := mul_self_nonneg (v 2)
    have e0 : v 0 * v 0 = 0 := by linarith
    have e1 : v 1 * v 1 = 0 := by linarith
    have e2 : v 2 * v 2 = 0 := by linarith
    have z0 := mul_self_eq_zero.mp e0
    have z1 := mul_self_eq_zero.mp e1
    have z2 := mul_self_eq_zero.mp e2
    interval_cases k
    · exact hne z0
    · exact hne z1
    · exact hne z2
  have hq0 : 0 ≤ v 0 * v 0 + v 1 * v 1 + v 2 * v 2 := by
    have h1 := mul_self_nonneg (v 0)
    have h2 := mul_self_nonneg (v 1)
    have h3 := mul_self_nonneg (v 2)
    linarith
  have hq1 : 0 < v 0 * v 0 + v 1 * v 1 + v 2 * v 2 := lt_of_le_of_ne hq0 (Ne.symm hq)
  have hs := mul_self_nonneg (v 0 + v 1 + v 2)
  have e : ∑ k in Finset.range 3, ∑ l in Finset.range 3,
      v k * (fun k l => if k = l then (2 : ℝ) else 1) k l * v l =
      (v 0 * v 0 + v 1 * v 1 + v 2 * v 2) + (v 0 + v 1 + v 2) * (v 0 + v 1 + v 2) := by
    simp only [Finset.sum_range_succ, Finset.sum_range_zero, zero_add]
    norm_num
    ring
  rw [e]
  linarith

theorem posDefM_one : PosDefM 1 (fun _ _ => (1 : ℝ)) := by
  intro v hv
  obtain ⟨k, hk, hne⟩ := hv
  have hk0 : k = 0 := by omega
  subst hk0
  simp only [Finset.sum_range_succ, Finset.sum_range_zero, zero_add, mul_one]
  exact mul_self_pos.mpr hne

/-- Witness for C9: the matrix with 2 on the diagonal and 1 elsewhere, of size 3, with
`tol = 1e-8`, zero initial guess and a budget of 10. -/
theorem C9_spd_convergence_witness :
    SymM 3 (fun k l => if k = l then (2 : ℝ) else 1) ∧
    PosDefM 3 (fun k l => if k = l then (2 : ℝ) else 1) ∧
    (0 : ℝ) < 1 / 100000000 ∧ (1 : ℝ) / 100000000 < 1 ∧ ((3 : Nat) : Int) < 10 ∧
    ∃ r, zfgmr 1 (Ext.ofSqrt Real.sqrt) 3 (matOp 3 (fun k l => if k = l then (2 : ℝ) else 1))
        none unit0 vzero (1 / 100000000) ((3 : Nat) : Int) 10 = .ok r ∧ r.retval = 0 ∧
      r.final.inner ≤ 3 ∧ r.itmax = r.final.inner ∧
      ((r.exit = Exit.initial ∧ r.final.inner = 0 ∧ r.sol = vzero ∧
          (Ext.ofSqrt Real.sqrt).dznrm2_ 3
              (residual 3 (matOp 3 (fun k l => if k = l then (2 : ℝ) else 1)) unit0 vzero vzero) ≤
            1 / 100000000 * (Ext.ofSqrt Real.sqrt).dznrm2_ 3 unit0) ∨
       (r.exit = Exit.converged ∧ 1 ≤ r.final.inner ∧
          (Ext.ofSqrt Real.sqrt).dznrm2_ 3
              (residual 3 (matOp 3 (fun k l => if k = l then (2 : ℝ) else 1)) unit0 r.sol vzero) ≤
            1 / 100000000 * (Ext.ofSqrt Real.sqrt).dznrm2_ 3
              (residual 3 (matOp 3 (fun k l => if k = l then (2 : ℝ) else 1)) unit0 vzero vzero))) :=
  ⟨symM_two_one 3, posDefM_two_one, by norm_num, by norm_num, by decide,
    C9_spd_convergence exactNorm_real absBound_real 3 _ (symM_two_one 3) posDefM_two_one
      unit0 vzero (1 / 100000000) (by norm_num) (by norm_num) 10 (by decide) (by decide) 0⟩

/-- Counterexample to C9 as stated: the 1 x 1 system `1 * x = 1` with initial guess
`1/2` and `tol = 3/5`. The initial test `||r0|| <= tol * ||rhs||` holds (`1/2 <= 3/5`),
`zfgmr` returns 0 with `sol` untouched, and the final residual `1/2` exceeds
`tol * ||rhs - A sol_initial|| = 3/10`. -/
theorem C9_counterexample :
    SymM 1 (fun _ _ => (1 : ℝ)) ∧ PosDefM 1 (fun _ _ => (1 : ℝ)) ∧
    ∃ r, zfgmr 1 (Ext.ofSqrt Real.sqrt) 1 (matOp 1 (fun _ _ => (1 : ℝ))) none unit0
        (fun _ => (⟨1 / 2, 0⟩ : doublecomplex ℝ)) (3 / 5) 1 2 = .ok r ∧
      r.retval = 0 ∧ r.final.inner = 0 ∧
      ¬ (Ext.ofSqrt Real.sqrt).dznrm2_ 1
          (residual 1 (matOp 1 (fun _ _ => (1 : ℝ))) unit0 r.sol vzero) ≤
        3 / 5 * (Ext.ofSqrt Real.sqrt).dznrm2_ 1
          (residual 1 (matOp 1 (fun _ _ => (1 : ℝ))) unit0
            (fun _ => (⟨1 / 2, 0⟩ : doublecomplex ℝ)) vzero) := by
  have hn : (Ext.ofSqrt Real.sqrt).dznrm2_ 1
      (residual 1 (matOp 1 (fun _ _ => (1 : ℝ))) unit0
        (fun _ => (⟨1 / 2, 0⟩ : doublecomplex ℝ)) (fun _ => czero)) = 1 / 2 := by
    apply exactNorm_real.eq_of_sq _ _ (1 / 2) (by norm_num)
    simp [nrmSq, forN, residual, matOp, unit0, cnormSq, cone, czero, z_sub, z_add, zz_mult,
      zd_mult]
    norm_num
  obtain ⟨r, h1, -, -, h4, h5, h6, -⟩ := zfgmr_initial (Ext.ofSqrt Real.sqrt) 1
    (matOp 1 (fun _ _ => (1 : ℝ))) none unit0
    (fun _ => (⟨1 / 2, 0⟩ : doublecomplex ℝ)) (3 / 5) 1 2 0 (by norm_num)
    (by rw [hn, nrm1_unit0 exactNorm_real]; norm_num)
  refine ⟨fun _ _ _ _ => rfl, posDefM_one, r, h1, by rw [h4]; decide, h6, ?_⟩
  rw [h5]
  have hn1 : (Ext.ofSqrt Real.sqrt).dznrm2_ 1
      (residual 1 (matOp 1 (fun _ _ => (1 : ℝ))) unit0
        (fun _ => (⟨1 / 2, 0⟩ : doublecomplex ℝ)) vzero) = 1 / 2 := hn
  rw [hn1]
  norm_num


end SpdClaim

/-! ## Orthogonal families and totality of the inner loop -/

section Fam

variable {R : Type} [LinearOrderedField R]

theorem zdotc_zero_left0 (n : Nat) (x y : Vec R) (h : ∀ k, k < n → x k = 0) :
    zdotc n x y = 0 := by
  rw [zdotc_conj_symm n y x, zdotc_zero_right0 n y x h, zz_conj_zero]

theorem OrthoBasis.fam {n : Nat} {V : Nat → Vec R} {m : Nat} (h : OrthoBasis n V m) :
    OrthoFam n V m := by
  refine ⟨fun a b ha hb hab => ?_, fun a ha => Or.inl ?_⟩
  · rw [h a b ha hb, if_neg hab]
  · have := h a a ha ha
    rw [zdotc_self, if_pos rfl] at this
    exact congrArg doublecomplex.r this

/-- After `cnt` steps of either Gram-Schmidt loop over a family of mutually orthogonal
vectors, each of norm 1 or zero, the candidate `vv[i1]` is orthogonal to `vv[0..cnt-1]`. -/
theorem forN_gs_fam (f : Bool) (n i : Nat) (w : Work R) (hV : OrthoFam n w.vv (i + 1))
    (cnt : Nat) (hc : cnt ≤ i + 1) :
    ∀ l, l < cnt → zdotc n (w.vv l) ((forN cnt (gsStep f n i) w).vv (i + 1)) = 0 := by
  induction cnt with
  | zero => intro l hl; exact absurd hl (Nat.not_lt_zero l)
  | succ j ih =>
    intro l hl
    have hj : j < i + 1 := hc
    obtain ⟨-, -, -, -, hvv, -⟩ := forN_gsStep_frame f n i w j
    simp only [forN]
    rw [gsStep_vv, Function.update_same, hvv j (by omega)]
    rw [zdotc_axpy n (w.vv l) (w.vv j) ((forN j (gsStep f n i) w).vv (i + 1)) _ _
      (fun k hk => zaxpy_apply n _ _ _ k hk)]
    by_cases hlj : l = j
    · subst hlj
      rcases hV.2 l hj with h1 | h0
      · rw [zdotc_self, h1]
        have e : (⟨1, 0⟩ : doublecomplex R) = 1 := rfl
        rw [e]; ring
      · rw [zdotc_zero_left0 n (w.vv l) _ h0, zdotc_zero_left0 n (w.vv l) _ h0]
        simp
    · rw [hV.1 l j (by omega) hj hlj, ih (by omega) l (by omega)]
      simp

/-- With `vv[0..i]` mutually orthogonal, each of norm 1 or zero, the Arnoldi step
returns with one unit of fuel, leaves `vv[0..i]` as they are, and `vv[0..i+1]` is again
such a family. -/
theorem arnoldi_fam {ext : Ext R} (hex : ExactNorm ext) (f n : Nat) (mv : MatVec R)
    (ps : Option (PSolve R)) (i : Nat) (w : Work R) (hV : OrthoFam n w.vv (i + 1)) :
    ∃ w1, arnoldi (f + 1) ext n mv ps i w = some w1 ∧ OrthoFam n w1.vv (i + 2) := by
  unfold arnoldi
  simp only [Function.update_same]
  generalize arnoldi.match_1 (fun _ => Vec R) ps (fun p => p n (w.z i) (w.vv i))
      (fun _ => zcopy_ n (w.vv i) (w.z i)) = zi
  generalize mv cone zi czero (w.vv (i + 1)) = cand
  generalize hW2 : (⟨Function.update w.vv (i + 1) cand, w.hh,
    Function.update w.z i zi, w.c, w.s, w.rs⟩ : Work R) = W2
  have hW2v : ∀ k, k ≠ i + 1 → W2.vv k = w.vv k := by
    intro k hk; rw [← hW2]; exact Function.update_noteq hk _ _
  have hV2 : OrthoFam n W2.vv (i + 1) := by
    refine ⟨fun a b ha hb hab => ?_, fun a ha => ?_⟩
    · rw [hW2v a (by omega), hW2v b (by omega)]
      exact hV.1 a b ha hb hab
    · rw [hW2v a (by omega)]
      exact hV.2 a ha
  rw [← gsStep_true]
  have horth := forN_gs_fam true n i W2 hV2 (i + 1) le_rfl
  obtain ⟨-, -, -, -, f5, -⟩ := forN_gsStep_frame true n i W2 (i + 1)
  generalize forN (i + 1) (gsStep true n i) W2 = W3 at horth f5
  have horth3 : ∀ l, l < i + 1 → zdotc n (W3.vv l) (W3.vv (i + 1)) = 0 := by
    intro l hl
    rw [f5 l (by omega)]
    exact horth l hl
  rw [reorth_orth hex n i W3 horth3]
  have hV3 : OrthoFam n W3.vv (i + 1) := by
    refine ⟨fun a b ha hb hab => ?_, fun a ha => ?_⟩
    · rw [f5 a (by omega), f5 b (by omega)]
      exact hV2.1 a b ha hb hab
    · rw [f5 a (by omega)]
      exact hV2.2 a ha
  by_cases htz : ext.dznrm2_ n (W3.vv (i + 1)) = 0
  · simp only [htz, ne_eq, not_true_eq_false, if_false]
    refine ⟨_, rfl, fun a b ha hb hab => ?_, fun a ha => ?_⟩
    · show zdotc n (W3.vv a) (W3.vv b) = 0
      by_cases ha1 : a = i + 1
      · subst ha1
        exact zdotc_zero_left0 n _ _ (hex.zero_of_nrm n _ htz)
      · by_cases hb1 : b = i + 1
        · subst hb1
          exact horth3 a (by omega)
        · exact hV3.1 a b (by omega) (by omega) hab
    · show nrmSq n (W3.vv a) = 1 ∨ ∀ k, k < n → W3.vv a k = 0
      by_cases ha1 : a = i + 1
      · subst ha1
        exact Or.inr (hex.zero_of_nrm n _ htz)
      · exact hV3.2 a (by omega)
  · simp only [htz, ne_eq, not_false_eq_true, if_true]
    generalize ht : ext.dznrm2_ n (W3.vv (i + 1)) = t at htz
    have hnorm := hex.normalized n (W3.vv (i + 1))
      (fun k => if k < n then zd_mult (W3.vv (i + 1) k) (1 / t) else W3.vv (i + 1) k)
      (by rw [ht]; exact htz) (fun k hk => by simp only [hk, if_true]; rw [ht])
    have hdot : ∀ l, l < i + 1 → zdotc n (W3.vv l)
        (fun k => if k < n then zd_mult (W3.vv (i + 1) k) (1 / t) else W3.vv (i + 1) k) = 0 := by
      intro l hl
      rw [zdotc_scale n (W3.vv l) (W3.vv (i + 1)) _ ⟨1 / t, 0⟩
        (fun k hk => by simp only [hk, if_true]; exact zd_mult_eq _ _), horth3 l hl, zero_mul]
    refine ⟨_, rfl, fun a b ha hb hab => ?_, fun a ha => ?_⟩
    · simp only
      by_cases ha1 : a = i + 1
      · subst ha1
        rw [Function.update_same, Function.update_noteq (Ne.symm hab),
          zdotc_conj_symm, hdot b (by omega), zz_conj_zero]
      · by_cases hb1 : b = i + 1
        · subst hb1
          rw [Function.update_same, Function.update_noteq ha1]
          exact hdot a (by omega)
        · rw [Function.update_noteq ha1, Function.update_noteq hb1]
          exact hV3.1 a b (by omega) (by omega) hab
    · simp only
      by_cases ha1 : a = i + 1
      · subst ha1
        rw [Function.update_same]
        exact Or.inl hnorm.2
      · rw [Function.update_noteq ha1]
        exact hV3.2 a (by omega)

/-- The start vector of an outer pass, `vv[0] = r * (1 / beta)` with `beta = ||r||`, has
norm 1, or is zero when `beta = 0`. -/
theorem prepare_fam {ext : Ext R} (hex : ExactNorm ext) (n : Nat) (tol : R) (st : State R) :
    OrthoFam n (prepare n tol (ext.dznrm2_ n (st.work.vv 0)) st).work.vv 1 := by
  by_cases hb : ext.dznrm2_ n (st.work.vv 0) = 0
  · refine ⟨fun a b ha hb1 hab => by omega, fun a ha => Or.inr ?_⟩
    have ha0 : a = 0 := by omega
    subst ha0
    intro k hk
    simp only [prepare, Function.update_same, hk, if_true]
    rw [hex.zero_of_nrm n _ hb k hk]
    apply dc_ext <;> simp [zd_mult, dc_zero_r, dc_zero_i]
  · exact (prepare_orth hex n tol st hb).fam

/-- The inner loop is total once `vv[0..i]` is a family of mutually orthogonal vectors
of norm 1 or zero: every Arnoldi step returns with one unit of fuel. -/
theorem innerLoop_total {ext : Ext R} (hex : ExactNorm ext) (f n : Nat) (mv : MatVec R)
    (ps : Option (PSolve R)) (maxits : Int) :
    ∀ (k i : Nat) (st : State R), OrthoFam n st.work.vv (i + 1) →
      ∃ st1 iend, innerLoop (f + 1) ext n mv ps maxits k i st = some (st1, iend) ∧
        i ≤ iend ∧ iend ≤ i + k := by
  intro k
  induction k with
  | zero =>
    intro i st _
    exact ⟨st, i, rfl, le_rfl, le_rfl⟩
  | succ k ih =>
    intro i st hV
    obtain ⟨w, ha, hO⟩ := arnoldi_fam hex f n mv ps i st.work hV
    obtain ⟨gv, -⟩ := givens_frame ext i w
    unfold innerLoop
    simp only [ha]
    split
    · exact ⟨_, i, rfl, le_rfl, by omega⟩
    · obtain ⟨st1, iend, h1, h2, h3⟩ := ih (i + 1)
        { st with its := wrap32 (st.its + 1), work := (givens ext i w).1,
                  inner := st.inner + 1, matvecs := st.matvecs + 1 } (by rw [gv]; exact hO)
      exact ⟨st1, iend, h1, by omega, by omega⟩


end Fam

/-! ## Termination -/

section Total

variable {R : Type} [LinearOrderedField R]

/-- The inner loop started with `k` iterations left executes its body at most `k`
times. -/
theorem innerLoop_inner_le (fuel : Nat) (ext : Ext R) (n : Nat) (mv : MatVec R)
    (ps : Option (PSolve R)) (maxits : Int) :
    ∀ (k i : Nat) (st st1 : State R) (iend : Nat),
      innerLoop fuel ext n mv ps maxits k i st = some (st1, iend) →
      st1.inner ≤ st.inner + k ∧ i ≤ iend ∧ iend ≤ i + k := by
  intro k
  induction k with
  | zero =>
    intro i st st1 iend h
    simp only [innerLoop, Option.some.injEq, Prod.mk.injEq] at h
    obtain ⟨rfl, rfl⟩ := h
    exact ⟨le_rfl, le_rfl, le_rfl⟩
  | succ k ih =>
    intro i st st1 iend h
    simp only [innerLoop] at h
    cases ha : arnoldi fuel ext n mv ps i st.work with
    | none => simp [ha] at h
    | some w =>
      simp only [ha] at h
      split at h
      · simp only [Option.some.injEq, Prod.mk.injEq] at h
        obtain ⟨rfl, rfl⟩ := h
        exact ⟨by simp only; omega, le_rfl, by omega⟩
      · obtain ⟨h1, h2, h3⟩ := ih (i + 1) _ st1 iend h
        simp only at h1
        exact ⟨by omega, by omega, by omega⟩

/-- One outer pass with `im >= 1` ends: it yields an outcome, or it stops in `z_div` at
a zero divisor; one unit of fuel suffices for every reorthogonalization loop. -/
theorem outerPass_total {ext : Ext R} (hex : ExactNorm ext) (f n : Nat) (mv : MatVec R)
    (ps : Option (PSolve R)) (rhs : Vec R) (tol : R) (im maxits : Int) (him : 1 ≤ im)
    (st : State R) :
    (∃ out, outerPass (f + 1) ext n mv ps rhs tol im maxits st = .ok out) ∨
      outerPass (f + 1) ext n mv ps rhs tol im maxits st = .error .divZero := by
  have hnim : ¬ im < 0 := by omega
  unfold outerPass
  simp only [hnim, if_false]
  by_cases hb : (initResidual ext n mv rhs st).2 > tol * ext.dznrm2_ n rhs
  · simp only [hb, not_true_eq_false, if_false]
    have hbeta : (initResidual ext n mv rhs st).2 =
        ext.dznrm2_ n ((initResidual ext n mv rhs st).1.work.vv 0) := by
      simp [initResidual]
    have hF := prepare_fam hex n tol (initResidual ext n mv rhs st).1
    rw [← hbeta] at hF
    obtain ⟨st3, iend, hin, -, hle⟩ := innerLoop_total hex f n mv ps maxits im.toNat 0 _ hF
    simp only [hin]
    have hcl : ¬ clampIndex im iend < 0 := by
      unfold clampIndex
      split <;> omega
    simp only [hcl, if_false]
    cases hsu : solveUpdate ext n mv rhs (clampIndex im iend).toNat st3 with
    | none => exact Or.inr rfl
    | some q => exact Or.inl ⟨_, rfl⟩
  · simp only [hb, not_false_eq_true, if_true]
    exact Or.inl ⟨_, rfl⟩

/-- An outer pass that does not exit has increased `its` by at least 1 and by at most
`im`, and leaves `its < maxits`. -/
theorem outerPass_again_its (fuel : Nat) (ext : Ext R) (n : Nat) (mv : MatVec R)
    (ps : Option (PSolve R)) (rhs : Vec R) (tol : R) (im maxits : Int)
    (hmax : maxits < 2147483648) (st st1 : State R) (hinv : CountInv maxits st)
    (h : outerPass fuel ext n mv ps rhs tol im maxits st = .ok (.again st1)) :
    st.its + 1 ≤ st1.its ∧ st1.its < maxits ∧ CountInv maxits st1 := by
  have hc : CountInv maxits st1 :=
    outerPass_count fuel ext n mv ps rhs tol im maxits hmax st _ hinv h
  obtain ⟨-, -, h3⟩ := outerPass_eps1 fuel ext n mv ps rhs tol im maxits st _ h
  obtain ⟨-, hI⟩ := h3 st1 rfl
  have h1 : st1.its = (st1.inner : Int) := hc.1
  have h0 : st.its = (st.inner : Int) := hinv.1
  have hlt : st.its + 1 ≤ st1.its := by rw [h1, h0]; omega
  refine ⟨hlt, ?_, hc⟩
  rcases hc.2 with hz | hl
  · have : (0 : Int) ≤ st.its := by rw [h0]; exact Int.natCast_nonneg _
    omega
  · exact hl

/-- The outer loop ends within `p` passes when `p >= 1` and `p >= maxits - its`: every
pass that does not exit raises `its` by at least 1 and leaves `its < maxits`. -/
theorem outerLoop_total {ext : Ext R} (hex : ExactNorm ext) (f n : Nat) (mv : MatVec R)
    (ps : Option (PSolve R)) (rhs : Vec R) (tol : R) (im maxits : Int) (him : 1 ≤ im)
    (hmax : maxits < 2147483648) :
    ∀ (p : Nat) (st : State R), CountInv maxits st → 1 ≤ p → maxits - st.its ≤ p →
      (∃ r, outerLoop (f + 1) ext n mv ps rhs tol im maxits p st = .ok r) ∨
        outerLoop (f + 1) ext n mv ps rhs tol im maxits p st = .error .divZero := by
  intro p
  induction p with
  | zero => intro st _ h1 _; omega
  | succ q ih =>
    intro st hinv _ hp
    rw [outerLoop]
    rcases outerPass_total hex f n mv ps rhs tol im maxits him st with ⟨out, ho⟩ | he
    · cases out with
      | exit e st1 =>
        simp only [ho]
        exact Or.inl ⟨_, rfl⟩
      | again st1 =>
        simp only [ho]
        obtain ⟨a1, a2, a3⟩ := outerPass_again_its (f + 1) ext n mv ps rhs tol im maxits hmax
          st st1 hinv ho
        have hst : (0 : Int) ≤ st.its := by rw [hinv.1]; exact Int.natCast_nonneg _
        exact ih st1 a3 (by omega) (by omega)
    · right
      simp only [he]

/-- C21. In exact arithmetic `zfgmr` terminates on every input with `im >= 1` (and
`n >= 0`, a budget that is an `int`, callbacks that return): with `fuel >= max(1, maxits)`
the run returns or stops in `z_div` at a zero divisor, and it does so with one unit of
fuel per reorthogonalization loop (at most one extra pass) and `p >= max(1, maxits)`
outer passes. At every inner step `vv[0..i]` are mutually orthogonal, each of norm 1 or
zero: this holds for the start vector and is kept by the Arnoldi step. For such
`vv[0..i]` the first Gram-Schmidt pass leaves the candidate orthogonal to `vv[0..i]`,
and then an extra pass changes no buffer (it adds 0 to every `hh[i][j]` and leaves the
candidate as it is) and the loop ends after at most that one pass. An inner loop with
`k` iterations left executes at most `k` steps (`k = im` in every outer pass), and an
outer pass that does not exit has raised `its` by at least 1 and left `its < maxits`. -/
theorem C21_termination {ext : Ext R} (hex : ExactNorm ext) (n : Nat) (mv : MatVec R)
    (ps : Option (PSolve R)) (rhs : Vec R) (tol : R) (im maxits : Int) (him : 1 ≤ im)
    (hmax : maxits < 2147483648) :
    (∀ (sol : Vec R) (fuel : Nat), 1 ≤ fuel → maxits ≤ fuel →
      (∃ r, zfgmr fuel ext n mv ps rhs sol tol im maxits = .ok r) ∨
        zfgmr fuel ext n mv ps rhs sol tol im maxits = .error .divZero) ∧
    (∀ (sol : Vec R) (p : Nat), 1 ≤ p → maxits ≤ p →
      (∃ r, outerLoop 1 ext n mv ps rhs tol im maxits p
          ⟨sol, 0, 0, Work.init, 0, 0, 0⟩ = .ok r) ∨
        outerLoop 1 ext n mv ps rhs tol im maxits p
          ⟨sol, 0, 0, Work.init, 0, 0, 0⟩ = .error .divZero) ∧
    (∀ st : State R, OrthoFam n (prepare n tol (initResidual ext n mv rhs st).2
      (initResidual ext n mv rhs st).1).work.vv 1) ∧
    (∀ (i : Nat) (w : Work R), OrthoFam n w.vv (i + 1) →
      ∃ w1, arnoldi 1 ext n mv ps i w = some w1 ∧
        OrthoFam n (givens ext i w1).1.vv (i + 2)) ∧
    (∀ (i : Nat) (w : Work R), OrthoFam n w.vv (i + 1) → ∀ l, l < i + 1 →
      zdotc n (w.vv l) ((forN (i + 1) (gsFirst n i) w).vv (i + 1)) = 0) ∧
    (∀ (i : Nat) (w : Work R), (∀ l, l < i + 1 → zdotc n (w.vv l) (w.vv (i + 1)) = 0) →
      reorthPass n i w = w ∧
      ∀ t0, reorth ext n i 1 t0 (ext.dznrm2_ n (w.vv (i + 1))) w =
        some (ext.dznrm2_ n (w.vv (i + 1)), w)) ∧
    (∀ (fuel k i : Nat) (st st1 : State R) (iend : Nat),
      innerLoop fuel ext n mv ps maxits k i st = some (st1, iend) →
      st1.inner ≤ st.inner + k ∧ iend ≤ i + k) ∧
    (∀ (fuel : Nat) (st st1 : State R), CountInv maxits st →
      outerPass fuel ext n mv ps rhs tol im maxits st = .ok (.again st1) →
      st.its + 1 ≤ st1.its ∧ st1.its < maxits ∧ CountInv maxits st1) := by
  have hinit : ∀ sol : Vec R, CountInv maxits
      (⟨sol, 0, 0, Work.init, 0, 0, 0⟩ : State R) := fun _ => ⟨rfl, Or.inl rfl⟩
  refine ⟨?_, ?_, ?_, ?_, ?_, ?_, ?_, ?_⟩
  · intro sol fuel h1 h2
    obtain ⟨f, rfl⟩ : ∃ f, fuel = f + 1 := ⟨fuel - 1, by omega⟩
    unfold zfgmr
    exact outerLoop_total hex f n mv ps rhs tol im maxits him hmax (f + 1) _ (hinit sol) h1
      (by simpa using h2)
  · intro sol p h1 h2
    exact outerLoop_total hex 0 n mv ps rhs tol im maxits him hmax p _ (hinit sol) h1
      (by simpa using h2)
  · intro st
    have hbeta : (initResidual ext n mv rhs st).2 =
        ext.dznrm2_ n ((initResidual ext n mv rhs st).1.work.vv 0) := by
      simp [initResidual]
    rw [hbeta]
    exact prepare_fam hex n tol _
  · intro i w hV
    obtain ⟨w1, ha, hO⟩ := arnoldi_fam hex 0 n mv ps i w hV
    refine ⟨w1, ha, ?_⟩
    rw [(givens_frame ext i w1).1]
    exact hO
  · intro i w hV l hl
    have := forN_gs_fam true n i w hV (i + 1) le_rfl l hl
    rw [gsStep_true] at this
    exact this
  · intro i w h
    refine ⟨forN_gsAgain_of_orth n i w (i + 1) h, fun t0 => ?_⟩
    exact reorth_orth hex n i w h 0 t0
  · intro fuel k i st st1 iend h
    obtain ⟨a1, -, a3⟩ := innerLoop_inner_le fuel ext n mv ps maxits k i st st1 iend h
    exact ⟨a1, a3⟩
  · intro fuel st st1 hinv h
    exact outerPass_again_its fuel ext n mv ps rhs tol im maxits hmax st st1 hinv h

/-- Witness for C21: the identity system of size 1 with `rhs = e0`, zero initial guess,
`tol = 1/2`, `im = 1` and a budget of 2: the run ends with fuel 2, and with one unit of
fuel per reorthogonalization loop within 2 outer passes; the Arnoldi step from the
buffers `unitWork` completes with one unit of fuel. -/
theorem C21_termination_witness :
    ExactNorm (Ext.ofSqrt Real.sqrt) ∧ (1 : Int) ≤ 1 ∧ (2 : Int) < 2147483648 ∧
    ((∃ r, zfgmr 2 (Ext.ofSqrt Real.sqrt) 1 idOp none unit0 vzero (1 / 2) 1 2 = .ok r) ∨
      zfgmr 2 (Ext.ofSqrt Real.sqrt) 1 idOp none unit0 vzero (1 / 2) 1 2 = .error .divZero) ∧
    ((∃ r, outerLoop 1 (Ext.ofSqrt Real.sqrt) 1 idOp none unit0 (1 / 2) 1 2 2
        ⟨vzero, 0, 0, Work.init, 0, 0, 0⟩ = .ok r) ∨
      outerLoop 1 (Ext.ofSqrt Real.sqrt) 1 idOp none unit0 (1 / 2) 1 2 2
        ⟨vzero, 0, 0, Work.init, 0, 0, 0⟩ = .error .divZero) ∧
    (∃ w1, arnoldi 1 (Ext.ofSqrt Real.sqrt) 1 idOp none 0 (unitWork : Work ℝ) = some w1 ∧
      OrthoFam 1 (givens (Ext.ofSqrt Real.sqrt) 0 w1).1.vv (0 + 2)) := by
  obtain ⟨h1, h2, -, h4, -⟩ :=
    C21_termination exactNorm_real 1 idOp none unit0 (1 / 2) 1 2 (by decide) (by decide)
  exact ⟨exactNorm_real, by decide, by decide, h1 vzero 2 (by decide) (by decide),
    h2 vzero 2 (by decide) (by decide), h4 0 unitWork unitWork_orth.fam⟩


end Total

/-! ## The stages of the Arnoldi step and the lucky breakdown -/

section Stages

variable {R : Type} [LinearOrderedField R]

end Stages

/-! ## The values written by the Arnoldi step and the orthonormal basis -/

section Values

variable {R : Type} [LinearOrderedField R]

theorem zd_mult_cancel_inv (a : R) (ha : a ≠ 0) (x : doublecomplex R) :
    zd_mult (zd_mult x a) (1 / a) = x := by
  cases x
  simp only [zd_mult, doublecomplex.mk.injEq]
  constructor <;> field_simp

theorem arnoldi_values_aux {ext : Ext R} (hex : ExactNorm ext) (f n : Nat) (mv : MatVec R)
    (ps : Option (PSolve R)) (i : Nat) (w : Work R) (hV : OrthoBasis n w.vv (i + 1))
    (zi cand : Vec R)
    (hzi : zi = match ps with
      | some p => p n (w.z i) (w.vv i)
      | none => zcopy_ n (w.vv i) (w.z i))
    (hcand : cand = mv cone zi czero (w.vv (i + 1))) :
    ∃ w1, arnoldi (f + 1) ext n mv ps i w = some w1 ∧
      (∀ j, j < i + 1 → w1.vv j = w.vv j) ∧
      (∀ j, j < i + 1 → w1.hh i j = zdotc n (w.vv j) cand) ∧
      w1.hh i (i + 1) = ⟨ext.dznrm2_ n (gsResidual n i w.vv cand), 0⟩ ∧
      (ext.dznrm2_ n (gsResidual n i w.vv cand) ≠ 0 →
        (∀ k, k < n → w1.vv (i + 1) k =
          zd_mult (gsResidual n i w.vv cand k) (1 / ext.dznrm2_ n (gsResidual n i w.vv cand))) ∧
        ext.dznrm2_ n (w1.vv (i + 1)) = 1 ∧
        (∀ j, j < i + 1 → zdotc n (w1.vv (i + 1)) (w1.vv j) = 0) ∧
        OrthoBasis n w1.vv (i + 2)) ∧
      (ext.dznrm2_ n (gsResidual n i w.vv cand) = 0 → ∀ k, k < n → w1.vv (i + 1) k = 0) := by
  obtain ⟨w1, ha, horth, hOB⟩ := arnoldi_orth hex f n mv ps i w hV
  obtain ⟨-, -, -, -, hvv, -, ⟨t, ht0, hht, htz, hn⟩, hrel⟩ :=
    arnoldi_spec hex (f + 1) n mv ps i w w1 zi cand hzi hcand ha
  have horth1 : ∀ l, l < i + 1 → zdotc n (w.vv l) (w1.vv (i + 1)) = 0 := by
    intro l hl
    rw [← hvv l (by omega)]
    exact horth l hl
  have hrel1 : ∀ k, k < n → cand k =
      ∑ j in Finset.range (i + 1), w1.hh i j * w.vv j k + w1.hh i (i + 1) * w1.vv (i + 1) k := by
    intro k hk
    rw [hrel k hk]
    congr 1
    apply Finset.sum_congr rfl
    intro j hj
    rw [hvv j (by have := Finset.mem_range.mp hj; omega)]
  have hhd : ∀ j, j < i + 1 → w1.hh i j = zdotc n (w.vv j) cand := by
    intro j hj
    rw [zdotc_comb_right n (w.vv j)
      (fun k => ∑ l in Finset.range (i + 1), w1.hh i l * w.vv l k) (w1.vv (i + 1))
      cand 1 (w1.hh i (i + 1))
      (fun k hk => by rw [hrel1 k hk, one_mul]),
      zdotc_sum_right n (w.vv j) (i + 1) (fun l => w1.hh i l) (fun l => w.vv l) _
        (fun k _ => rfl),
      horth1 j hj, mul_zero, add_zero, one_mul]
    have : ∀ l, l ∈ Finset.range (i + 1) →
        w1.hh i l * zdotc n (w.vv j) (w.vv l) = if l = j then w1.hh i l else 0 := by
      intro l hl
      have hl1 := Finset.mem_range.mp hl
      rw [hV j l hj hl1]
      by_cases h : l = j
      · rw [if_pos h, if_pos h.symm, mul_one]
      · rw [if_neg h, if_neg (Ne.symm h), mul_zero]
    rw [Finset.sum_congr rfl this, Finset.sum_ite_eq', if_pos (Finset.mem_range.mpr hj)]
  have hres : ∀ k, k < n → gsResidual n i w.vv cand k = ⟨t, 0⟩ * w1.vv (i + 1) k := by
    intro k hk
    unfold gsResidual
    have hs : ∑ j in Finset.range (i + 1), zdotc n (w.vv j) cand * w.vv j k =
        ∑ j in Finset.range (i + 1), w1.hh i j * w.vv j k :=
      Finset.sum_congr rfl (fun j hj => by rw [hhd j (Finset.mem_range.mp hj)])
    rw [hs, hrel1 k hk, hht]
    ring
  have htn : ext.dznrm2_ n (gsResidual n i w.vv cand) = t := by
    by_cases h0 : t = 0
    · rw [h0]
      apply hex.eq_zero
      intro k hk
      rw [hres k hk, htz h0 k hk, mul_zero]
      rfl
    · apply hex.eq_of_sq n _ t ht0
      rw [nrmSq_cscale n ⟨t, 0⟩ (w1.vv (i + 1)) _ hres]
      have h1 := (hex n (w1.vv (i + 1))).2
      rw [hn h0, one_mul] at h1
      rw [← h1]
      simp [cnormSq]
  rw [htn]
  refine ⟨w1, ha, fun j hj => hvv j (by omega), hhd, hht, fun hne => ?_, htz⟩
  have hne1 : w1.hh i (i + 1) ≠ 0 := by
    intro h0
    rw [hht] at h0
    exact hne (congrArg doublecomplex.r h0)
  have hOB1 := hOB hne1
  refine ⟨fun k hk => ?_, hn hne, fun j hj => ?_, hOB1⟩
  · rw [hres k hk, mul_comm, ← zd_mult_eq]
    exact (zd_mult_cancel_inv t hne (w1.vv (i + 1) k)).symm
  · rw [hOB1 (i + 1) j (by omega) (by omega), if_neg (by omega)]

/-- C12 (amended). In exact arithmetic, for every inner step `i` of `zfgmr` with
`V[0..i]` orthonormal under the conjugate inner product: the Arnoldi step completes
with at most one reorthogonalization pass and leaves `V[0..i]` untouched;
`H[i][j] = <V[j], w>` for `j <= i`, and `H[i][i+1] = t` is the norm of
`w - sum_{j <= i} <V[j], w> V[j]`, `w = A z[i]` being the candidate. When `t != 0`,
`V[i+1]` is that vector scaled by `1/t`, `||V[i+1]|| = 1`, `<V[i+1], V[j]> = 0` for every
`j <= i`, and `V[0..i+1]` is orthonormal; when `t == 0`, `V[i+1]` is the zero vector.
The start vector `V[0] = r / beta` has norm 1 when `beta != 0`. For `tol >= 0` (so that
`eps1 >= 0`) and `z_abs1(0) = 0` the inner loop stops at a step with `t == 0`, and by
induction `V[0..i]` is orthonormal at every step index `i` reached in an outer pass,
up to the index `iend` at the exit of the inner loop. -/
theorem C12_orthonormal_basis {ext : Ext R} (hex : ExactNorm ext) (n : Nat) (mv : MatVec R)
    (ps : Option (PSolve R)) :
    (∀ (i : Nat) (w : Work R), OrthoBasis n w.vv (i + 1) →
      ∃ w1, arnoldi 1 ext n mv ps i w = some w1 ∧ (∀ j, j < i + 1 → w1.vv j = w.vv j) ∧
        (∀ j, j < i + 1 → w1.hh i j = zdotc n (w.vv j) (candidate n mv ps i w)) ∧
        w1.hh i (i + 1) =
          ⟨ext.dznrm2_ n (gsResidual n i w.vv (candidate n mv ps i w)), 0⟩ ∧
        (ext.dznrm2_ n (gsResidual n i w.vv (candidate n mv ps i w)) ≠ 0 →
          (∀ k, k < n → w1.vv (i + 1) k =
            zd_mult (gsResidual n i w.vv (candidate n mv ps i w) k)
              (1 / ext.dznrm2_ n (gsResidual n i w.vv (candidate n mv ps i w)))) ∧
          ext.dznrm2_ n (w1.vv (i + 1)) = 1 ∧
          (∀ j, j < i + 1 → zdotc n (w1.vv (i + 1)) (w1.vv j) = 0) ∧
          OrthoBasis n w1.vv (i + 2)) ∧
        (ext.dznrm2_ n (gsResidual n i w.vv (candidate n mv ps i w)) = 0 →
          ∀ k, k < n → w1.vv (i + 1) k = 0)) ∧
    (∀ (tol : R) (st : State R), ext.dznrm2_ n (st.work.vv 0) ≠ 0 →
      OrthoBasis n (prepare n tol (ext.dznrm2_ n (st.work.vv 0)) st).work.vv 1) ∧
    (∀ (fuel : Nat) (maxits : Int) (k i : Nat) (st : State R), ext.z_abs1 0 = 0 →
      0 ≤ st.eps1 → OrthoBasis n st.work.vv (i + 1) →
      ∃ st1 iend, innerLoop (fuel + 1) ext n mv ps maxits k i st = some (st1, iend) ∧
        i ≤ iend ∧ iend ≤ i + k ∧ OrthoBasis n st1.work.vv (iend + 1)) ∧
    (∀ (fuel : Nat) (rhs : Vec R) (tol : R) (maxits : Int) (k : Nat) (st : State R),
      ext.z_abs1 0 = 0 → 0 ≤ tol → (st.its = 0 ∨ 0 ≤ st.eps1) →
      (initResidual ext n mv rhs st).2 > tol * ext.dznrm2_ n rhs →
      OrthoBasis n (prepare n tol (initResidual ext n mv rhs st).2
        (initResidual ext n mv rhs st).1).work.vv 1 ∧
      ∃ st1 iend, innerLoop (fuel + 1) ext n mv ps maxits k 0
          (prepare n tol (initResidual ext n mv rhs st).2
            (initResidual ext n mv rhs st).1) = some (st1, iend) ∧
        iend ≤ k ∧ OrthoBasis n st1.work.vv (iend + 1)) := by
  refine ⟨fun i w hV => ?_, fun tol st hb => prepare_orth hex n tol st hb,
    fun fuel maxits k i st habs he hV => innerLoop_orth hex habs fuel n mv ps maxits k i st he hV,
    fun fuel rhs tol maxits k st habs ht hst hb => ?_⟩
  · cases ps with
    | none => exact arnoldi_values_aux hex 0 n mv none i w hV _ _ rfl rfl
    | some p => exact arnoldi_values_aux hex 0 n mv (some p) i w hV _ _ rfl rfl
  · have hbeta : (initResidual ext n mv rhs st).2 =
        ext.dznrm2_ n ((initResidual ext n mv rhs st).1.work.vv 0) := by
      simp [initResidual]
    have hpos : 0 < (initResidual ext n mv rhs st).2 :=
      lt_of_le_of_lt (mul_nonneg ht (hex.nonneg n rhs)) hb
    have hO : OrthoBasis n (prepare n tol (initResidual ext n mv rhs st).2
        (initResidual ext n mv rhs st).1).work.vv 1 := by
      have := prepare_orth hex n tol (initResidual ext n mv rhs st).1
        (by rw [← hbeta]; exact hpos.ne')
      rw [← hbeta] at this
      exact this
    have he : 0 ≤ (prepare n tol (initResidual ext n mv rhs st).2
        (initResidual ext n mv rhs st).1).eps1 := by
      have e1 : (initResidual ext n mv rhs st).1.its = st.its := rfl
      have e2 : (initResidual ext n mv rhs st).1.eps1 = st.eps1 := rfl
      simp only [prepare, e1, e2]
      split
      · exact mul_nonneg ht hpos.le
      · rename_i h0
        rcases hst with h | h
        · exact absurd h h0
        · exact h
    obtain ⟨st1, iend, h1, -, h3, h4⟩ :=
      innerLoop_orth hex habs fuel n mv ps maxits k 0 _ he hO
    exact ⟨hO, st1, iend, h1, by omega, h4⟩

theorem unitWork_orth2 : OrthoBasis 2 (unitWork : Work R).vv 1 := by
  intro a b ha hb
  have ha0 : a = 0 := by omega
  have hb0 : b = 0 := by omega
  subst ha0; subst hb0
  rw [if_pos rfl, zdotc_self]
  apply dc_ext <;> simp [nrmSq, forN, unitWork, unit0, cnormSq, cone, czero, dc_one_r, dc_one_i]

theorem swap_gsResidual (k : Nat) (hk : k < 2) :
    gsResidual 2 0 (unitWork : Work R).vv (candidate 2 swapOp none 0 unitWork) k = unit1 k := by
  apply dc_ext <;>
    (interval_cases k <;>
      simp [gsResidual, candidate, swapOp, zcopy_, unitWork, unit0, unit1, zdotc, forN, cone,
        czero, z_add, zz_mult, zz_conj, Finset.sum_range_succ, dc_sub_r, dc_sub_i, dc_mul_r,
        dc_mul_i, dc_zero_r, dc_zero_i])

/-- Witness of C12: the exchange matrix of size two, step 0 from the buffers `unitWork`
(`V[0] = e0`): the candidate is `e1`, `t = 1` is nonzero, `V[1] = e1` and `V[0..1]` is
orthonormal. -/
theorem C12_orthonormal_basis_witness :
    ExactNorm (Ext.ofSqrt Real.sqrt) ∧ OrthoBasis 2 (unitWork : Work ℝ).vv (0 + 1) ∧
    (Ext.ofSqrt Real.sqrt).dznrm2_ 2
      (gsResidual 2 0 (unitWork : Work ℝ).vv (candidate 2 swapOp none 0 unitWork)) = 1 ∧
    ∃ w1, arnoldi 1 (Ext.ofSqrt Real.sqrt) 2 swapOp none 0 (unitWork : Work ℝ) = some w1 ∧
      w1.hh 0 (0 + 1) = ⟨1, 0⟩ ∧ (∀ k, k < 2 → w1.vv (0 + 1) k = unit1 k) ∧
      (Ext.ofSqrt Real.sqrt).dznrm2_ 2 (w1.vv (0 + 1)) = 1 ∧
      (∀ j, j < 0 + 1 → zdotc 2 (w1.vv (0 + 1)) (w1.vv j) = 0) ∧
      OrthoBasis 2 w1.vv (0 + 2) := by
  have ht : (Ext.ofSqrt Real.sqrt).dznrm2_ 2
      (gsResidual 2 0 (unitWork : Work ℝ).vv (candidate 2 swapOp none 0 unitWork)) = 1 := by
    rw [exactNorm_real.congr 2 _ unit1 swap_gsResidual]
    exact nrm_unit1 exactNorm_real
  obtain ⟨w1, ha, -, -, hh, hne, -⟩ :=
    (C12_orthonormal_basis exactNorm_real 2 swapOp none).1 0 (unitWork : Work ℝ) unitWork_orth2
  rw [ht] at hh hne
  obtain ⟨h1, h2, h3, h4⟩ := hne one_ne_zero
  refine ⟨exactNorm_real, unitWork_orth2, ht, w1, ha, hh, fun k hk => ?_, h2, h3, h4⟩
  have hone : ∀ x : doublecomplex ℝ, zd_mult x (1 / 1) = x := by
    intro x; cases x; simp [zd_mult]
  rw [h1 k hk, swap_gsResidual k hk, hone]

/-- With a negative `eps1` the inner loop over the identity operator runs a second step
after the breakdown of its first step, on a basis whose vector `vv[1]` is zero. -/
theorem innerLoop_zero_basis {ext : Ext R} (hex : ExactNorm ext) (habs : ext.z_abs1 0 = 0)
    (n : Nat) (st : State R) (hv : nrmSq n (st.work.vv 0) = 1) (he : st.eps1 < 0)
    (hits : st.its = 0) (maxits : Int) (hm : 1 < maxits) (f : Nat) :
    ∃ st1 iend, innerLoop (f + 1) ext n idOp none maxits 2 0 st = some (st1, iend) ∧
      1 ≤ iend ∧ st1.inner = st.inner + 2 ∧ ∀ k, k < n → st1.work.vv 1 k = 0 := by
  obtain ⟨w, ha, -, h01, -⟩ := arnoldi_zero_exact hex n idOp none f st.work
    (zcopy_ n (st.work.vv 0) (st.work.z 0)) rfl hv
    (fun k hk => by rw [idOp_apply]; simp only [zcopy_, hk, if_true])
  obtain ⟨-, -, -, -, -, -, ⟨t, -, hht, htz, -⟩, -⟩ :=
    arnoldi_spec hex (f + 1) n idOp none 0 st.work w _ _ rfl rfl ha
  have ht0 : t = 0 := by
    rw [h01] at hht
    exact (congrArg doublecomplex.r hht).symm
  have hv1 := htz ht0
  obtain ⟨gv, -⟩ := givens_frame ext 0 w
  obtain ⟨-, hb⟩ := givens_lucky ext 0 w h01
  have hw1 : wrap32 (st.its + 1) = 1 := by rw [hits]; decide
  have htest : ¬ ((givens ext 0 w).2 ≤ st.eps1 ∨ wrap32 (st.its + 1) ≥ maxits) := by
    rw [hb, habs, hw1]
    intro h
    rcases h with h | h
    · exact absurd he (not_lt.mpr h)
    · omega
  obtain ⟨w2, ha2⟩ := arnoldi_zero_cand hex (f + 1) n idOp 1 (givens ext 0 w).1
    (fun k hk => by
      rw [idOp_apply]
      simp only [zcopy_, hk, if_true]
      rw [gv]; exact hv1 k hk)
  obtain ⟨-, -, -, -, hvv2, -⟩ :=
    arnoldi_spec hex (f + 1) n idOp none 1 (givens ext 0 w).1 w2 _ _ rfl rfl ha2
  have hz : ∀ k, k < n → (givens ext 1 w2).1.vv 1 k = 0 := by
    intro k hk
    rw [(givens_frame ext 1 w2).1, hvv2 1 (by omega), gv]
    exact hv1 k hk
  rw [show (2 : Nat) = 1 + 1 from rfl]
  unfold innerLoop
  simp only [ha]
  rw [if_neg htest]
  unfold innerLoop
  simp only [zero_add, ha2]
  split
  · exact ⟨_, 1, rfl, le_rfl, rfl, hz⟩
  · exact ⟨_, 2, rfl, by omega, rfl, hz⟩

/-- Counterexample to C12 as stated: identity system of size one, `rhs = 1`, `sol = 0`,
`tol = -1`, `im = 2`, budget 5. The start vector `V[0]` is orthonormal, the first inner
step has `t == 0` and leaves `V[1] = 0`, the negative `eps1` keeps the inner loop going,
and the second step runs on `V[0..1]`, which is not orthonormal. -/
theorem C12_counterexample :
    OrthoBasis 1 (prepare 1 (-1)
      (initResidual (Ext.ofSqrt Real.sqrt) 1 idOp unit0 ⟨vzero, 0, 0, Work.init, 0, 0, 0⟩).2
      (initResidual (Ext.ofSqrt Real.sqrt) 1 idOp unit0
        ⟨vzero, 0, 0, Work.init, 0, 0, 0⟩).1).work.vv 1 ∧
    ∃ st1 iend, innerLoop 1 (Ext.ofSqrt Real.sqrt) 1 idOp none 5 2 0
        (prepare 1 (-1)
          (initResidual (Ext.ofSqrt Real.sqrt) 1 idOp unit0 ⟨vzero, 0, 0, Work.init, 0, 0, 0⟩).2
          (initResidual (Ext.ofSqrt Real.sqrt) 1 idOp unit0
            ⟨vzero, 0, 0, Work.init, 0, 0, 0⟩).1) = some (st1, iend) ∧
      1 ≤ iend ∧ st1.inner = 2 ∧ (∀ k, k < 1 → st1.work.vv 1 k = 0) ∧
      ¬ OrthoBasis 1 st1.work.vv (iend + 1) := by
  have hb : (initResidual (Ext.ofSqrt Real.sqrt) 1 idOp unit0
      ⟨vzero, 0, 0, Work.init, 0, 0, 0⟩).2 = 1 := nrm1_residual_unit0 exactNorm_real
  have hbeta : (initResidual (Ext.ofSqrt Real.sqrt) 1 idOp unit0
      ⟨vzero, 0, 0, Work.init, 0, 0, 0⟩).2 = (Ext.ofSqrt Real.sqrt).dznrm2_ 1
        ((initResidual (Ext.ofSqrt Real.sqrt) 1 idOp unit0
          ⟨vzero, 0, 0, Work.init, 0, 0, 0⟩).1.work.vv 0) := by
    simp [initResidual]
  have hO : OrthoBasis 1 (prepare 1 (-1)
      (initResidual (Ext.ofSqrt Real.sqrt) 1 idOp unit0 ⟨vzero, 0, 0, Work.init, 0, 0, 0⟩).2
      (initResidual (Ext.ofSqrt Real.sqrt) 1 idOp unit0
        ⟨vzero, 0, 0, Work.init, 0, 0, 0⟩).1).work.vv 1 := by
    have := prepare_orth exactNorm_real 1 (-1 : ℝ)
      (initResidual (Ext.ofSqrt Real.sqrt) 1 idOp unit0 ⟨vzero, 0, 0, Work.init, 0, 0, 0⟩).1
      (by rw [← hbeta, hb]; exact one_ne_zero)
    rw [← hbeta] at this
    exact this
  have hn1 : nrmSq 1 ((prepare 1 (-1)
      (initResidual (Ext.ofSqrt Real.sqrt) 1 idOp unit0 ⟨vzero, 0, 0, Work.init, 0, 0, 0⟩).2
      (initResidual (Ext.ofSqrt Real.sqrt) 1 idOp unit0
        ⟨vzero, 0, 0, Work.init, 0, 0, 0⟩).1).work.vv 0) = 1 := by
    have := hO 0 0 (by omega) (by omega)
    rw [zdotc_self, if_pos rfl] at this
    exact congrArg doublecomplex.r this
  obtain ⟨st1, iend, h3, h4, h5, h6⟩ := innerLoop_zero_basis exactNorm_real
    z_abs1_real_zero 1 _ hn1
    (by
      simp only [prepare]
      rw [if_pos (show (initResidual (Ext.ofSqrt Real.sqrt) 1 idOp unit0
        ⟨vzero, 0, 0, Work.init, 0, 0, 0⟩).1.its = 0 from rfl), hb]
      norm_num)
    rfl 5 (by decide) 0
  refine ⟨hO, st1, iend, h3, h4, by rw [h5]; rfl, h6, fun hOB => ?_⟩
  have h11 := hOB 1 1 (by omega) (by omega)
  rw [zdotc_zero_right0 1 _ _ h6, if_pos rfl] at h11
  have := congrArg doublecomplex.r h11
  simp [dc_zero_r, dc_one_r] at this


end Values

/-! ## One outer pass with a single inner step -/

section Restart

variable {R : Type} [LinearOrderedField R]

/-- The run that leaves at the initial test, with its final state. -/
theorem zfgmr_initial_state (ext : Ext R) (n : Nat) (mv : MatVec R) (ps : Option (PSolve R))
    (rhs sol : Vec R) (tol : R) (im maxits : Int) (f : Nat) (him : 0 ≤ im)
    (h : ¬ ext.dznrm2_ n (residual n mv rhs sol (fun _ => czero)) > tol * ext.dznrm2_ n rhs) :
    zfgmr (f + 1) ext n mv ps rhs sol tol im maxits =
      .ok (finish maxits .initial (initResidual ext n mv rhs
        { sol := sol, its := 0, eps1 := 0, work := Work.init, inner := 0, matvecs := 0,
          lasti := 0 }).1) := by
  have hnim : ¬ im < 0 := by omega
  have hb : ¬ (initResidual ext n mv rhs
      { sol := sol, its := 0, eps1 := 0, work := Work.init, inner := 0, matvecs := 0,
        lasti := 0 }).2 > tol * ext.dznrm2_ n rhs := h
  unfold zfgmr
  rw [outerLoop]
  unfold outerPass
  simp only [hnim, if_false, hb, not_false_eq_true, if_true]

/-- One outer pass with `im = 1` and no preconditioner, in terms of the numbers it
computes: `beta`, the entry `h = <v0, A v0>`, the norm `t` of the orthogonalized
candidate, `gam` and the solution `y` of the 1 x 1 triangular system. -/
theorem outerPass_single_step {ext : Ext R} (hex : ExactNorm ext) (f n : Nat) (mv : MatVec R)
    (rhs : Vec R) (tol : R) (maxits : Int) (st : State R) (β : R)
    (hβ : (initResidual ext n mv rhs st).2 = β) (hb : β > tol * ext.dznrm2_ n rhs)
    (hβ0 : β ≠ 0) (h : doublecomplex R) (t gam : R)
    (hh : zdotc n ((prepare n tol β (initResidual ext n mv rhs st).1).work.vv 0)
      (candidate n mv none 0 (prepare n tol β (initResidual ext n mv rhs st).1).work) = h)
    (ht : ext.dznrm2_ n
      (gsResidual n 0 (prepare n tol β (initResidual ext n mv rhs st).1).work.vv
        (candidate n mv none 0 (prepare n tol β (initResidual ext n mv rhs st).1).work)) = t)
    (hg : ext.dznrm2_ 2 (fun k => if k = 0 then h else ⟨t, 0⟩) = gam) (hg0 : gam ≠ 0)
    (y : doublecomplex R)
    (hy : z_div (zd_mult h (1 / gam) * ⟨β, 0⟩)
      (zd_mult h (1 / gam) * h + zd_mult ⟨t, 0⟩ (1 / gam) * ⟨t, 0⟩) = some y) :
    ∃ st4 X, outerPass (f + 1) ext n mv none rhs tol 1 maxits st =
        .ok (restartCheck tol maxits (ext.dznrm2_ n (residual n mv rhs st4.sol X)) st4) ∧
      st4.its = wrap32 (st.its + 1) ∧ st4.inner = st.inner + 1 ∧
      st4.eps1 = (if st.its = 0 then tol * β else st.eps1) ∧
      st4.matvecs = st.matvecs + 3 ∧
      (∀ k, k < n → st4.sol k = st.sol k +
        y * (prepare n tol β (initResidual ext n mv rhs st).1).work.vv 0 k) := by
  have hbeta : β = ext.dznrm2_ n ((initResidual ext n mv rhs st).1.work.vv 0) := by
    rw [← hβ]; simp [initResidual]
  have hO := prepare_orth hex n tol (initResidual ext n mv rhs st).1
    (by rw [← hbeta]; exact hβ0)
  rw [← hbeta] at hO
  have hp : ((prepare n tol β (initResidual ext n mv rhs st).1).its = st.its ∧
      (prepare n tol β (initResidual ext n mv rhs st).1).inner = st.inner ∧
      (prepare n tol β (initResidual ext n mv rhs st).1).sol = st.sol ∧
      (prepare n tol β (initResidual ext n mv rhs st).1).eps1 =
        (if st.its = 0 then tol * β else st.eps1) ∧
      (prepare n tol β (initResidual ext n mv rhs st).1).work.rs 0 = ⟨β, 0⟩ ∧
      (prepare n tol β (initResidual ext n mv rhs st).1).matvecs = st.matvecs + 1) := by
    simp [prepare, initResidual]
  generalize hst2 : prepare n tol β (initResidual ext n mv rhs st).1 = st2 at *
  obtain ⟨p1, p2, p3, p4, p5, p6⟩ := hp
  obtain ⟨w1, ha, -, hhd, hht, -, -⟩ :=
    arnoldi_values_aux hex f n mv none 0 st2.work hO _ _ rfl rfl
  obtain ⟨hz, -, -, hrs, -⟩ :=
    arnoldi_spec hex (f + 1) n mv none 0 st2.work w1 _ _ rfl rfl ha
  have h00 : w1.hh 0 0 = h := (hhd 0 (by omega)).trans hh
  have h01 : w1.hh 0 1 = ⟨t, 0⟩ := by
    rw [← ht]; exact hht
  obtain ⟨c, s, -, -, -, g4, -, g6, -, g8⟩ := givens_values ext 0 w1
  obtain ⟨gv, gz, -⟩ := givens_frame ext 0 w1
  have hW : forN 0 (rotatePrev 0) w1 = w1 := rfl
  rw [hW] at g6 g8
  have hgam : ext.dznrm2_ 2 (fun k => w1.hh 0 (0 + k)) = gam := by
    rw [← hg]
    apply hex.congr
    intro k hk
    interval_cases k
    · simp only [zero_add, if_true]; exact h00
    · simp only [zero_add]; rw [if_neg (by decide)]; exact h01
  rw [hgam] at g8
  obtain ⟨hc, hs⟩ := g8 hg0
  simp only [zero_add] at hc hs g4 g6
  rw [h00] at hc g6
  rw [h01] at hs g6
  rw [hrs, p5] at g4
  generalize hG : (givens ext 0 w1).1 = G at *
  have hbs : backSolve 0 G = some { G with rs := Function.update G.rs 0 y } := by
    unfold backSolve
    rw [g4, g6, hc, hs, hy]
    rfl
  have hin : ∃ iend, innerLoop (f + 1) ext n mv none maxits 1 0 st2 =
      some ((⟨st2.sol, wrap32 (st2.its + 1), st2.eps1, G, st2.inner + 1, st2.matvecs + 1,
        st2.lasti⟩ : State R), iend) ∧ clampIndex 1 iend = 0 := by
    unfold innerLoop
    simp only [ha, hG]
    split
    · exact ⟨0, rfl, by decide⟩
    · exact ⟨1, rfl, by decide⟩
  obtain ⟨iend, hin1, hcl⟩ := hin
  have hnim : ¬ ((1 : Int) < 0) := by decide
  have key : outerPass (f + 1) ext n mv none rhs tol 1 maxits st =
      .ok (restartCheck tol maxits
        (ext.dznrm2_ n (residual n mv rhs
          (updateSol n 0 { G with rs := Function.update G.rs 0 y } st2.sol) (G.vv 0)))
        (⟨updateSol n 0 { G with rs := Function.update G.rs 0 y } st2.sol,
          wrap32 (st2.its + 1), st2.eps1,
          ⟨Function.update G.vv 0 (residual n mv rhs
            (updateSol n 0 { G with rs := Function.update G.rs 0 y } st2.sol) (G.vv 0)),
            G.hh, G.z, G.c, G.s, Function.update G.rs 0 y⟩,
          st2.inner + 1, st2.matvecs + 1 + 1, 0⟩ : State R)) := by
    unfold outerPass
    simp only [hnim, if_false, hβ, hb, not_true_eq_false, hst2]
    rw [show (1 : Int).toNat = 1 from rfl, hin1]
    simp only [hcl, lt_self_iff_false, if_false, Int.toNat_zero]
    unfold solveUpdate
    simp only [hbs, Option.map_some']
  refine ⟨(⟨updateSol n 0 { G with rs := Function.update G.rs 0 y } st2.sol,
          wrap32 (st2.its + 1), st2.eps1,
          ⟨Function.update G.vv 0 (residual n mv rhs
            (updateSol n 0 { G with rs := Function.update G.rs 0 y } st2.sol) (G.vv 0)),
            G.hh, G.z, G.c, G.s, Function.update G.rs 0 y⟩,
          st2.inner + 1, st2.matvecs + 1 + 1, 0⟩ : State R), G.vv 0, key,
    congrArg (fun x => wrap32 (x + 1)) p1, congrArg (fun x => x + 1) p2, p4,
    congrArg (fun x => x + 1 + 1) p6, ?_⟩
  intro k hk
  show updateSol n 0 _ st2.sol k = _
  rw [updateSol_eq n 0 _ _ k hk, Finset.sum_range_one, p3]
  simp only [Function.update_same]
  rw [gz, hz, Function.update_same]
  simp only [zcopy_, hk, if_true]


end Restart

/-! ## A run with one restart -/

section RestartRun

variable {R : Type} [LinearOrderedField R]

theorem mk_mul (a b : R) : (⟨a, 0⟩ : doublecomplex R) * ⟨b, 0⟩ = ⟨a * b, 0⟩ := by
  apply dc_ext <;> simp [dc_mul_r, dc_mul_i]

theorem mk_add (a b : R) : (⟨a, 0⟩ : doublecomplex R) + ⟨b, 0⟩ = ⟨a + b, 0⟩ := by
  apply dc_ext <;> simp [dc_add_r, dc_add_i]

theorem mk_sub (a b : R) : (⟨a, 0⟩ : doublecomplex R) - ⟨b, 0⟩ = ⟨a - b, 0⟩ := by
  apply dc_ext <;> simp [dc_sub_r, dc_sub_i]

theorem mk_conj (a : R) : zz_conj (⟨a, 0⟩ : doublecomplex R) = ⟨a, 0⟩ := by
  simp [zz_conj]

theorem mk_scale (a t : R) : zd_mult (⟨a, 0⟩ : doublecomplex R) t = ⟨a * t, 0⟩ := by
  simp [zd_mult]

theorem mk_zero : (0 : doublecomplex R) = ⟨0, 0⟩ := rfl

theorem mk_one : (1 : doublecomplex R) = ⟨1, 0⟩ := rfl

theorem mk_eq {a b : R} (h : a = b) : (⟨a, 0⟩ : doublecomplex R) = ⟨b, 0⟩ := by rw [h]

theorem zdotc_two (x y : Vec R) :
    zdotc 2 x y = zz_conj (x 0) * y 0 + zz_conj (x 1) * y 1 := by
  rw [zdotc_eq_sum, Finset.sum_range_succ, Finset.sum_range_one]

theorem restartOp_apply (x y : Vec R) (k : Nat) (hk : k < 2) :
    matOp 2 restartM cone x czero y k =
      x 0 * ⟨restartM k 0, 0⟩ + x 1 * ⟨restartM k 1, 0⟩ := by
  rw [matOp_apply 2 restartM x y k hk, Finset.sum_range_succ, Finset.sum_range_one]

theorem restart_residual (sol X : Vec R) (k : Nat) (hk : k < 2) :
    residual 2 (matOp 2 restartM) unit0 sol X k =
      unit0 k - (sol 0 * ⟨restartM k 0, 0⟩ + sol 1 * ⟨restartM k 1, 0⟩) := by
  unfold residual
  simp only [hk, if_true]
  rw [z_sub_eq, restartOp_apply sol X k hk]

theorem restart_candidate (w : Work R) (k : Nat) (hk : k < 2) :
    candidate 2 (matOp 2 restartM) none 0 w k =
      w.vv 0 0 * ⟨restartM k 0, 0⟩ + w.vv 0 1 * ⟨restartM k 1, 0⟩ := by
  unfold candidate
  simp only
  rw [restartOp_apply _ _ k hk]
  simp [zcopy_]

theorem gsResidual_zero (n : Nat) (V : Nat → Vec R) (cand : Vec R) (k : Nat) :
    gsResidual n 0 V cand k = cand k - zdotc n (V 0) cand * V 0 k := by
  unfold gsResidual
  rw [Finset.sum_range_one]

theorem prepare_vv0 (n : Nat) (tol beta : R) (st : State R) (k : Nat) (hk : k < n) :
    (prepare n tol beta st).work.vv 0 k = zd_mult (st.work.vv 0 k) (1 / beta) := by
  simp [prepare, hk]

theorem initResidual_vv0 (ext : Ext R) (n : Nat) (mv : MatVec R) (rhs : Vec R) (st : State R) :
    (initResidual ext n mv rhs st).1.work.vv 0 = residual n mv rhs st.sol (st.work.vv 0) := by
  simp [initResidual]

theorem initResidual_norm (ext : Ext R) (n : Nat) (mv : MatVec R) (rhs : Vec R) (st : State R) :
    (initResidual ext n mv rhs st).2 =
      ext.dznrm2_ n (residual n mv rhs st.sol (st.work.vv 0)) := rfl

/-- One pass of the example: from a state whose `sol` is `(a, b)`, with residual
`(p, q)` of norm `beta`, the quantities of the single inner step. -/
theorem restart_pass {ext : Ext R} (hex : ExactNorm ext) (f : Nat) (maxits : Int)
    (st : State R) (a b p q beta h t gam yv : R)
    (hs0 : st.sol 0 = ⟨a, 0⟩) (hs1 : st.sol 1 = ⟨b, 0⟩)
    (hp : p = 1 - (a * (3 / 5) + b * (-(8 / 15))))
    (hq : q = 0 - (a * (4 / 5) + b * (31 / 15)))
    (hbeta : beta * beta = p * p + q * q) (hbpos : 0 < beta) (hb : beta > 1 / 2)
    (hh : h = (p / beta) * ((p / beta) * (3 / 5) + (q / beta) * (-(8 / 15))) +
      (q / beta) * ((p / beta) * (4 / 5) + (q / beta) * (31 / 15)))
    (ht0 : 0 ≤ t)
    (ht : t * t = ((p / beta) * (3 / 5) + (q / beta) * (-(8 / 15)) - h * (p / beta)) *
        ((p / beta) * (3 / 5) + (q / beta) * (-(8 / 15)) - h * (p / beta)) +
      ((p / beta) * (4 / 5) + (q / beta) * (31 / 15) - h * (q / beta)) *
        ((p / beta) * (4 / 5) + (q / beta) * (31 / 15) - h * (q / beta)))
    (hg0 : 0 < gam) (hg : gam * gam = h * h + t * t)
    (hy : yv = h * beta / gam / gam) :
    ∃ st4 X, outerPass (f + 1) ext 2 (matOp 2 restartM) none unit0 (1 / 2) 1 maxits st =
        .ok (restartCheck (1 / 2) maxits
          (ext.dznrm2_ 2 (residual 2 (matOp 2 restartM) unit0 st4.sol X)) st4) ∧
      st4.its = wrap32 (st.its + 1) ∧ st4.inner = st.inner + 1 ∧
      st4.eps1 = (if st.its = 0 then 1 / 2 * beta else st.eps1) ∧
      st4.matvecs = st.matvecs + 3 ∧
      st4.sol 0 = ⟨a + yv * (p / beta), 0⟩ ∧ st4.sol 1 = ⟨b + yv * (q / beta), 0⟩ := by
  have hr0 : residual 2 (matOp 2 restartM) unit0 st.sol (st.work.vv 0) 0 = ⟨p, 0⟩ := by
    rw [restart_residual _ _ 0 (by omega), hs0, hs1, hp]
    simp only [restartM, unit0, cone, czero, mk_mul, mk_add, mk_sub, eq_self_iff_true, if_true,
      one_ne_zero, if_false]
  have hr1 : residual 2 (matOp 2 restartM) unit0 st.sol (st.work.vv 0) 1 = ⟨q, 0⟩ := by
    rw [restart_residual _ _ 1 (by omega), hs0, hs1, hq]
    simp only [restartM, unit0, cone, czero, mk_mul, mk_add, mk_sub, eq_self_iff_true, if_true,
      one_ne_zero, if_false]
  have hβ : (initResidual ext 2 (matOp 2 restartM) unit0 st).2 = beta := by
    rw [initResidual_norm]
    apply hex.eq_of_sq _ _ beta hbpos.le
    rw [nrmSq_two, hr0, hr1, hbeta]
    simp [cnormSq]
  have hv0 : (prepare 2 (1 / 2) beta
      (initResidual ext 2 (matOp 2 restartM) unit0 st).1).work.vv 0 0 = ⟨p / beta, 0⟩ := by
    rw [prepare_vv0 _ _ _ _ 0 (by omega), initResidual_vv0, hr0, mk_scale]
    exact mk_eq (by field_simp)
  have hv1 : (prepare 2 (1 / 2) beta
      (initResidual ext 2 (matOp 2 restartM) unit0 st).1).work.vv 0 1 = ⟨q / beta, 0⟩ := by
    rw [prepare_vv0 _ _ _ _ 1 (by omega), initResidual_vv0, hr1, mk_scale]
    exact mk_eq (by field_simp)
  have hc0 : candidate 2 (matOp 2 restartM) none 0 (prepare 2 (1 / 2) beta
      (initResidual ext 2 (matOp 2 restartM) unit0 st).1).work 0 =
      ⟨(p / beta) * (3 / 5) + (q / beta) * (-(8 / 15)), 0⟩ := by
    rw [restart_candidate _ 0 (by omega), hv0, hv1]
    simp only [restartM, mk_mul, mk_add, eq_self_iff_true, if_true, one_ne_zero, if_false]
  have hc1 : candidate 2 (matOp 2 restartM) none 0 (prepare 2 (1 / 2) beta
      (initResidual ext 2 (matOp 2 restartM) unit0 st).1).work 1 =
      ⟨(p / beta) * (4 / 5) + (q / beta) * (31 / 15), 0⟩ := by
    rw [restart_candidate _ 1 (by omega), hv0, hv1]
    simp only [restartM, mk_mul, mk_add, eq_self_iff_true, if_true, one_ne_zero, if_false]
  have hdot : zdotc 2 ((prepare 2 (1 / 2) beta
      (initResidual ext 2 (matOp 2 restartM) unit0 st).1).work.vv 0)
      (candidate 2 (matOp 2 restartM) none 0 (prepare 2 (1 / 2) beta
        (initResidual ext 2 (matOp 2 restartM) unit0 st).1).work) = ⟨h, 0⟩ := by
    rw [zdotc_two, hv0, hv1, hc0, hc1, hh]
    simp only [mk_conj, mk_mul, mk_add]
  have hgs : ext.dznrm2_ 2 (gsResidual 2 0 (prepare 2 (1 / 2) beta
      (initResidual ext 2 (matOp 2 restartM) unit0 st).1).work.vv
      (candidate 2 (matOp 2 restartM) none 0 (prepare 2 (1 / 2) beta
        (initResidual ext 2 (matOp 2 restartM) unit0 st).1).work)) = t := by
    apply hex.eq_of_sq _ _ t ht0
    rw [nrmSq_two, gsResidual_zero, gsResidual_zero, hdot, hv0, hv1, hc0, hc1, ht]
    simp only [mk_mul, mk_sub, cnormSq]
    ring
  have hgam : ext.dznrm2_ 2 (fun k => if k = 0 then (⟨h, 0⟩ : doublecomplex R) else ⟨t, 0⟩) =
      gam := by
    apply hex.eq_of_sq _ _ gam hg0.le
    rw [nrmSq_two, hg]
    simp [cnormSq]
  have hyd : z_div (zd_mult ⟨h, 0⟩ (1 / gam) * ⟨beta, 0⟩)
      (zd_mult ⟨h, 0⟩ (1 / gam) * ⟨h, 0⟩ + zd_mult ⟨t, 0⟩ (1 / gam) * ⟨t, 0⟩) =
      some (⟨yv, 0⟩ : doublecomplex R) := by
    simp only [mk_scale, mk_mul, mk_add]
    have hd : h * (1 / gam) * h + t * (1 / gam) * t = gam := by
      have e : h * (1 / gam) * h + t * (1 / gam) * t = (h * h + t * t) / gam := by ring
      rw [e, ← hg, mul_div_assoc, div_self hg0.ne', mul_one]
    rw [hd]
    unfold z_div
    rw [if_neg (fun hc => hg0.ne' hc.1)]
    simp only [Option.some.injEq, mul_zero, add_zero, zero_mul, sub_zero]
    apply dc_ext
    · simp only [hy]; field_simp
    · simp
  have hb' : beta > 1 / 2 * ext.dznrm2_ 2 (unit0 : Vec R) := by
    rw [nrm_unit0 hex, mul_one]; exact hb
  obtain ⟨st4, X, e1, e2, e3, e4, e5, e6⟩ := outerPass_single_step hex f 2 (matOp 2 restartM)
    unit0 (1 / 2) maxits st beta hβ hb' hbpos.ne' ⟨h, 0⟩ t gam hdot hgs hgam hg0.ne' ⟨yv, 0⟩ hyd
  refine ⟨st4, X, e1, e2, e3, e4, e5, ?_, ?_⟩
  · rw [e6 0 (by omega), hv0, hs0, mk_mul, mk_add]
  · rw [e6 1 (by omega), hv1, hs1, mk_mul, mk_add]

theorem norm_two_real {ext : Ext R} (hex : ExactNorm ext) (x : Vec R) (p q b : R)
    (h0 : x 0 = ⟨p, 0⟩) (h1 : x 1 = ⟨q, 0⟩) (hb : 0 ≤ b) (hsq : b * b = p * p + q * q) :
    ext.dznrm2_ 2 x = b := by
  apply hex.eq_of_sq _ _ b hb
  rw [nrmSq_two, h0, h1, hsq]
  simp [cnormSq]

theorem restartCheck_again (tol : R) (maxits : Int) (beta : R) (st : State R)
    (h1 : beta < st.eps1 / tol) (h2 : ¬ beta ≤ st.eps1) (h3 : st.its < maxits) :
    restartCheck tol maxits beta st = .again st := by
  unfold restartCheck
  rw [if_neg (not_not.mpr h1), if_neg h2, if_pos h3]

theorem restartCheck_converged (tol : R) (maxits : Int) (beta : R) (st : State R)
    (h1 : beta < st.eps1 / tol) (h2 : beta ≤ st.eps1) :
    restartCheck tol maxits beta st = .exit .converged st := by
  unfold restartCheck
  rw [if_neg (not_not.mpr h1), if_pos h2]

/-- The first outer pass of the example: one inner step, the true residual `4/5` is
above `eps1 = 1/2`, and the loop goes on. -/
theorem restart_pass_one {ext : Ext R} (hex : ExactNorm ext) (f : Nat) :
    ∃ st4, outerPass (f + 1) ext 2 (matOp 2 restartM) none unit0 (1 / 2) 1 5
        ⟨vzero, 0, 0, Work.init, 0, 0, 0⟩ = .ok (.again st4) ∧
      st4.its = 1 ∧ st4.inner = 1 ∧ st4.eps1 = 1 / 2 ∧ st4.matvecs = 3 ∧
      st4.sol 0 = ⟨3 / 5, 0⟩ ∧ st4.sol 1 = ⟨0, 0⟩ := by
  obtain ⟨st4, X, e1, e2, e3, e4, e5, e6, e7⟩ := restart_pass hex f 5
    (⟨vzero, 0, 0, Work.init, 0, 0, 0⟩ : State R) 0 0 1 0 1 (3 / 5) (4 / 5) 1 (3 / 5)
    rfl rfl (by norm_num) (by norm_num) (by norm_num) (by norm_num) (by norm_num)
    (by norm_num) (by norm_num) (by norm_num) (by norm_num) (by norm_num) (by norm_num)
  have s0 : st4.sol 0 = ⟨3 / 5, 0⟩ := by rw [e6]; exact mk_eq (by norm_num)
  have s1 : st4.sol 1 = ⟨0, 0⟩ := by rw [e7]; exact mk_eq (by norm_num)
  have hits : st4.its = 1 := by
    rw [e2]
    show wrap32 ((0 : Int) + 1) = 1
    decide
  have heps : st4.eps1 = 1 / 2 := by
    rw [e4, if_pos rfl]; norm_num
  have hn : ext.dznrm2_ 2 (residual 2 (matOp 2 restartM) unit0 st4.sol X) = 4 / 5 := by
    apply norm_two_real hex _ (16 / 25) (-(12 / 25)) (4 / 5) _ _ (by norm_num) (by norm_num)
    · rw [restart_residual _ _ 0 (by omega), s0, s1]
      simp only [restartM, unit0, cone, czero, mk_mul, mk_add, mk_sub, eq_self_iff_true,
        if_true, one_ne_zero, if_false]
      exact mk_eq (by norm_num)
    · rw [restart_residual _ _ 1 (by omega), s0, s1]
      simp only [restartM, unit0, cone, czero, mk_mul, mk_add, mk_sub, eq_self_iff_true,
        if_true, one_ne_zero, if_false]
      exact mk_eq (by norm_num)
  rw [hn, restartCheck_again _ _ _ _ (by rw [heps]; norm_num) (by rw [heps]; norm_num)
    (by rw [hits]; decide)] at e1
  exact ⟨st4, e1, hits, e3, heps, e5, s0, s1⟩

/-- The second outer pass of the example, a restart: `eps1` keeps its value `1/2`, the
single inner step ends in a breakdown and the system is solved. -/
theorem restart_pass_two {ext : Ext R} (hex : ExactNorm ext) (f : Nat) (st4 : State R)
    (hits : st4.its = 1) (hinner : st4.inner = 1) (heps : st4.eps1 = 1 / 2)
    (hmv : st4.matvecs = 3) (s0 : st4.sol 0 = ⟨3 / 5, 0⟩) (s1 : st4.sol 1 = ⟨0, 0⟩) :
    ∃ st5, outerPass (f + 1) ext 2 (matOp 2 restartM) none unit0 (1 / 2) 1 5 st4 =
        .ok (.exit .converged st5) ∧
      st5.its = 2 ∧ st5.inner = 2 ∧ st5.eps1 = 1 / 2 ∧ st5.matvecs = 6 := by
  obtain ⟨st5, X, e1, e2, e3, e4, e5, e6, e7⟩ := restart_pass hex f 5 st4 (3 / 5) 0
    (16 / 25) (-(12 / 25)) (4 / 5) 1 0 1 (4 / 5)
    s0 s1 (by norm_num) (by norm_num) (by norm_num) (by norm_num) (by norm_num)
    (by norm_num) (by norm_num) (by norm_num) (by norm_num) (by norm_num) (by norm_num)
  have t0 : st5.sol 0 = ⟨31 / 25, 0⟩ := by rw [e6]; exact mk_eq (by norm_num)
  have t1 : st5.sol 1 = ⟨-(12 / 25), 0⟩ := by rw [e7]; exact mk_eq (by norm_num)
  have hits5 : st5.its = 2 := by rw [e2, hits]; decide
  have heps5 : st5.eps1 = 1 / 2 := by
    rw [e4, if_neg (by rw [hits]; decide), heps]
  have hn : ext.dznrm2_ 2 (residual 2 (matOp 2 restartM) unit0 st5.sol X) = 0 := by
    apply norm_two_real hex _ 0 0 0 _ _ le_rfl (by norm_num)
    · rw [restart_residual _ _ 0 (by omega), t0, t1]
      simp only [restartM, unit0, cone, czero, mk_mul, mk_add, mk_sub, eq_self_iff_true,
        if_true, one_ne_zero, if_false]
      exact mk_eq (by norm_num)
    · rw [restart_residual _ _ 1 (by omega), t0, t1]
      simp only [restartM, unit0, cone, czero, mk_mul, mk_add, mk_sub, eq_self_iff_true,
        if_true, one_ne_zero, if_false]
      exact mk_eq (by norm_num)
  rw [hn, restartCheck_converged _ _ _ _ (by rw [heps5]; norm_num) (by rw [heps5]; norm_num)]
    at e1
  exact ⟨st5, e1, hits5, by rw [e3, hinner], heps5, by rw [e5, hmv]⟩

/-- The run of the example: two outer passes of one inner step each, `eps1 = 1/2` from
the first pass to the return. -/
theorem zfgmr_restart {ext : Ext R} (hex : ExactNorm ext) :
    ∃ r, zfgmr 2 ext 2 (matOp 2 restartM) none unit0 vzero (1 / 2) 1 5 = .ok r ∧
      r.exit = Exit.converged ∧ r.retval = 0 ∧ r.itmax = 2 ∧ r.final.inner = 2 ∧
      r.final.matvecs = 6 ∧ r.final.eps1 = 1 / 2 := by
  obtain ⟨st4, h1, a1, a2, a3, a4, a5, a6⟩ := restart_pass_one hex 1
  obtain ⟨st5, h2, b1, b2, b3, b4⟩ := restart_pass_two hex 1 st4 a1 a2 a3 a4 a5 a6
  refine ⟨finish 5 .converged st5, ?_, rfl, ?_, b1, b2, b4, b3⟩
  · unfold zfgmr
    show outerLoop (1 + 1) ext 2 (matOp 2 restartM) none unit0 (1 / 2) 1 5 (1 + 1) _ = _
    rw [outerLoop]
    simp only [h1]
    rw [outerLoop]
    simp only [h2]
  · show (if st5.its ≥ 5 then (1 : Int) else 0) = 0
    rw [b1]; decide

/-- Witness of C19: the system `restartM x = e0` of size two, started from zero with
`tol = 1/2`, `im = 1` and a budget of 5. With `im = 1` every outer pass makes one inner
step; the run makes two of them, so it restarts once (six applications of the
operator, three per pass), and on return `eps1` still is `tol * ||rhs - A sol_initial||`
`= 1/2`, the value of the first pass. -/
theorem C19_eps1_assigned_once_witness :
    (5 : Int) < 2147483648 ∧
    ∃ r, zfgmr 2 (Ext.ofSqrt Real.sqrt) 2 (matOp 2 restartM) none unit0 vzero (1 / 2) 1 5
        = .ok r ∧
      r.final.inner = 2 ∧ r.final.matvecs = 6 ∧ r.final.eps1 = 1 / 2 ∧
      r.final.eps1 = 1 / 2 * (Ext.ofSqrt Real.sqrt).dznrm2_ 2
        (residual 2 (matOp 2 restartM) unit0 vzero (fun _ => czero)) := by
  obtain ⟨r, h1, -, -, -, h5, h6, h7⟩ := zfgmr_restart exactNorm_real
  refine ⟨by norm_num, r, h1, h5, h6, h7, ?_⟩
  exact ((C19_eps1_assigned_once 2 (Ext.ofSqrt Real.sqrt) 2 (matOp 2 restartM) none unit0
    vzero (1 / 2) 1 5 (by norm_num)).1 r h1).1 (by rw [h5]; decide)

/-- Counterexample to C19 as stated: identity system of size one with `rhs = 1`, initial
guess `1/2` and `tol = 1`. The initial test holds, the solve returns before line 154 is
reached, and `eps1` was never assigned: it still holds `0.0`, not
`tol * ||rhs - A sol_initial|| = 1/2`. -/
theorem C19_counterexample :
    ∃ r, zfgmr 1 (Ext.ofSqrt Real.sqrt) 1 idOp none unit0
        (fun _ => (⟨1 / 2, 0⟩ : doublecomplex ℝ)) 1 1 5 = .ok r ∧
      r.exit = Exit.initial ∧ r.retval = 0 ∧ r.final.eps1 = 0 ∧
      1 * (Ext.ofSqrt Real.sqrt).dznrm2_ 1
        (residual 1 idOp unit0 (fun _ => (⟨1 / 2, 0⟩ : doublecomplex ℝ)) (fun _ => czero)) =
          1 / 2 ∧
      r.final.eps1 ≠ 1 * (Ext.ofSqrt Real.sqrt).dznrm2_ 1
        (residual 1 idOp unit0 (fun _ => (⟨1 / 2, 0⟩ : doublecomplex ℝ)) (fun _ => czero)) := by
  have hn : (Ext.ofSqrt Real.sqrt).dznrm2_ 1
      (residual 1 idOp unit0 (fun _ => (⟨1 / 2, 0⟩ : doublecomplex ℝ)) (fun _ => czero)) = 1 / 2 := by
    apply exactNorm_real.eq_of_sq _ _ (1 / 2) (by norm_num)
    simp [nrmSq, forN, residual, idOp, unit0, cnormSq, cone, czero, z_sub, z_add, zz_mult]
    norm_num
  have h1 := zfgmr_initial_state (Ext.ofSqrt Real.sqrt) 1 idOp none unit0
    (fun _ => (⟨1 / 2, 0⟩ : doublecomplex ℝ)) 1 1 5 0 (by norm_num)
    (by rw [hn, nrm1_unit0 exactNorm_real]; norm_num)
  refine ⟨_, h1, rfl, by decide, rfl, by rw [hn]; norm_num, ?_⟩
  rw [hn]
  show (0 : ℝ) ≠ 1 * (1 / 2)
  norm_num


end RestartRun

end SuperLU
